import Mathlib

/-!
# Bencoding codec of `go-torrent/bencoding`

A shallow embedding of `constants.go`, `encode.go` and `decode.go`
(`src/vendor/github.com/KnutZuidema/go-torrent/bencoding`) and theorems about
`Marshal` and `Unmarshal`.

Conventions of the embedding:

* a byte is a natural number (a well-formed byte is below 256; no function of
  the codec depends on that bound), a `[]byte` or `string` is a `List Nat`;
* a Go function returning `(result, error)` returns `Res`: `ok` for a nil
  error, `err` for a returned error, `panic` for a Go run-time panic (index or
  slice bounds out of range, `reflect` misuse) and `outOfFuel` when a
  fuel-indexed recursion is cut off;
* `reflect` types are `Ty`, values carrying their dynamic type are `Val`; a nil
  slice or map is a value of its own, different from the empty one;
* a Go map is an association list with pairwise distinct keys.  Its order is
  the order in which `range` enumerates the map when it is read; maps built
  by the code (`dict[k] = v`, `SetMapIndex`) are kept in ascending key order,
  the canonical list of that map.
-/

namespace Bencoding

/-! ## Bytes, errors, results -/

/-- ASCII bytes of a string literal. -/
def bs (s : String) : List Nat := s.toList.map Char.toNat

/-- The error values of `constants.go`, and the two errors of `strconv`. -/
inductive Err where
  | nonStringKey
  | nonPointer
  | invalidType
  | invalidValue
  | emptyData
  | canNotSet
  | leadingZero
  | lengthTooBig
  | remainingData
  | invalidBool
  | invalidInteger
  | invalidString
  | invalidList
  | invalidDict
  | invalidStruct
  | invalidToken
  /-- `strconv.ErrSyntax` wrapped in a `NumError`. -/
  | badNumber
  /-- `strconv.ErrRange` wrapped in a `NumError`. -/
  | outOfRange
  /-- An error value made by user code (`MarshalBEncode`, `UnmarshalBEncode`). -/
  | user (code : Nat)
  deriving DecidableEq, Repr

/-- Outcome of a Go call. -/
inductive Res (α : Type) where
  | ok (a : α)
  | err (e : Err)
  | panic
  | outOfFuel
  deriving DecidableEq, Repr

/-- Sequencing: the first outcome that is not `ok` is the outcome of the whole. -/
def Res.bind {α β : Type} (x : Res α) (f : α → Res β) : Res β :=
  match x with
  | .ok a => f a
  | .err e => .err e
  | .panic => .panic
  | .outOfFuel => .outOfFuel

instance : Monad Res where
  pure := Res.ok
  bind := Res.bind

abbrev endToken : Nat := 101
abbrev intToken : Nat := 105
abbrev listToken : Nat := 108
abbrev dictToken : Nat := 100
abbrev stringSeparatorToken : Nat := 58

/-- The constant `optionOmitEmpty`. -/
def optionOmitEmpty : List Nat := bs "omitempty"

/-- The `case '1', '2', ..., '9', '0'` of the two scanning loops. -/
def isDigit (c : Nat) : Bool := decide (48 ≤ c) && decide (c ≤ 57)

/-! ## `strconv` (Go standard library, base 10, 64 bit) -/

/-- Digits of `n`, most significant first, pushed in front of `acc`. -/
def formatUintAux : Nat → Nat → List Nat → List Nat
  | 0, _, acc => acc
  | fuel + 1, n, acc =>
    if n < 10 then (48 + n) :: acc
    else formatUintAux fuel (n / 10) ((48 + n % 10) :: acc)

/-- The function `strconv.FormatUint(n, 10)`. -/
def FormatUint (n : Nat) : List Nat := formatUintAux (n + 1) n []

/-- The function `strconv.FormatInt(n, 10)`. -/
def FormatInt (n : Int) : List Nat :=
  if n < 0 then 45 :: FormatUint n.natAbs else FormatUint n.natAbs

/-- The function `strconv.Itoa`. -/
def Itoa (n : Int) : List Nat := FormatInt n

/-- The digit loop of `strconv.ParseUint(s, 10, 64)`: characters are taken left
to right, a character that is no digit is a syntax error, a value that leaves
64 bits is a range error. -/
def parseUintLoop : List Nat → Nat → Res Nat
  | [], n => .ok n
  | c :: cs, n =>
    if isDigit c then
      if n * 10 + (c - 48) < 2 ^ 64 then parseUintLoop cs (n * 10 + (c - 48))
      else .err .outOfRange
    else .err .badNumber

/-- The function `strconv.ParseUint(s, 10, 64)`. -/
def ParseUint (s : List Nat) : Res Nat :=
  match s with
  | [] => .err .badNumber
  | _ :: _ => parseUintLoop s 0

/-- The function `strconv.ParseInt(s, 10, 64)`: an optional sign, then
`ParseUint`, then the check against the signed range. -/
def ParseInt (s : List Nat) : Res Int :=
  match s with
  | [] => .err .badNumber
  | c :: rest =>
    let neg : Bool := decide (c = 45)
    let body : List Nat := if c = 43 ∨ c = 45 then rest else s
    match ParseUint body with
    | .ok un =>
      if neg = false ∧ un ≥ 2 ^ 63 then .err .outOfRange
      else if neg = true ∧ un > 2 ^ 63 then .err .outOfRange
      else if neg then .ok (-(un : Int)) else .ok (un : Int)
    | .err e => .err e
    | .panic => .panic
    | .outOfFuel => .outOfFuel

/-- The function `strconv.Atoi` on a 64-bit platform. -/
def Atoi (s : List Nat) : Res Int := ParseInt s

/-- Two-complement wrap of an integer into `bits` bits, signed. -/
def wrapInt (bits : Nat) (x : Int) : Int :=
  (x + 2 ^ (bits - 1)) % 2 ^ bits - 2 ^ (bits - 1)

/-! ## Types and values -/

/-- What `reflect.StructField` tells `newTag` about a field. -/
structure Field where
  /-- The declared name `f.Name`. -/
  name : List Nat
  /-- The value of `f.Tag.Get("bencode")`, empty when there is no such tag. -/
  directive : List Nat
  /-- The flag `f.Anonymous`: an embedded field. -/
  anonymous : Bool
  /-- Whether `f.PkgPath` is empty, which is the case for exported fields. -/
  exported : Bool
  deriving DecidableEq, Repr

/-- Dynamically typed values, as `Marshal` sees them through `reflect`.  A slice
or map that is nil and one that is empty but not nil are different values:
`reflect.DeepEqual` tells them apart.  The fields of a record and the elements
of an array have the type of the value they hold; a field or element of an
interface type is modelled when it holds nil (`other true`).  Pointers are not
modelled, nor are defined types over `[]byte` or an integer type, which the
type switch of `normalize` does not match. -/
inductive Val where
  | bool (b : Bool)
  /-- A signed integer of the given width.  Both `int` and `int64` are 64 bits
  wide and `normalize` turns the first into the second; width 64 stands for the
  two of them. -/
  | int (bits : Nat) (n : Int)
  /-- An unsigned integer of the given width; width 64 stands for `uint` and
  `uint64`. -/
  | uint (bits : Nat) (n : Nat)
  | str (s : List Nat)
  /-- A `[]byte` that is not nil. -/
  | bytes (s : List Nat)
  /-- The nil `[]byte`. -/
  | nilBytes
  /-- A slice that is not nil and is no `[]byte`. -/
  | list (xs : List Val)
  /-- A nil slice that is no `[]byte`. -/
  | nilList
  /-- An array. -/
  | array (xs : List Val)
  /-- A map with string keys that is not nil. -/
  | map (kvs : List (List Nat × Val))
  /-- A nil map with string keys. -/
  | nilMap
  /-- A map whose key type is not of kind string; the flag says whether it is
  nil. -/
  | badMap (isNil : Bool)
  | struct (fs : List (Field × Val))
  /-- A value of a kind the codec does not support (float, complex, nil
  interface, ...); the flag says whether it is the zero value of its type. -/
  | other (isZero : Bool)
  /-- A value implementing `Marshaler`: what its `MarshalBEncode` method returns
  (an error or the bytes) and the value underneath.  A record that gets the
  method by promotion from its one embedded field implements `Marshaler` as
  well and is such a value. -/
  | marshaler (out : Err ⊕ List Nat) (under : Val)

/-- Types of decode targets, as `decode` sees them through `reflect`. -/
inductive Ty where
  | bool
  | int (bits : Nat)
  | uint (bits : Nat)
  | string
  | slice (elem : Ty)
  | map (key : Ty) (elem : Ty)
  | struct (fields : List (Field × Ty))
  /-- The empty interface `interface{}`, holding nil. -/
  | iface
  /-- A kind `decode` has no case for (float, complex, array, ...). -/
  | other
  /-- A type implementing `Unmarshaler`; `um raw` is what `UnmarshalBEncode(raw)`
  does on a fresh target: the error it returns, or the value it leaves in the
  target. -/
  | custom (um : List Nat → Err ⊕ Val)

/-- The test `Kind() == reflect.Uint8`. -/
def Ty.isUint8 : Ty → Bool
  | .uint bits => decide (bits = 8)
  | _ => false

/-- The test `Kind() == reflect.String`. -/
def Ty.isString : Ty → Bool
  | .string => true
  | _ => false

/-- The zero value `reflect.New(t).Elem()` of a type. -/
def Ty.zero : Ty → Val
  | .bool => .bool false
  | .int bits => .int bits 0
  | .uint bits => .uint bits 0
  | .string => .str []
  | .slice elem => if elem.isUint8 then .nilBytes else .nilList
  | .map key _ => if key.isString then .nilMap else .badMap true
  | .struct fields => .struct (zeroFields fields)
  | .iface => .other true
  | .other => .other true
  | .custom _ => .other true
where
  /-- Zero values of the fields of a struct type. -/
  zeroFields : List (Field × Ty) → List (Field × Val)
    | [] => []
    | (f, t) :: rest => (f, t.zero) :: zeroFields rest

/-- The function `isEmpty`: `reflect.DeepEqual` with the zero value of the type.
The zero value of a slice or map type is nil, and `DeepEqual` has a nil slice
or map differ from every one that is not nil, the empty ones included.  An
array is compared element by element.  Unexported and skipped fields of a
struct take part in the comparison. -/
def isEmpty : Val → Bool
  | .bool b => !b
  | .int _ n => decide (n = 0)
  | .uint _ n => decide (n = 0)
  | .str s => s.isEmpty
  | .bytes _ => false
  | .nilBytes => true
  | .list _ => false
  | .nilList => true
  | .array xs => allEmptyItems xs
  | .map _ => false
  | .nilMap => true
  | .badMap isNil => isNil
  | .struct fs => allEmpty fs
  | .other z => z
  | .marshaler _ under => isEmpty under
where
  /-- Every element is the zero value of its type. -/
  allEmptyItems : List Val → Bool
    | [] => true
    | v :: rest => isEmpty v && allEmptyItems rest
  /-- Every field is the zero value of its type. -/
  allEmpty : List (Field × Val) → Bool
    | [] => true
    | (_, v) :: rest => isEmpty v && allEmpty rest

/-- Number of constructors of a value, the fuel `Marshal` starts from; a `[]byte`
counts for the two levels the reflective branch would walk. -/
def Val.size : Val → Nat
  | .bytes _ => 2
  | .list xs => 1 + sizeList xs
  | .array xs => 1 + sizeList xs
  | .map kvs => 1 + sizeMap kvs
  | .struct fs => 1 + sizeFields fs
  | .marshaler _ under => 1 + under.size
  | _ => 1
where
  /-- Sizes of the elements of a list, added up. -/
  sizeList : List Val → Nat
    | [] => 0
    | v :: rest => v.size + sizeList rest
  /-- Sizes of the values of a map, added up. -/
  sizeMap : List (List Nat × Val) → Nat
    | [] => 0
    | (_, v) :: rest => v.size + sizeMap rest
  /-- Sizes of the fields of a struct, added up. -/
  sizeFields : List (Field × Val) → Nat
    | [] => 0
    | (_, v) :: rest => v.size + sizeFields rest

/-! ## `encode.go` -/

/-- The struct `tag`. -/
structure Tag where
  Name : List Nat
  OmitEmpty : Bool
  Skip : Bool
  deriving DecidableEq, Repr

/-- The function `strings.Split(v, sep)` for a one-byte separator. -/
def split (sep : Nat) : List Nat → List (List Nat)
  | [] => [[]]
  | c :: cs =>
    if c = sep then [] :: split sep cs
    else
      match split sep cs with
      | [] => [[c]]
      | h :: t => (c :: h) :: t

/-- The function `newTag`. -/
def newTag (f : Field) : Tag :=
  if f.exported = false then { Name := [], OmitEmpty := false, Skip := true }
  else if f.directive = [] then
    if f.anonymous then { Name := [], OmitEmpty := false, Skip := false }
    else { Name := f.name, OmitEmpty := false, Skip := false }
  else
    match split 44 f.directive with
    | [] => { Name := [], OmitEmpty := false, Skip := false }
    | first :: options =>
      if first = bs "-" then { Name := [], OmitEmpty := false, Skip := true }
      else
        { Name := if first = [] ∧ f.anonymous = false then f.name else first
          OmitEmpty := options.any (fun option => decide (option = optionOmitEmpty))
          Skip := false }

/-- The byte loop of the comparison closure of `encodeDict`, for two keys of the
same length. -/
def keyLessLoop : List Nat → List Nat → Bool
  | x :: xs, y :: ys => if x ≠ y then decide (x < y) else keyLessLoop xs ys
  | _, _ => true

/-- The body of the comparison closure of `encodeDict`, on the keys of the two
pairs. -/
def keyLess (a b : List Nat) : Bool :=
  if a.length = b.length then keyLessLoop a b else decide (a.length < b.length)

/-- The inner loop of insertion sort: `x` moves left past every element it is
`less` than.  The sorted part is held in reverse. -/
def insertBack {α : Type} (less : α → α → Bool) (x : α) : List α → List α
  | [] => [x]
  | y :: r => if less x y then y :: insertBack less x r else x :: y :: r

/-- The function `sort.Slice` (Go standard library), as the insertion sort it
runs on short slices.  On pairwise distinct keys `keyLess` is a strict total
order, so every correct sort returns this same list (`sortSlice_unique`). -/
def sortSlice {α : Type} (less : α → α → Bool) (l : List α) : List α :=
  (l.foldl (fun rev x => insertBack less x rev) []).reverse

/-- The assignment `m[k] = v` on a map held in ascending key order. -/
def mapSet {α : Type} : List (List Nat × α) → List Nat → α → List (List Nat × α)
  | [], k, v => [(k, v)]
  | (k', v') :: rest, k, v =>
    if k = k' then (k, v) :: rest
    else if keyLess k k' then (k, v) :: (k', v') :: rest
    else (k', v') :: mapSet rest k v

/-- The lookup `v, ok := m[k]`. -/
def mapGet {α : Type} : List (List Nat × α) → List Nat → Option α
  | [], _ => none
  | (k', v') :: rest, k => if k = k' then some v' else mapGet rest k

/-- The bytes `strconv.Itoa(len(value)) + ":" + value`. -/
def encodeStringBytes (value : List Nat) : List Nat :=
  Itoa value.length ++ [stringSeparatorToken] ++ value

/-- The function `encodeString`. -/
def encodeString (value : List Nat) : Res (List Nat) :=
  .ok (encodeStringBytes value)

/-- The function `encodeInt`. -/
def encodeInt (value : Int) : Res (List Nat) :=
  .ok ([intToken] ++ FormatInt value ++ [endToken])

/-- The function `encodeUint`. -/
def encodeUint (value : Nat) : Res (List Nat) :=
  .ok ([intToken] ++ FormatUint value ++ [endToken])

/-- The function `structToMap`.  The omitempty test is `isEmpty(rv)`, on the
struct and not on the field.  `rv.NumField()` panics when an embedded field
that is to be flattened is not a struct.  The function works on the
`reflect.Value` and never asks for a method, so a struct that implements
`Marshaler` is walked like any other. -/
def structToMap : Val → Res (List (List Nat × Val))
  | .struct fs => fieldsToMap fs (isEmpty (.struct fs)) []
  | .marshaler _ under => structToMap under
  | _ => .panic
where
  /-- The loop over the fields, `empty` being `isEmpty(rv)`. -/
  fieldsToMap : List (Field × Val) → Bool → List (List Nat × Val) →
      Res (List (List Nat × Val))
    | [], _, dict => .ok dict
    | (f, v) :: rest, empty, dict =>
      if (newTag f).Skip then fieldsToMap rest empty dict
      else if (newTag f).OmitEmpty && empty then fieldsToMap rest empty dict
      else if f.anonymous && decide ((newTag f).Name = []) then
        match structToMap v with
        | .ok sub =>
          fieldsToMap rest empty (sub.foldl (fun d kv => mapSet d kv.1 kv.2) dict)
        | .err e => .err e
        | .panic => .panic
        | .outOfFuel => .outOfFuel
      else fieldsToMap rest empty (mapSet dict (newTag f).Name v)

/-- The function `normalize`: `[]byte` becomes `string`, the signed integers
`int`, `int8`, `int16`, `int32` become `int64`, the unsigned ones `uint64`, and
every other value is returned as it is. -/
def normalize : Val → Val
  | .bytes s => .str s
  | .nilBytes => .str []
  | .int _ n => .int 64 n
  | .uint _ n => .uint 64 n
  | v => v

/-- The loop of `encodeList`. -/
def encodeListLoop (marshal : Val → Res (List Nat)) :
    List Val → List Nat → Res (List Nat)
  | [], res => .ok (res ++ [endToken])
  | val :: rest, res =>
    (marshal val).bind fun d => encodeListLoop marshal rest (res ++ d)

/-- The function `encodeList`. -/
def encodeList (marshal : Val → Res (List Nat)) (value : List Val) : Res (List Nat) :=
  encodeListLoop marshal value [listToken]

/-- The emitting loop of `encodeDict`, over the sorted pairs. -/
def encodeDictLoop (marshal : Val → Res (List Nat)) :
    List (List Nat × Val) → List Nat → Res (List Nat)
  | [], res => .ok (res ++ [endToken])
  | pair :: rest, res =>
    (marshal pair.2).bind fun val =>
      encodeDictLoop marshal rest (res ++ (encodeStringBytes pair.1 ++ val))

/-- The closure handed to `sort.Slice` in `encodeDict`: `keyLess` on the keys of
two pairs. -/
def pairLess {α : Type} (p q : List Nat × α) : Bool := keyLess p.1 q.1

/-- The function `encodeDict`; `value` lists the entries of the map in the order
`range` enumerates them. -/
def encodeDict (marshal : Val → Res (List Nat)) (value : List (List Nat × Val)) :
    Res (List Nat) :=
  encodeDictLoop marshal (sortSlice pairLess value) [dictToken]

/-- The function `Marshal`, cut off at recursion depth `fuel`.  The type switch
runs on the normalized value and has the cases `Marshaler`, `string`, `int64`,
`uint64` and `bool`; everything else is the default branch, which goes by the
kind: a slice or array (a `[]byte` and its elements of kind `Uint8` among them,
if one came this far) is handed to `encodeList`, a map to `encodeDict` unless
the kind of its key is not string, a struct to `structToMap`, and every other
kind, the narrow integers included, is `ErrInvalidType`. -/
def MarshalF : Nat → Val → Res (List Nat)
  | 0, _ => .outOfFuel
  | fuel + 1, value =>
    match normalize value with
    | .marshaler out _ =>
      match out with
      | .inl e => .err e
      | .inr d => .ok d
    | .str v => encodeString v
    | .int bits v => if bits = 64 then encodeInt v else .err .invalidType
    | .uint bits v => if bits = 64 then encodeUint v else .err .invalidType
    | .bool v => if v then encodeInt 1 else encodeInt 0
    | .bytes v => encodeList (MarshalF fuel) (v.map fun b => .uint 8 b)
    | .nilBytes => encodeList (MarshalF fuel) []
    | .list xs => encodeList (MarshalF fuel) xs
    | .nilList => encodeList (MarshalF fuel) []
    | .array xs => encodeList (MarshalF fuel) xs
    | .map kvs => encodeDict (MarshalF fuel) kvs
    | .nilMap => encodeDict (MarshalF fuel) []
    | .badMap _ => .err .nonStringKey
    | .struct fs => (structToMap (.struct fs)).bind fun dict => encodeDict (MarshalF fuel) dict
    | .other _ => .err .invalidType

/-- The function `Marshal`: the recursion is as deep as the value at most. -/
def Marshal (value : Val) : Res (List Nat) := MarshalF value.size value

/-! ## `decode.go` -/

/-- The scanning loop of `decodeString`, on `data[read:]`; `len` is `len(data)`.
The loop condition indexes `data[read]` before the body tests
`read >= len(data)`, so running off the end is a panic. -/
def decodeStringLoop (len : Nat) : List Nat → Nat → List Nat → Res (Nat × List Nat)
  | [], _, _ => .panic
  | c :: rest, read, length =>
    if c = stringSeparatorToken then .ok (read, length)
    else if read ≥ len then .err .emptyData
    else if isDigit c then decodeStringLoop len rest (read + 1) (length ++ [c])
    else .err .invalidString

/-- The function `decodeString`: the consumed count and the string stored in the
target.  `read + l` is a machine integer and wraps; the slice expression
`data[read : read+l]` panics when its bounds are out of order. -/
def decodeString (data : List Nat) : Res (Nat × List Nat) :=
  if data.length = 0 then .err .emptyData
  else
    (decodeStringLoop data.length data 0 []).bind fun (read0, length) =>
      let read := read0 + 1
      if length.length = 0 then .err .emptyData
      else if length.length > 1 ∧ length.head? = some 48 then .err .leadingZero
      else
        (Atoi length).bind fun l =>
          let hi := wrapInt 64 ((read : Int) + l)
          if hi > (data.length : Int) then .err .lengthTooBig
          else if hi < (read : Int) then .panic
          else .ok (hi.toNat, (data.drop read).take (hi.toNat - read))

/-- The digit loop of `decodeIntStr`, on `data[read:]`. -/
def decodeIntStrLoop : List Nat → Nat → List Nat → Res (Nat × List Nat)
  | [], _, _ => .panic
  | c :: rest, read, value =>
    if c = endToken then .ok (read, value)
    else if isDigit c then decodeIntStrLoop rest (read + 1) (value ++ [c])
    else .err .invalidInteger

/-- The function `decodeIntStr`: the consumed count and the digit string. -/
def decodeIntStr (data : List Nat) : Res (Nat × List Nat) :=
  if data.length = 0 then .err .emptyData
  else if data[0]? ≠ some intToken then .err .invalidInteger
  else
    match data[1]? with
    | none => .panic
    | some c =>
      let value0 : List Nat := if c = 45 then [c] else []
      let read1 : Nat := if c = 45 then 2 else 1
      (decodeIntStrLoop (data.drop read1) read1 value0).bind fun (read0, value) =>
        let read := read0 + 1
        if value.length = 0 then .err .emptyData
        else if value.length > 1 ∧ value.head? = some 48 then .err .leadingZero
        else if value = bs "-0" then .err .invalidInteger
        else .ok (read, value)

/-- The function `decodeInt`. -/
def decodeInt (data : List Nat) : Res (Nat × Int) :=
  (decodeIntStr data).bind fun (n, tmp) =>
    (ParseInt tmp).bind fun target => .ok (n, target)

/-- The function `decodeUint`. -/
def decodeUint (data : List Nat) : Res (Nat × Nat) :=
  (decodeIntStr data).bind fun (n, tmp) =>
    (ParseUint tmp).bind fun target => .ok (n, target)

/-- The loop of `readNextValue` over the items of a list or dictionary. -/
def readNextValueLoop (rnv : List Nat → Res (Nat × List Nat)) (data : List Nat) :
    Nat → Nat → Res Nat
  | 0, _ => .outOfFuel
  | k + 1, read =>
    match data[read]? with
    | none => .panic
    | some c =>
      if c = endToken then .ok read
      else (rnv (data.drop read)).bind fun (n, _) => readNextValueLoop rnv data k (read + n)

/-- The function `readNextValue`, cut off at recursion depth `fuel`. -/
def readNextValueF : Nat → List Nat → Res (Nat × List Nat)
  | 0, _ => .outOfFuel
  | fuel + 1, data =>
    if data.length = 0 then .err .emptyData
    else
      match data[0]? with
      | none => .panic
      | some c =>
        if c = intToken then
          (decodeInt data).bind fun (r, _) => .ok (r, data.take r)
        else if c = listToken ∨ c = dictToken then
          (readNextValueLoop (readNextValueF fuel) data fuel 1).bind fun read0 =>
            .ok (read0 + 1, data.take (read0 + 1))
        else
          (decodeString data).bind fun (r, _) => .ok (r, data.take r)

/-- The function `readNextValue`: every nested call starts at least one byte
further, so `len(data) + 1` levels are enough. -/
def readNextValue (data : List Nat) : Res (Nat × List Nat) :=
  readNextValueF (data.length + 1) data

/-- The loop of `decodeList`; `dec` decodes one element into a fresh target. -/
def decodeListLoop (dec : List Nat → Res (Nat × Val)) (data : List Nat) :
    Nat → Nat → List Val → Res (Nat × List Val)
  | 0, _, _ => .outOfFuel
  | k + 1, read, res =>
    match data[read]? with
    | none => .panic
    | some c =>
      if c = endToken then .ok (read, res)
      else
        (dec (data.drop read)).bind fun (r, v) =>
          decodeListLoop dec data k (read + r) (res ++ [v])

/-- The function `decodeList`, for a target that is a settable slice. -/
def decodeList (dec : List Nat → Res (Nat × Val)) (fuel : Nat) (data : List Nat) :
    Res (Nat × Val) :=
  if data.length = 0 then .err .emptyData
  else if data[0]? ≠ some listToken then .err .invalidList
  else
    (decodeListLoop dec data fuel 1 []).bind fun (read0, res) =>
      .ok (read0 + 1, .list res)

/-- The loop of `decodeDict`; `dec` decodes one value into a fresh target. -/
def decodeDictLoop (dec : List Nat → Res (Nat × Val)) (data : List Nat) :
    Nat → Nat → List (List Nat × Val) → Res (Nat × List (List Nat × Val))
  | 0, _, _ => .outOfFuel
  | k + 1, read, res =>
    match data[read]? with
    | none => .panic
    | some c =>
      if c = endToken then .ok (read, res)
      else
        (decodeString (data.drop read)).bind fun (r, key) =>
          (dec (data.drop (read + r))).bind fun (r', value) =>
            decodeDictLoop dec data k (read + r + r') (mapSet res key value)

/-- The function `decodeDict`, for a target that is a settable map with key
type `key`. -/
def decodeDict (dec : List Nat → Res (Nat × Val)) (fuel : Nat) (key : Ty)
    (data : List Nat) : Res (Nat × Val) :=
  if data.length = 0 then .err .emptyData
  else if data[0]? ≠ some dictToken then .err .invalidDict
  else
    if key.isString = false then .err .nonStringKey
    else
      (decodeDictLoop dec data fuel 1 []).bind fun (read0, res) =>
        .ok (read0 + 1, .map res)

/-- The map `nameMapping` of `decodeStruct`: the name of the tag of every field,
skipped or not, to the field index; a later field overwrites an earlier one. -/
def nameMapping : List (Field × Ty) → Nat → List (List Nat × Nat) → List (List Nat × Nat)
  | [], _, m => m
  | (f, _) :: rest, i, m => nameMapping rest (i + 1) (mapSet m (newTag f).Name i)

/-- The loop of `decodeStruct`; `dec t` decodes one value into a fresh target of
type `t`, `vals` are the fields of the target.  Setting an unexported field
through `reflect` panics. -/
def decodeStructLoop (dec : Ty → List Nat → Res (Nat × Val)) (fields : List (Field × Ty))
    (data : List Nat) : Nat → Nat → List (Field × Val) → Res (Nat × List (Field × Val))
  | 0, _, _ => .outOfFuel
  | k + 1, read, vals =>
    match data[read]? with
    | none => .panic
    | some c =>
      if c = endToken then .ok (read, vals)
      else
        (decodeString (data.drop read)).bind fun (r, key) =>
          match mapGet (nameMapping fields 0 []) key with
          | none =>
            (readNextValue (data.drop (read + r))).bind fun (r', _) =>
              decodeStructLoop dec fields data k (read + r + r') vals
          | some num =>
            match fields[num]? with
            | none => .panic
            | some (f, t) =>
              (dec t (data.drop (read + r))).bind fun (r', v) =>
                if f.exported = false then .panic
                else decodeStructLoop dec fields data k (read + r + r') (vals.set num (f, v))

/-- The function `decodeStruct`, for a target that is a settable struct holding
`cur`. -/
def decodeStruct (dec : Ty → List Nat → Res (Nat × Val)) (fuel : Nat)
    (fields : List (Field × Ty)) (data : List Nat) (cur : Val) : Res (Nat × Val) :=
  match cur with
  | .struct vals =>
    if data.length = 0 then .err .emptyData
    else if data[0]? ≠ some dictToken then .err .invalidStruct
    else
      (decodeStructLoop dec fields data fuel 1 vals).bind fun (read0, vals') =>
        .ok (read0 + 1, .struct vals')
  | _ => .err .invalidType

/-- The function `decode`, cut off at recursion depth `fuel`; the target is a
pointer to a settable variable of type `ty` holding `cur`.  The result is the
consumed count and the value the target holds afterwards. -/
def decodeF : Nat → List Nat → Ty → Val → Res (Nat × Val)
  | 0, _, _, _ => .outOfFuel
  | fuel + 1, data, ty, cur =>
    if data.length = 0 then .err .emptyData
    else
      match ty with
      | .custom um =>
        (readNextValue data).bind fun (n, d) =>
          match um d with
          | .inl e => .err e
          | .inr v => .ok (n, v)
      | .iface => .err .canNotSet
      | .bool =>
        (decodeInt data).bind fun (n, tmp) =>
          if tmp > 1 then .err .invalidBool else .ok (n, .bool (decide (tmp = 1)))
      | .int bits =>
        (decodeInt data).bind fun (n, tmp) => .ok (n, .int bits (wrapInt bits tmp))
      | .uint bits =>
        (decodeUint data).bind fun (n, tmp) => .ok (n, .uint bits (tmp % 2 ^ bits))
      | .string =>
        (decodeString data).bind fun (n, s) => .ok (n, .str s)
      | .slice elem =>
        if elem.isUint8 then
          (decodeString data).bind fun (n, tmp) => .ok (n, .bytes tmp)
        else decodeList (fun d => decodeF fuel d elem elem.zero) fuel data
      | .map key elem =>
        decodeDict (fun d => decodeF fuel d elem elem.zero) fuel key data
      | .struct fields =>
        decodeStruct (fun t d => decodeF fuel d t t.zero) fuel fields data cur
      | .other => .err .invalidType

/-- The function `decode`: every nested call starts at least one byte further,
so `len(data) + 1` levels are enough. -/
def decode (data : List Nat) (ty : Ty) (cur : Val) : Res (Nat × Val) :=
  decodeF (data.length + 1) data ty cur

/-- The function `Unmarshal`, for a target that is a pointer to a settable
variable of type `ty` holding `cur`: the value the target holds afterwards, or
the error. -/
def Unmarshal (data : List Nat) (ty : Ty) (cur : Val) : Res Val :=
  (decode data ty cur).bind fun (n, v) =>
    if n ≠ data.length then .err .remainingData else .ok v

/-- The fields of the target record when the loop of `decodeStruct` stops,
whatever the outcome: `val.Field(num).Set(v.Elem())` has taken effect for every
pair the loop has passed, and nothing undoes it when the loop returns an error
or panics later. -/
def decodeStructLoopTarget (dec : Ty → List Nat → Res (Nat × Val))
    (fields : List (Field × Ty)) (data : List Nat) :
    Nat → Nat → List (Field × Val) → List (Field × Val)
  | 0, _, vals => vals
  | k + 1, read, vals =>
    match data[read]? with
    | none => vals
    | some c =>
      if c = endToken then vals
      else
        match decodeString (data.drop read) with
        | .ok (r, key) =>
          match mapGet (nameMapping fields 0 []) key with
          | none =>
            match readNextValue (data.drop (read + r)) with
            | .ok (r', _) => decodeStructLoopTarget dec fields data k (read + r + r') vals
            | _ => vals
          | some num =>
            match fields[num]? with
            | none => vals
            | some (f, t) =>
              match dec t (data.drop (read + r)) with
              | .ok (r', v) =>
                if f.exported = false then vals
                else
                  decodeStructLoopTarget dec fields data k (read + r + r') (vals.set num (f, v))
              | _ => vals
        | _ => vals

/-- The target of `decodeList` when the call returns, whatever the outcome: the
result is built in the local `res`, and `val.Set(res)` is the last statement
before the successful return. -/
def decodeListTarget (dec : List Nat → Res (Nat × Val)) (fuel : Nat) (data : List Nat)
    (cur : Val) : Val :=
  if data.length = 0 then cur
  else if data[0]? ≠ some listToken then cur
  else
    match decodeListLoop dec data fuel 1 [] with
    | .ok (_, res) => .list res
    | _ => cur

/-- The target of `decodeDict` when the call returns, whatever the outcome: the
result is built in the local `res`, and `val.Set(res)` is the last statement
before the successful return. -/
def decodeDictTarget (dec : List Nat → Res (Nat × Val)) (fuel : Nat) (key : Ty)
    (data : List Nat) (cur : Val) : Val :=
  if data.length = 0 then cur
  else if data[0]? ≠ some dictToken then cur
  else if key.isString = false then cur
  else
    match decodeDictLoop dec data fuel 1 [] with
    | .ok (_, res) => .map res
    | _ => cur

/-- The target of `decodeStruct` when the call returns, whatever the outcome: the
fields are assigned inside the loop. -/
def decodeStructTarget (dec : Ty → List Nat → Res (Nat × Val)) (fuel : Nat)
    (fields : List (Field × Ty)) (data : List Nat) (cur : Val) : Val :=
  match cur with
  | .struct vals =>
    if data.length = 0 then cur
    else if data[0]? ≠ some dictToken then cur
    else .struct (decodeStructLoopTarget dec fields data fuel 1 vals)
  | _ => cur

/-- The value the target of `decode` (and so of `Unmarshal`) holds when the call
returns, whatever the outcome.  A record is assigned field by field inside the
loop of `decodeStruct`.  Every other target is assigned once, on success:
`decodeList` and `decodeDict` end with `val.Set(res)`, a `[]byte` is set after
`decodeString` has returned, the integer cases decode into the local `tmp`,
`decodeString` assigns `*target` in its last statement.  What a custom decode
method leaves in its target when it returns an error is up to the method; the
model keeps the old value there, and nothing is stated about that case. -/
def targetAfter (data : List Nat) (ty : Ty) (cur : Val) : Val :=
  if data.length = 0 then cur
  else
    match ty with
    | .slice elem =>
      if elem.isUint8 then
        match decodeString data with
        | .ok (_, tmp) => .bytes tmp
        | _ => cur
      else decodeListTarget (fun d => decodeF data.length d elem elem.zero) data.length data cur
    | .map key elem =>
      decodeDictTarget (fun d => decodeF data.length d elem elem.zero) data.length key data cur
    | .struct fields =>
      decodeStructTarget (fun t d => decodeF data.length d t t.zero) data.length fields data cur
    | _ =>
      match decode data ty cur with
      | .ok (_, v) => v
      | _ => cur

/-! ## Example records -/

/-- The type `struct { A int }`, named `Inner`. -/
def exInnerTy : Ty := .struct [(⟨bs "A", [], false, true⟩, .int 64)]

/-- The type `struct { Inner; B int }`: `Inner` is embedded and has no tag. -/
def exOuterTy : Ty :=
  .struct [(⟨bs "Inner", [], true, true⟩, exInnerTy), (⟨bs "B", [], false, true⟩, .int 64)]

/-- The value `Outer{Inner: Inner{A: a}, B: b}`. -/
def exOuter (a b : Int) : Val :=
  .struct [(⟨bs "Inner", [], true, true⟩, .struct [(⟨bs "A", [], false, true⟩, .int 64 a)]),
    (⟨bs "B", [], false, true⟩, .int 64 b)]

/-- The type `map[string][][][]int64`. -/
def exNestedTy : Ty := .map .string (.slice (.slice (.slice (.int 64))))

/-- A value of `exNestedTy` with keys of different lengths, listed out of order,
lists nested three levels deep and empty lists. -/
def exNested : Val :=
  .map [(bs "bb", .list [.list [.list [.int 64 1, .int 64 (-2)], .list []], .list []]),
    (bs "a", .list [])]

/-- Entries of a `map[string]int64` with the keys `bb`, `a`, `aa`, `b`, in this
order of enumeration. -/
def exKeys : List (List Nat × Val) :=
  [(bs "bb", .int 64 1), (bs "a", .int 64 2), (bs "aa", .int 64 3), (bs "b", .int 64 4)]

/-- The fields of the record `Test` of `docs.go`. -/
def exTestFields : List (Field × Ty) :=
  [(⟨bs "Attr0", [], false, true⟩, .slice (.uint 8)),
    (⟨bs "Attr1", bs "int_attr", false, true⟩, .int 64),
    (⟨bs "Attr2", bs "str_attr,omitempty", false, true⟩, .string),
    (⟨bs "Attr3", bs "-", false, true⟩, .map .string .bool)]

/-- A `[]byte` variable with the bytes `s`, nil when there are none. -/
def bytesOrNil (s : List Nat) : Val :=
  match s with
  | [] => .nilBytes
  | _ :: _ => .bytes s

/-- A variable of a map type with the entries `kvs`, nil when there are none. -/
def mapOrNil (kvs : List (List Nat × Val)) : Val :=
  match kvs with
  | [] => .nilMap
  | _ :: _ => .map kvs

/-- The value `Test{Attr0: a0, Attr1: a1, Attr2: a2, Attr3: a3}`; an `Attr0` or
`Attr3` without elements is nil, as in the zero value `Test{}`. -/
def exTest (a0 : List Nat) (a1 : Int) (a2 : List Nat) (a3 : List (List Nat × Val)) :
    List (Field × Val) :=
  [(⟨bs "Attr0", [], false, true⟩, bytesOrNil a0),
    (⟨bs "Attr1", bs "int_attr", false, true⟩, .int 64 a1),
    (⟨bs "Attr2", bs "str_attr,omitempty", false, true⟩, .str a2),
    (⟨bs "Attr3", bs "-", false, true⟩, mapOrNil a3)]

/-- The fields of `struct { A int }` with the tag `bencode:"-"` on `A`. -/
def exSkipFields : List (Field × Ty) := [(⟨bs "A", bs "-", false, true⟩, .int 64)]

/-- A value of the record of `exSkipFields`; its field holds `v`. -/
def exSkip (v : Val) : Val := .struct [(⟨bs "A", bs "-", false, true⟩, v)]

/-- The value `Outer{Inner: Inner{A: a}, B: b}` where `Inner` is embedded without
a tag and its field `A` has the tag `bencode:",omitempty"`. -/
def exEmbed (a b : Int) : Val :=
  .struct [(⟨bs "Inner", [], true, true⟩,
      .struct [(⟨bs "A", bs ",omitempty", false, true⟩, .int 64 a)]),
    (⟨bs "B", [], false, true⟩, .int 64 b)]

/-- The record of `exEmbed` with the field of `Inner` declared in the parent:
`Flat{A: a, B: b}`, `A` with the tag `bencode:",omitempty"`. -/
def exFlat (a b : Int) : Val :=
  .struct [(⟨bs "A", bs ",omitempty", false, true⟩, .int 64 a),
    (⟨bs "B", [], false, true⟩, .int 64 b)]

/-- A value of a record type `T1` with a field `A` that implements `Marshaler`;
its method returns the bytes `3:abc`. -/
def exCustomA : Val :=
  .marshaler (.inr (bs "3:abc")) (.struct [(⟨bs "A", [], false, true⟩, .int 64 1)])

/-- A value of a record type `T2` with a field `B` that implements `Marshaler`;
its method returns the bytes `i0e`. -/
def exCustomB : Val :=
  .marshaler (.inr (bs "i0e")) (.struct [(⟨bs "B", [], false, true⟩, .int 64 2)])

/-- A value that implements `Marshaler` and whose method returns an error. -/
def exCustomErr : Val := .marshaler (.inl (.user 7)) (.str (bs "x"))

/-- The value `Outer{T1{A: 1}, T2{B: 2}}` of `struct { T1; T2 }`.  Both embedded
types have the method `MarshalBEncode`, so the selector is ambiguous, the method
is not promoted and `Outer` does not implement `Marshaler`. -/
def exTwoEmbedded : Val :=
  .struct [(⟨bs "T1", [], true, true⟩, exCustomA), (⟨bs "T2", [], true, true⟩, exCustomB)]

/-- The value `Outer{T1{A: 1}, T2{B: 2}}` of `struct { T1 `bencode:"t"`; T2 }`.
As in `exTwoEmbedded` the method of the embedded types is not promoted.  `T1`
has a custom name: it is emitted under the key `t`; `T2` is flattened. -/
def exNamedEmbedded : Val :=
  .struct [(⟨bs "T1", bs "t", true, true⟩, exCustomA), (⟨bs "T2", [], true, true⟩, exCustomB)]

/-- A type that implements `Unmarshaler` by keeping the bytes it is handed. -/
def exRawTy : Ty := .custom fun d => .inr (.bytes d)

/-- The fields of `struct { A Raw; B int }` with the tags `a` and `b`. -/
def exRawFields : List (Field × Ty) :=
  [(⟨bs "A", bs "a", false, true⟩, exRawTy), (⟨bs "B", bs "b", false, true⟩, .int 64)]

/-- The type `struct { A int; B int }` with the tags `a` and `b`. -/
def exABFields : List (Field × Ty) :=
  [(⟨bs "A", bs "a", false, true⟩, .int 64), (⟨bs "B", bs "b", false, true⟩, .int 64)]

/-- A value of that type. -/
def exAB (a b : Int) : Val :=
  .struct [(⟨bs "A", bs "a", false, true⟩, .int 64 a),
    (⟨bs "B", bs "b", false, true⟩, .int 64 b)]

/-! ## The vocabulary of the specification -/

/-- Bytewise lexicographic order: `a` is less than `b`. -/
def lexLt : List Nat → List Nat → Bool
  | [], [] => false
  | [], _ :: _ => true
  | _ :: _, [] => false
  | x :: xs, y :: ys => decide (x < y) || (decide (x = y) && lexLt xs ys)

/-- The ordering rule of the specification: `a` sorts before `b` iff
`len(a) < len(b)`, or `len(a) == len(b)` and `a` is lexicographically less
than `b`. -/
def sortsBefore (a b : List Nat) : Bool :=
  decide (a.length < b.length) || (decide (a.length = b.length) && lexLt a b)

/-- The wire names of the fields of a record that are not skipped. -/
def wireNames (fs : List Field) : List (List Nat) :=
  (fs.filter fun f => !(newTag f).Skip).map fun f => (newTag f).Name

/-- A record type without embedded fields whose non-skipped fields have distinct,
non-empty wire names. -/
def recordOK (fs : List Field) : Bool :=
  fs.all (fun f => !f.anonymous) && (wireNames fs).all (fun n => !n.isEmpty) &&
    decide (wireNames fs).Nodup

/-- Types the round trip is stated for: booleans, integers of up to 64 bits,
strings, `[]byte`, slices, maps with string keys, and records as in `recordOK`,
nested to any depth.  The type of a skipped field of a record is free. -/
def Ty.supported : Ty → Bool
  | .bool => true
  | .int bits => decide (0 < bits ∧ bits ≤ 64)
  | .uint bits => decide (bits ≤ 64)
  | .string => true
  | .slice elem => elem.supported
  | .map key elem => key.isString && elem.supported
  | .struct fields => recordOK (fields.map Prod.fst) && supportedFields fields
  | .iface => false
  | .other => false
  | .custom _ => false
where
  /-- The type of every field that is not skipped is supported. -/
  supportedFields : List (Field × Ty) → Bool
    | [] => true
    | (f, t) :: rest => ((newTag f).Skip || t.supported) && supportedFields rest

/-- Types built from 64-bit integers and byte strings by nesting slices and maps
with string keys. -/
def Ty.plain : Ty → Bool
  | .int bits => decide (bits = 64)
  | .uint bits => decide (bits = 64 ∨ bits = 8)
  | .string => true
  | .slice elem => elem.plain
  | .map key elem => key.isString && elem.plain
  | _ => false

/-- The value `v` is a value of type `ty`: the shapes agree, integers are in the
range of their width, the keys of a map are pairwise distinct, and a record
value has the fields of its type.  A slice or map may be nil.  The values of
the types the codec has no case for are the `Val.other` ones. -/
def hasTy : Ty → Val → Bool
  | .bool, .bool _ => true
  | .int bits, .int bits' n =>
    decide (bits' = bits ∧ -2 ^ (bits - 1) ≤ n ∧ n < 2 ^ (bits - 1))
  | .uint bits, .uint bits' n => decide (bits' = bits ∧ n < 2 ^ bits)
  | .string, .str _ => true
  | .slice elem, .bytes _ => elem.isUint8
  | .slice elem, .nilBytes => elem.isUint8
  | .slice elem, .list xs => !elem.isUint8 && allTy elem xs
  | .slice elem, .nilList => !elem.isUint8
  | .map key elem, .map kvs =>
    key.isString && decide (kvs.map Prod.fst).Nodup && allTyMap elem kvs
  | .map key _, .nilMap => key.isString
  | .map key _, .badMap _ => !key.isString
  | .struct fields, .struct fs => fieldsTy fields fs
  | .iface, .other _ => true
  | .other, .other _ => true
  | .custom _, .other _ => true
  | _, _ => false
where
  /-- Every element has the element type. -/
  allTy : Ty → List Val → Bool
    | _, [] => true
    | t, x :: rest => hasTy t x && allTy t rest
  /-- Every value of the map has the element type. -/
  allTyMap : Ty → List (List Nat × Val) → Bool
    | _, [] => true
    | t, (_, x) :: rest => hasTy t x && allTyMap t rest
  /-- The fields are those of the type, with values of the field types. -/
  fieldsTy : List (Field × Ty) → List (Field × Val) → Bool
    | [], [] => true
    | (f, t) :: rest, (g, x) :: rest' => decide (f = g) && hasTy t x && fieldsTy rest rest'
    | _, _ => false

/-- The value a round trip into a zero target restores from `v`: `v` itself,
with every nil slice or map that is encoded coming back empty and not nil
(`decodeString`, `decodeList` and `decodeDict` make a new one), the entries of
every map listed in ascending key order (a Go map has no order), and every
field of a record that `structToMap` leaves out at the zero value the target
had. -/
def restored : Ty → Val → Val
  | .slice _, .nilBytes => .bytes []
  | .slice _, .nilList => .list []
  | .slice elem, .list xs => .list (restoredList elem xs)
  | .map _ _, .nilMap => .map []
  | .map _ elem, .map kvs => .map (sortSlice pairLess (restoredMap elem kvs))
  | .struct fields, .struct fs => .struct (restoredFields fields fs (isEmpty (.struct fs)))
  | _, v => v
where
  /-- Elementwise. -/
  restoredList : Ty → List Val → List Val
    | _, [] => []
    | t, x :: rest => restored t x :: restoredList t rest
  /-- Valuewise. -/
  restoredMap : Ty → List (List Nat × Val) → List (List Nat × Val)
    | _, [] => []
    | t, (k, x) :: rest => (k, restored t x) :: restoredMap t rest
  /-- Fieldwise, `empty` being `isEmpty(rv)` of the record; a field that is
  skipped, or has omitempty in a record that is zero, is at its zero value. -/
  restoredFields : List (Field × Ty) → List (Field × Val) → Bool → List (Field × Val)
    | (f, t) :: rest, (_, x) :: rest', empty =>
      (if (newTag f).Skip || ((newTag f).OmitEmpty && empty) then (f, t.zero)
        else (f, restored t x)) :: restoredFields rest rest' empty
    | _, _, _ => []

/-- The pairs `structToMap` assigns for a record without embedded fields, in
field order; `empty` is `isEmpty(rv)`. -/
def emitted {α : Type} (fs : List (Field × α)) (empty : Bool) : List (List Nat × α) :=
  fs.filterMap fun p =>
    if (newTag p.1).Skip || ((newTag p.1).OmitEmpty && empty) then none
    else some ((newTag p.1).Name, p.2)

/-- The record `vals` with `w` in every field whose tag name is `key`. -/
def setNamed (vals : List (Field × Val)) (key : List Nat) (w : Val) : List (Field × Val) :=
  vals.map fun p => if (newTag p.1).Name = key then (p.1, w) else p

/-- What the decode loop of a record makes of a field `q` after the pairs
`items` (key, encoding, decoded value): the value of the last pair under the
tag name of `q`. -/
def fieldAfter (items : List (List Nat × List Nat × Val)) (q : Field × Val) : Field × Val :=
  items.foldl (fun q it => if (newTag q.1).Name = it.1 then (q.1, it.2.2) else q) q

/-- The keys ascend strictly in the ordering rule, as a test. -/
def keysAscending : List (List Nat) → Bool
  | [] => true
  | a :: rest => rest.all (fun b => sortsBefore a b) && keysAscending rest

/-- The value is the canonical representative of a Go value and no part of it is
lost in a round trip: no slice or map is nil, every map lists its entries in
ascending key order and no record has a skipped field. -/
def canonical : Val → Bool
  | .nilBytes => false
  | .nilList => false
  | .nilMap => false
  | .list xs => canonicalList xs
  | .map kvs => keysAscending (kvs.map Prod.fst) && canonicalMap kvs
  | .struct fs => canonicalFields fs
  | _ => true
where
  /-- Elementwise. -/
  canonicalList : List Val → Bool
    | [] => true
    | x :: rest => canonical x && canonicalList rest
  /-- Valuewise. -/
  canonicalMap : List (List Nat × Val) → Bool
    | [] => true
    | (_, x) :: rest => canonical x && canonicalMap rest
  /-- Fieldwise, and no field is skipped. -/
  canonicalFields : List (Field × Val) → Bool
    | [] => true
    | (f, x) :: rest => !(newTag f).Skip && canonical x && canonicalFields rest

/-- The bytes of a successful outcome. -/
def Res.bytes (r : Res (List Nat)) : List Nat :=
  match r with
  | .ok out => out
  | _ => []

/-- The encoding `e` is not empty, does not start with the end token, and `dec`
reads it back as `w` whatever follows it. -/
def readsBack (dec : List Nat → Res (Nat × Val)) (e : List Nat) (w : Val) : Prop :=
  e ≠ [] ∧ e.head? ≠ some 101 ∧
    ∀ tail : List Nat, (e ++ tail).length < 2 ^ 63 → dec (e ++ tail) = .ok (e.length, w)

/-- The keys of an association list ascend strictly in the ordering rule. -/
def keysSorted {α : Type} (l : List (List Nat × α)) : Prop :=
  l.Pairwise fun p q => sortsBefore p.1 q.1 = true

/-- The wire values of the data model: an integer, a byte string, a list of
values, a dictionary of byte-string keys each paired with a value. -/
inductive Wire where
  | int (n : Int)
  | str (s : List Nat)
  | list (items : List Wire)
  | dict (pairs : List (List Nat × Wire))

/-- The wire form of a value. -/
def Wire.encode : Wire → List Nat
  | .int n => 105 :: (FormatInt n ++ [101])
  | .str s => encodeStringBytes s
  | .list items => 108 :: (encodeItems items ++ [101])
  | .dict pairs => 100 :: (encodePairs pairs ++ [101])
where
  /-- The wire forms of the items, one after the other. -/
  encodeItems : List Wire → List Nat
    | [] => []
    | w :: rest => w.encode ++ encodeItems rest
  /-- The wire forms of key and value of every pair, one after the other. -/
  encodePairs : List (List Nat × Wire) → List Nat
    | [] => []
    | (k, w) :: rest => encodeStringBytes k ++ (w.encode ++ encodePairs rest)

/-- Every integer of the value is a signed 64-bit integer. -/
def Wire.inRange : Wire → Bool
  | .int n => decide (-2 ^ 63 ≤ n ∧ n < 2 ^ 63)
  | .str _ => true
  | .list items => allInRange items
  | .dict pairs => allInRangePairs pairs
where
  /-- Itemwise. -/
  allInRange : List Wire → Bool
    | [] => true
    | w :: rest => w.inRange && allInRange rest
  /-- Valuewise. -/
  allInRangePairs : List (List Nat × Wire) → Bool
    | [] => true
    | (_, w) :: rest => w.inRange && allInRangePairs rest

/-- Keys and values of the pairs of a dictionary, in the order of the wire. -/
def pairItems : List (List Nat × Wire) → List Wire
  | [] => []
  | (k, w) :: rest => .str k :: w :: pairItems rest

/-- A value for an unknown key: `[{"a": 1}, "x", []]`, on the wire
`ld1:ai1ee1:xlee`. -/
def exUnknown : Wire := .list [.dict [(bs "a", .int 1)], .str (bs "x"), .list []]

/-- A delimited value as `readNextValue` finds it: an integer token with the
bytes `tok` between `i` and `e`, a byte string, or a start token followed by
delimited values and `e`. -/
inductive Item where
  | int (tok : List Nat)
  | str (s : List Nat)
  | seq (tag : Nat) (items : List Item)

/-- The bytes of a delimited value. -/
def Item.encode : Item → List Nat
  | .int tok => 105 :: (tok ++ [101])
  | .str s => encodeStringBytes s
  | .seq tag items => tag :: (encodeItems items ++ [101])
where
  /-- The bytes of the items, one after the other. -/
  encodeItems : List Item → List Nat
    | [] => []
    | it :: rest => it.encode ++ encodeItems rest

/-- Every integer token of the value passes the test `p` and every start token
is `l` or `d`. -/
def Item.all (p : List Nat → Bool) : Item → Bool
  | .int tok => p tok
  | .str _ => true
  | .seq tag items => (decide (tag = 108) || decide (tag = 100)) && allItems p items
where
  /-- Itemwise. -/
  allItems (p : List Nat → Bool) : List Item → Bool
    | [] => true
    | it :: rest => it.all p && allItems p rest

/-- The integer token `i tok e` is one that `decodeInt` accepts whole. -/
def intTokenAccepted (tok : List Nat) : Bool :=
  match decodeInt (105 :: (tok ++ [101])) with
  | .ok (n, _) => decide (n = tok.length + 2)
  | _ => false

/-- The end token is not among the bytes. -/
def noEndToken (tok : List Nat) : Bool := tok.all fun c => decide (c ≠ 101)

/-- What a successful loop of `decodeStruct` makes of the fields `vals` on one
pair of a wire dictionary: the field that `nameMapping` gives for the key holds
the decoded value, a pair with an unknown key changes nothing. -/
def structStep (fields : List (Field × Ty)) (vals : List (Field × Val))
    (p : List Nat × Wire) : List (Field × Val) :=
  match mapGet (nameMapping fields 0 []) p.1 with
  | none => vals
  | some num =>
    match fields[num]? with
    | none => vals
    | some (f, t) =>
      match decode p.2.encode t t.zero with
      | .ok (_, v) => vals.set num (f, v)
      | _ => vals

/-- The loop of `decodeStruct` passes the pair of a wire dictionary: the key is
read back; under a key `nameMapping` does not know the value is one that
`readNextValue` skips whole; under a known key the field is exported and the
value decodes whole into a fresh target of the type of the field. -/
def structPairOK (fields : List (Field × Ty)) (p : List Nat × Wire) : Prop :=
  decodeString (encodeStringBytes p.1) = .ok ((encodeStringBytes p.1).length, p.1) ∧
    (mapGet (nameMapping fields 0 []) p.1 = none →
      ∃ d, readNextValue p.2.encode = .ok (p.2.encode.length, d)) ∧
    ∀ num, mapGet (nameMapping fields 0 []) p.1 = some num →
      ∃ f t v, fields[num]? = some (f, t) ∧ f.exported = true ∧
        decode p.2.encode t t.zero = .ok (p.2.encode.length, v)

/-- No part of the value has a custom encoder, and every integer in it, signed
or unsigned, is in the signed 64-bit range. -/
def Val.signedOnly : Val → Bool
  | .int _ n => decide (-2 ^ 63 ≤ n ∧ n < 2 ^ 63)
  | .uint _ n => decide (n < 2 ^ 63)
  | .list xs => allList xs
  | .array xs => allList xs
  | .map kvs => allMap kvs
  | .struct fs => allFields fs
  | .marshaler _ _ => false
  | _ => true
where
  /-- Elementwise. -/
  allList : List Val → Bool
    | [] => true
    | x :: rest => x.signedOnly && allList rest
  /-- Valuewise. -/
  allMap : List (List Nat × Val) → Bool
    | [] => true
    | (_, x) :: rest => x.signedOnly && allMap rest
  /-- Fieldwise. -/
  allFields : List (Field × Val) → Bool
    | [] => true
    | (_, x) :: rest => x.signedOnly && allFields rest

/-! ## Basic facts -/

@[simp] theorem Res.bind_ok {α β : Type} (a : α) (f : α → Res β) :
    (Res.ok a).bind f = f a := rfl

@[simp] theorem Res.bind_err {α β : Type} (e : Err) (f : α → Res β) :
    (Res.err e : Res α).bind f = .err e := rfl

@[simp] theorem Res.bind_panic {α β : Type} (f : α → Res β) :
    (Res.panic : Res α).bind f = .panic := rfl

@[simp] theorem Res.bind_outOfFuel {α β : Type} (f : α → Res β) :
    (Res.outOfFuel : Res α).bind f = .outOfFuel := rfl

theorem Res.bind_eq_ok {α β : Type} {x : Res α} {f : α → Res β} {b : β}
    (h : x.bind f = .ok b) : ∃ a, x = .ok a ∧ f a = .ok b := by
  cases x with
  | ok a => exact ⟨a, rfl, h⟩
  | err e => simp at h
  | panic => simp at h
  | outOfFuel => simp at h

theorem isDigit_iff (c : Nat) : isDigit c = true ↔ 48 ≤ c ∧ c ≤ 57 := by
  simp [isDigit]

/-! ## `strconv`: formatting and parsing are inverse -/

theorem formatUintAux_append (fuel n : Nat) (acc : List Nat) :
    formatUintAux fuel n acc = formatUintAux fuel n [] ++ acc := by
  induction fuel generalizing n acc with
  | zero => simp [formatUintAux]
  | succ k ih =>
    simp only [formatUintAux]
    split
    · simp
    · rw [ih (n / 10) ((48 + n % 10) :: acc), ih (n / 10) [48 + n % 10]]
      simp

theorem formatUintAux_fuel (f1 f2 n : Nat) (acc : List Nat) (h1 : n < f1) (h2 : n < f2) :
    formatUintAux f1 n acc = formatUintAux f2 n acc := by
  induction f1 generalizing f2 n acc with
  | zero => omega
  | succ k ih =>
    cases f2 with
    | zero => omega
    | succ k2 =>
      simp only [formatUintAux]
      split
      · rfl
      · apply ih <;> omega

theorem FormatUint_small (n : Nat) (h : n < 10) : FormatUint n = [48 + n] := by
  simp [FormatUint, formatUintAux, h]

theorem FormatUint_big (n : Nat) (h : ¬ n < 10) :
    FormatUint n = FormatUint (n / 10) ++ [48 + n % 10] := by
  unfold FormatUint
  rw [formatUintAux]
  simp only [h, if_false]
  rw [formatUintAux_append]
  congr 1
  apply formatUintAux_fuel <;> omega

theorem FormatUint_digits (n : Nat) : ∀ d ∈ FormatUint n, isDigit d = true := by
  induction n using Nat.strong_induction_on with
  | _ n ih =>
    by_cases h : n < 10
    · rw [FormatUint_small n h]
      intro d hd
      simp at hd
      subst hd
      rw [isDigit_iff]; omega
    · rw [FormatUint_big n h]
      intro d hd
      rcases List.mem_append.1 hd with hd | hd
      · exact ih (n / 10) (by omega) d hd
      · simp at hd
        subst hd
        rw [isDigit_iff]; omega

theorem FormatUint_ne_nil (n : Nat) : FormatUint n ≠ [] := by
  by_cases h : n < 10
  · rw [FormatUint_small n h]; simp
  · rw [FormatUint_big n h]; simp

theorem FormatUint_head (n : Nat) (h0 : 0 < n) : (FormatUint n).head? ≠ some 48 := by
  induction n using Nat.strong_induction_on with
  | _ n ih =>
    by_cases h : n < 10
    · rw [FormatUint_small n h]
      simp
      omega
    · rw [FormatUint_big n h]
      have hne := FormatUint_ne_nil (n / 10)
      have := ih (n / 10) (by omega) (by omega)
      cases hfm : FormatUint (n / 10) with
      | nil => exact absurd hfm hne
      | cons a l => rw [hfm] at this; simpa using this

theorem FormatUint_zero : FormatUint 0 = [48] := by decide

theorem FormatUint_eq_zero (n : Nat) (h : FormatUint n = [48]) : n = 0 := by
  by_contra hn
  have := FormatUint_head n (by omega)
  rw [h] at this
  simp at this

theorem parseUintLoop_snoc (xs : List Nat) (d a : Nat) :
    parseUintLoop (xs ++ [d]) a =
      (parseUintLoop xs a).bind fun m => parseUintLoop [d] m := by
  induction xs generalizing a with
  | nil => simp [parseUintLoop]
  | cons x xs ih =>
    simp only [List.cons_append, parseUintLoop]
    split
    · split
      · exact ih _
      · rfl
    · rfl

theorem parseUintLoop_single (d m : Nat) (hd : isDigit d = true)
    (h : m * 10 + (d - 48) < 2 ^ 64) :
    parseUintLoop [d] m = .ok (m * 10 + (d - 48)) := by
  simp only [parseUintLoop, hd, if_true]
  rw [if_pos h]

theorem parseUintLoop_FormatUint (n : Nat) (h : n < 2 ^ 64) :
    parseUintLoop (FormatUint n) 0 = .ok n := by
  induction n using Nat.strong_induction_on with
  | _ n ih =>
    by_cases h10 : n < 10
    · rw [FormatUint_small n h10]
      have hd : isDigit (48 + n) = true := by rw [isDigit_iff]; omega
      have e : 0 * 10 + (48 + n - 48) = n := by omega
      rw [parseUintLoop_single _ _ hd (by rw [e]; exact h), e]
    · rw [FormatUint_big n h10, parseUintLoop_snoc, ih (n / 10) (by omega) (by omega)]
      have hd : isDigit (48 + n % 10) = true := by rw [isDigit_iff]; omega
      have e : n / 10 * 10 + (48 + n % 10 - 48) = n := by omega
      rw [Res.bind_ok, parseUintLoop_single _ _ hd (by rw [e]; exact h), e]

theorem ParseUint_FormatUint (n : Nat) (h : n < 2 ^ 64) :
    ParseUint (FormatUint n) = .ok n := by
  unfold ParseUint
  have hne := FormatUint_ne_nil n
  cases hfm : FormatUint n with
  | nil => exact absurd hfm hne
  | cons a l => simp only; rw [← hfm]; exact parseUintLoop_FormatUint n h

theorem ParseInt_neg (ds : List Nat) (un : Nat) (h : ParseUint ds = .ok un)
    (hr : un ≤ 2 ^ 63) : ParseInt (45 :: ds) = .ok (-(un : Int)) := by
  have h1 : ¬ (un > 2 ^ 63) := by omega
  simp only [ParseInt, decide_True, or_true, if_true, h]
  rw [if_neg (by simp), if_neg (by intro hc; exact h1 hc.2)]

theorem ParseInt_pos (a : Nat) (l : List Nat) (un : Nat) (ha : isDigit a = true)
    (h : ParseUint (a :: l) = .ok un) (hr : un < 2 ^ 63) :
    ParseInt (a :: l) = .ok (un : Int) := by
  rw [isDigit_iff] at ha
  have h43 : ¬ (a = 43 ∨ a = 45) := by omega
  have h45 : ¬ (a = 45) := by omega
  have h1 : ¬ (un ≥ 2 ^ 63) := by omega
  have hb : (if a = 43 ∨ a = 45 then l else a :: l) = a :: l := if_neg h43
  have hd : decide (a = 45) = false := by simp [h45]
  simp only [ParseInt, hb, hd, h]
  rw [if_neg (by intro hc; exact h1 hc.2), if_neg (by simp)]
  simp

theorem ParseInt_FormatInt (n : Int) (h1 : -2 ^ 63 ≤ n) (h2 : n < 2 ^ 63) :
    ParseInt (FormatInt n) = .ok n := by
  unfold FormatInt
  by_cases hn : n < 0
  · rw [if_pos hn, ParseInt_neg _ n.natAbs (ParseUint_FormatUint n.natAbs (by omega)) (by omega)]
    congr 1
    omega
  · rw [if_neg hn]
    have hne := FormatUint_ne_nil n.natAbs
    have hdig := FormatUint_digits n.natAbs
    have hp := ParseUint_FormatUint n.natAbs (by omega)
    cases hfm : FormatUint n.natAbs with
    | nil => exact absurd hfm hne
    | cons a l =>
      rw [hfm] at hp
      rw [ParseInt_pos a l n.natAbs (hdig a (by rw [hfm]; simp)) hp (by omega)]
      congr 1
      omega

theorem wrapInt_of_range (bits : Nat) (x : Int) (hb : 0 < bits)
    (h1 : -2 ^ (bits - 1) ≤ x) (h2 : x < 2 ^ (bits - 1)) : wrapInt bits x = x := by
  unfold wrapInt
  have hp : (2 : Int) ^ bits = 2 * 2 ^ (bits - 1) := by
    have : bits = (bits - 1) + 1 := by omega
    conv_lhs => rw [this]
    rw [pow_succ]; ring
  rw [hp, Int.emod_eq_of_lt (by omega) (by omega)]
  omega

theorem ItoaNat (n : Nat) : Itoa (n : Int) = FormatUint n := by
  unfold Itoa FormatInt
  rw [if_neg (by omega)]
  simp

/-! ## Integer and string tokens decode to what was encoded -/

theorem decodeIntStrLoop_digits (ds rest : List Nat) (read : Nat) (value : List Nat)
    (h : ∀ d ∈ ds, isDigit d = true) :
    decodeIntStrLoop (ds ++ 101 :: rest) read value = .ok (read + ds.length, value ++ ds) := by
  induction ds generalizing read value with
  | nil => simp [decodeIntStrLoop]
  | cons d ds ih =>
    have hd := h d (by simp)
    have hd' := (isDigit_iff d).1 hd
    have hne : ¬ d = 101 := by omega
    simp only [List.cons_append, decodeIntStrLoop, hne, if_false, hd, if_true, List.append_eq]
    rw [ih _ _ (fun x hx => h x (by simp [hx]))]
    simp
    omega

theorem decodeIntStr_pos (ds rest : List Nat) (hd : ∀ d ∈ ds, isDigit d = true)
    (hne : ds ≠ []) (hz : ¬ (ds.length > 1 ∧ ds.head? = some 48)) :
    decodeIntStr (105 :: (ds ++ 101 :: rest)) = .ok (ds.length + 2, ds) := by
  cases ds with
  | nil => exact absurd rfl hne
  | cons a l =>
    have ha := (isDigit_iff a).1 (hd a (by simp))
    have h45 : ¬ a = 45 := by omega
    have hloop := decodeIntStrLoop_digits (a :: l) rest 1 [] hd
    simp only [List.cons_append] at hloop
    simp only [List.length_cons] at hz
    simp only [decodeIntStr, List.length_cons, List.cons_append, List.getElem?_cons_zero,
      List.getElem?_cons_succ, h45, if_false, List.drop_succ_cons, List.drop_zero, hloop,
      Res.bind_ok, List.nil_append]
    rw [if_neg (by omega), if_neg (by simp), if_neg (by simp), if_neg hz, if_neg]
    · congr 2; omega
    · intro hc
      have : a = 45 := by
        have := congrArg List.head? hc
        simpa [bs] using this
      exact h45 this

theorem decodeIntStr_neg (ds rest : List Nat) (hd : ∀ d ∈ ds, isDigit d = true)
    (hz : ds ≠ [48]) :
    decodeIntStr (105 :: 45 :: (ds ++ 101 :: rest)) = .ok (ds.length + 3, 45 :: ds) := by
  have hloop := decodeIntStrLoop_digits ds rest 2 [45] hd
  simp only [decodeIntStr, List.length_cons, List.getElem?_cons_zero,
    List.getElem?_cons_succ, if_true, List.drop_succ_cons, List.drop_zero, hloop,
    Res.bind_ok, List.singleton_append]
  rw [if_neg (by omega), if_neg (by simp), if_neg (by simp), if_neg (by simp), if_neg]
  · congr 2; omega
  · intro hc
    apply hz
    have : bs "-0" = [45, 48] := by decide
    rw [this] at hc
    simpa using hc

theorem FormatUint_noLeadingZero (m : Nat) :
    ¬ ((FormatUint m).length > 1 ∧ (FormatUint m).head? = some 48) := by
  intro ⟨h1, h2⟩
  by_cases hm : m = 0
  · subst hm
    rw [FormatUint_zero] at h1
    simp at h1
  · exact FormatUint_head m (by omega) h2

theorem decodeInt_FormatInt (n : Int) (h1 : -2 ^ 63 ≤ n) (h2 : n < 2 ^ 63) (rest : List Nat) :
    decodeInt (105 :: (FormatInt n ++ 101 :: rest)) = .ok ((FormatInt n).length + 2, n) := by
  have hp := ParseInt_FormatInt n h1 h2
  unfold decodeInt
  by_cases hn : n < 0
  · have hf : FormatInt n = 45 :: FormatUint n.natAbs := by simp [FormatInt, hn]
    have hz : FormatUint n.natAbs ≠ [48] := by
      intro hc
      have := FormatUint_eq_zero _ hc
      omega
    rw [hf] at hp ⊢
    rw [List.cons_append,
      decodeIntStr_neg _ rest (FormatUint_digits _) hz]
    simp [hp]
  · have hf : FormatInt n = FormatUint n.natAbs := by simp [FormatInt, hn]
    rw [hf] at hp ⊢
    rw [decodeIntStr_pos _ rest (FormatUint_digits _) (FormatUint_ne_nil _)
      (FormatUint_noLeadingZero _)]
    simp [hp]

theorem decodeUint_FormatUint (n : Nat) (h : n < 2 ^ 64) (rest : List Nat) :
    decodeUint (105 :: (FormatUint n ++ 101 :: rest)) = .ok ((FormatUint n).length + 2, n) := by
  unfold decodeUint
  rw [decodeIntStr_pos _ rest (FormatUint_digits _) (FormatUint_ne_nil _)
    (FormatUint_noLeadingZero _)]
  simp [ParseUint_FormatUint n h]

theorem decodeStringLoop_digits (len : Nat) (ds rest : List Nat) (read : Nat)
    (acc : List Nat) (h : ∀ d ∈ ds, isDigit d = true) (hlen : read + ds.length ≤ len) :
    decodeStringLoop len (ds ++ 58 :: rest) read acc = .ok (read + ds.length, acc ++ ds) := by
  induction ds generalizing read acc with
  | nil => simp [decodeStringLoop]
  | cons d ds ih =>
    have hd := h d (by simp)
    have hd' := (isDigit_iff d).1 hd
    have hne : ¬ d = 58 := by omega
    simp only [List.length_cons] at hlen
    have hr : ¬ read ≥ len := by omega
    simp only [List.cons_append, decodeStringLoop, hne, if_false, hd, if_true, hr,
      List.append_eq]
    rw [ih (read + 1) _ (fun x hx => h x (by simp [hx])) (by omega)]
    simp
    omega

theorem decodeString_encode (s rest : List Nat)
    (hlen : (encodeStringBytes s ++ rest).length < 2 ^ 63) :
    decodeString (encodeStringBytes s ++ rest) = .ok ((encodeStringBytes s).length, s) := by
  unfold encodeStringBytes at *
  rw [ItoaNat] at *
  simp only [List.length_append, List.length_cons, List.length_nil] at hlen
  have hne := FormatUint_ne_nil s.length
  have hdata : FormatUint s.length ++ [58] ++ s ++ rest =
      FormatUint s.length ++ 58 :: (s ++ rest) := by simp
  rw [hdata]
  have hloop := decodeStringLoop_digits
    (FormatUint s.length ++ 58 :: (s ++ rest)).length (FormatUint s.length) (s ++ rest) 0 []
    (FormatUint_digits _) (by simp)
  have hpos : 0 < (FormatUint s.length).length := List.length_pos.2 hne
  have hA : Atoi (FormatUint s.length) = .ok (s.length : Int) := by
    unfold Atoi
    have := ParseInt_FormatInt (s.length : Int) (by omega) (by omega)
    rwa [← ItoaNat, Itoa]
  have hw : wrapInt 64 (((0 + (FormatUint s.length).length + 1 : Nat) : Int) + (s.length : Int))
      = (((FormatUint s.length).length + 1 + s.length : Nat) : Int) := by
    rw [wrapInt_of_range 64 _ (by omega) (by push_cast; omega) (by push_cast; omega)]
    push_cast; omega
  unfold decodeString
  rw [if_neg (by simp), hloop]
  simp only [Res.bind_ok, List.nil_append]
  rw [if_neg (by omega), if_neg (FormatUint_noLeadingZero _), hA, Res.bind_ok]
  rw [hw, if_neg (by simp only [List.length_append, List.length_cons]; push_cast; omega),
    if_neg (by push_cast; omega)]
  simp only [Int.toNat_ofNat]
  refine congrArg Res.ok (Prod.ext ?_ ?_)
  · simp only [List.length_append, List.length_cons, List.length_nil]
  · show List.take _ (List.drop _ _) = s
    have e1 : 0 + (FormatUint s.length).length + 1 = (FormatUint s.length ++ [58]).length := by
      simp
    have e2 : FormatUint s.length ++ 58 :: (s ++ rest) =
        (FormatUint s.length ++ [58]) ++ (s ++ rest) := by simp
    rw [e1, e2, List.drop_left]
    have e3 : (FormatUint s.length).length + 1 + s.length -
        (FormatUint s.length ++ [58]).length = s.length := by simp
    rw [e3, List.take_left]

/-! ## The key order of `encodeDict` -/

theorem lexLt_irrefl (a : List Nat) : lexLt a a = false := by
  induction a with
  | nil => rfl
  | cons x xs ih => simp [lexLt, ih]

theorem lexLt_trans (a b c : List Nat) (h1 : lexLt a b = true) (h2 : lexLt b c = true) :
    lexLt a c = true := by
  induction a generalizing b c with
  | nil =>
    cases b with
    | nil => simp [lexLt] at h1
    | cons y ys =>
      cases c with
      | nil => simp [lexLt] at h2
      | cons z zs => simp [lexLt]
  | cons x xs ih =>
    cases b with
    | nil => simp [lexLt] at h1
    | cons y ys =>
      cases c with
      | nil => simp [lexLt] at h2
      | cons z zs =>
        simp only [lexLt, Bool.or_eq_true, Bool.and_eq_true, decide_eq_true_eq] at h1 h2 ⊢
        rcases h1 with h1 | ⟨h1, h1'⟩
        · rcases h2 with h2 | ⟨h2, _⟩
          · left; omega
          · left; omega
        · rcases h2 with h2 | ⟨h2, h2'⟩
          · left; omega
          · right; exact ⟨by omega, ih ys zs h1' h2'⟩

theorem lexLt_total (a b : List Nat) (hl : a.length = b.length) (hne : a ≠ b) :
    lexLt a b = true ∨ lexLt b a = true := by
  induction a generalizing b with
  | nil =>
    cases b with
    | nil => exact absurd rfl hne
    | cons y ys => simp at hl
  | cons x xs ih =>
    cases b with
    | nil => simp at hl
    | cons y ys =>
      simp only [lexLt, Bool.or_eq_true, Bool.and_eq_true, decide_eq_true_eq]
      rcases Nat.lt_trichotomy x y with h | h | h
      · left; left; exact h
      · subst h
        have hne' : xs ≠ ys := fun hc => hne (by rw [hc])
        rcases ih ys (by simpa using hl) hne' with h | h
        · left; right; exact ⟨rfl, h⟩
        · right; right; exact ⟨rfl, h⟩
      · right; left; exact h

theorem keyLessLoop_iff (a b : List Nat) (hl : a.length = b.length) :
    keyLessLoop a b = true ↔ (lexLt a b = true ∨ a = b) := by
  induction a generalizing b with
  | nil =>
    cases b with
    | nil => simp [keyLessLoop]
    | cons y ys => simp at hl
  | cons x xs ih =>
    cases b with
    | nil => simp at hl
    | cons y ys =>
      have ih' := ih ys (by simpa using hl)
      simp only [keyLessLoop, lexLt, Bool.or_eq_true, Bool.and_eq_true, decide_eq_true_eq,
        List.cons.injEq]
      by_cases hxy : x = y
      · subst hxy
        simp [ih']
      · simp only [ne_eq, hxy, not_false_eq_true, if_true, decide_eq_true_eq, false_and,
          or_false]

theorem sortsBefore_irrefl (a : List Nat) : sortsBefore a a = false := by
  simp [sortsBefore, lexLt_irrefl]

theorem sortsBefore_trans (a b c : List Nat) (h1 : sortsBefore a b = true)
    (h2 : sortsBefore b c = true) : sortsBefore a c = true := by
  simp only [sortsBefore, Bool.or_eq_true, Bool.and_eq_true, decide_eq_true_eq] at h1 h2 ⊢
  rcases h1 with h1 | ⟨h1, h1'⟩
  · rcases h2 with h2 | ⟨h2, _⟩
    · left; omega
    · left; omega
  · rcases h2 with h2 | ⟨h2, h2'⟩
    · left; omega
    · right; exact ⟨by omega, lexLt_trans a b c h1' h2'⟩

theorem sortsBefore_asymm (a b : List Nat) (h1 : sortsBefore a b = true) :
    sortsBefore b a = false := by
  cases h : sortsBefore b a with
  | false => rfl
  | true =>
    have := sortsBefore_trans a b a h1 h
    rw [sortsBefore_irrefl] at this
    exact absurd this (by simp)

theorem sortsBefore_total (a b : List Nat) (hne : a ≠ b) :
    sortsBefore a b = true ∨ sortsBefore b a = true := by
  simp only [sortsBefore, Bool.or_eq_true, Bool.and_eq_true, decide_eq_true_eq]
  rcases Nat.lt_trichotomy a.length b.length with h | h | h
  · left; left; exact h
  · rcases lexLt_total a b h hne with h' | h'
    · left; right; exact ⟨h, h'⟩
    · right; right; exact ⟨h.symm, h'⟩
  · right; left; exact h

/-- The comparison closure of `encodeDict` is the ordering rule of the
specification, made reflexive. -/
theorem keyLess_iff (a b : List Nat) :
    keyLess a b = true ↔ (sortsBefore a b = true ∨ a = b) := by
  unfold keyLess sortsBefore
  by_cases hl : a.length = b.length
  · simp only [hl, if_true, keyLessLoop_iff a b hl, lt_self_iff_false, decide_False,
      Bool.false_or, decide_True, Bool.true_and]
  · simp only [hl, if_false, decide_eq_true_eq, decide_False, Bool.false_and, Bool.or_false]
    constructor
    · intro h; left; exact h
    · rintro (h | h)
      · exact h
      · subst h; exact absurd rfl hl

theorem keyLess_false (a b : List Nat) (h : sortsBefore b a = true) : keyLess a b = false := by
  cases hk : keyLess a b with
  | false => rfl
  | true =>
    rcases (keyLess_iff a b).1 hk with h' | h'
    · rw [sortsBefore_asymm a b h'] at h; exact absurd h (by simp)
    · subst h'; rw [sortsBefore_irrefl] at h; exact absurd h (by simp)

/-! ## `sort.Slice` with the comparison closure of `encodeDict` -/

theorem insertBack_perm {α : Type} (less : α → α → Bool) (x : α) (rev : List α) :
    (insertBack less x rev).Perm (x :: rev) := by
  induction rev with
  | nil => exact List.Perm.refl _
  | cons y r ih =>
    simp only [insertBack]
    split
    · exact ((List.Perm.cons y ih).trans (List.Perm.swap x y r))
    · exact List.Perm.refl _

theorem insertBack_sorted {α : Type} (x : List Nat × α) (rev : List (List Nat × α))
    (hs : rev.Pairwise fun p q => sortsBefore q.1 p.1 = true)
    (hx : ∀ y ∈ rev, y.1 ≠ x.1) :
    (insertBack pairLess x rev).Pairwise fun p q => sortsBefore q.1 p.1 = true := by
  induction rev with
  | nil => simp [insertBack]
  | cons y r ih =>
    rw [List.pairwise_cons] at hs
    have hyx : y.1 ≠ x.1 := hx y (by simp)
    simp only [insertBack]
    split
    · rename_i hless
      have hxy : sortsBefore x.1 y.1 = true := by
        rcases (keyLess_iff x.1 y.1).1 hless with h | h
        · exact h
        · exact absurd h.symm hyx
      rw [List.pairwise_cons]
      refine ⟨?_, ih hs.2 (fun z hz => hx z (by simp [hz]))⟩
      intro z hz
      rcases List.mem_cons.1 ((insertBack_perm pairLess x r).mem_iff.1 hz) with h | h
      · subst h; exact hxy
      · exact hs.1 z h
    · rename_i hless
      have hyx' : sortsBefore y.1 x.1 = true := by
        rcases sortsBefore_total y.1 x.1 hyx with h | h
        · exact h
        · exact absurd ((keyLess_iff x.1 y.1).2 (Or.inl h)) hless
      rw [List.pairwise_cons]
      refine ⟨?_, List.pairwise_cons.2 hs⟩
      intro z hz
      rcases List.mem_cons.1 hz with h | h
      · subst h; exact hyx'
      · exact sortsBefore_trans _ _ _ (hs.1 z h) hyx'

theorem foldl_insertBack {α : Type} (l rev : List (List Nat × α))
    (hs : rev.Pairwise fun p q => sortsBefore q.1 p.1 = true)
    (hn : ((rev ++ l).map Prod.fst).Nodup) :
    ((l.foldl (fun rev x => insertBack pairLess x rev) rev).Pairwise
        fun p q => sortsBefore q.1 p.1 = true) ∧
      (l.foldl (fun rev x => insertBack pairLess x rev) rev).Perm (rev ++ l) := by
  induction l generalizing rev with
  | nil => simpa using hs
  | cons x l ih =>
    have hp := insertBack_perm pairLess x rev
    have hx : ∀ y ∈ rev, y.1 ≠ x.1 := by
      intro y hy hc
      rw [List.map_append, List.nodup_append] at hn
      exact hn.2.2 (List.mem_map_of_mem Prod.fst hy) (by rw [hc]; simp)
    have hperm : (insertBack pairLess x rev ++ l).Perm (rev ++ x :: l) :=
      (List.Perm.append_right l hp).trans (by simpa using List.perm_middle.symm)
    have hn' : ((insertBack pairLess x rev ++ l).map Prod.fst).Nodup :=
      (List.Perm.map Prod.fst hperm).nodup_iff.2 hn
    have := ih (insertBack pairLess x rev) (insertBack_sorted x rev hs hx) hn'
    exact ⟨this.1, this.2.trans hperm⟩

theorem sortSlice_perm {α : Type} (l : List (List Nat × α))
    (hn : (l.map Prod.fst).Nodup) : (sortSlice pairLess l).Perm l := by
  unfold sortSlice
  have := (foldl_insertBack l [] List.Pairwise.nil (by simpa using hn)).2
  exact (List.reverse_perm _).trans (by simpa using this)

/-- On pairwise distinct keys `sort.Slice` leaves the pairs in strictly ascending
key order. -/
theorem sortSlice_sorted {α : Type} (l : List (List Nat × α))
    (hn : (l.map Prod.fst).Nodup) : keysSorted (sortSlice pairLess l) := by
  unfold sortSlice keysSorted
  rw [List.pairwise_reverse]
  exact (foldl_insertBack l [] List.Pairwise.nil (by simpa using hn)).1

theorem keysSorted_unique {α : Type} (l1 l2 : List (List Nat × α)) (hp : l1.Perm l2)
    (h1 : keysSorted l1) (h2 : keysSorted l2) : l1 = l2 := by
  haveI : IsAntisymm (List Nat × α) (fun p q => sortsBefore p.1 q.1 = true) :=
    ⟨fun p q hpq hqp => by
      rw [sortsBefore_asymm _ _ hpq] at hqp; exact absurd hqp (by simp)⟩
  exact List.eq_of_perm_of_sorted hp h1 h2

/-- Every list that holds the same pairs in strictly ascending key order is the
list `sort.Slice` returns: the outcome does not depend on the sorting
algorithm. -/
theorem sortSlice_unique {α : Type} (l l' : List (List Nat × α))
    (hn : (l.map Prod.fst).Nodup) (hp : l'.Perm l) (hs : keysSorted l') :
    sortSlice pairLess l = l' :=
  keysSorted_unique _ _ ((sortSlice_perm l hn).trans hp.symm) (sortSlice_sorted l hn) hs

theorem keysSorted_nodup {α : Type} (l : List (List Nat × α)) (h : keysSorted l) :
    (l.map Prod.fst).Nodup := by
  unfold keysSorted at h
  rw [List.Nodup, List.pairwise_map]
  refine h.imp ?_
  intro p q hpq hc
  rw [hc, sortsBefore_irrefl] at hpq
  exact absurd hpq (by simp)

theorem sortSlice_of_sorted {α : Type} (l : List (List Nat × α)) (h : keysSorted l) :
    sortSlice pairLess l = l :=
  sortSlice_unique l l (keysSorted_nodup l h) (List.Perm.refl _) h

/-! ## Round trip of the primitives -/

theorem Marshal_int (bits : Nat) (n : Int) :
    Marshal (.int bits n) = .ok (105 :: (FormatInt n ++ [101])) := rfl

theorem Marshal_str (s : List Nat) : Marshal (.str s) = .ok (encodeStringBytes s) := rfl

theorem Marshal_bytes (s : List Nat) : Marshal (.bytes s) = .ok (encodeStringBytes s) := rfl

theorem decodeF_int (g bits : Nat) (n : Int) (cur : Val) (rest : List Nat)
    (h1 : -2 ^ 63 ≤ n) (h2 : n < 2 ^ 63) :
    decodeF (g + 1) (105 :: (FormatInt n ++ 101 :: rest)) (.int bits) cur =
      .ok ((FormatInt n).length + 2, .int bits (wrapInt bits n)) := by
  rw [decodeF, if_neg (by simp)]
  simp only [decodeInt_FormatInt n h1 h2 rest, Res.bind_ok]

theorem decodeF_string (g : Nat) (s rest : List Nat) (cur : Val)
    (hlen : (encodeStringBytes s ++ rest).length < 2 ^ 63) :
    decodeF (g + 1) (encodeStringBytes s ++ rest) .string cur =
      .ok ((encodeStringBytes s).length, .str s) := by
  have hne : ¬ (encodeStringBytes s ++ rest).length = 0 := by
    simp [encodeStringBytes]
  rw [decodeF, if_neg hne]
  simp only [decodeString_encode s rest hlen, Res.bind_ok]

theorem decodeF_bytes (g : Nat) (s rest : List Nat) (elem : Ty) (cur : Val)
    (he : elem.isUint8 = true)
    (hlen : (encodeStringBytes s ++ rest).length < 2 ^ 63) :
    decodeF (g + 1) (encodeStringBytes s ++ rest) (.slice elem) cur =
      .ok ((encodeStringBytes s).length, .bytes s) := by
  have hne : ¬ (encodeStringBytes s ++ rest).length = 0 := by
    simp [encodeStringBytes]
  rw [decodeF, if_neg hne]
  simp only [he, if_true, decodeString_encode s rest hlen, Res.bind_ok]

theorem Unmarshal_of_decode (data : List Nat) (ty : Ty) (cur : Val) (n : Nat) (v : Val)
    (h : decodeF (data.length + 1) data ty cur = .ok (n, v)) :
    Unmarshal data ty cur = if n ≠ data.length then .err .remainingData else .ok v := by
  unfold Unmarshal decode
  rw [h]
  rfl

/-- C1: for every signed 64-bit integer `n`, `Marshal(n)` succeeds and `Unmarshal`
of its output into a signed 64-bit integer target succeeds and yields `n`. -/
theorem C1_int64_round_trip (n : Int) (cur : Val) (h1 : -2 ^ 63 ≤ n) (h2 : n < 2 ^ 63) :
    ∃ out, Marshal (.int 64 n) = .ok out ∧ Unmarshal out (.int 64) cur = .ok (.int 64 n) := by
  refine ⟨_, Marshal_int 64 n, ?_⟩
  have hd := decodeF_int (105 :: (FormatInt n ++ [101])).length 64 n cur [] h1 h2
  rw [Unmarshal_of_decode _ _ _ _ _ hd,
    wrapInt_of_range 64 n (by omega) (by simpa using h1) (by simpa using h2)]
  rw [if_neg (by simp)]

theorem C1_int64_round_trip_witness :
    ∃ out, Marshal (.int 64 (-9223372036854775808)) = .ok out ∧
      Unmarshal out (.int 64) (.int 64 0) = .ok (.int 64 (-9223372036854775808)) :=
  C1_int64_round_trip (-9223372036854775808) (.int 64 0) (by decide) (by decide)

/-- C2: for every byte sequence `s`, given as a string or as a `[]byte`,
`Marshal(s)` succeeds and `Unmarshal` of its output into a string target and
into a `[]byte` target succeeds and yields exactly `s`.  A `[]byte` reaches
`encodeString` through `normalize`, which makes a string of it; the nil
`[]byte` is encoded as the sequence without bytes.  The encoding is a Go slice,
so it is shorter than `2^63` bytes. -/
theorem C2_byte_string_round_trip (s : List Nat) (cur : Val)
    (hlen : (encodeStringBytes s).length < 2 ^ 63) :
    Marshal (.str s) = .ok (encodeStringBytes s) ∧
      Marshal (.bytes s) = .ok (encodeStringBytes s) ∧
      Unmarshal (encodeStringBytes s) .string cur = .ok (.str s) ∧
      Unmarshal (encodeStringBytes s) (.slice (.uint 8)) cur = .ok (.bytes s) ∧
      normalize (.bytes s) = .str s ∧
      Marshal .nilBytes = .ok (encodeStringBytes []) := by
  have h1 := decodeF_string (encodeStringBytes s).length s [] cur (by simpa using hlen)
  have h2 := decodeF_bytes (encodeStringBytes s).length s [] (.uint 8) cur rfl
    (by simpa using hlen)
  rw [List.append_nil] at h1 h2
  refine ⟨rfl, rfl, ?_, ?_, rfl, rfl⟩
  · rw [Unmarshal_of_decode _ _ _ _ _ h1, if_neg (by simp)]
  · rw [Unmarshal_of_decode _ _ _ _ _ h2, if_neg (by simp)]

theorem C2_byte_string_round_trip_witness :
    Marshal (.str (bs "i1:e")) = .ok (encodeStringBytes (bs "i1:e")) ∧
      Marshal (.bytes (bs "i1:e")) = .ok (encodeStringBytes (bs "i1:e")) ∧
      Unmarshal (encodeStringBytes (bs "i1:e")) .string (.str []) = .ok (.str (bs "i1:e")) ∧
      Unmarshal (encodeStringBytes (bs "i1:e")) (.slice (.uint 8)) (.str []) =
        .ok (.bytes (bs "i1:e")) ∧
      normalize (.bytes (bs "i1:e")) = .str (bs "i1:e") ∧
      Marshal .nilBytes = .ok (encodeStringBytes []) :=
  C2_byte_string_round_trip (bs "i1:e") (.str []) (by decide)

/-! ## Integer tokens with a leading zero, truncated input -/

/-- C10: in `decodeIntStr` the leading-zero test looks at the first byte of the
digit string, which is the sign for a negative number: `i-01e` decodes to `-1`
and `i-00e` to `0`, where the claim has them rejected.  The other tokens of the
claim behave as it says. -/
theorem C10_negative_leading_zero_is_accepted :
    Unmarshal (bs "i-01e") (.int 64) (.int 64 0) = .ok (.int 64 (-1)) ∧
      Unmarshal (bs "i-00e") (.int 64) (.int 64 0) = .ok (.int 64 0) ∧
      Unmarshal (bs "ie") (.int 64) (.int 64 0) = .err .emptyData ∧
      Unmarshal (bs "i-e") (.int 64) (.int 64 0) = .err .badNumber ∧
      Unmarshal (bs "i-0e") (.int 64) (.int 64 0) = .err .invalidInteger ∧
      Unmarshal (bs "i01e") (.int 64) (.int 64 0) = .err .leadingZero ∧
      Unmarshal (bs "i0e") (.int 64) (.int 64 0) = .ok (.int 64 0) :=
  ⟨rfl, rfl, rfl, rfl, rfl, rfl, rfl⟩

/-- C9: the scanning loops index `data[read]` without a bounds test that could
fail first, so every truncated input of the claim ends in a run-time panic
(index out of range) and not in an error value. -/
theorem C9_truncated_input_panics :
    Unmarshal (bs "i3") (.int 64) (.int 64 0) = .panic ∧
      Unmarshal (bs "i") (.int 64) (.int 64 0) = .panic ∧
      Unmarshal (bs "5") .string (.str []) = .panic ∧
      Unmarshal (bs "l") (.slice (.int 64)) (.list []) = .panic ∧
      Unmarshal (bs "d") (.map .string (.int 64)) (.map []) = .panic ∧
      Unmarshal (bs "li1e") (.slice (.int 64)) (.list []) = .panic :=
  ⟨rfl, rfl, rfl, rfl, rfl, rfl⟩

/-! ## A successful decode consumes between one byte and the whole input -/

theorem decodeIntStrLoop_bound (suffix : List Nat) (read : Nat) (value : List Nat)
    (r : Nat) (val : List Nat) (h : decodeIntStrLoop suffix read value = .ok (r, val)) :
    r < read + suffix.length := by
  induction suffix generalizing read value with
  | nil => simp [decodeIntStrLoop] at h
  | cons c rest ih =>
    simp only [decodeIntStrLoop] at h
    split at h
    · simp only [Res.ok.injEq, Prod.mk.injEq] at h
      simp only [List.length_cons]; omega
    · split at h
      · have := ih _ _ h
        simp only [List.length_cons]; omega
      · simp at h

theorem decodeIntStr_bound (data : List Nat) (n : Nat) (val : List Nat)
    (h : decodeIntStr data = .ok (n, val)) : 1 ≤ n ∧ n ≤ data.length := by
  unfold decodeIntStr at h
  split at h
  · simp at h
  · split at h
    · simp at h
    · split at h
      · simp at h
      · rename_i c hc
        have hlen : 1 < data.length := by
          rcases List.getElem?_eq_some_iff.1 hc with ⟨hl, _⟩
          exact hl
        obtain ⟨⟨r, v⟩, hloop, hrest⟩ := Res.bind_eq_ok h
        have hb := decodeIntStrLoop_bound _ _ _ _ _ hloop
        simp only [List.length_drop] at hb
        have hn : n = r + 1 := by
          dsimp only at hrest
          split at hrest
          · simp at hrest
          · split at hrest
            · simp at hrest
            · split at hrest
              · simp at hrest
              · simp only [Res.ok.injEq, Prod.mk.injEq] at hrest
                omega
        subst hn
        split at hb <;> omega

theorem decodeInt_bound (data : List Nat) (n : Nat) (x : Int)
    (h : decodeInt data = .ok (n, x)) : 1 ≤ n ∧ n ≤ data.length := by
  unfold decodeInt at h
  obtain ⟨⟨r, v⟩, h1, h2⟩ := Res.bind_eq_ok h
  obtain ⟨y, _, h4⟩ := Res.bind_eq_ok h2
  simp only [Res.ok.injEq, Prod.mk.injEq] at h4
  have := decodeIntStr_bound _ _ _ h1
  omega

theorem decodeUint_bound (data : List Nat) (n : Nat) (x : Nat)
    (h : decodeUint data = .ok (n, x)) : 1 ≤ n ∧ n ≤ data.length := by
  unfold decodeUint at h
  obtain ⟨⟨r, v⟩, h1, h2⟩ := Res.bind_eq_ok h
  obtain ⟨y, _, h4⟩ := Res.bind_eq_ok h2
  simp only [Res.ok.injEq, Prod.mk.injEq] at h4
  have := decodeIntStr_bound _ _ _ h1
  omega

theorem decodeString_bound (data : List Nat) (n : Nat) (s : List Nat)
    (h : decodeString data = .ok (n, s)) : 1 ≤ n ∧ n ≤ data.length := by
  unfold decodeString at h
  split at h
  · simp at h
  · obtain ⟨⟨r, v⟩, _, hrest⟩ := Res.bind_eq_ok h
    dsimp only at hrest
    split at hrest
    · simp at hrest
    · split at hrest
      · simp at hrest
      · obtain ⟨l, _, h3⟩ := Res.bind_eq_ok hrest
        split at h3
        · simp at h3
        · split at h3
          · simp at h3
          · simp only [Res.ok.injEq, Prod.mk.injEq] at h3
            omega

theorem readNextValueLoop_bound (rnv : List Nat → Res (Nat × List Nat)) (data : List Nat)
    (k read r : Nat) (h : readNextValueLoop rnv data k read = .ok r) : r < data.length := by
  induction k generalizing read with
  | zero => simp [readNextValueLoop] at h
  | succ k ih =>
    simp only [readNextValueLoop] at h
    split at h
    · simp at h
    · rename_i c hc
      split at h
      · simp only [Res.ok.injEq] at h
        subst h
        exact (List.getElem?_eq_some_iff.1 hc).1
      · obtain ⟨⟨n, d⟩, _, h2⟩ := Res.bind_eq_ok h
        exact ih _ h2

theorem readNextValueF_bound (fuel : Nat) (data : List Nat) (n : Nat) (d : List Nat)
    (h : readNextValueF fuel data = .ok (n, d)) : 1 ≤ n ∧ n ≤ data.length ∧ d = data.take n := by
  cases fuel with
  | zero => simp [readNextValueF] at h
  | succ fuel =>
    simp only [readNextValueF] at h
    split at h
    · simp at h
    · split at h
      · simp at h
      · split at h
        · obtain ⟨⟨r, x⟩, h1, h2⟩ := Res.bind_eq_ok h
          simp only [Res.ok.injEq, Prod.mk.injEq] at h2
          have := decodeInt_bound _ _ _ h1
          obtain ⟨rfl, rfl⟩ := h2
          exact ⟨this.1, this.2, rfl⟩
        · split at h
          · obtain ⟨r, h1, h2⟩ := Res.bind_eq_ok h
            simp only [Res.ok.injEq, Prod.mk.injEq] at h2
            have := readNextValueLoop_bound _ _ _ _ _ h1
            obtain ⟨rfl, rfl⟩ := h2
            exact ⟨by omega, by omega, rfl⟩
          · obtain ⟨⟨r, x⟩, h1, h2⟩ := Res.bind_eq_ok h
            simp only [Res.ok.injEq, Prod.mk.injEq] at h2
            have := decodeString_bound _ _ _ h1
            obtain ⟨rfl, rfl⟩ := h2
            exact ⟨this.1, this.2, rfl⟩

theorem decodeListLoop_bound (dec : List Nat → Res (Nat × Val)) (data : List Nat)
    (k read : Nat) (acc : List Val) (r : Nat) (res : List Val)
    (h : decodeListLoop dec data k read acc = .ok (r, res)) : r < data.length := by
  induction k generalizing read acc with
  | zero => simp [decodeListLoop] at h
  | succ k ih =>
    simp only [decodeListLoop] at h
    split at h
    · simp at h
    · rename_i c hc
      split at h
      · simp only [Res.ok.injEq, Prod.mk.injEq] at h
        obtain ⟨rfl, _⟩ := h
        exact (List.getElem?_eq_some_iff.1 hc).1
      · obtain ⟨⟨n, d⟩, _, h2⟩ := Res.bind_eq_ok h
        exact ih _ _ h2

theorem decodeDictLoop_bound (dec : List Nat → Res (Nat × Val)) (data : List Nat)
    (k read : Nat) (acc : List (List Nat × Val)) (r : Nat) (res : List (List Nat × Val))
    (h : decodeDictLoop dec data k read acc = .ok (r, res)) : r < data.length := by
  induction k generalizing read acc with
  | zero => simp [decodeDictLoop] at h
  | succ k ih =>
    simp only [decodeDictLoop] at h
    split at h
    · simp at h
    · rename_i c hc
      split at h
      · simp only [Res.ok.injEq, Prod.mk.injEq] at h
        obtain ⟨rfl, _⟩ := h
        exact (List.getElem?_eq_some_iff.1 hc).1
      · obtain ⟨⟨n, d⟩, _, h2⟩ := Res.bind_eq_ok h
        obtain ⟨⟨n', d'⟩, _, h3⟩ := Res.bind_eq_ok h2
        exact ih _ _ h3

theorem decodeStructLoop_bound (dec : Ty → List Nat → Res (Nat × Val))
    (fields : List (Field × Ty)) (data : List Nat)
    (k read : Nat) (vals : List (Field × Val)) (r : Nat) (res : List (Field × Val))
    (h : decodeStructLoop dec fields data k read vals = .ok (r, res)) : r < data.length := by
  induction k generalizing read vals with
  | zero => simp [decodeStructLoop] at h
  | succ k ih =>
    simp only [decodeStructLoop] at h
    split at h
    · simp at h
    · rename_i c hc
      split at h
      · simp only [Res.ok.injEq, Prod.mk.injEq] at h
        obtain ⟨rfl, _⟩ := h
        exact (List.getElem?_eq_some_iff.1 hc).1
      · obtain ⟨⟨n, d⟩, _, h2⟩ := Res.bind_eq_ok h
        dsimp only at h2
        split at h2
        · obtain ⟨⟨n', d'⟩, _, h3⟩ := Res.bind_eq_ok h2
          exact ih _ _ h3
        · split at h2
          · simp at h2
          · obtain ⟨⟨n', d'⟩, _, h3⟩ := Res.bind_eq_ok h2
            dsimp only at h3
            split at h3
            · simp at h3
            · exact ih _ _ h3

/-- A successful `decode` consumes at least one byte and at most the input. -/
theorem decodeF_bound (fuel : Nat) (data : List Nat) (ty : Ty) (cur : Val) (n : Nat) (v : Val)
    (h : decodeF fuel data ty cur = .ok (n, v)) : 1 ≤ n ∧ n ≤ data.length := by
  cases fuel with
  | zero => simp [decodeF] at h
  | succ fuel =>
    by_cases hlen : data.length = 0
    · cases ty <;> simp [decodeF, hlen] at h
    · cases ty with
      | bool =>
        rw [decodeF, if_neg hlen] at h
        obtain ⟨⟨r, x⟩, h1, h2⟩ := Res.bind_eq_ok h
        dsimp only at h2
        split at h2
        · simp at h2
        · simp only [Res.ok.injEq, Prod.mk.injEq] at h2
          have := decodeInt_bound _ _ _ h1
          omega
      | int bits =>
        rw [decodeF, if_neg hlen] at h
        obtain ⟨⟨r, x⟩, h1, h2⟩ := Res.bind_eq_ok h
        simp only [Res.ok.injEq, Prod.mk.injEq] at h2
        have := decodeInt_bound _ _ _ h1
        omega
      | uint bits =>
        rw [decodeF, if_neg hlen] at h
        obtain ⟨⟨r, x⟩, h1, h2⟩ := Res.bind_eq_ok h
        simp only [Res.ok.injEq, Prod.mk.injEq] at h2
        have := decodeUint_bound _ _ _ h1
        omega
      | string =>
        rw [decodeF, if_neg hlen] at h
        obtain ⟨⟨r, x⟩, h1, h2⟩ := Res.bind_eq_ok h
        simp only [Res.ok.injEq, Prod.mk.injEq] at h2
        have := decodeString_bound _ _ _ h1
        omega
      | slice elem =>
        rw [decodeF, if_neg hlen] at h
        dsimp only at h
        split at h
        · obtain ⟨⟨r, x⟩, h1, h2⟩ := Res.bind_eq_ok h
          simp only [Res.ok.injEq, Prod.mk.injEq] at h2
          have := decodeString_bound _ _ _ h1
          omega
        · unfold decodeList at h
          split at h
          · simp at h
          · split at h
            · simp at h
            · obtain ⟨⟨r, x⟩, h1, h2⟩ := Res.bind_eq_ok h
              simp only [Res.ok.injEq, Prod.mk.injEq] at h2
              have := decodeListLoop_bound _ _ _ _ _ _ _ h1
              omega
      | map key elem =>
        rw [decodeF, if_neg hlen] at h
        unfold decodeDict at h
        split at h
        · simp at h
        · split at h
          · simp at h
          · split at h
            · simp at h
            · obtain ⟨⟨r, x⟩, h1, h2⟩ := Res.bind_eq_ok h
              simp only [Res.ok.injEq, Prod.mk.injEq] at h2
              have := decodeDictLoop_bound _ _ _ _ _ _ _ h1
              omega
      | struct fields =>
        rw [decodeF, if_neg hlen] at h
        unfold decodeStruct at h
        split at h
        · split at h
          · simp at h
          · split at h
            · simp at h
            · obtain ⟨⟨r, x⟩, h1, h2⟩ := Res.bind_eq_ok h
              simp only [Res.ok.injEq, Prod.mk.injEq] at h2
              have := decodeStructLoop_bound _ _ _ _ _ _ _ _ h1
              omega
        · simp at h
      | iface => simp [decodeF, hlen] at h
      | other => simp [decodeF, hlen] at h
      | custom um =>
        rw [decodeF, if_neg hlen] at h
        obtain ⟨⟨r, x⟩, h1, h2⟩ := Res.bind_eq_ok h
        dsimp only at h2
        split at h2
        · simp at h2
        · simp only [Res.ok.injEq, Prod.mk.injEq] at h2
          have := readNextValueF_bound _ _ _ _ h1
          omega

/-! ## Trailing bytes -/

/-- C8: `Unmarshal` returns `ErrEmptyData` on empty data; when the internal
`decode` succeeds having consumed `n` bytes, `Unmarshal` returns no error iff
`n == len(data)` and `ErrRemainingData` iff `n < len(data)` (so for `i3e`
followed by a space); bytes that follow a nested element are no error: the
element decode of the list `li3ei4ee` runs on `i3ei4ee` and succeeds with 3
bytes consumed, and so does the value decode inside `d1:ai3e1:bi4ee`. -/
theorem C8_unmarshal_remaining_data (data : List Nat) (ty : Ty) (cur : Val) (n : Nat) (v : Val)
    (h : decode data ty cur = .ok (n, v)) :
    Unmarshal [] ty cur = .err .emptyData ∧
      (Unmarshal data ty cur = .ok v ↔ n = data.length) ∧
      (Unmarshal data ty cur = .err .remainingData ↔ n < data.length) ∧
      Unmarshal (bs "i3e ") (.int 64) (.int 64 0) = .err .remainingData ∧
      decode (bs "i3ei4ee") (.int 64) (.int 64 0) = .ok (3, .int 64 3) ∧
      Unmarshal (bs "li3ei4ee") (.slice (.int 64)) (.list []) =
        .ok (.list [.int 64 3, .int 64 4]) ∧
      decode (bs "i3e1:bi4ee") (.int 64) (.int 64 0) = .ok (3, .int 64 3) ∧
      Unmarshal (bs "d1:ai3e1:bi4ee") (.map .string (.int 64)) (.map []) =
        .ok (.map [(bs "a", .int 64 3), (bs "b", .int 64 4)]) := by
  have hb := decodeF_bound _ _ _ _ _ _ h
  have hu := Unmarshal_of_decode data ty cur n v h
  refine ⟨?_, ?_, ?_, rfl, rfl, rfl, rfl, rfl⟩
  · cases ty <;> rfl
  · rw [hu]
    constructor
    · intro h1
      by_contra hne
      rw [if_pos hne] at h1
      exact absurd h1 (by simp)
    · intro h1
      rw [if_neg (by simp [h1])]
  · rw [hu]
    constructor
    · intro h1
      by_contra hne
      have : n = data.length := by omega
      rw [if_neg (by simp [this])] at h1
      exact absurd h1 (by simp)
    · intro h1
      rw [if_pos (by omega)]

theorem C8_unmarshal_remaining_data_witness :
    Unmarshal [] (.int 64) (.int 64 0) = .err .emptyData ∧
      (Unmarshal (bs "i3e ") (.int 64) (.int 64 0) = .ok (.int 64 3) ↔ 3 = (bs "i3e ").length) ∧
      (Unmarshal (bs "i3e ") (.int 64) (.int 64 0) = .err .remainingData ↔
        3 < (bs "i3e ").length) ∧
      Unmarshal (bs "i3e ") (.int 64) (.int 64 0) = .err .remainingData ∧
      decode (bs "i3ei4ee") (.int 64) (.int 64 0) = .ok (3, .int 64 3) ∧
      Unmarshal (bs "li3ei4ee") (.slice (.int 64)) (.list []) =
        .ok (.list [.int 64 3, .int 64 4]) ∧
      decode (bs "i3e1:bi4ee") (.int 64) (.int 64 0) = .ok (3, .int 64 3) ∧
      Unmarshal (bs "d1:ai3e1:bi4ee") (.map .string (.int 64)) (.map []) =
        .ok (.map [(bs "a", .int 64 3), (bs "b", .int 64 4)]) :=
  C8_unmarshal_remaining_data (bs "i3e ") (.int 64) (.int 64 0) 3 (.int 64 3) rfl

/-! ## Embedded records -/

/-- C5: `structToMap` flattens an untagged embedded record, so the key `A` of
`Outer{Inner{A: 5}, B: 7}` is emitted at the top level; `decodeStruct` builds
`nameMapping` from the tag names of the direct fields only (the embedded field
under the empty name), finds no field for `A`, skips the pair, and the embedded
record comes back with `A = 0`. -/
theorem C5_embedded_field_is_not_restored :
    Marshal (exOuter 5 7) = .ok (bs "d1:Ai5e1:Bi7ee") ∧
      Unmarshal (bs "d1:Ai5e1:Bi7ee") exOuterTy exOuterTy.zero = .ok (exOuter 0 7) ∧
      mapGet (nameMapping [(⟨bs "Inner", [], true, true⟩, exInnerTy),
        (⟨bs "B", [], false, true⟩, .int 64)] 0 []) (bs "A") = none :=
  ⟨rfl, rfl, rfl⟩

/-! ## Determinism of `encodeDict` -/

theorem sizeMap_perm (l1 l2 : List (List Nat × Val)) (hp : l1.Perm l2) :
    Val.size.sizeMap l1 = Val.size.sizeMap l2 := by
  induction hp with
  | nil => rfl
  | cons x _ ih => obtain ⟨k, v⟩ := x; simp only [Val.size.sizeMap, ih]
  | swap x y l =>
    obtain ⟨k, v⟩ := x
    obtain ⟨k', v'⟩ := y
    simp only [Val.size.sizeMap]; omega
  | trans _ _ ih1 ih2 => exact ih1.trans ih2

/-- C7: the encoding of a dictionary depends only on its set of key/value pairs:
two enumeration orders of the same pairs with pairwise distinct keys give
byte-identical output of `encodeDict`, whatever the element encoder, and so of
`Marshal` on the map. -/
theorem C7_encodeDict_order_independent (marshal : Val → Res (List Nat))
    (l1 l2 : List (List Nat × Val)) (hp : l1.Perm l2) (hn : (l1.map Prod.fst).Nodup) :
    encodeDict marshal l1 = encodeDict marshal l2 ∧ Marshal (.map l1) = Marshal (.map l2) := by
  have hn2 : (l2.map Prod.fst).Nodup := (List.Perm.map Prod.fst hp).nodup_iff.1 hn
  have hs : sortSlice pairLess l1 = sortSlice pairLess l2 :=
    sortSlice_unique l1 _ hn ((sortSlice_perm l2 hn2).trans hp.symm) (sortSlice_sorted l2 hn2)
  refine ⟨by unfold encodeDict; rw [hs], ?_⟩
  have hsz : (Val.map l1).size = (Val.map l2).size := by
    simp only [Val.size, sizeMap_perm l1 l2 hp]
  unfold Marshal
  rw [hsz]
  simp only [Val.size]
  rw [Nat.add_comm 1, MarshalF, MarshalF]
  simp only [normalize]
  unfold encodeDict
  rw [hs]

theorem C7_encodeDict_order_independent_witness :
    encodeDict (MarshalF 1) [(bs "bb", .int 64 1), (bs "a", .str (bs "x"))] =
        encodeDict (MarshalF 1) [(bs "a", .str (bs "x")), (bs "bb", .int 64 1)] ∧
      Marshal (.map [(bs "bb", .int 64 1), (bs "a", .str (bs "x"))]) =
        Marshal (.map [(bs "a", .str (bs "x")), (bs "bb", .int 64 1)]) :=
  C7_encodeDict_order_independent (MarshalF 1) _ _ (List.Perm.swap _ _ []) (by decide)

/-! ## The loops of the encoder -/

theorem encodeListLoop_ok (m : Val → Res (List Nat)) (xs : List Val) (res out : List Nat)
    (h : encodeListLoop m xs res = .ok out) :
    (∀ x ∈ xs, m x = .ok (m x).bytes) ∧
      out = res ++ ((xs.map fun x => (m x).bytes).flatten ++ [101]) := by
  induction xs generalizing res with
  | nil =>
    simp only [encodeListLoop, Res.ok.injEq] at h
    simp [← h]
  | cons x xs ih =>
    simp only [encodeListLoop] at h
    obtain ⟨d, hd, h2⟩ := Res.bind_eq_ok h
    obtain ⟨h3, h4⟩ := ih _ h2
    have hx : m x = .ok (m x).bytes := by rw [hd]; rfl
    have hb : (m x).bytes = d := by rw [hd]; rfl
    refine ⟨?_, ?_⟩
    · intro y hy
      rcases List.mem_cons.1 hy with rfl | hy
      · exact hx
      · exact h3 y hy
    · rw [h4, List.map_cons, List.flatten_cons, hb]
      simp only [List.append_assoc]

theorem encodeListLoop_total (m : Val → Res (List Nat)) (xs : List Val) (res : List Nat)
    (h : ∀ x ∈ xs, ∃ e, m x = .ok e) : ∃ out, encodeListLoop m xs res = .ok out := by
  induction xs generalizing res with
  | nil => exact ⟨_, rfl⟩
  | cons x xs ih =>
    obtain ⟨e, he⟩ := h x (by simp)
    simp only [encodeListLoop, he, Res.bind_ok]
    exact ih _ (fun y hy => h y (by simp [hy]))

theorem encodeDictLoop_ok (m : Val → Res (List Nat)) (ps : List (List Nat × Val))
    (res out : List Nat) (h : encodeDictLoop m ps res = .ok out) :
    (∀ p ∈ ps, m p.2 = .ok (m p.2).bytes) ∧
      out = res ++
        ((ps.map fun p => encodeStringBytes p.1 ++ (m p.2).bytes).flatten ++ [101]) := by
  induction ps generalizing res with
  | nil =>
    simp only [encodeDictLoop, Res.ok.injEq] at h
    simp [← h]
  | cons x ps ih =>
    simp only [encodeDictLoop] at h
    obtain ⟨d, hd, h2⟩ := Res.bind_eq_ok h
    obtain ⟨h3, h4⟩ := ih _ h2
    have hx : m x.2 = .ok (m x.2).bytes := by rw [hd]; rfl
    have hb : (m x.2).bytes = d := by rw [hd]; rfl
    refine ⟨?_, ?_⟩
    · intro y hy
      rcases List.mem_cons.1 hy with rfl | hy
      · exact hx
      · exact h3 y hy
    · rw [h4, List.map_cons, List.flatten_cons, hb]
      simp only [List.append_assoc]

theorem encodeDictLoop_total (m : Val → Res (List Nat)) (ps : List (List Nat × Val))
    (res : List Nat) (h : ∀ p ∈ ps, ∃ e, m p.2 = .ok e) :
    ∃ out, encodeDictLoop m ps res = .ok out := by
  induction ps generalizing res with
  | nil => exact ⟨_, rfl⟩
  | cons x ps ih =>
    obtain ⟨e, he⟩ := h x (by simp)
    simp only [encodeDictLoop, he, Res.bind_ok]
    exact ih _ (fun y hy => h y (by simp [hy]))

/-! ## The loops of the decoder on well-formed input -/

theorem getElem?_after (pre e rest : List Nat) (c : Nat) (he : e.head? = some c) :
    (pre ++ (e ++ rest))[pre.length]? = some c := by
  rw [List.getElem?_append_right (Nat.le_refl _), Nat.sub_self]
  cases e with
  | nil => simp at he
  | cons a l => simpa using he

theorem decodeListLoop_spec (dec : List Nat → Res (Nat × Val)) (items : List (List Nat × Val)) :
    ∀ (pre rest : List Nat) (k : Nat) (acc : List Val),
      (∀ p ∈ items, readsBack dec p.1 p.2) → items.length < k →
      (pre ++ ((items.map Prod.fst).flatten ++ 101 :: rest)).length < 2 ^ 63 →
      decodeListLoop dec (pre ++ ((items.map Prod.fst).flatten ++ 101 :: rest)) k pre.length acc =
        .ok (pre.length + (items.map Prod.fst).flatten.length, acc ++ items.map Prod.snd) := by
  induction items with
  | nil =>
    intro pre rest k acc _ hk _
    cases k with
    | zero => omega
    | succ k =>
      simp only [List.map_nil, List.flatten_nil, List.nil_append, decodeListLoop]
      have : (pre ++ 101 :: rest)[pre.length]? = some 101 := by
        simpa using getElem?_after pre [101] rest 101 rfl
      rw [this]
      simp
  | cons p items ih =>
    intro pre rest k acc h hk hlen
    obtain ⟨e, w⟩ := p
    cases k with
    | zero => omega
    | succ k =>
      obtain ⟨hne, hhead, hdec⟩ := h (e, w) (by simp)
      obtain ⟨c, l, rfl⟩ : ∃ c l, e = c :: l := by
        cases e with
        | nil => exact absurd rfl hne
        | cons c l => exact ⟨c, l, rfl⟩
      have hc : c ≠ 101 := by simpa using hhead
      simp only [List.map_cons, List.flatten_cons] at hlen ⊢
      have hdata : pre ++ ((c :: l) ++ (items.map Prod.fst).flatten ++ 101 :: rest) =
          pre ++ ((c :: l) ++ ((items.map Prod.fst).flatten ++ 101 :: rest)) := by
        simp only [List.append_assoc]
      rw [hdata] at hlen ⊢
      rw [decodeListLoop, getElem?_after pre (c :: l) _ c rfl]
      simp only [hc, if_false, List.drop_left]
      rw [hdec _ (by simp only [List.length_append] at hlen ⊢; omega), Res.bind_ok]
      have hpre : pre.length + (c :: l).length = (pre ++ (c :: l)).length := by simp
      have hdata2 : pre ++ ((c :: l) ++ ((items.map Prod.fst).flatten ++ 101 :: rest)) =
          (pre ++ (c :: l)) ++ ((items.map Prod.fst).flatten ++ 101 :: rest) := by
        simp only [List.append_assoc]
      simp only []
      rw [hpre, hdata2, ih (pre ++ (c :: l)) rest k (acc ++ [w])
        (fun q hq => h q (by simp [hq])) (by simpa using hk) (by rw [← hdata2]; exact hlen)]
      refine congrArg Res.ok (Prod.ext ?_ ?_)
      · simp only [List.length_append, List.length_cons]; omega
      · simp

/-! ## Maps held in ascending key order -/

theorem mapSet_mem {α : Type} (m : List (List Nat × α)) (k : List Nat) (v : α)
    (p : List Nat × α) (h : p ∈ mapSet m k v) : p = (k, v) ∨ p ∈ m := by
  induction m with
  | nil => simpa [mapSet] using h
  | cons q m ih =>
    obtain ⟨k', v'⟩ := q
    simp only [mapSet] at h
    split at h
    · rcases List.mem_cons.1 h with h | h
      · exact Or.inl h
      · exact Or.inr (List.mem_cons_of_mem _ h)
    · split at h
      · rcases List.mem_cons.1 h with h | h
        · exact Or.inl h
        · exact Or.inr h
      · rcases List.mem_cons.1 h with h | h
        · exact Or.inr (by rw [h]; simp)
        · rcases ih h with h | h
          · exact Or.inl h
          · exact Or.inr (List.mem_cons_of_mem _ h)

theorem mapSet_perm {α : Type} (m : List (List Nat × α)) (k : List Nat) (v : α)
    (h : k ∉ m.map Prod.fst) : (mapSet m k v).Perm ((k, v) :: m) := by
  induction m with
  | nil => exact List.Perm.refl _
  | cons q m ih =>
    obtain ⟨k', v'⟩ := q
    simp only [List.map_cons, List.mem_cons, not_or] at h
    simp only [mapSet, h.1, if_false]
    split
    · exact List.Perm.refl _
    · exact (List.Perm.cons _ (ih h.2)).trans (List.Perm.swap _ _ _)

theorem mapSet_sorted {α : Type} (m : List (List Nat × α)) (k : List Nat) (v : α)
    (h : keysSorted m) : keysSorted (mapSet m k v) := by
  unfold keysSorted at *
  induction m with
  | nil => simp [mapSet]
  | cons q m ih =>
    obtain ⟨k', v'⟩ := q
    rw [List.pairwise_cons] at h
    simp only [mapSet]
    split
    · rename_i hk
      subst hk
      exact List.pairwise_cons.2 ⟨h.1, h.2⟩
    · rename_i hk
      split
      · rename_i hless
        have hlt : sortsBefore k k' = true := by
          rcases (keyLess_iff k k').1 hless with h' | h'
          · exact h'
          · exact absurd h' hk
        refine List.pairwise_cons.2 ⟨?_, List.pairwise_cons.2 h⟩
        intro p hp
        rcases List.mem_cons.1 hp with rfl | hp
        · exact hlt
        · exact sortsBefore_trans _ _ _ hlt (h.1 p hp)
      · rename_i hless
        have hlt : sortsBefore k' k = true := by
          rcases sortsBefore_total k' k (fun hc => hk hc.symm) with h' | h'
          · exact h'
          · exact absurd ((keyLess_iff k k').2 (Or.inl h')) hless
        refine List.pairwise_cons.2 ⟨?_, ih h.2⟩
        intro p hp
        rcases mapSet_mem m k v p hp with rfl | hp
        · exact hlt
        · exact h.1 p hp

theorem mapSet_append {α : Type} (m : List (List Nat × α)) (k : List Nat) (v : α)
    (h : ∀ p ∈ m, sortsBefore p.1 k = true) : mapSet m k v = m ++ [(k, v)] := by
  induction m with
  | nil => rfl
  | cons q m ih =>
    obtain ⟨k', v'⟩ := q
    have hq : sortsBefore k' k = true := h (k', v') (by simp)
    have hne : ¬ k = k' := by
      intro hc
      rw [hc, sortsBefore_irrefl] at hq
      exact absurd hq (by simp)
    simp only [mapSet, hne, if_false, keyLess_false k k' hq, Bool.false_eq_true,
      List.cons_append]
    rw [ih (fun p hp => h p (by simp [hp]))]

theorem foldl_mapSet_sorted {α : Type} (pairs acc : List (List Nat × α))
    (h : keysSorted (acc ++ pairs)) :
    pairs.foldl (fun d kv => mapSet d kv.1 kv.2) acc = acc ++ pairs := by
  induction pairs generalizing acc with
  | nil => simp
  | cons p pairs ih =>
    unfold keysSorted at h
    have h' := h
    rw [List.pairwise_append] at h
    have hacc : ∀ q ∈ acc, sortsBefore q.1 p.1 = true := fun q hq => h.2.2 q hq p (by simp)
    rw [List.foldl_cons, mapSet_append acc p.1 p.2 hacc]
    have : acc ++ [(p.1, p.2)] ++ pairs = acc ++ p :: pairs := by simp
    rw [ih (acc ++ [(p.1, p.2)]) (by unfold keysSorted; rw [this]; exact h'), this]

theorem foldl_mapSet_perm {α : Type} (pairs acc : List (List Nat × α))
    (hs : keysSorted acc) (hn : ((acc ++ pairs).map Prod.fst).Nodup) :
    keysSorted (pairs.foldl (fun d kv => mapSet d kv.1 kv.2) acc) ∧
      (pairs.foldl (fun d kv => mapSet d kv.1 kv.2) acc).Perm (acc ++ pairs) := by
  induction pairs generalizing acc with
  | nil => simpa using hs
  | cons p pairs ih =>
    have hk : p.1 ∉ acc.map Prod.fst := by
      intro hc
      rw [List.map_append, List.nodup_append] at hn
      exact hn.2.2 hc (by simp)
    have hp := mapSet_perm acc p.1 p.2 hk
    have hperm : (mapSet acc p.1 p.2 ++ pairs).Perm (acc ++ p :: pairs) :=
      (List.Perm.append_right pairs hp).trans (by simpa using List.perm_middle.symm)
    have hn' : ((mapSet acc p.1 p.2 ++ pairs).map Prod.fst).Nodup :=
      (List.Perm.map Prod.fst hperm).nodup_iff.2 hn
    have := ih (mapSet acc p.1 p.2) (mapSet_sorted acc p.1 p.2 hs) hn'
    exact ⟨this.1, this.2.trans hperm⟩

theorem mapGet_mapSet {α : Type} (m : List (List Nat × α)) (k k' : List Nat) (v : α) :
    mapGet (mapSet m k v) k' = if k' = k then some v else mapGet m k' := by
  induction m with
  | nil => simp [mapSet, mapGet]
  | cons q m ih =>
    obtain ⟨k0, v0⟩ := q
    simp only [mapSet]
    split
    · rename_i hk
      subst hk
      simp only [mapGet]
      split <;> rfl
    · rename_i hk
      split
      · simp only [mapGet]
      · simp only [mapGet, ih]
        by_cases h0 : k' = k0
        · subst h0
          have : ¬ k' = k := fun hc => hk hc.symm
          simp [this]
        · simp [h0]

theorem encodeStringBytes_head (key : List Nat) :
    ∃ c l, encodeStringBytes key = c :: l ∧ isDigit c = true := by
  unfold encodeStringBytes
  rw [ItoaNat]
  have hne := FormatUint_ne_nil key.length
  have hd := FormatUint_digits key.length
  cases hfm : FormatUint key.length with
  | nil => exact absurd hfm hne
  | cons c l =>
    refine ⟨c, l ++ [58] ++ key, by simp, hd c (by rw [hfm]; simp)⟩

theorem decodeDictLoop_spec (dec : List Nat → Res (Nat × Val))
    (items : List (List Nat × List Nat × Val)) :
    ∀ (pre rest : List Nat) (k : Nat) (acc : List (List Nat × Val)),
      (∀ p ∈ items, readsBack dec p.2.1 p.2.2) → items.length < k →
      (pre ++ ((items.map fun p => encodeStringBytes p.1 ++ p.2.1).flatten ++
        101 :: rest)).length < 2 ^ 63 →
      decodeDictLoop dec
          (pre ++ ((items.map fun p => encodeStringBytes p.1 ++ p.2.1).flatten ++ 101 :: rest))
          k pre.length acc =
        .ok (pre.length + (items.map fun p => encodeStringBytes p.1 ++ p.2.1).flatten.length,
          (items.map fun p => (p.1, p.2.2)).foldl (fun d kv => mapSet d kv.1 kv.2) acc) := by
  induction items with
  | nil =>
    intro pre rest k acc _ hk _
    cases k with
    | zero => omega
    | succ k =>
      simp only [List.map_nil, List.flatten_nil, List.nil_append, decodeDictLoop]
      have : (pre ++ 101 :: rest)[pre.length]? = some 101 := by
        simpa using getElem?_after pre [101] rest 101 rfl
      rw [this]
      simp
  | cons p items ih =>
    intro pre rest k acc h hk hlen
    obtain ⟨key, e, w⟩ := p
    cases k with
    | zero => omega
    | succ k =>
      obtain ⟨_, _, hdec⟩ := h (key, e, w) (by simp)
      obtain ⟨c, l, hcl, hdig⟩ := encodeStringBytes_head key
      have hc : c ≠ 101 := by
        have := (isDigit_iff c).1 hdig
        omega
      simp only [List.map_cons, List.flatten_cons] at hlen ⊢
      have hdata : pre ++ (encodeStringBytes key ++ e ++
            (items.map fun p => encodeStringBytes p.1 ++ p.2.1).flatten ++ 101 :: rest) =
          pre ++ (encodeStringBytes key ++ (e ++
            ((items.map fun p => encodeStringBytes p.1 ++ p.2.1).flatten ++ 101 :: rest))) := by
        simp only [List.append_assoc]
      rw [hdata] at hlen ⊢
      rw [decodeDictLoop, getElem?_after pre (encodeStringBytes key) _ c (by rw [hcl]; rfl)]
      simp only [hc, if_false, List.drop_left]
      rw [decodeString_encode key _ (by simp only [List.length_append] at hlen ⊢; omega),
        Res.bind_ok]
      have hpre1 : pre.length + (encodeStringBytes key).length =
          (pre ++ encodeStringBytes key).length := by simp
      have hdata1 : pre ++ (encodeStringBytes key ++ (e ++
            ((items.map fun p => encodeStringBytes p.1 ++ p.2.1).flatten ++ 101 :: rest))) =
          (pre ++ encodeStringBytes key) ++ (e ++
            ((items.map fun p => encodeStringBytes p.1 ++ p.2.1).flatten ++ 101 :: rest)) := by
        simp only [List.append_assoc]
      simp only []
      rw [hpre1, hdata1, List.drop_left,
        hdec _ (by rw [hdata1] at hlen; simp only [List.length_append] at hlen ⊢; omega),
        Res.bind_ok]
      have hpre2 : (pre ++ encodeStringBytes key).length + e.length =
          (pre ++ encodeStringBytes key ++ e).length := by
        simp only [List.length_append]
      have hdata2 : (pre ++ encodeStringBytes key) ++ (e ++
            ((items.map fun p => encodeStringBytes p.1 ++ p.2.1).flatten ++ 101 :: rest)) =
          (pre ++ encodeStringBytes key ++ e) ++
            ((items.map fun p => encodeStringBytes p.1 ++ p.2.1).flatten ++ 101 :: rest) := by
        simp only [List.append_assoc]
      simp only []
      rw [hpre2, hdata2, ih (pre ++ encodeStringBytes key ++ e) rest k (mapSet acc key w)
        (fun q hq => h q (by simp [hq])) (by simpa using hk)
        (by rw [← hdata2, ← hdata1]; exact hlen)]
      refine congrArg Res.ok (Prod.ext ?_ ?_)
      · simp only [List.length_append]; omega
      · simp

/-! ## Values and their types -/

theorem allTy_iff (t : Ty) (xs : List Val) :
    hasTy.allTy t xs = true ↔ ∀ x ∈ xs, hasTy t x = true := by
  induction xs with
  | nil => simp [hasTy.allTy]
  | cons x xs ih => simp [hasTy.allTy, ih]

theorem allTyMap_iff (t : Ty) (kvs : List (List Nat × Val)) :
    hasTy.allTyMap t kvs = true ↔ ∀ p ∈ kvs, hasTy t p.2 = true := by
  induction kvs with
  | nil => simp [hasTy.allTyMap]
  | cons x xs ih =>
    obtain ⟨k, v⟩ := x
    simp [hasTy.allTyMap, ih]

theorem restoredList_eq (t : Ty) (xs : List Val) :
    restored.restoredList t xs = xs.map (restored t) := by
  induction xs with
  | nil => rfl
  | cons x xs ih => simp [restored.restoredList, ih]

theorem restoredMap_eq (t : Ty) (kvs : List (List Nat × Val)) :
    restored.restoredMap t kvs = kvs.map fun p => (p.1, restored t p.2) := by
  induction kvs with
  | nil => rfl
  | cons x xs ih =>
    obtain ⟨k, v⟩ := x
    simp [restored.restoredMap, ih]

theorem length_le_flatten (es : List (List Nat)) (e : List Nat) (h : e ∈ es) :
    e.length ≤ es.flatten.length := by
  induction es with
  | nil => simp at h
  | cons a es ih =>
    rcases List.mem_cons.1 h with rfl | h
    · simp
    · have := ih h
      simp only [List.flatten_cons, List.length_append]; omega

theorem length_le_flatten_length (es : List (List Nat)) (h : ∀ e ∈ es, e ≠ []) :
    es.length ≤ es.flatten.length := by
  induction es with
  | nil => simp
  | cons a es ih =>
    have ha : 0 < a.length := List.length_pos.2 (h a (by simp))
    have := ih (fun e he => h e (by simp [he]))
    simp only [List.flatten_cons, List.length_append, List.length_cons]; omega

theorem sortSlice_map {α β : Type} (l : List (List Nat × α)) (g : α → β)
    (hn : (l.map Prod.fst).Nodup) :
    sortSlice pairLess (l.map fun p => (p.1, g p.2)) =
      (sortSlice pairLess l).map fun p => (p.1, g p.2) := by
  have hkeys : ∀ l' : List (List Nat × α),
      (l'.map fun p => (p.1, g p.2)).map Prod.fst = l'.map Prod.fst := by
    intro l'; simp [List.map_map, Function.comp_def]
  apply sortSlice_unique
  · rw [hkeys]; exact hn
  · exact List.Perm.map _ (sortSlice_perm l hn)
  · have := sortSlice_sorted l hn
    unfold keysSorted at *
    rw [List.pairwise_map]
    exact this

/-! ## Round trip of slices and maps, given the round trip of their elements -/

theorem slice_round_trip (m : Val → Res (List Nat)) (elem : Ty) (xs : List Val)
    (out : List Nat) (g : Nat) (cur : Val) (he : elem.isUint8 = false)
    (h : encodeList m xs = .ok out)
    (ih : ∀ x ∈ xs, ∀ o, m x = .ok o → o.length < g →
      readsBack (fun d => decodeF g d elem elem.zero) o (restored elem x))
    (hg : out.length < g + 1) :
    readsBack (fun d => decodeF (g + 1) d (.slice elem) cur) out
      (.list (xs.map (restored elem))) := by
  obtain ⟨hall, hout⟩ := encodeListLoop_ok m xs [108] out h
  have hitems : (xs.map fun x => ((m x).bytes, restored elem x)).map Prod.fst =
      xs.map fun x => (m x).bytes := by
    simp [List.map_map, Function.comp_def]
  have hvals : (xs.map fun x => ((m x).bytes, restored elem x)).map Prod.snd =
      xs.map (restored elem) := by
    simp [List.map_map, Function.comp_def]
  have hlen : out.length = (xs.map fun x => (m x).bytes).flatten.length + 2 := by
    rw [hout]; simp
  have hrb : ∀ p ∈ xs.map fun x => ((m x).bytes, restored elem x),
      readsBack (fun d => decodeF g d elem elem.zero) p.1 p.2 := by
    intro p hp
    obtain ⟨x, hx, rfl⟩ := List.mem_map.1 hp
    refine ih x hx _ (hall x hx) ?_
    have := length_le_flatten (xs.map fun x => (m x).bytes) (m x).bytes
      (List.mem_map.2 ⟨x, hx, rfl⟩)
    show (m x).bytes.length < g
    omega
  have hcount : (xs.map fun x => ((m x).bytes, restored elem x)).length < g := by
    have h1 := length_le_flatten_length (xs.map fun x => (m x).bytes) (by
      intro e he'
      obtain ⟨x, hx, rfl⟩ := List.mem_map.1 he'
      exact (hrb _ (List.mem_map.2 ⟨x, hx, rfl⟩)).1)
    simp only [List.length_map] at h1 ⊢
    omega
  refine ⟨by rw [hout]; simp, by rw [hout]; simp, ?_⟩
  intro tail htail
  have hdata : out ++ tail = [108] ++ (((xs.map fun x => ((m x).bytes, restored elem x)).map
      Prod.fst).flatten ++ 101 :: tail) := by
    rw [hout, hitems]; simp
  have hloop := decodeListLoop_spec (fun d => decodeF g d elem elem.zero)
    (xs.map fun x => ((m x).bytes, restored elem x)) [108] tail g [] hrb hcount
    (by rw [← hdata]; exact htail)
  rw [show ([108] : List Nat).length = 1 from rfl] at hloop
  show decodeF (g + 1) (out ++ tail) (.slice elem) cur = _
  rw [decodeF, if_neg (by rw [hout]; simp)]
  simp only [he, Bool.false_eq_true, if_false]
  unfold decodeList
  rw [if_neg (by rw [hout]; simp), if_neg (by rw [hout]; simp), hdata, hloop, Res.bind_ok]
  refine congrArg Res.ok (Prod.ext ?_ ?_)
  · simp only [hitems]
    rw [hlen]
    omega
  · simp only [hvals, List.nil_append]

theorem map_round_trip (m : Val → Res (List Nat)) (key elem : Ty)
    (kvs : List (List Nat × Val)) (out : List Nat) (g : Nat) (cur : Val)
    (hk : key.isString = true) (hn : (kvs.map Prod.fst).Nodup)
    (h : encodeDict m kvs = .ok out)
    (ih : ∀ p ∈ kvs, ∀ o, m p.2 = .ok o → o.length < g →
      readsBack (fun d => decodeF g d elem elem.zero) o (restored elem p.2))
    (hg : out.length < g + 1) :
    readsBack (fun d => decodeF (g + 1) d (.map key elem) cur) out
      (.map (sortSlice pairLess (kvs.map fun p => (p.1, restored elem p.2)))) := by
  unfold encodeDict at h
  have hperm := sortSlice_perm kvs hn
  have hsorted := sortSlice_sorted kvs hn
  generalize sortSlice pairLess kvs = sorted at h hperm hsorted
  obtain ⟨hall, hout⟩ := encodeDictLoop_ok m sorted [100] out h
  have hwire : (sorted.map fun p => (p.1, (m p.2).bytes, restored elem p.2)).map
      (fun p => encodeStringBytes p.1 ++ p.2.1) =
      sorted.map fun p => encodeStringBytes p.1 ++ (m p.2).bytes := by
    simp [List.map_map, Function.comp_def]
  have hvals : (sorted.map fun p => (p.1, (m p.2).bytes, restored elem p.2)).map
      (fun p => (p.1, p.2.2)) = sorted.map fun p => (p.1, restored elem p.2) := by
    simp [List.map_map, Function.comp_def]
  have hlen : out.length =
      (sorted.map fun p => encodeStringBytes p.1 ++ (m p.2).bytes).flatten.length + 2 := by
    rw [hout]; simp
  have hrb : ∀ p ∈ sorted.map fun p => (p.1, (m p.2).bytes, restored elem p.2),
      readsBack (fun d => decodeF g d elem elem.zero) p.2.1 p.2.2 := by
    intro p hp
    obtain ⟨x, hx, rfl⟩ := List.mem_map.1 hp
    refine ih x (hperm.mem_iff.1 hx) _ (hall x hx) ?_
    have := length_le_flatten (sorted.map fun p => encodeStringBytes p.1 ++ (m p.2).bytes)
      (encodeStringBytes x.1 ++ (m x.2).bytes) (List.mem_map.2 ⟨x, hx, rfl⟩)
    simp only [List.length_append] at this
    show (m x.2).bytes.length < g
    omega
  have hcount : (sorted.map fun p => (p.1, (m p.2).bytes, restored elem p.2)).length < g := by
    have h1 := length_le_flatten_length
      (sorted.map fun p => encodeStringBytes p.1 ++ (m p.2).bytes) (by
        intro e he'
        obtain ⟨x, _, rfl⟩ := List.mem_map.1 he'
        obtain ⟨c, l, hcl, _⟩ := encodeStringBytes_head x.1
        rw [hcl]; simp)
    simp only [List.length_map] at h1 ⊢
    omega
  have hres : (sorted.map fun p => (p.1, restored elem p.2)).foldl
      (fun d kv => mapSet d kv.1 kv.2) [] =
      sortSlice pairLess (kvs.map fun p => (p.1, restored elem p.2)) := by
    have hs' : keysSorted (sorted.map fun p => (p.1, restored elem p.2)) := by
      unfold keysSorted at *
      rw [List.pairwise_map]
      exact hsorted
    rw [foldl_mapSet_sorted _ [] (by simpa using hs')]
    symm
    apply sortSlice_unique
    · simpa [List.map_map, Function.comp_def] using hn
    · simpa using List.Perm.map (fun p : List Nat × Val => (p.1, restored elem p.2)) hperm
    · simpa using hs'
  refine ⟨by rw [hout]; simp, by rw [hout]; simp, ?_⟩
  intro tail htail
  have hdata : out ++ tail = [100] ++ (((sorted.map fun p =>
      (p.1, (m p.2).bytes, restored elem p.2)).map
        fun p => encodeStringBytes p.1 ++ p.2.1).flatten ++ 101 :: tail) := by
    rw [hout, hwire]; simp
  have hloop := decodeDictLoop_spec (fun d => decodeF g d elem elem.zero)
    (sorted.map fun p => (p.1, (m p.2).bytes, restored elem p.2)) [100] tail g [] hrb hcount
    (by rw [← hdata]; exact htail)
  rw [show ([100] : List Nat).length = 1 from rfl] at hloop
  show decodeF (g + 1) (out ++ tail) (.map key elem) cur = _
  rw [decodeF, if_neg (by rw [hout]; simp)]
  unfold decodeDict
  rw [if_neg (by rw [hout]; simp), if_neg (by rw [hout]; simp), if_neg (by simp [hk]),
    hdata, hloop, Res.bind_ok]
  refine congrArg Res.ok (Prod.ext ?_ ?_)
  · simp only [hwire]
    rw [hlen]
    omega
  · simp only [hvals, hres]

/-! ## Records: tags, `structToMap` and `nameMapping` -/

theorem newTag_skip_name (f : Field) (h : (newTag f).Skip = true) : (newTag f).Name = [] := by
  by_cases h1 : f.exported = false
  · simp [newTag, h1]
  · by_cases h2 : f.directive = []
    · by_cases h3 : f.anonymous = true <;> simp [newTag, h1, h2, h3] at h
    · cases h3 : split 44 f.directive with
      | nil => simp [newTag, h1, h2, h3] at h
      | cons first options =>
        by_cases h4 : first = bs "-"
        · simp [newTag, h1, h2, h3, h4]
        · simp [newTag, h1, h2, h3, h4] at h

theorem newTag_skip_of_unexported (f : Field) (h : f.exported = false) :
    (newTag f).Skip = true := by
  simp [newTag, h]

theorem fieldsToMap_eq (fs : List (Field × Val)) (e : Bool) (dict : List (List Nat × Val))
    (h : ∀ p ∈ fs, p.1.anonymous = false) :
    structToMap.fieldsToMap fs e dict =
      .ok ((emitted fs e).foldl (fun d kv => mapSet d kv.1 kv.2) dict) := by
  induction fs generalizing dict with
  | nil => rfl
  | cons p fs ih =>
    obtain ⟨f, v⟩ := p
    have ha : f.anonymous = false := h (f, v) (by simp)
    have ih' := fun d => ih d (fun q hq => h q (by simp [hq]))
    simp only [structToMap.fieldsToMap, emitted, List.filterMap_cons]
    by_cases h1 : (newTag f).Skip = true
    · simp only [h1, if_true, Bool.true_or]
      exact ih' dict
    · by_cases h2 : ((newTag f).OmitEmpty && e) = true
      · simp only [h1, h2, if_true, Bool.or_true, if_false]
        exact ih' dict
      · simp only [h1, h2, if_false, ha, Bool.false_and, Bool.false_eq_true, Bool.or_self,
          List.foldl_cons]
        exact ih' _

theorem emitted_keys_sublist {α : Type} (fs : List (Field × α)) (e : Bool) :
    ((emitted fs e).map Prod.fst).Sublist (wireNames (fs.map Prod.fst)) := by
  induction fs with
  | nil => simp [emitted, wireNames]
  | cons p fs ih =>
    obtain ⟨f, v⟩ := p
    unfold emitted wireNames at *
    simp only [List.filterMap_cons, List.map_cons, List.filter_cons]
    by_cases h1 : (newTag f).Skip = true
    · simp only [h1, Bool.true_or, if_true, Bool.not_true, Bool.false_eq_true, if_false]
      exact ih
    · simp only [Bool.not_eq_true] at h1
      by_cases h2 : ((newTag f).OmitEmpty && e) = true
      · simp only [h1, h2, Bool.or_true, if_true, Bool.not_false, List.map_cons]
        exact List.Sublist.cons _ ih
      · simp only [Bool.not_eq_true] at h2
        simp only [h1, h2, Bool.or_self, Bool.false_eq_true, if_false, Bool.not_false, if_true,
          List.map_cons]
        exact List.Sublist.cons₂ _ ih

theorem mem_emitted {α : Type} (fs : List (Field × α)) (e : Bool) (k : List Nat) (v : α) :
    (k, v) ∈ emitted fs e ↔
      ∃ f, (f, v) ∈ fs ∧ (newTag f).Skip = false ∧ ((newTag f).OmitEmpty && e) = false ∧
        (newTag f).Name = k := by
  unfold emitted
  rw [List.mem_filterMap]
  constructor
  · rintro ⟨⟨f, v'⟩, hmem, h⟩
    by_cases h1 : ((newTag f).Skip || ((newTag f).OmitEmpty && e)) = true
    · simp [h1] at h
    · simp only [h1, if_false, Option.some.injEq, Prod.mk.injEq, Bool.false_eq_true] at h
      simp only [Bool.or_eq_true, not_or, Bool.not_eq_true] at h1
      obtain ⟨rfl, rfl⟩ := h
      exact ⟨f, hmem, h1.1, h1.2, rfl⟩
  · rintro ⟨f, hmem, h1, h2, rfl⟩
    exact ⟨(f, v), hmem, by simp [h1, h2]⟩

theorem nameMapping_notin (fields : List (Field × Ty)) (i : Nat) (m : List (List Nat × Nat))
    (k : List Nat) (h : ∀ p ∈ fields, (newTag p.1).Name ≠ k) :
    mapGet (nameMapping fields i m) k = mapGet m k := by
  induction fields generalizing i m with
  | nil => rfl
  | cons p fields ih =>
    obtain ⟨f, t⟩ := p
    have hf : ¬ k = (newTag f).Name := fun hc => h (f, t) (by simp) hc.symm
    rw [nameMapping, ih _ _ (fun q hq => h q (by simp [hq])), mapGet_mapSet, if_neg hf]

theorem setNamed_notin (vals : List (Field × Val)) (k : List Nat) (w : Val)
    (h : ∀ p ∈ vals, (newTag p.1).Name ≠ k) : setNamed vals k w = vals := by
  unfold setNamed
  conv_rhs => rw [← List.map_id vals]
  apply List.map_congr_left
  intro p hp
  simp [h p hp]

theorem nameMapping_unique (fields : List (Field × Ty)) (k : List Nat) :
    ∀ (i0 : Nat) (m : List (List Nat × Nat)),
      (fields.map fun p => (newTag p.1).Name).count k = 1 →
      ∃ num f t, mapGet (nameMapping fields i0 m) k = some (i0 + num) ∧
        fields[num]? = some (f, t) ∧ (newTag f).Name = k ∧
        ∀ (vals : List (Field × Val)) (w : Val), vals.map Prod.fst = fields.map Prod.fst →
          vals.set num (f, w) = setNamed vals k w := by
  induction fields with
  | nil => intro i0 m h; simp at h
  | cons p fields ih =>
    intro i0 m h
    obtain ⟨f, t⟩ := p
    by_cases hk : (newTag f).Name = k
    · have hrest : ∀ q ∈ fields, (newTag q.1).Name ≠ k := by
        intro q hq hc
        have hmem : k ∈ fields.map fun p => (newTag p.1).Name :=
          List.mem_map.2 ⟨q, hq, hc⟩
        have hpos := List.count_pos_iff.2 hmem
        simp only [List.map_cons, hk, List.count_cons_self] at h
        omega
      refine ⟨0, f, t, ?_, by simp, hk, ?_⟩
      · rw [nameMapping, nameMapping_notin _ _ _ _ hrest, mapGet_mapSet, hk]
        simp
      · intro vals w hv
        cases vals with
        | nil => simp at hv
        | cons q vals =>
          obtain ⟨g, x⟩ := q
          simp only [List.map_cons, List.cons.injEq] at hv
          obtain ⟨rfl, hv⟩ := hv
          have hrest' : ∀ q ∈ vals, (newTag q.1).Name ≠ k := by
            intro q hq hc
            have hq1 : q.1 ∈ vals.map Prod.fst := List.mem_map_of_mem Prod.fst hq
            rw [hv] at hq1
            obtain ⟨q', hq', hq1'⟩ := List.mem_map.1 hq1
            exact hrest q' hq' (by rw [hq1']; exact hc)
          have := setNamed_notin vals k w hrest'
          unfold setNamed at this ⊢
          simp only [List.set_cons_zero, List.map_cons, hk, if_true, this]
    · have hcount : (fields.map fun p => (newTag p.1).Name).count k = 1 := by
        simpa [List.count_cons, hk] using h
      obtain ⟨num, f', t', h1, h2, h3, h4⟩ := ih (i0 + 1) (mapSet m (newTag f).Name i0) hcount
      refine ⟨num + 1, f', t', ?_, by simpa using h2, h3, ?_⟩
      · rw [nameMapping, h1]
        congr 1; omega
      · intro vals w hv
        cases vals with
        | nil => simp at hv
        | cons q vals =>
          obtain ⟨g, x⟩ := q
          simp only [List.map_cons, List.cons.injEq] at hv
          obtain ⟨rfl, hv⟩ := hv
          have := h4 vals w hv
          unfold setNamed at this ⊢
          simp only [List.set_cons_succ, List.map_cons, hk, if_false, this]

theorem count_names (fs : List Field) (k : List Nat) (hk : k ≠ []) :
    (fs.map fun f => (newTag f).Name).count k = (wireNames fs).count k := by
  induction fs with
  | nil => rfl
  | cons f fs ih =>
    unfold wireNames at *
    simp only [List.map_cons, List.filter_cons]
    by_cases h1 : (newTag f).Skip = true
    · have hn := newTag_skip_name f h1
      have hne : ¬ (newTag f).Name = k := by rw [hn]; exact fun hc => hk hc.symm
      simp only [h1, Bool.not_true, Bool.false_eq_true, if_false]
      rw [List.count_cons, ih]
      simp [hne]
    · simp only [Bool.not_eq_true] at h1
      simp only [h1, Bool.not_false, if_true, List.map_cons, List.count_cons, ih]

theorem setNamed_fst (vals : List (Field × Val)) (k : List Nat) (w : Val) :
    (setNamed vals k w).map Prod.fst = vals.map Prod.fst := by
  unfold setNamed
  rw [List.map_map]
  apply List.map_congr_left
  intro p _
  simp only [Function.comp]
  split <;> rfl

theorem decodeStructLoop_spec (dec : Ty → List Nat → Res (Nat × Val))
    (fields : List (Field × Ty)) (items : List (List Nat × List Nat × Val)) :
    ∀ (pre rest : List Nat) (k : Nat) (vals : List (Field × Val)),
      (∀ p ∈ items, ∃ num f t, mapGet (nameMapping fields 0 []) p.1 = some num ∧
        fields[num]? = some (f, t) ∧ f.exported = true ∧ readsBack (dec t) p.2.1 p.2.2 ∧
        ∀ vals' : List (Field × Val), vals'.map Prod.fst = fields.map Prod.fst →
          vals'.set num (f, p.2.2) = setNamed vals' p.1 p.2.2) →
      vals.map Prod.fst = fields.map Prod.fst →
      items.length < k →
      (pre ++ ((items.map fun p => encodeStringBytes p.1 ++ p.2.1).flatten ++
        101 :: rest)).length < 2 ^ 63 →
      decodeStructLoop dec fields
          (pre ++ ((items.map fun p => encodeStringBytes p.1 ++ p.2.1).flatten ++ 101 :: rest))
          k pre.length vals =
        .ok (pre.length + (items.map fun p => encodeStringBytes p.1 ++ p.2.1).flatten.length,
          items.foldl (fun vs it => setNamed vs it.1 it.2.2) vals) := by
  induction items with
  | nil =>
    intro pre rest k vals _ _ hk _
    cases k with
    | zero => omega
    | succ k =>
      simp only [List.map_nil, List.flatten_nil, List.nil_append, decodeStructLoop]
      have : (pre ++ 101 :: rest)[pre.length]? = some 101 := by
        simpa using getElem?_after pre [101] rest 101 rfl
      rw [this]
      simp
  | cons p items ih =>
    intro pre rest k vals h hvals hk hlen
    obtain ⟨key, e, w⟩ := p
    cases k with
    | zero => omega
    | succ k =>
      obtain ⟨num, f, t, hget, hfield, hexp, ⟨_, _, hdec⟩, hset⟩ := h (key, e, w) (by simp)
      obtain ⟨c, l, hcl, hdig⟩ := encodeStringBytes_head key
      have hc : c ≠ 101 := by
        have := (isDigit_iff c).1 hdig
        omega
      simp only [List.map_cons, List.flatten_cons] at hlen ⊢
      have hdata : pre ++ (encodeStringBytes key ++ e ++
            (items.map fun p => encodeStringBytes p.1 ++ p.2.1).flatten ++ 101 :: rest) =
          pre ++ (encodeStringBytes key ++ (e ++
            ((items.map fun p => encodeStringBytes p.1 ++ p.2.1).flatten ++ 101 :: rest))) := by
        simp only [List.append_assoc]
      rw [hdata] at hlen ⊢
      rw [decodeStructLoop, getElem?_after pre (encodeStringBytes key) _ c (by rw [hcl]; rfl)]
      simp only [hc, if_false, List.drop_left]
      rw [decodeString_encode key _ (by simp only [List.length_append] at hlen ⊢; omega),
        Res.bind_ok]
      have hpre1 : pre.length + (encodeStringBytes key).length =
          (pre ++ encodeStringBytes key).length := by simp
      have hdata1 : pre ++ (encodeStringBytes key ++ (e ++
            ((items.map fun p => encodeStringBytes p.1 ++ p.2.1).flatten ++ 101 :: rest))) =
          (pre ++ encodeStringBytes key) ++ (e ++
            ((items.map fun p => encodeStringBytes p.1 ++ p.2.1).flatten ++ 101 :: rest)) := by
        simp only [List.append_assoc]
      simp only [hget, hfield]
      rw [hpre1, hdata1, List.drop_left,
        hdec _ (by rw [hdata1] at hlen; simp only [List.length_append] at hlen ⊢; omega),
        Res.bind_ok]
      have hpre2 : (pre ++ encodeStringBytes key).length + e.length =
          (pre ++ encodeStringBytes key ++ e).length := by
        simp only [List.length_append]
      have hdata2 : (pre ++ encodeStringBytes key) ++ (e ++
            ((items.map fun p => encodeStringBytes p.1 ++ p.2.1).flatten ++ 101 :: rest)) =
          (pre ++ encodeStringBytes key ++ e) ++
            ((items.map fun p => encodeStringBytes p.1 ++ p.2.1).flatten ++ 101 :: rest) := by
        simp only [List.append_assoc]
      simp only [hexp, Bool.true_eq_false, if_false]
      rw [hpre2, hdata2, hset vals hvals,
        ih (pre ++ encodeStringBytes key ++ e) rest k (setNamed vals key w)
        (fun q hq => h q (by simp [hq])) (by rw [setNamed_fst]; exact hvals)
        (by simpa using hk) (by rw [← hdata2, ← hdata1]; exact hlen)]
      refine congrArg Res.ok (Prod.ext ?_ ?_)
      · simp only [List.length_append]; omega
      · simp

theorem emitted_map {α β : Type} (fs : List (Field × α)) (e : Bool) (g : α → β) :
    emitted (fs.map fun p => (p.1, g p.2)) e = (emitted fs e).map fun p => (p.1, g p.2) := by
  induction fs with
  | nil => rfl
  | cons p fs ih =>
    unfold emitted at *
    by_cases hc : ((newTag p.1).Skip || (newTag p.1).OmitEmpty && e) = true
    · simp only [List.map_cons, List.filterMap_cons, hc, if_true]
      exact ih
    · simp only [List.map_cons, List.filterMap_cons, hc, if_false, Bool.false_eq_true, ih]

theorem foldl_setNamed (items : List (List Nat × List Nat × Val)) (vals : List (Field × Val)) :
    items.foldl (fun vs it => setNamed vs it.1 it.2.2) vals = vals.map (fieldAfter items) := by
  induction items generalizing vals with
  | nil =>
    show vals = vals.map fun q => q
    simp
  | cons it items ih =>
    rw [List.foldl_cons, ih]
    unfold setNamed
    rw [List.map_map]
    apply List.map_congr_left
    intro q _
    simp only [Function.comp, fieldAfter, List.foldl_cons]

theorem fieldAfter_fst (items : List (List Nat × List Nat × Val)) (q : Field × Val) :
    (fieldAfter items q).1 = q.1 := by
  induction items generalizing q with
  | nil => rfl
  | cons it items ih =>
    simp only [fieldAfter, List.foldl_cons] at ih ⊢
    rw [ih]
    split <;> rfl

theorem fieldAfter_notin (items : List (List Nat × List Nat × Val)) (q : Field × Val)
    (h : ∀ it ∈ items, it.1 ≠ (newTag q.1).Name) : fieldAfter items q = q := by
  induction items generalizing q with
  | nil => rfl
  | cons it items ih =>
    have h1 : ¬ (newTag q.1).Name = it.1 := fun hc => h it (by simp) hc.symm
    simp only [fieldAfter, List.foldl_cons, h1, if_false] at ih ⊢
    exact ih q (fun it' hit' => h it' (by simp [hit']))

theorem fieldAfter_found (items : List (List Nat × List Nat × Val)) (q : Field × Val)
    (it : List Nat × List Nat × Val) (hn : (items.map Prod.fst).Nodup) (hit : it ∈ items)
    (hk : it.1 = (newTag q.1).Name) : fieldAfter items q = (q.1, it.2.2) := by
  induction items generalizing q with
  | nil => simp at hit
  | cons a items ih =>
    simp only [List.map_cons, List.nodup_cons] at hn
    by_cases ha : (newTag q.1).Name = a.1
    · have hia : it = a := by
        rcases List.mem_cons.1 hit with h | h
        · exact h
        · exact absurd (List.mem_map_of_mem Prod.fst h) (by rw [hk, ha]; exact hn.1)
      subst hia
      have hrest : ∀ it' ∈ items, it'.1 ≠ (newTag q.1).Name := by
        intro it' hit' hc
        exact hn.1 (by rw [← ha, ← hc]; exact List.mem_map_of_mem Prod.fst hit')
      have := fieldAfter_notin items (q.1, it.2.2) hrest
      simp only [fieldAfter, List.foldl_cons, ha, if_true] at this ⊢
      exact this
    · have hit' : it ∈ items := by
        rcases List.mem_cons.1 hit with h | h
        · exact absurd (by rw [← h]; exact hk.symm) ha
        · exact h
      have := ih q hn.2 hit' hk
      simp only [fieldAfter, List.foldl_cons, ha, if_false] at this ⊢
      exact this

/-! ## Records as one list of fields with type and value -/

theorem fieldsTy_zip (fields : List (Field × Ty)) (fs : List (Field × Val))
    (h : hasTy.fieldsTy fields fs = true) :
    ∃ Z : List (Field × Ty × Val), fields = Z.map (fun z => (z.1, z.2.1)) ∧
      fs = Z.map (fun z => (z.1, z.2.2)) ∧ ∀ z ∈ Z, hasTy z.2.1 z.2.2 = true := by
  induction fields generalizing fs with
  | nil =>
    cases fs with
    | nil => exact ⟨[], rfl, rfl, by simp⟩
    | cons q fs => simp [hasTy.fieldsTy] at h
  | cons p fields ih =>
    cases fs with
    | nil => simp [hasTy.fieldsTy] at h
    | cons q fs =>
      obtain ⟨f, t⟩ := p
      obtain ⟨g, x⟩ := q
      simp only [hasTy.fieldsTy, Bool.and_eq_true, decide_eq_true_eq] at h
      obtain ⟨⟨rfl, hx⟩, hrest⟩ := h
      obtain ⟨Z, h1, h2, h3⟩ := ih fs hrest
      refine ⟨(f, t, x) :: Z, by simp [h1], by simp [h2], ?_⟩
      intro z hz
      rcases List.mem_cons.1 hz with rfl | hz
      · exact hx
      · exact h3 z hz

theorem zeroFields_zip (Z : List (Field × Ty × Val)) :
    Ty.zero.zeroFields (Z.map fun z => (z.1, z.2.1)) = Z.map fun z => (z.1, z.2.1.zero) := by
  induction Z with
  | nil => rfl
  | cons z Z ih => simp [Ty.zero.zeroFields, ih]

theorem restoredFields_zip (Z : List (Field × Ty × Val)) (e : Bool) :
    restored.restoredFields (Z.map fun z => (z.1, z.2.1)) (Z.map fun z => (z.1, z.2.2)) e =
      Z.map fun z =>
        if (newTag z.1).Skip || ((newTag z.1).OmitEmpty && e) then (z.1, z.2.1.zero)
        else (z.1, restored z.2.1 z.2.2) := by
  induction Z with
  | nil => rfl
  | cons z Z ih => simp only [List.map_cons, restored.restoredFields, ih]

theorem allEmpty_zip (Z : List (Field × Ty × Val)) :
    isEmpty.allEmpty (Z.map fun z => (z.1, z.2.2)) = true ↔
      ∀ z ∈ Z, isEmpty z.2.2 = true := by
  induction Z with
  | nil => simp [isEmpty.allEmpty]
  | cons z Z ih => simp [isEmpty.allEmpty, ih]

theorem supportedFields_zip (Z : List (Field × Ty × Val))
    (h : Ty.supported.supportedFields (Z.map fun z => (z.1, z.2.1)) = true) :
    ∀ z ∈ Z, (newTag z.1).Skip = false → z.2.1.supported = true := by
  induction Z with
  | nil => simp
  | cons z Z ih =>
    simp only [List.map_cons, Ty.supported.supportedFields, Bool.and_eq_true,
      Bool.or_eq_true] at h
    intro z' hz' hs
    rcases List.mem_cons.1 hz' with rfl | hz'
    · rcases h.1 with h1 | h1
      · rw [hs] at h1; exact absurd h1 (by simp)
      · exact h1
    · exact ih h.2 z' hz' hs

theorem mem_wireNames (fs : List Field) (f : Field) (h : f ∈ fs)
    (hs : (newTag f).Skip = false) : (newTag f).Name ∈ wireNames fs := by
  unfold wireNames
  exact List.mem_map.2 ⟨f, List.mem_filter.2 ⟨h, by simp [hs]⟩, rfl⟩

theorem zip_unique (Z : List (Field × Ty × Val))
    (hn : (wireNames (Z.map fun z => z.1)).Nodup) (z z' : Field × Ty × Val)
    (hz : z ∈ Z) (hz' : z' ∈ Z) (hs : (newTag z.1).Skip = false)
    (hs' : (newTag z'.1).Skip = false) (hk : (newTag z.1).Name = (newTag z'.1).Name) :
    z = z' := by
  induction Z with
  | nil => simp at hz
  | cons a Z ih =>
    have hwn : wireNames ((a :: Z).map fun z => z.1) =
        if (newTag a.1).Skip then wireNames (Z.map fun z => z.1)
        else (newTag a.1).Name :: wireNames (Z.map fun z => z.1) := by
      unfold wireNames
      simp only [List.map_cons, List.filter_cons]
      cases (newTag a.1).Skip <;> simp
    rw [hwn] at hn
    have hmem : ∀ y ∈ Z, (newTag y.1).Skip = false →
        (newTag y.1).Name ∈ wireNames (Z.map fun z => z.1) := fun y hy hys =>
      mem_wireNames _ y.1 (List.mem_map_of_mem (fun z => z.1) hy) hys
    rcases List.mem_cons.1 hz with h1 | h1
    · rcases List.mem_cons.1 hz' with h2 | h2
      · rw [h1, h2]
      · subst h1
        simp only [hs, Bool.false_eq_true, if_false, List.nodup_cons] at hn
        exact absurd (by rw [hk]; exact hmem z' h2 hs') hn.1
    · rcases List.mem_cons.1 hz' with h2 | h2
      · subst h2
        simp only [hs', Bool.false_eq_true, if_false, List.nodup_cons] at hn
        exact absurd (by rw [← hk]; exact hmem z h1 hs) hn.1
      · have hn' : (wireNames (Z.map fun z => z.1)).Nodup := by
          cases hsa : (newTag a.1).Skip with
          | true => simpa [hsa] using hn
          | false =>
            simp only [hsa, Bool.false_eq_true, if_false, List.nodup_cons] at hn
            exact hn.2
        exact ih hn' h1 h2

/-! ## Sizes -/

theorem Val.size_pos (v : Val) : 0 < v.size := by
  cases v <;> simp [Val.size]

theorem sizeList_mem (xs : List Val) (x : Val) (h : x ∈ xs) :
    x.size ≤ Val.size.sizeList xs := by
  induction xs with
  | nil => simp at h
  | cons a xs ih =>
    rcases List.mem_cons.1 h with rfl | h
    · simp [Val.size.sizeList]
    · have := ih h
      simp only [Val.size.sizeList]; omega

theorem sizeMap_mem (kvs : List (List Nat × Val)) (p : List Nat × Val) (h : p ∈ kvs) :
    p.2.size ≤ Val.size.sizeMap kvs := by
  induction kvs with
  | nil => simp at h
  | cons a kvs ih =>
    obtain ⟨k, v⟩ := a
    rcases List.mem_cons.1 h with rfl | h
    · simp [Val.size.sizeMap]
    · have := ih h
      simp only [Val.size.sizeMap]; omega

theorem sizeFields_mem (fs : List (Field × Val)) (p : Field × Val) (h : p ∈ fs) :
    p.2.size ≤ Val.size.sizeFields fs := by
  induction fs with
  | nil => simp at h
  | cons a fs ih =>
    obtain ⟨k, v⟩ := a
    rcases List.mem_cons.1 h with rfl | h
    · simp [Val.size.sizeFields]
    · have := ih h
      simp only [Val.size.sizeFields]; omega

/-! ## A value that `isEmpty` accepts is the zero value of its type -/

theorem isEmpty_zero (n : Nat) : ∀ (v : Val) (t : Ty), v.size ≤ n →
    hasTy t v = true → isEmpty v = true → v = t.zero := by
  induction n with
  | zero =>
    intro v t h
    have := Val.size_pos v
    omega
  | succ n ih =>
    intro v t hsz hty hemp
    cases t with
    | bool =>
      cases v <;> simp only [hasTy, Bool.false_eq_true] at hty
      simp only [isEmpty, Bool.not_eq_true'] at hemp
      simp [Ty.zero, hemp]
    | int bits =>
      cases v <;> simp only [hasTy, Bool.false_eq_true] at hty
      simp only [decide_eq_true_eq] at hty
      simp only [isEmpty, decide_eq_true_eq] at hemp
      simp [Ty.zero, hemp, hty.1]
    | uint bits =>
      cases v <;> simp only [hasTy, Bool.false_eq_true] at hty
      simp only [decide_eq_true_eq] at hty
      simp only [isEmpty, decide_eq_true_eq] at hemp
      simp [Ty.zero, hemp, hty.1]
    | string =>
      cases v <;> simp only [hasTy, Bool.false_eq_true] at hty
      simp only [isEmpty, List.isEmpty_iff] at hemp
      simp [Ty.zero, hemp]
    | slice elem =>
      cases v <;> simp only [hasTy, Bool.false_eq_true] at hty
      · simp [isEmpty] at hemp
      · simp [Ty.zero, hty]
      · simp [isEmpty] at hemp
      · simp only [Bool.not_eq_true'] at hty
        simp [Ty.zero, hty]
    | map key elem =>
      cases v <;> simp only [hasTy, Bool.false_eq_true] at hty
      · simp [isEmpty] at hemp
      · simp [Ty.zero, hty]
      · simp only [Bool.not_eq_true'] at hty
        simp only [isEmpty] at hemp
        simp [Ty.zero, hty, hemp]
    | struct fields =>
      cases v <;> simp only [hasTy, Bool.false_eq_true] at hty
      rename_i fs
      obtain ⟨Z, rfl, rfl, hZ⟩ := fieldsTy_zip fields fs hty
      simp only [isEmpty] at hemp
      have hempZ := (allEmpty_zip Z).1 hemp
      simp only [Ty.zero, zeroFields_zip, Val.struct.injEq]
      apply List.map_congr_left
      intro z hz
      have hzs : z.2.2.size ≤ n := by
        have : z.2.2.size ≤ Val.size.sizeFields (Z.map fun z => (z.1, z.2.2)) :=
          sizeFields_mem (Z.map fun z => (z.1, z.2.2)) (z.1, z.2.2)
            (List.mem_map.2 ⟨z, hz, rfl⟩)
        simp only [Val.size] at hsz
        omega
      rw [← ih z.2.2 z.2.1 hzs (hZ z hz) (hempZ z hz)]
    | iface =>
      cases v <;> simp only [hasTy, Bool.false_eq_true] at hty
      simp only [isEmpty] at hemp
      simp [Ty.zero, hemp]
    | other =>
      cases v <;> simp only [hasTy, Bool.false_eq_true] at hty
      simp only [isEmpty] at hemp
      simp [Ty.zero, hemp]
    | custom um =>
      cases v <;> simp only [hasTy, Bool.false_eq_true] at hty
      simp only [isEmpty] at hemp
      simp [Ty.zero, hemp]

/-! ## Round trip of a record, given the round trip of its fields -/

theorem count_one_of_nodup (l : List (List Nat)) (k : List Nat) (hn : l.Nodup) (hm : k ∈ l) :
    l.count k = 1 := by
  induction l with
  | nil => simp at hm
  | cons a l ih =>
    rw [List.nodup_cons] at hn
    by_cases ha : a = k
    · subst ha
      rw [List.count_cons_self, List.count_eq_zero_of_not_mem hn.1]
    · rw [List.count_cons_of_ne (fun hc => ha hc.symm)]
      rcases List.mem_cons.1 hm with h | h
      · exact absurd h.symm ha
      · exact ih hn.2 h

theorem struct_round_trip (m : Val → Res (List Nat)) (Z : List (Field × Ty × Val))
    (out : List Nat) (g : Nat)
    (hrec : recordOK (Z.map fun z => z.1) = true)
    (h : (structToMap (.struct (Z.map fun z => (z.1, z.2.2)))).bind (encodeDict m) = .ok out)
    (ih : ∀ z ∈ Z, (newTag z.1).Skip = false → ∀ o, m z.2.2 = .ok o → o.length < g →
      readsBack (fun d => decodeF g d z.2.1 z.2.1.zero) o (restored z.2.1 z.2.2))
    (hg : out.length < g + 1) :
    readsBack (fun d => decodeF (g + 1) d (.struct (Z.map fun z => (z.1, z.2.1)))
        (.struct (Z.map fun z => (z.1, z.2.1.zero)))) out
      (.struct (Z.map fun z =>
        if (newTag z.1).Skip ||
            ((newTag z.1).OmitEmpty && isEmpty (.struct (Z.map fun z => (z.1, z.2.2))))
          then (z.1, z.2.1.zero)
        else (z.1, restored z.2.1 z.2.2))) := by
  simp only [recordOK, Bool.and_eq_true, List.all_eq_true, decide_eq_true_eq,
    Bool.not_eq_true'] at hrec
  obtain ⟨⟨hanon, hnonempty⟩, hnodup⟩ := hrec
  have hanon' : ∀ p ∈ Z.map fun z => (z.1, z.2.2), p.1.anonymous = false := by
    intro p hp
    obtain ⟨z, hz, rfl⟩ := List.mem_map.1 hp
    exact hanon z.1 (List.mem_map.2 ⟨z, hz, rfl⟩)
  -- the dictionary `structToMap` builds
  rw [structToMap, fieldsToMap_eq _ _ _ hanon', Res.bind_ok] at h
  generalize isEmpty (.struct (Z.map fun z => (z.1, z.2.2))) = e at h ⊢
  have hEfs : emitted (Z.map fun z => (z.1, z.2.2)) e =
      (emitted Z e).map fun p => (p.1, p.2.2) := emitted_map Z e Prod.snd
  have hEn : ((emitted Z e).map Prod.fst).Nodup := (emitted_keys_sublist Z e).nodup hnodup
  have hTperm := sortSlice_perm (emitted Z e) hEn
  have hTsorted := sortSlice_sorted (emitted Z e) hEn
  generalize hdT : sortSlice pairLess (emitted Z e) = dictT at hTperm hTsorted
  have hmapkeys : ∀ l : List (List Nat × Ty × Val),
      (l.map fun p => (p.1, p.2.2)).map Prod.fst = l.map Prod.fst := by
    intro l; simp [List.map_map, Function.comp_def]
  have hdict : (emitted (Z.map fun z => (z.1, z.2.2)) e).foldl
      (fun d kv => mapSet d kv.1 kv.2) [] = dictT.map fun p => (p.1, p.2.2) := by
    have h1 := foldl_mapSet_perm (emitted (Z.map fun z => (z.1, z.2.2)) e) []
      List.Pairwise.nil (by rw [List.nil_append, hEfs, hmapkeys]; exact hEn)
    apply keysSorted_unique _ _ _ h1.1
    · unfold keysSorted at *
      rw [List.pairwise_map]
      exact hTsorted
    · rw [List.nil_append] at h1
      rw [hEfs] at h1 ⊢
      exact h1.2.trans (List.Perm.map _ hTperm.symm)
  rw [hdict] at h
  have hsT : keysSorted (dictT.map fun p => (p.1, p.2.2)) := by
    unfold keysSorted at *
    rw [List.pairwise_map]
    exact hTsorted
  unfold encodeDict at h
  rw [sortSlice_of_sorted _ hsT] at h
  obtain ⟨hall, hout⟩ := encodeDictLoop_ok m _ [100] out h
  -- every pair of the dictionary comes from a field that is emitted
  have hmemT : ∀ p ∈ dictT, ∃ z ∈ Z, (newTag z.1).Skip = false ∧
      ((newTag z.1).OmitEmpty && e) = false ∧ (newTag z.1).Name = p.1 ∧ z.2 = p.2 := by
    intro p hp
    obtain ⟨k, tv⟩ := p
    obtain ⟨f, hf, h1, h2, h3⟩ := (mem_emitted Z e k tv).1 (hTperm.mem_iff.1 hp)
    exact ⟨(f, tv), hf, h1, h2, h3, rfl⟩
  have hkey_ne : ∀ z ∈ Z, (newTag z.1).Skip = false → (newTag z.1).Name ≠ [] := by
    intro z hz hs hc
    have := hnonempty _ (mem_wireNames _ z.1 (List.mem_map.2 ⟨z, hz, rfl⟩) hs)
    rw [hc] at this
    simp at this
  have hwire : (dictT.map fun p => (p.1, (m p.2.2).bytes, restored p.2.1 p.2.2)).map
      (fun p => encodeStringBytes p.1 ++ p.2.1) =
      (dictT.map fun p => (p.1, p.2.2)).map
        fun p => encodeStringBytes p.1 ++ (m p.2).bytes := by
    simp [List.map_map, Function.comp_def]
  rw [← hwire] at hout
  have hlen : out.length = ((dictT.map fun p => (p.1, (m p.2.2).bytes,
      restored p.2.1 p.2.2)).map fun p => encodeStringBytes p.1 ++ p.2.1).flatten.length + 2 := by
    rw [hout]; simp
  have hitem : ∀ it ∈ dictT.map fun p => (p.1, (m p.2.2).bytes, restored p.2.1 p.2.2),
      ∃ num f t, mapGet (nameMapping (Z.map fun z => (z.1, z.2.1)) 0 []) it.1 = some num ∧
        (Z.map fun z => (z.1, z.2.1))[num]? = some (f, t) ∧ f.exported = true ∧
        readsBack (fun d => decodeF g d t t.zero) it.2.1 it.2.2 ∧
        ∀ vals' : List (Field × Val),
          vals'.map Prod.fst = (Z.map fun z => (z.1, z.2.1)).map Prod.fst →
          vals'.set num (f, it.2.2) = setNamed vals' it.1 it.2.2 := by
    intro it hit
    obtain ⟨p, hp, rfl⟩ := List.mem_map.1 hit
    obtain ⟨z, hz, hs, _, hname, hz2⟩ := hmemT p hp
    have hkne : p.1 ≠ [] := by rw [← hname]; exact hkey_ne z hz hs
    have hcount : ((Z.map fun z => (z.1, z.2.1)).map fun q => (newTag q.1).Name).count p.1
        = 1 := by
      have h1 := count_names (Z.map fun z => z.1) p.1 hkne
      rw [List.map_map] at h1 ⊢
      rw [show ((fun q : Field × Ty => (newTag q.1).Name) ∘ fun z : Field × Ty × Val =>
        (z.1, z.2.1)) = ((fun f => (newTag f).Name) ∘ fun z : Field × Ty × Val => z.1) from rfl,
        h1]
      have hmemw : p.1 ∈ wireNames (Z.map fun z => z.1) := by
        rw [← hname]; exact mem_wireNames _ z.1 (List.mem_map.2 ⟨z, hz, rfl⟩) hs
      exact count_one_of_nodup _ _ hnodup hmemw
    obtain ⟨num, f', t', h1, h2, h3, h4⟩ :=
      nameMapping_unique (Z.map fun z => (z.1, z.2.1)) p.1 0 [] hcount
    have hmem' : (f', t') ∈ Z.map fun z => (z.1, z.2.1) := List.getElem?_mem h2
    obtain ⟨z', hz', hz'eq⟩ := List.mem_map.1 hmem'
    simp only [Prod.mk.injEq] at hz'eq
    have hs' : (newTag z'.1).Skip = false := by
      cases hsk : (newTag z'.1).Skip with
      | false => rfl
      | true =>
        have := newTag_skip_name z'.1 hsk
        rw [hz'eq.1, h3] at this
        exact absurd this hkne
    have hzz : z' = z := zip_unique Z hnodup z' z hz' hz hs' hs
      (by rw [hz'eq.1, h3, hname])
    subst hzz
    have hexp : f'.exported = true := by
      cases hex : f'.exported with
      | true => rfl
      | false =>
        have := newTag_skip_of_unexported f' hex
        rw [← hz'eq.1, hs'] at this
        exact absurd this (by simp)
    refine ⟨num, f', t', by simpa using h1, h2, hexp, ?_, ?_⟩
    · have hb : (m p.2.2).bytes.length < g := by
        have := length_le_flatten
          ((dictT.map fun p => (p.1, (m p.2.2).bytes, restored p.2.1 p.2.2)).map
            fun p => encodeStringBytes p.1 ++ p.2.1)
          (encodeStringBytes p.1 ++ (m p.2.2).bytes)
          (List.mem_map.2 ⟨(p.1, (m p.2.2).bytes, restored p.2.1 p.2.2), hit, rfl⟩)
        simp only [List.length_append] at this
        omega
      have hz21 : z'.2.1 = p.2.1 := by rw [hz2]
      have hz22 : z'.2.2 = p.2.2 := by rw [hz2]
      have := ih z' hz' hs' _ (by
        have := hall (p.1, p.2.2) (List.mem_map.2 ⟨p, hp, rfl⟩)
        rw [hz22]; exact this) hb
      rw [hz21, hz22] at this
      rw [← hz'eq.2, hz21]
      exact this
    · intro vals' hv
      exact h4 vals' _ hv
  have hcount : (dictT.map fun p => (p.1, (m p.2.2).bytes, restored p.2.1 p.2.2)).length < g := by
    have h1 := length_le_flatten_length
      ((dictT.map fun p => (p.1, (m p.2.2).bytes, restored p.2.1 p.2.2)).map
        fun p => encodeStringBytes p.1 ++ p.2.1) (by
        intro e' he'
        obtain ⟨x, _, rfl⟩ := List.mem_map.1 he'
        obtain ⟨c, l, hcl, _⟩ := encodeStringBytes_head x.1
        rw [hcl]; simp)
    simp only [List.length_map] at h1 ⊢
    omega
  have hvals : (Z.map fun z => (z.1, z.2.1.zero)).map Prod.fst =
      (Z.map fun z => (z.1, z.2.1)).map Prod.fst := by
    simp [List.map_map, Function.comp_def]
  have hkeysN : ((dictT.map fun p => (p.1, (m p.2.2).bytes, restored p.2.1 p.2.2)).map
      Prod.fst).Nodup := by
    have := keysSorted_nodup dictT hTsorted
    simpa [List.map_map, Function.comp_def] using this
  -- the value the loop leaves in the target
  have hfinal : (dictT.map fun p => (p.1, (m p.2.2).bytes, restored p.2.1 p.2.2)).foldl
      (fun vs it => setNamed vs it.1 it.2.2) (Z.map fun z => (z.1, z.2.1.zero)) =
      Z.map fun z =>
        if (newTag z.1).Skip || ((newTag z.1).OmitEmpty && e) then (z.1, z.2.1.zero)
        else (z.1, restored z.2.1 z.2.2) := by
    rw [foldl_setNamed, List.map_map]
    apply List.map_congr_left
    intro z hz
    simp only [Function.comp]
    cases hs : (newTag z.1).Skip with
    | true =>
      simp only [Bool.true_or, if_true]
      apply fieldAfter_notin
      intro it hit hc
      obtain ⟨p, hp, rfl⟩ := List.mem_map.1 hit
      obtain ⟨z', hz', hs', _, hname, _⟩ := hmemT p hp
      have := hkey_ne z' hz' hs'
      rw [hname] at this
      exact this (by rw [hc]; exact newTag_skip_name z.1 hs)
    | false =>
      simp only [Bool.false_or]
      cases homit : ((newTag z.1).OmitEmpty && e) with
      | true =>
        simp only [if_true]
        have hnot : ∀ it ∈ dictT.map fun p => (p.1, (m p.2.2).bytes, restored p.2.1 p.2.2),
            it.1 ≠ (newTag (z.1, z.2.1.zero).1).Name := by
          intro it hit hc
          obtain ⟨p, hp, rfl⟩ := List.mem_map.1 hit
          obtain ⟨z', hz', hs', homit', hname, _⟩ := hmemT p hp
          have hzz : z' = z := zip_unique Z hnodup z' z hz' hz hs' hs (by rw [hname]; exact hc)
          rw [hzz, homit] at homit'
          exact absurd homit' (by simp)
        exact fieldAfter_notin _ _ hnot
      | false =>
        simp only [Bool.false_eq_true, if_false]
        have hmemE : ((newTag z.1).Name, z.2) ∈ emitted Z e :=
          (mem_emitted Z e _ _).2 ⟨z.1, hz, hs, homit, rfl⟩
        have hmemD := hTperm.mem_iff.2 hmemE
        exact fieldAfter_found _ (z.1, z.2.1.zero)
          ((newTag z.1).Name, (m z.2.2).bytes, restored z.2.1 z.2.2) hkeysN
          (List.mem_map.2 ⟨((newTag z.1).Name, z.2), hmemD, rfl⟩) rfl
  refine ⟨by rw [hout]; simp, by rw [hout]; simp, ?_⟩
  intro tail htail
  have hdata : out ++ tail = [100] ++ (((dictT.map fun p =>
      (p.1, (m p.2.2).bytes, restored p.2.1 p.2.2)).map
        fun p => encodeStringBytes p.1 ++ p.2.1).flatten ++ 101 :: tail) := by
    rw [hout]; simp
  have hloop := decodeStructLoop_spec (fun t d => decodeF g d t t.zero)
    (Z.map fun z => (z.1, z.2.1))
    (dictT.map fun p => (p.1, (m p.2.2).bytes, restored p.2.1 p.2.2)) [100] tail g
    (Z.map fun z => (z.1, z.2.1.zero)) hitem hvals hcount (by rw [← hdata]; exact htail)
  rw [show ([100] : List Nat).length = 1 from rfl, hfinal] at hloop
  show decodeF (g + 1) (out ++ tail) (.struct (Z.map fun z => (z.1, z.2.1)))
    (.struct (Z.map fun z => (z.1, z.2.1.zero))) = _
  rw [decodeF, if_neg (by rw [hout]; simp)]
  unfold decodeStruct
  simp only []
  rw [if_neg (by rw [hout]; simp), if_neg (by rw [hout]; simp), hdata, hloop, Res.bind_ok]
  refine congrArg Res.ok (Prod.ext ?_ rfl)
  show _ = out.length
  rw [hlen]
  omega

/-! ## The round trip -/

theorem two_pow_le (k : Nat) (h : k ≤ 63) : (2 : Int) ^ k ≤ 2 ^ 63 := by
  have h1 : (2 : Nat) ^ k ≤ 2 ^ 63 := Nat.pow_le_pow_right (by omega) h
  exact_mod_cast h1

theorem two_pow_le_nat (k : Nat) (h : k ≤ 64) : (2 : Nat) ^ k ≤ 2 ^ 64 :=
  Nat.pow_le_pow_right (by omega) h

/-- Whatever `Marshal` encodes of a supported type, `decode` reads back. -/
theorem round_trip_main (f : Nat) : ∀ (v : Val) (ty : Ty) (out : List Nat) (g : Nat),
    MarshalF f v = .ok out → ty.supported = true → hasTy ty v = true → out.length < g →
    readsBack (fun d => decodeF g d ty ty.zero) out (restored ty v) := by
  induction f with
  | zero => intro v ty out g h; simp [MarshalF] at h
  | succ f ih =>
    intro v ty out g h hsup hty hg
    obtain ⟨g, rfl⟩ : ∃ g', g = g' + 1 := ⟨g - 1, by omega⟩
    cases ty with
    | bool =>
      cases v <;> simp only [hasTy, Bool.false_eq_true] at hty
      rename_i b
      have hform : ∀ (n : Int) (tail : List Nat), [intToken] ++ FormatInt n ++ [endToken] ++ tail =
          105 :: (FormatInt n ++ 101 :: tail) := fun n tail => by simp
      have hlen : ∀ n : Int, ([intToken] ++ FormatInt n ++ [endToken]).length =
          (FormatInt n).length + 2 := fun n => by simp
      cases b
      · simp only [MarshalF, normalize, Bool.false_eq_true, if_false, encodeInt,
          Res.ok.injEq] at h
        subst h
        refine ⟨by simp, by simp, ?_⟩
        intro tail _
        show decodeF (g + 1) _ .bool _ = _
        rw [decodeF, if_neg (by simp), hform, hlen,
          decodeInt_FormatInt 0 (by decide) (by decide) tail]
        rfl
      · simp only [MarshalF, normalize, if_true, encodeInt, Res.ok.injEq] at h
        subst h
        refine ⟨by simp, by simp, ?_⟩
        intro tail _
        show decodeF (g + 1) _ .bool _ = _
        rw [decodeF, if_neg (by simp), hform, hlen,
          decodeInt_FormatInt 1 (by decide) (by decide) tail]
        rfl
    | int bits =>
      cases v <;> simp only [hasTy, Bool.false_eq_true] at hty
      rename_i bits' n
      simp only [decide_eq_true_eq] at hty
      obtain ⟨rfl, h1, h2⟩ := hty
      simp only [Ty.supported, decide_eq_true_eq] at hsup
      have hp := two_pow_le (bits' - 1) (by omega)
      simp only [MarshalF, normalize, if_true, encodeInt, Res.ok.injEq] at h
      subst h
      have hform : ∀ tail : List Nat, [intToken] ++ FormatInt n ++ [endToken] ++ tail =
          105 :: (FormatInt n ++ 101 :: tail) := fun tail => by simp
      have hlen : ([intToken] ++ FormatInt n ++ [endToken]).length =
          (FormatInt n).length + 2 := by simp
      refine ⟨by simp, by simp, ?_⟩
      intro tail _
      show decodeF (g + 1) _ (.int bits') _ = _
      rw [hform, hlen, decodeF_int g bits' n (Ty.int bits').zero tail (by omega) (by omega),
        wrapInt_of_range bits' n hsup.1 h1 h2]
      rfl
    | uint bits =>
      cases v <;> simp only [hasTy, Bool.false_eq_true] at hty
      rename_i bits' n
      simp only [decide_eq_true_eq] at hty
      obtain ⟨rfl, h1⟩ := hty
      simp only [Ty.supported, decide_eq_true_eq] at hsup
      have hp := two_pow_le_nat bits' hsup
      simp only [MarshalF, normalize, if_true, encodeUint, Res.ok.injEq] at h
      subst h
      have hform : ∀ tail : List Nat, [intToken] ++ FormatUint n ++ [endToken] ++ tail =
          105 :: (FormatUint n ++ 101 :: tail) := fun tail => by simp
      have hlen : ([intToken] ++ FormatUint n ++ [endToken]).length =
          (FormatUint n).length + 2 := by simp
      refine ⟨by simp, by simp, ?_⟩
      intro tail _
      show decodeF (g + 1) _ (.uint bits') _ = _
      rw [decodeF, if_neg (by simp), hform, hlen, decodeUint_FormatUint n (by omega) tail,
        Res.bind_ok]
      show Res.ok (_, Val.uint bits' (n % 2 ^ bits')) = _
      rw [Nat.mod_eq_of_lt h1]
      rfl
    | string =>
      cases v <;> simp only [hasTy, Bool.false_eq_true] at hty
      rename_i s
      simp only [MarshalF, normalize, encodeString, Res.ok.injEq] at h
      subst h
      obtain ⟨c, l, hcl, hd⟩ := encodeStringBytes_head s
      have hc := (isDigit_iff c).1 hd
      refine ⟨by rw [hcl]; simp, by rw [hcl]; simp; omega, ?_⟩
      intro tail htail
      exact decodeF_string g s tail _ htail
    | slice elem =>
      cases v <;> simp only [hasTy, Bool.false_eq_true] at hty
      · rename_i s
        simp only [MarshalF, normalize, encodeString, Res.ok.injEq] at h
        subst h
        obtain ⟨c, l, hcl, hd⟩ := encodeStringBytes_head s
        have hc := (isDigit_iff c).1 hd
        refine ⟨by rw [hcl]; simp, by rw [hcl]; simp; omega, ?_⟩
        intro tail htail
        exact decodeF_bytes g s tail elem _ hty htail
      · simp only [MarshalF, normalize, encodeString, Res.ok.injEq] at h
        subst h
        obtain ⟨c, l, hcl, hd⟩ := encodeStringBytes_head []
        have hc := (isDigit_iff c).1 hd
        refine ⟨by rw [hcl]; simp, by rw [hcl]; simp; omega, ?_⟩
        intro tail htail
        exact decodeF_bytes g [] tail elem _ hty htail
      · rename_i xs
        simp only [Bool.and_eq_true, Bool.not_eq_true', allTy_iff] at hty
        simp only [MarshalF, normalize] at h
        simp only [Ty.supported] at hsup
        have := slice_round_trip (MarshalF f) elem xs out g (Ty.slice elem).zero hty.1 h
          (fun x hx o ho hlt => ih x elem o g ho hsup (hty.2 x hx) hlt) hg
        simpa [restored, restoredList_eq] using this
      · simp only [Bool.not_eq_true'] at hty
        simp only [MarshalF, normalize] at h
        have := slice_round_trip (MarshalF f) elem [] out g (Ty.slice elem).zero hty h
          (fun x hx => absurd hx (by simp)) hg
        simpa [restored] using this
    | map key elem =>
      cases v <;> simp only [hasTy, Bool.false_eq_true] at hty
      · rename_i kvs
        simp only [Bool.and_eq_true, decide_eq_true_eq, allTyMap_iff] at hty
        simp only [MarshalF, normalize] at h
        simp only [Ty.supported, Bool.and_eq_true] at hsup
        have := map_round_trip (MarshalF f) key elem kvs out g (Ty.map key elem).zero hty.1.1
          hty.1.2 h (fun p hp o ho hlt => ih p.2 elem o g ho hsup.2 (hty.2 p hp) hlt) hg
        simpa [restored, restoredMap_eq] using this
      · simp only [MarshalF, normalize] at h
        have := map_round_trip (MarshalF f) key elem [] out g (Ty.map key elem).zero hty
          (by simp) h (fun p hp => absurd hp (by simp)) hg
        simpa [restored, sortSlice] using this
      · simp only [Ty.supported, Bool.and_eq_true] at hsup
        rw [hsup.1] at hty
        exact absurd hty (by simp)
    | struct fields =>
      cases v <;> simp only [hasTy, Bool.false_eq_true] at hty
      rename_i fs
      obtain ⟨Z, rfl, rfl, hZ⟩ := fieldsTy_zip fields fs hty
      simp only [Ty.supported, Bool.and_eq_true] at hsup
      have hsupZ := supportedFields_zip Z hsup.2
      simp only [MarshalF, normalize] at h
      have hrec : recordOK (Z.map fun z => z.1) = true := by
        have := hsup.1
        simpa [List.map_map, Function.comp_def] using this
      have := struct_round_trip (MarshalF f) Z out g hrec h
        (fun z hz hs o ho hlt => ih z.2.2 z.2.1 o g ho (hsupZ z hz hs) (hZ z hz) hlt) hg
      simp only [restored, Ty.zero, restoredFields_zip, zeroFields_zip]
      exact this
    | iface => simp [Ty.supported] at hsup
    | other => simp [Ty.supported] at hsup
    | custom um => simp [Ty.supported] at hsup

theorem sortSlice_perm_any {α : Type} (less : α → α → Bool) (l : List α) :
    (sortSlice less l).Perm l := by
  unfold sortSlice
  have h : ∀ (l rev : List α),
      (l.foldl (fun rev x => insertBack less x rev) rev).Perm (rev ++ l) := by
    intro l
    induction l with
    | nil => intro rev; simp
    | cons x l ih =>
      intro rev
      rw [List.foldl_cons]
      exact (ih _).trans ((List.Perm.append_right l (insertBack_perm less x rev)).trans
        (by simpa using List.perm_middle.symm))
  exact (List.reverse_perm _).trans (by simpa using h l [])

/-- `Marshal` succeeds on every value of a supported type. -/
theorem marshal_succeeds (f : Nat) : ∀ (v : Val) (ty : Ty), v.size ≤ f →
    ty.supported = true → hasTy ty v = true → ∃ out, MarshalF f v = .ok out := by
  induction f with
  | zero =>
    intro v ty h
    have := Val.size_pos v
    omega
  | succ f ih =>
    intro v ty hsz hsup hty
    cases ty with
    | bool =>
      cases v <;> simp only [hasTy, Bool.false_eq_true] at hty
      rename_i b
      cases b <;> exact ⟨_, rfl⟩
    | int bits =>
      cases v <;> simp only [hasTy, Bool.false_eq_true] at hty
      exact ⟨_, rfl⟩
    | uint bits =>
      cases v <;> simp only [hasTy, Bool.false_eq_true] at hty
      exact ⟨_, rfl⟩
    | string =>
      cases v <;> simp only [hasTy, Bool.false_eq_true] at hty
      exact ⟨_, rfl⟩
    | slice elem =>
      cases v <;> simp only [hasTy, Bool.false_eq_true] at hty
      · exact ⟨_, rfl⟩
      · exact ⟨_, rfl⟩
      · rename_i xs
        simp only [Bool.and_eq_true, Bool.not_eq_true', allTy_iff] at hty
        simp only [Ty.supported] at hsup
        simp only [Val.size] at hsz
        simp only [MarshalF, normalize, encodeList]
        apply encodeListLoop_total
        intro x hx
        have := sizeList_mem xs x hx
        exact ih x elem (by omega) hsup (hty.2 x hx)
      · exact ⟨_, rfl⟩
    | map key elem =>
      cases v <;> simp only [hasTy, Bool.false_eq_true] at hty
      · rename_i kvs
        simp only [Bool.and_eq_true, decide_eq_true_eq, allTyMap_iff] at hty
        simp only [Ty.supported, Bool.and_eq_true] at hsup
        simp only [Val.size] at hsz
        simp only [MarshalF, normalize, encodeDict]
        apply encodeDictLoop_total
        intro p hp
        have hp' := (sortSlice_perm_any pairLess kvs).mem_iff.1 hp
        have := sizeMap_mem kvs p hp'
        exact ih p.2 elem (by omega) hsup.2 (hty.2 p hp')
      · exact ⟨_, rfl⟩
      · simp only [Ty.supported, Bool.and_eq_true] at hsup
        rw [hsup.1] at hty
        exact absurd hty (by simp)
    | struct fields =>
      cases v <;> simp only [hasTy, Bool.false_eq_true] at hty
      rename_i fs
      obtain ⟨Z, rfl, rfl, hZ⟩ := fieldsTy_zip fields fs hty
      simp only [Ty.supported, Bool.and_eq_true] at hsup
      have hsupZ := supportedFields_zip Z hsup.2
      have hrec := hsup.1
      simp only [recordOK, Bool.and_eq_true, List.all_eq_true, decide_eq_true_eq,
        Bool.not_eq_true', List.map_map] at hrec
      have hanon' : ∀ p ∈ Z.map fun z => (z.1, z.2.2), p.1.anonymous = false := by
        intro p hp
        obtain ⟨z, hz, rfl⟩ := List.mem_map.1 hp
        exact hrec.1.1 z.1 (List.mem_map.2 ⟨z, hz, rfl⟩)
      simp only [Val.size] at hsz
      simp only [MarshalF, normalize]
      rw [structToMap, fieldsToMap_eq _ _ _ hanon', Res.bind_ok]
      unfold encodeDict
      apply encodeDictLoop_total
      intro p hp
      have hp' := (sortSlice_perm_any pairLess _).mem_iff.1 hp
      have hmem : ∀ (pairs acc : List (List Nat × Val)) (q : List Nat × Val),
          q ∈ pairs.foldl (fun d kv => mapSet d kv.1 kv.2) acc → q ∈ acc ∨ q ∈ pairs := by
        intro pairs
        induction pairs with
        | nil => intro acc q hq; exact Or.inl hq
        | cons a pairs ihp =>
          intro acc q hq
          rcases ihp _ q hq with h1 | h1
          · rcases mapSet_mem acc a.1 a.2 q h1 with h2 | h2
            · exact Or.inr (by rw [h2]; simp)
            · exact Or.inl h2
          · exact Or.inr (List.mem_cons_of_mem _ h1)
      rcases hmem _ _ p hp' with h1 | h1
      · simp at h1
      · obtain ⟨k, x⟩ := p
        obtain ⟨fld, hfld, hfs, _, _⟩ := (mem_emitted _ _ k x).1 h1
        obtain ⟨z, hz, hzeq⟩ := List.mem_map.1 hfld
        simp only [Prod.mk.injEq] at hzeq
        have hs := sizeFields_mem _ (fld, x) hfld
        have hx : x = z.2.2 := hzeq.2.symm
        subst hx
        have hskip : (newTag z.1).Skip = false := by rw [hzeq.1]; assumption
        exact ih z.2.2 z.2.1 (by simp only at hs; omega) (hsupZ z hz hskip) (hZ z hz)
    | iface => simp [Ty.supported] at hsup
    | other => simp [Ty.supported] at hsup
    | custom um => simp [Ty.supported] at hsup

theorem plain_supported (n : Nat) : ∀ ty : Ty, sizeOf ty ≤ n → ty.plain = true →
    ty.supported = true := by
  induction n with
  | zero =>
    intro ty h
    cases ty <;> simp at h
  | succ n ih =>
    intro ty hsz hp
    cases ty with
    | int bits =>
      simp only [Ty.plain, decide_eq_true_eq] at hp
      simp [Ty.supported, hp]
    | uint bits =>
      simp only [Ty.plain, decide_eq_true_eq] at hp
      simp only [Ty.supported, decide_eq_true_eq]
      omega
    | string => rfl
    | slice elem =>
      simp only [Ty.plain] at hp
      simp only [Ty.supported]
      exact ih elem (by simp at hsz; omega) hp
    | map key elem =>
      simp only [Ty.plain, Bool.and_eq_true] at hp
      simp only [Ty.supported, Bool.and_eq_true]
      exact ⟨hp.1, ih elem (by simp at hsz; omega) hp.2⟩
    | bool => simp [Ty.plain] at hp
    | struct fields => simp [Ty.plain] at hp
    | iface => simp [Ty.plain] at hp
    | other => simp [Ty.plain] at hp
    | custom um => simp [Ty.plain] at hp

theorem decodeF_plain_cur (g : Nat) (data : List Nat) (ty : Ty) (cur cur' : Val)
    (hp : ty.plain = true) : decodeF g data ty cur = decodeF g data ty cur' := by
  cases g with
  | zero => rfl
  | succ g =>
    cases ty <;> first | rfl | simp [Ty.plain] at hp

theorem keysAscending_iff {α : Type} (l : List (List Nat × α)) :
    keysAscending (l.map Prod.fst) = true ↔ keysSorted l := by
  unfold keysSorted
  induction l with
  | nil => simp [keysAscending]
  | cons a l ih =>
    simp only [List.map_cons, keysAscending, Bool.and_eq_true, List.all_eq_true, ih,
      List.pairwise_cons, List.mem_map]
    constructor
    · rintro ⟨h1, h2⟩
      exact ⟨fun p hp => h1 p.1 ⟨p, hp, rfl⟩, h2⟩
    · rintro ⟨h1, h2⟩
      refine ⟨?_, h2⟩
      rintro k ⟨p, hp, rfl⟩
      exact h1 p hp

theorem canonicalList_iff (xs : List Val) :
    canonical.canonicalList xs = true ↔ ∀ x ∈ xs, canonical x = true := by
  induction xs with
  | nil => simp [canonical.canonicalList]
  | cons x xs ih => simp [canonical.canonicalList, ih]

theorem canonicalMap_iff (kvs : List (List Nat × Val)) :
    canonical.canonicalMap kvs = true ↔ ∀ p ∈ kvs, canonical p.2 = true := by
  induction kvs with
  | nil => simp [canonical.canonicalMap]
  | cons x xs ih =>
    obtain ⟨k, v⟩ := x
    simp [canonical.canonicalMap, ih]

theorem canonicalFields_zip (Z : List (Field × Ty × Val)) :
    canonical.canonicalFields (Z.map fun z => (z.1, z.2.2)) = true ↔
      ∀ z ∈ Z, (newTag z.1).Skip = false ∧ canonical z.2.2 = true := by
  induction Z with
  | nil => simp [canonical.canonicalFields]
  | cons z Z ih => simp [canonical.canonicalFields, ih, and_assoc]

/-- A canonical value is restored as itself. -/
theorem restored_canonical (n : Nat) : ∀ (v : Val) (t : Ty), v.size ≤ n →
    hasTy t v = true → canonical v = true → restored t v = v := by
  induction n with
  | zero =>
    intro v t h
    have := Val.size_pos v
    omega
  | succ n ih =>
    intro v t hsz hty hc
    cases t with
    | slice elem =>
      cases v <;> simp only [hasTy, Bool.false_eq_true] at hty
      · rfl
      · simp [canonical] at hc
      · rename_i xs
        simp only [Bool.and_eq_true, Bool.not_eq_true', allTy_iff] at hty
        simp only [canonical, canonicalList_iff] at hc
        simp only [Val.size] at hsz
        simp only [restored, restoredList_eq, Val.list.injEq]
        conv_rhs => rw [← List.map_id xs]
        apply List.map_congr_left
        intro x hx
        have := sizeList_mem xs x hx
        exact ih x elem (by omega) (hty.2 x hx) (hc x hx)
      · simp [canonical] at hc
    | map key elem =>
      cases v <;> simp only [hasTy, Bool.false_eq_true] at hty
      · rename_i kvs
        simp only [Bool.and_eq_true, decide_eq_true_eq, allTyMap_iff] at hty
        simp only [canonical, Bool.and_eq_true, canonicalMap_iff, keysAscending_iff] at hc
        simp only [Val.size] at hsz
        have hmap : (kvs.map fun p => (p.1, restored elem p.2)) = kvs := by
          conv_rhs => rw [← List.map_id kvs]
          apply List.map_congr_left
          intro p hp
          have := sizeMap_mem kvs p hp
          rw [ih p.2 elem (by omega) (hty.2 p hp) (hc.2 p hp)]
          rfl
        simp only [restored, restoredMap_eq, hmap, sortSlice_of_sorted kvs hc.1]
      · simp [canonical] at hc
      · rfl
    | struct fields =>
      cases v <;> simp only [hasTy, Bool.false_eq_true] at hty
      rename_i fs
      obtain ⟨Z, rfl, rfl, hZ⟩ := fieldsTy_zip fields fs hty
      simp only [canonical, canonicalFields_zip] at hc
      simp only [Val.size] at hsz
      simp only [restored, restoredFields_zip, Val.struct.injEq]
      apply List.map_congr_left
      intro z hz
      have : z.2.2.size ≤ Val.size.sizeFields (Z.map fun z => (z.1, z.2.2)) :=
        sizeFields_mem (Z.map fun z => (z.1, z.2.2)) (z.1, z.2.2)
          (List.mem_map.2 ⟨z, hz, rfl⟩)
      simp only [(hc z hz).1, Bool.false_or]
      cases homit : ((newTag z.1).OmitEmpty &&
          isEmpty (.struct (Z.map fun z => (z.1, z.2.2)))) with
      | true =>
        simp only [if_true]
        have he : isEmpty (.struct (Z.map fun z => (z.1, z.2.2))) = true :=
          (Bool.and_eq_true_iff.1 homit).2
        rw [isEmpty] at he
        have hez := (allEmpty_zip Z).1 he z hz
        rw [← isEmpty_zero z.2.2.size z.2.2 z.2.1 (Nat.le_refl _) (hZ z hz) hez]
      | false =>
        simp only [Bool.false_eq_true, if_false]
        rw [ih z.2.2 z.2.1 (by omega) (hZ z hz) (hc z hz).2]
    | bool => cases v <;> rfl
    | int bits => cases v <;> rfl
    | uint bits => cases v <;> rfl
    | string => cases v <;> rfl
    | iface => cases v <;> rfl
    | other => cases v <;> rfl
    | custom um => cases v <;> rfl

theorem Marshal_bytes_eq (v : Val) (out : List Nat) (h : Marshal v = .ok out) :
    (Marshal v).bytes = out := by rw [h]; rfl

theorem Unmarshal_round_trip (v : Val) (ty : Ty) (hsup : ty.supported = true)
    (hty : hasTy ty v = true) (hlen : (Marshal v).bytes.length < 2 ^ 63) :
    ∃ out, Marshal v = .ok out ∧ Unmarshal out ty ty.zero = .ok (restored ty v) := by
  obtain ⟨out, hout⟩ := marshal_succeeds v.size v ty (Nat.le_refl _) hsup hty
  have hm : Marshal v = .ok out := hout
  rw [Marshal_bytes_eq v out hm] at hlen
  obtain ⟨_, _, hdec⟩ := round_trip_main v.size v ty out (out.length + 1) hout hsup hty
    (Nat.lt_succ_self _)
  have hd := hdec [] (by simpa using hlen)
  simp only [List.append_nil] at hd
  refine ⟨out, hm, ?_⟩
  rw [Unmarshal_of_decode out ty ty.zero _ _ hd, if_neg (by simp)]

/-- C3: for every value `v` of a type built from 64-bit integers and byte strings
by nesting slices and maps with string keys, `Marshal(v)` succeeds and
`Unmarshal` of its output into a target of the same type succeeds and yields
`restored ty v`: `v` with the entries of every map listed in ascending key
order and every nil slice or map empty, which is `v` itself when `v` lists its
maps so and holds no nil.  The encoding is a Go slice, so it is shorter than
`2^63` bytes. -/
theorem C3_nested_round_trip (ty : Ty) (v cur : Val) (hp : ty.plain = true)
    (ht : hasTy ty v = true) (hlen : (Marshal v).bytes.length < 2 ^ 63) :
    ∃ out, Marshal v = .ok out ∧ Unmarshal out ty cur = .ok (restored ty v) ∧
      (canonical v = true → restored ty v = v) := by
  have hsup := plain_supported (sizeOf ty) ty (Nat.le_refl _) hp
  obtain ⟨out, hm, hu⟩ := Unmarshal_round_trip v ty hsup ht hlen
  refine ⟨out, hm, ?_, restored_canonical v.size v ty (Nat.le_refl _) ht⟩
  unfold Unmarshal decode at hu ⊢
  rw [decodeF_plain_cur _ _ ty cur ty.zero hp]
  exact hu

theorem C3_nested_round_trip_witness :
    ∃ out, Marshal exNested = .ok out ∧
      Unmarshal out exNestedTy (.map []) = .ok (restored exNestedTy exNested) ∧
      (canonical exNested = true → restored exNestedTy exNested = exNested) :=
  C3_nested_round_trip exNestedTy exNested (.map []) (by decide) (by decide) (by decide)

theorem encodeListLoop_mono (m m' : Val → Res (List Nat))
    (hm : ∀ x r, m x = r → r ≠ .outOfFuel → m' x = r) (xs : List Val) :
    ∀ (res : List Nat) (r : Res (List Nat)), encodeListLoop m xs res = r → r ≠ .outOfFuel →
      encodeListLoop m' xs res = r := by
  induction xs with
  | nil => intro res r h _; exact h
  | cons x xs ih =>
    intro res r h hr
    simp only [encodeListLoop] at h ⊢
    cases hx : m x with
    | ok d =>
      rw [hx] at h
      rw [hm x _ hx (by simp)]
      exact ih _ _ h hr
    | err e =>
      rw [hx] at h
      rw [hm x _ hx (by simp)]
      exact h
    | panic =>
      rw [hx] at h
      rw [hm x _ hx (by simp)]
      exact h
    | outOfFuel =>
      rw [hx] at h
      exact absurd h.symm hr

theorem encodeDictLoop_mono (m m' : Val → Res (List Nat))
    (hm : ∀ x r, m x = r → r ≠ .outOfFuel → m' x = r) (ps : List (List Nat × Val)) :
    ∀ (res : List Nat) (r : Res (List Nat)), encodeDictLoop m ps res = r → r ≠ .outOfFuel →
      encodeDictLoop m' ps res = r := by
  induction ps with
  | nil => intro res r h _; exact h
  | cons x xs ih =>
    intro res r h hr
    simp only [encodeDictLoop] at h ⊢
    cases hx : m x.2 with
    | ok d =>
      rw [hx] at h
      rw [hm x.2 _ hx (by simp)]
      exact ih _ _ h hr
    | err e =>
      rw [hx] at h
      rw [hm x.2 _ hx (by simp)]
      exact h
    | panic =>
      rw [hx] at h
      rw [hm x.2 _ hx (by simp)]
      exact h
    | outOfFuel =>
      rw [hx] at h
      exact absurd h.symm hr

/-- More fuel does not change an outcome of `Marshal` other than the cut-off. -/
theorem MarshalF_succ (f : Nat) : ∀ (v : Val) (r : Res (List Nat)),
    MarshalF f v = r → r ≠ .outOfFuel → MarshalF (f + 1) v = r := by
  induction f with
  | zero => intro v r h hr; exact absurd h.symm hr
  | succ f ih =>
    intro v r h hr
    rw [MarshalF] at h ⊢
    cases hn : normalize v with
    | list xs =>
      rw [hn] at h
      exact encodeListLoop_mono _ _ ih xs _ r h hr
    | map kvs =>
      rw [hn] at h
      exact encodeDictLoop_mono _ _ ih _ _ r h hr
    | struct fs =>
      rw [hn] at h
      simp only at h ⊢
      cases hs : structToMap (.struct fs) with
      | ok dict =>
        rw [hs, Res.bind_ok] at h
        rw [Res.bind_ok]
        exact encodeDictLoop_mono _ _ ih _ _ r h hr
      | err e => rw [hs] at h; exact h
      | panic => rw [hs] at h; exact h
      | outOfFuel => rw [hs] at h; exact h
    | bool b => rw [hn] at h; exact h
    | int bits n => rw [hn] at h; exact h
    | uint bits n => rw [hn] at h; exact h
    | str s => rw [hn] at h; exact h
    | bytes s =>
      rw [hn] at h
      exact encodeListLoop_mono _ _ ih _ _ r h hr
    | nilBytes =>
      rw [hn] at h
      exact encodeListLoop_mono _ _ ih _ _ r h hr
    | nilList =>
      rw [hn] at h
      exact encodeListLoop_mono _ _ ih _ _ r h hr
    | array xs =>
      rw [hn] at h
      exact encodeListLoop_mono _ _ ih xs _ r h hr
    | nilMap =>
      rw [hn] at h
      exact encodeDictLoop_mono _ _ ih _ _ r h hr
    | badMap z => rw [hn] at h; exact h
    | other z => rw [hn] at h; exact h
    | marshaler o u => rw [hn] at h; exact h

theorem MarshalF_le (f f' : Nat) (hle : f ≤ f') (v : Val) (r : Res (List Nat))
    (h : MarshalF f v = r) (hr : r ≠ .outOfFuel) : MarshalF f' v = r := by
  induction f' with
  | zero =>
    have : f = 0 := by omega
    subst this; exact h
  | succ f' ih =>
    by_cases hf : f = f' + 1
    · subst hf; exact h
    · exact MarshalF_succ f' v r (ih (by omega)) hr

/-! ## `structToMap` on any record -/

theorem foldl_mapSet_mem {α : Type} (pairs : List (List Nat × α)) :
    ∀ (acc : List (List Nat × α)) (q : List Nat × α),
      q ∈ pairs.foldl (fun d kv => mapSet d kv.1 kv.2) acc → q ∈ acc ∨ q ∈ pairs := by
  induction pairs with
  | nil => intro acc q hq; exact Or.inl hq
  | cons a pairs ihp =>
    intro acc q hq
    rcases ihp _ q hq with h1 | h1
    · rcases mapSet_mem acc a.1 a.2 q h1 with h2 | h2
      · exact Or.inr (by rw [h2]; simp)
      · exact Or.inl h2
    · exact Or.inr (List.mem_cons_of_mem _ h1)

theorem foldl_mapSet_keysSorted {α : Type} (pairs : List (List Nat × α)) :
    ∀ acc : List (List Nat × α), keysSorted acc →
      keysSorted (pairs.foldl (fun d kv => mapSet d kv.1 kv.2) acc) := by
  induction pairs with
  | nil => intro acc h; exact h
  | cons a pairs ih => intro acc h; exact ih _ (mapSet_sorted acc a.1 a.2 h)

/-- Whatever the record, `structToMap` is not cut off, the map it returns has its
keys in strictly ascending order, and every value of the map is a proper part
of the record. -/
theorem fieldsToMap_props (n : Nat) : ∀ (fs : List (Field × Val)) (e : Bool)
    (acc : List (List Nat × Val)), Val.size.sizeFields fs ≤ n → keysSorted acc →
    structToMap.fieldsToMap fs e acc ≠ .outOfFuel ∧
      ∀ dict, structToMap.fieldsToMap fs e acc = .ok dict →
        keysSorted dict ∧ ∀ p ∈ dict, p ∈ acc ∨ p.2.size ≤ Val.size.sizeFields fs := by
  induction n with
  | zero =>
    intro fs e acc hsz hacc
    cases fs with
    | nil =>
      refine ⟨by simp [structToMap.fieldsToMap], ?_⟩
      intro dict hd
      simp only [structToMap.fieldsToMap, Res.ok.injEq] at hd
      subst hd
      exact ⟨hacc, fun p hp => Or.inl hp⟩
    | cons p fs =>
      obtain ⟨f, x⟩ := p
      have := Val.size_pos x
      simp only [Val.size.sizeFields] at hsz
      omega
  | succ n ih =>
    intro fs
    induction fs with
    | nil =>
      intro e acc _ hacc
      refine ⟨by simp [structToMap.fieldsToMap], ?_⟩
      intro dict hd
      simp only [structToMap.fieldsToMap, Res.ok.injEq] at hd
      subst hd
      exact ⟨hacc, fun p hp => Or.inl hp⟩
    | cons p fs ihfs =>
      intro e acc hsz hacc
      obtain ⟨f, x⟩ := p
      have hx := Val.size_pos x
      simp only [Val.size.sizeFields] at hsz
      have hrest := fun acc' hacc' => ihfs e acc' (by omega) hacc'
      have lift : ∀ (acc' : List (List Nat × Val)), keysSorted acc' →
          (∀ q ∈ acc', q ∈ acc ∨ q.2.size ≤ x.size) →
          structToMap.fieldsToMap fs e acc' ≠ .outOfFuel ∧
            ∀ dict, structToMap.fieldsToMap fs e acc' = .ok dict →
              keysSorted dict ∧
                ∀ q ∈ dict, q ∈ acc ∨ q.2.size ≤ Val.size.sizeFields ((f, x) :: fs) := by
        intro acc' hacc' hmem
        obtain ⟨h1, h2⟩ := hrest acc' hacc'
        refine ⟨h1, ?_⟩
        intro dict hd
        obtain ⟨h3, h4⟩ := h2 dict hd
        refine ⟨h3, ?_⟩
        intro q hq
        simp only [Val.size.sizeFields]
        rcases h4 q hq with h5 | h5
        · rcases hmem q h5 with h6 | h6
          · exact Or.inl h6
          · exact Or.inr (by omega)
        · exact Or.inr (by omega)
      have hstm : ∀ (k : Nat) (y : Val), y.size ≤ k → y.size ≤ n + 1 →
          structToMap y ≠ .outOfFuel ∧
            ∀ sub, structToMap y = .ok sub → ∀ q ∈ sub, q.2.size ≤ y.size := by
        intro k
        induction k with
        | zero =>
          intro y hy
          have := Val.size_pos y
          omega
        | succ k ihk =>
          intro y hy hn
          cases y with
          | struct fs' =>
            simp only [Val.size] at hn
            obtain ⟨h1, h2⟩ := ih fs' (isEmpty (.struct fs')) [] (by omega) List.Pairwise.nil
            rw [structToMap]
            refine ⟨h1, ?_⟩
            intro sub hsub q hq
            rcases (h2 sub hsub).2 q hq with h6 | h6
            · simp at h6
            · simp only [Val.size]
              omega
          | marshaler o u =>
            simp only [Val.size] at hn hy
            obtain ⟨h1, h2⟩ := ihk u (by omega) (by omega)
            rw [structToMap]
            refine ⟨h1, ?_⟩
            intro sub hsub q hq
            have := h2 sub hsub q hq
            simp only [Val.size]
            omega
          | bool b => simp [structToMap]
          | int b n' => simp [structToMap]
          | uint b n' => simp [structToMap]
          | str s => simp [structToMap]
          | bytes s => simp [structToMap]
          | nilBytes => simp [structToMap]
          | list xs => simp [structToMap]
          | nilList => simp [structToMap]
          | array xs => simp [structToMap]
          | map kvs => simp [structToMap]
          | nilMap => simp [structToMap]
          | badMap z => simp [structToMap]
          | other z => simp [structToMap]
      simp only [structToMap.fieldsToMap]
      split
      · exact lift acc hacc (fun q hq => Or.inl hq)
      · split
        · exact lift acc hacc (fun q hq => Or.inl hq)
        · split
          · obtain ⟨h1, h2⟩ := hstm x.size x le_rfl (by omega)
            cases hsub : structToMap x with
            | ok sub =>
              simp only
              refine lift _ (foldl_mapSet_keysSorted sub acc hacc) ?_
              intro q hq
              rcases foldl_mapSet_mem sub acc q hq with h5 | h5
              · exact Or.inl h5
              · exact Or.inr (h2 sub hsub q h5)
            | err e' => simp
            | panic => simp
            | outOfFuel => exact absurd hsub h1
          · refine lift _ (mapSet_sorted acc _ x hacc) ?_
            intro q hq
            rcases mapSet_mem acc _ x q hq with h5 | h5
            · exact Or.inr (by rw [h5])
            · exact Or.inl h5

theorem encodeListLoop_fuel (m : Val → Res (List Nat)) (xs : List Val)
    (h : ∀ x ∈ xs, m x ≠ .outOfFuel) :
    ∀ res : List Nat, encodeListLoop m xs res ≠ .outOfFuel := by
  induction xs with
  | nil => intro res; simp [encodeListLoop]
  | cons x xs ih =>
    intro res
    simp only [encodeListLoop]
    cases hx : m x with
    | ok d => exact ih (fun y hy => h y (by simp [hy])) _
    | err e => simp
    | panic => simp
    | outOfFuel => exact absurd hx (h x (by simp))

theorem encodeDictLoop_fuel (m : Val → Res (List Nat)) (ps : List (List Nat × Val))
    (h : ∀ p ∈ ps, m p.2 ≠ .outOfFuel) :
    ∀ res : List Nat, encodeDictLoop m ps res ≠ .outOfFuel := by
  induction ps with
  | nil => intro res; simp [encodeDictLoop]
  | cons x xs ih =>
    intro res
    simp only [encodeDictLoop]
    cases hx : m x.2 with
    | ok d => exact ih (fun y hy => h y (by simp [hy])) _
    | err e => simp
    | panic => simp
    | outOfFuel => exact absurd hx (h x (by simp))

/-- With fuel of at least the size of the value, `Marshal` is not cut off. -/
theorem MarshalF_fuel (f : Nat) : ∀ v : Val, v.size ≤ f → MarshalF f v ≠ .outOfFuel := by
  induction f with
  | zero =>
    intro v h
    have := Val.size_pos v
    omega
  | succ f ih =>
    intro v hsz
    cases v with
    | list xs =>
      simp only [Val.size] at hsz
      simp only [MarshalF, normalize, encodeList]
      apply encodeListLoop_fuel
      intro x hx
      have := sizeList_mem xs x hx
      exact ih x (by omega)
    | map kvs =>
      simp only [Val.size] at hsz
      simp only [MarshalF, normalize, encodeDict]
      apply encodeDictLoop_fuel
      intro p hp
      have := sizeMap_mem kvs p ((sortSlice_perm_any pairLess kvs).mem_iff.1 hp)
      exact ih p.2 (by omega)
    | struct fs =>
      simp only [Val.size] at hsz
      simp only [MarshalF, normalize]
      rw [structToMap]
      obtain ⟨h1, h2⟩ := fieldsToMap_props (Val.size.sizeFields fs) fs (isEmpty (.struct fs)) []
        (Nat.le_refl _) List.Pairwise.nil
      cases hs : structToMap.fieldsToMap fs (isEmpty (.struct fs)) [] with
      | ok dict =>
        rw [Res.bind_ok]
        unfold encodeDict
        apply encodeDictLoop_fuel
        intro p hp
        rcases (h2 dict hs).2 p ((sortSlice_perm_any pairLess dict).mem_iff.1 hp) with h3 | h3
        · simp at h3
        · exact ih p.2 (by omega)
      | err e => simp
      | panic => simp
      | outOfFuel => exact absurd hs h1
    | array xs =>
      simp only [Val.size] at hsz
      simp only [MarshalF, normalize, encodeList]
      apply encodeListLoop_fuel
      intro x hx
      have := sizeList_mem xs x hx
      exact ih x (by omega)
    | bool b => cases b <;> simp [MarshalF, normalize, encodeInt]
    | int bits n => simp [MarshalF, normalize, encodeInt]
    | uint bits n => simp [MarshalF, normalize, encodeUint]
    | str s => simp [MarshalF, normalize, encodeString]
    | bytes s => simp [MarshalF, normalize, encodeString]
    | nilBytes => simp [MarshalF, normalize, encodeString]
    | nilList => simp [MarshalF, normalize, encodeList, encodeListLoop]
    | nilMap => simp [MarshalF, normalize, encodeDict, encodeDictLoop, sortSlice]
    | badMap z => simp [MarshalF, normalize]
    | other z => simp [MarshalF, normalize]
    | marshaler o u => cases o <;> simp [MarshalF, normalize]

/-- The outcome of a nested call of `Marshal` is the outcome of `Marshal`. -/
theorem Marshal_of_MarshalF (f : Nat) (v : Val) (out : List Nat)
    (h : MarshalF f v = .ok out) : Marshal v = .ok out := by
  unfold Marshal
  by_cases hle : f ≤ v.size
  · exact MarshalF_le f v.size hle v _ h (by simp)
  · have h1 := MarshalF_le v.size f (by omega) v _ rfl (MarshalF_fuel v.size v (Nat.le_refl _))
    rw [← h1]; exact h

theorem encodeDict_shape (m : Val → Res (List Nat)) (entries : List (List Nat × Val))
    (out : List Nat) (hn : (entries.map Prod.fst).Nodup)
    (hm : ∀ x e, m x = .ok e → Marshal x = .ok e) (h : encodeDict m entries = .ok out) :
    ∃ sorted : List (List Nat × Val), sorted.Perm entries ∧ keysSorted sorted ∧
      (∀ p ∈ sorted, Marshal p.2 = .ok (Marshal p.2).bytes) ∧
      out = 100 :: ((sorted.map fun p =>
        encodeStringBytes p.1 ++ (Marshal p.2).bytes).flatten ++ [101]) := by
  unfold encodeDict at h
  obtain ⟨hall, hout⟩ := encodeDictLoop_ok m _ [100] out h
  have hM : ∀ p ∈ sortSlice pairLess entries, Marshal p.2 = .ok (m p.2).bytes :=
    fun p hp => hm _ _ (hall p hp)
  refine ⟨sortSlice pairLess entries, sortSlice_perm entries hn, sortSlice_sorted entries hn,
    ?_, ?_⟩
  · intro p hp
    rw [hM p hp]; rfl
  · rw [hout]
    have : (sortSlice pairLess entries).map
        (fun p => encodeStringBytes p.1 ++ (Marshal p.2).bytes) =
        (sortSlice pairLess entries).map fun p => encodeStringBytes p.1 ++ (m p.2).bytes := by
      apply List.map_congr_left
      intro p hp
      rw [hM p hp]; rfl
    rw [this]
    rfl

/-- C6: for every map (with pairwise distinct keys) and every record that
`Marshal` encodes, the output is `d`, then for every entry of the map (for a
record: of the map `structToMap` makes of it) the key as a byte string followed
by the encoding of the value, then `e`, and the keys appear in strictly
ascending order under the rule: `a` sorts before `b` iff `len(a) < len(b)`, or
`len(a) == len(b)` and `a` is bytewise lexicographically less than `b`.  So `a`
is emitted before `bb`, and `b` before `aa`. -/
theorem C6_dictionary_keys_ascend (v : Val) (out : List Nat) (entries : List (List Nat × Val))
    (hv : (v = .map entries ∧ (entries.map Prod.fst).Nodup) ∨
      (∃ fs, v = .struct fs ∧ structToMap v = .ok entries))
    (h : Marshal v = .ok out) :
    (∃ sorted : List (List Nat × Val), sorted.Perm entries ∧
      (sorted.Pairwise fun p q => sortsBefore p.1 q.1 = true) ∧
      (∀ p ∈ sorted, Marshal p.2 = .ok (Marshal p.2).bytes) ∧
      out = 100 :: ((sorted.map fun p =>
        encodeStringBytes p.1 ++ (Marshal p.2).bytes).flatten ++ [101])) ∧
      sortsBefore (bs "a") (bs "bb") = true ∧ sortsBefore (bs "b") (bs "aa") = true ∧
      Marshal (.map [(bs "bb", .int 64 1), (bs "a", .int 64 2)]) = .ok (bs "d1:ai2e2:bbi1ee") ∧
      Marshal (.map [(bs "aa", .int 64 1), (bs "b", .int 64 2)]) = .ok (bs "d1:bi2e2:aai1ee") := by
  refine ⟨?_, rfl, rfl, rfl, rfl⟩
  rcases hv with ⟨rfl, hn⟩ | ⟨fs, rfl, hs⟩
  · unfold Marshal at h
    simp only [Val.size] at h
    rw [Nat.add_comm 1, MarshalF] at h
    simp only [normalize] at h
    exact encodeDict_shape _ entries out hn (fun x e he => Marshal_of_MarshalF _ x e he) h
  · unfold Marshal at h
    simp only [Val.size] at h
    rw [Nat.add_comm 1, MarshalF] at h
    simp only [normalize] at h
    rw [hs, Res.bind_ok] at h
    have hsorted : keysSorted entries := by
      rw [structToMap] at hs
      exact ((fieldsToMap_props _ fs _ [] (Nat.le_refl _) List.Pairwise.nil).2 entries hs).1
    exact encodeDict_shape _ entries out (keysSorted_nodup entries hsorted)
      (fun x e he => Marshal_of_MarshalF _ x e he) h

theorem C6_dictionary_keys_ascend_witness :
    (∃ sorted : List (List Nat × Val), sorted.Perm exKeys ∧
      (sorted.Pairwise fun p q => sortsBefore p.1 q.1 = true) ∧
      (∀ p ∈ sorted, Marshal p.2 = .ok (Marshal p.2).bytes) ∧
      bs "d1:ai2e1:bi4e2:aai3e2:bbi1ee" = 100 :: ((sorted.map fun p =>
        encodeStringBytes p.1 ++ (Marshal p.2).bytes).flatten ++ [101])) ∧
      sortsBefore (bs "a") (bs "bb") = true ∧ sortsBefore (bs "b") (bs "aa") = true ∧
      Marshal (.map [(bs "bb", .int 64 1), (bs "a", .int 64 2)]) = .ok (bs "d1:ai2e2:bbi1ee") ∧
      Marshal (.map [(bs "aa", .int 64 1), (bs "b", .int 64 2)]) = .ok (bs "d1:bi2e2:aai1ee") :=
  C6_dictionary_keys_ascend (.map exKeys) (bs "d1:ai2e1:bi4e2:aai3e2:bbi1ee") exKeys
    (Or.inl ⟨rfl, by decide⟩) rfl


/-! ## Length prefixes near the maximum -/

theorem wrapInt_64_high (x : Int) (h1 : 2 ^ 63 ≤ x) (h2 : x < 2 ^ 64) :
    wrapInt 64 x = x - 2 ^ 64 := by
  unfold wrapInt
  have e1 : (2 : Int) ^ (64 - 1) = 9223372036854775808 := by norm_num
  have e2 : (2 : Int) ^ 64 = 18446744073709551616 := by norm_num
  have e3 : (2 : Int) ^ 63 = 9223372036854775808 := by norm_num
  rw [e3] at h1
  rw [e2] at h2
  rw [e1, e2]
  omega

/-- What `decodeString` makes of a token with the length prefix `n`: the sum
`read + l` is compared and sliced after it has wrapped. -/
theorem decodeString_prefix (n : Nat) (rest : List Nat) (hn : n < 2 ^ 63)
    (hlen : (FormatUint n ++ 58 :: rest).length < 2 ^ 63) :
    decodeString (FormatUint n ++ 58 :: rest) =
      if (FormatUint n).length + 1 + n < 2 ^ 63 then
        if rest.length < n then .err .lengthTooBig
        else .ok ((FormatUint n).length + 1 + n, rest.take n)
      else .panic := by
  simp only [List.length_append, List.length_cons] at hlen
  have hne := FormatUint_ne_nil n
  have hloop := decodeStringLoop_digits
    (FormatUint n ++ 58 :: rest).length (FormatUint n) rest 0 []
    (FormatUint_digits _) (by simp)
  have hpos : 0 < (FormatUint n).length := List.length_pos.2 hne
  have hA : Atoi (FormatUint n) = .ok (n : Int) := by
    unfold Atoi
    have := ParseInt_FormatInt (n : Int) (by omega) (by omega)
    rwa [← ItoaNat, Itoa]
  unfold decodeString
  rw [if_neg (by simp), hloop]
  simp only [Res.bind_ok, List.nil_append]
  rw [if_neg (by omega), if_neg (FormatUint_noLeadingZero _), hA, Res.bind_ok]
  by_cases hs : (FormatUint n).length + 1 + n < 2 ^ 63
  · have hw : wrapInt 64 (((0 + (FormatUint n).length + 1 : Nat) : Int) + (n : Int))
        = (((FormatUint n).length + 1 + n : Nat) : Int) := by
      rw [wrapInt_of_range 64 _ (by omega) (by push_cast; omega) (by push_cast; omega)]
      push_cast; omega
    rw [hw, if_pos hs]
    by_cases hr : rest.length < n
    · rw [if_pos hr, if_pos (by simp only [List.length_append, List.length_cons]; push_cast; omega)]
    · rw [if_neg hr,
        if_neg (by simp only [List.length_append, List.length_cons]; push_cast; omega),
        if_neg (by push_cast; omega)]
      simp only [Int.toNat_ofNat]
      refine congrArg Res.ok (Prod.ext rfl ?_)
      show List.take _ (List.drop _ _) = rest.take n
      have e1 : 0 + (FormatUint n).length + 1 = (FormatUint n ++ [58]).length := by simp
      have e2 : FormatUint n ++ 58 :: rest = (FormatUint n ++ [58]) ++ rest := by simp
      rw [e1, e2, List.drop_left]
      have e3 : (FormatUint n).length + 1 + n - (FormatUint n ++ [58]).length = n := by simp
      rw [e3]
  · have hw : wrapInt 64 (((0 + (FormatUint n).length + 1 : Nat) : Int) + (n : Int))
        = (((FormatUint n).length + 1 + n : Nat) : Int) - 2 ^ 64 := by
      rw [wrapInt_64_high _ (by push_cast; omega) (by push_cast; omega)]
      push_cast; omega
    rw [hw, if_neg hs, if_neg (by simp only [List.length_append, List.length_cons]; push_cast; omega),
      if_pos (by push_cast; omega)]

/-- C11: for a byte-string token with the length prefix `n` (decimal digits of a
number below `2^63`) followed by `:` and the bytes `rest`, `read` being the
number of bytes up to and including the `:`.  When `read + n` is below `2^63`
the function does what the claim says: `ErrLengthTooBig` when fewer than `n`
bytes remain, and exactly the first `n` bytes of `rest` otherwise.  When
`read + n` reaches `2^63` the sum wraps to a negative number, the test
`read+l > len(data)` does not fire and the slice expression panics, where the
claim has `ErrLengthTooBig`. -/
theorem C11_length_prefix_near_maximum_panics (n : Nat) (rest : List Nat) (hn : n < 2 ^ 63)
    (hlen : (FormatUint n ++ 58 :: rest).length < 2 ^ 63) :
    ((FormatUint n).length + 1 + n < 2 ^ 63 → rest.length < n →
        decodeString (FormatUint n ++ 58 :: rest) = .err .lengthTooBig) ∧
      ((FormatUint n).length + 1 + n < 2 ^ 63 → n ≤ rest.length →
        decodeString (FormatUint n ++ 58 :: rest) =
          .ok ((FormatUint n).length + 1 + n, rest.take n)) ∧
      (2 ^ 63 ≤ (FormatUint n).length + 1 + n →
        decodeString (FormatUint n ++ 58 :: rest) = .panic) := by
  have h := decodeString_prefix n rest hn hlen
  refine ⟨fun h1 h2 => ?_, fun h1 h2 => ?_, fun h1 => ?_⟩
  · rw [h, if_pos h1, if_pos h2]
  · rw [h, if_pos h1, if_neg (by omega)]
  · rw [h, if_neg (by omega)]

theorem C11_length_prefix_near_maximum_panics_witness :
    decodeString (bs "9223372036854775807:") = .panic ∧
      Unmarshal (bs "9223372036854775807:") .string (.str []) = .panic ∧
      Unmarshal (bs "5:ab") .string (.str []) = .err .lengthTooBig :=
  ⟨(C11_length_prefix_near_maximum_panics 9223372036854775807 [] (by decide) (by decide)).2.2
    (by decide), rfl, rfl⟩

/-! ## Integers into booleans and into narrow integers -/

theorem decodeF_bool (g : Nat) (n : Int) (cur : Val) (rest : List Nat)
    (h1 : -2 ^ 63 ≤ n) (h2 : n < 2 ^ 63) :
    decodeF (g + 1) (105 :: (FormatInt n ++ 101 :: rest)) .bool cur =
      if n > 1 then .err .invalidBool
      else .ok ((FormatInt n).length + 2, .bool (decide (n = 1))) := by
  rw [decodeF, if_neg (by simp)]
  simp only [decodeInt_FormatInt n h1 h2 rest, Res.bind_ok]

theorem decodeF_uint (g bits : Nat) (n : Nat) (cur : Val) (rest : List Nat)
    (h : n < 2 ^ 64) :
    decodeF (g + 1) (105 :: (FormatUint n ++ 101 :: rest)) (.uint bits) cur =
      .ok ((FormatUint n).length + 2, .uint bits (n % 2 ^ bits)) := by
  rw [decodeF, if_neg (by simp)]
  simp only [decodeUint_FormatUint n h rest, Res.bind_ok]

/-- C12: decoding the integer token of `n` into a boolean target fails with
`ErrInvalidBool` when `n > 1`, and succeeds otherwise with the value `n == 1`:
the test is `tmp > 1` only, so every negative integer decodes to `false`, where
the claim has `ErrInvalidBool`. -/
theorem C12_negative_integer_decodes_to_false (n : Int) (cur : Val)
    (h1 : -2 ^ 63 ≤ n) (h2 : n < 2 ^ 63) :
    Unmarshal (105 :: (FormatInt n ++ [101])) .bool cur =
      if n > 1 then .err .invalidBool else .ok (.bool (decide (n = 1))) := by
  have hd := decodeF_bool (105 :: (FormatInt n ++ [101])).length n cur [] h1 h2
  unfold Unmarshal decode
  rw [hd]
  by_cases hn : n > 1
  · rw [if_pos hn, if_pos hn]; rfl
  · rw [if_neg hn, if_neg hn, Res.bind_ok]
    simp only []
    rw [if_neg (by simp)]

theorem C12_negative_integer_decodes_to_false_witness :
    Unmarshal (bs "i-1e") .bool (.bool true) = .ok (.bool false) ∧
      Unmarshal (bs "i-9223372036854775808e") .bool (.bool true) = .ok (.bool false) ∧
      Unmarshal (bs "i0e") .bool (.bool true) = .ok (.bool false) ∧
      Unmarshal (bs "i1e") .bool (.bool false) = .ok (.bool true) ∧
      Unmarshal (bs "i2e") .bool (.bool false) = .err .invalidBool :=
  ⟨(C12_negative_integer_decodes_to_false (-1) (.bool true) (by decide) (by decide) :),
    rfl, rfl, rfl, rfl⟩

/-- C13: decoding the integer token of `n` (in the signed 64-bit range) into a
signed target of any width succeeds and stores `n` wrapped to that width, and
decoding the token of `m` (below `2^64`) into an unsigned target of any width
succeeds and stores `m mod 2^bits`: `decode` parses with 64 bits and hands the
result to `SetInt` or `SetUint`, which truncate.  So `i300e` into an 8-bit
target stores 44, where the claim has an error.  A negative token into an
unsigned target is an error of `strconv.ParseUint`, as the claim says. -/
theorem C13_narrow_target_stores_truncated_value (bits : Nat) (n : Int) (m : Nat) (cur : Val)
    (h1 : -2 ^ 63 ≤ n) (h2 : n < 2 ^ 63) (h3 : m < 2 ^ 64) :
    Unmarshal (105 :: (FormatInt n ++ [101])) (.int bits) cur =
        .ok (.int bits (wrapInt bits n)) ∧
      Unmarshal (105 :: (FormatUint m ++ [101])) (.uint bits) cur =
        .ok (.uint bits (m % 2 ^ bits)) ∧
      Unmarshal (bs "i-1e") (.uint bits) cur = .err .badNumber := by
  have hd := decodeF_int (105 :: (FormatInt n ++ [101])).length bits n cur [] h1 h2
  have hu := decodeF_uint (105 :: (FormatUint m ++ [101])).length bits m cur [] h3
  refine ⟨?_, ?_, rfl⟩
  · rw [Unmarshal_of_decode _ _ _ _ _ hd, if_neg (by simp)]
  · rw [Unmarshal_of_decode _ _ _ _ _ hu, if_neg (by simp)]

theorem C13_narrow_target_stores_truncated_value_witness :
    Unmarshal (bs "i300e") (.int 8) (.int 8 0) = .ok (.int 8 44) ∧
      Unmarshal (bs "i300e") (.uint 8) (.uint 8 0) = .ok (.uint 8 44) ∧
      Unmarshal (bs "i-1e") (.uint 8) (.uint 8 0) = .err .badNumber :=
  C13_narrow_target_stores_truncated_value 8 300 300 (.int 8 0) (by decide) (by decide)
    (by decide)

/-! ## Skipped fields and omitempty -/

/-- C15: `Marshal` emits nothing for a field with the tag `-`, whatever it holds.
`decodeStruct` enters the field into `nameMapping` under the name of its tag,
which is empty, and never looks at `Skip`: the empty key `0:` is matched with
the skipped field, `d0:i5ee` stores 5 in it (for the record `Test` of `docs.go`,
`d0:d1:xi1eee` fills `Attr3`), and a value of another kind under the empty key
is an error.  The claim has the field keep its value. -/
theorem C15_skipped_field_is_matched_by_the_empty_key :
    (∀ v : Val, Marshal (exSkip v) = .ok (bs "de")) ∧
      Unmarshal (bs "d0:i5ee") (.struct exSkipFields) (exSkip (.int 64 0)) =
        .ok (exSkip (.int 64 5)) ∧
      Unmarshal (bs "d0:lee") (.struct exSkipFields) (exSkip (.int 64 0)) =
        .err .invalidInteger ∧
      Unmarshal (bs "d0:d1:xi1eee") (.struct exTestFields) (.struct (exTest [] 0 [] [])) =
        .ok (.struct (exTest [] 0 [] [(bs "x", .bool true)])) ∧
      mapGet (nameMapping exSkipFields 0 []) [] = some 0 :=
  ⟨fun _ => Marshal_of_MarshalF 1 _ _ rfl, rfl, rfl, rfl, rfl⟩

/-- C16: `structToMap` tests `isEmpty(rv)` on the record and not on the field.
The zero value of `Test` leaves `str_attr` out; as soon as any other field is
not zero (`Attr1`, `Attr0`, or the skipped `Attr3`), the empty string of `Attr2`
is emitted as `8:str_attr0:`, where the claim has it left out. -/
theorem C16_omitempty_tests_the_whole_record :
    Marshal (.struct (exTest [] 0 [] [])) = .ok (bs "d5:Attr00:8:int_attri0ee") ∧
      Marshal (.struct (exTest [] 1 [] [])) = .ok (bs "d5:Attr00:8:int_attri1e8:str_attr0:e") ∧
      Marshal (.struct (exTest (bs "x") 0 [] [])) =
        .ok (bs "d5:Attr01:x8:int_attri0e8:str_attr0:e") ∧
      Marshal (.struct (exTest [] 0 [] [(bs "k", .bool true)])) =
        .ok (bs "d5:Attr00:8:int_attri0e8:str_attr0:e") ∧
      isEmpty (.str []) = true :=
  ⟨rfl, rfl, rfl, rfl, rfl⟩

/-- C17: `Marshal` of the zero value of the record `Test` of `docs.go` returns
exactly the bytes `d5:Attr00:8:int_attri0ee`. -/
theorem C17_zero_value_of_Test :
    Marshal (.struct (exTest [] 0 [] [])) = .ok (bs "d5:Attr00:8:int_attri0ee") ∧
      (Ty.struct exTestFields).zero = .struct (exTest [] 0 [] []) :=
  ⟨rfl, rfl⟩

/-- C19: an embedded record is flattened by a nested call of `structToMap`, whose
omitempty test looks at the embedded record alone.  `Outer{Inner{A: 0}, B: 1}`
with omitempty on `A` encodes as `d1:Bi1ee`; the record with `A` declared in the
parent encodes as `d1:Ai0e1:Bi1ee`, because there the test looks at the whole
parent.  The claim has the two encodings equal; without omitempty they are
(`exOuter`). -/
theorem C19_embedded_record_with_omitempty :
    Marshal (exEmbed 0 1) = .ok (bs "d1:Bi1ee") ∧
      Marshal (exFlat 0 1) = .ok (bs "d1:Ai0e1:Bi1ee") ∧
      Marshal (exEmbed 0 1) ≠ Marshal (exFlat 0 1) ∧
      (∀ a b : Int, Marshal (exOuter a b) =
        Marshal (.struct [(⟨bs "A", [], false, true⟩, .int 64 a),
          (⟨bs "B", [], false, true⟩, .int 64 b)])) :=
  ⟨rfl, rfl, by decide, fun _ _ => rfl⟩

/-! ## The tag resolver -/

theorem split_of_not_mem (sep : Nat) (name : List Nat) (h : sep ∉ name) :
    split sep name = [name] := by
  induction name with
  | nil => rfl
  | cons c cs ih =>
    simp only [List.mem_cons, not_or] at h
    have hc : ¬ c = sep := fun hc => h.1 hc.symm
    simp only [split, hc, if_false, ih h.2]

theorem split_append (sep : Nat) (name rest : List Nat) (h : sep ∉ name) :
    split sep (name ++ sep :: rest) = name :: split sep rest := by
  induction name with
  | nil => simp [split]
  | cons c cs ih =>
    simp only [List.mem_cons, not_or] at h
    have hc : ¬ c = sep := fun hc => h.1 hc.symm
    simp only [List.cons_append, split, hc, if_false, List.append_eq, ih h.2]

/-- C18 (amended): an unexported field is skipped whatever its directive.  For an
exported field `newTag` is this function of the declared name, the directive and
the embedded flag: the empty directive gives the declared name (the empty name
for an embedded field) and no flags; `-` gives skip; `name` gives the wire name
`name`; `name,omitempty` gives the wire name `name` with omitEmpty; `,omitempty`
gives the declared name (the empty name for an embedded field) with omitEmpty;
`omitempty` gives the wire name `omitempty` without omitEmpty.  Here `name` is
not empty, holds no comma and is not `-`. -/
theorem C18_newTag_by_directive (f : Field) (name : List Nat) (h1 : 44 ∉ name)
    (h2 : name ≠ []) (h3 : name ≠ bs "-") :
    (f.exported = false → newTag f = ⟨[], false, true⟩) ∧
      (f.exported = true →
        (f.directive = [] →
          newTag f = ⟨if f.anonymous then [] else f.name, false, false⟩) ∧
        (f.directive = bs "-" → newTag f = ⟨[], false, true⟩) ∧
        (f.directive = name → newTag f = ⟨name, false, false⟩) ∧
        (f.directive = name ++ bs ",omitempty" → newTag f = ⟨name, true, false⟩) ∧
        (f.directive = bs ",omitempty" →
          newTag f = ⟨if f.anonymous then [] else f.name, true, false⟩) ∧
        (f.directive = bs "omitempty" → newTag f = ⟨bs "omitempty", false, false⟩)) := by
  refine ⟨fun hx => by simp [newTag, hx], fun hx => ⟨?_, ?_, ?_, ?_, ?_, ?_⟩⟩
  · intro hd
    by_cases ha : f.anonymous = true <;> simp [newTag, hx, hd, ha]
  · intro hd
    have hs : split 44 (bs "-") = [bs "-"] := by decide
    have hne : bs "-" ≠ [] := by decide
    simp [newTag, hx, hd, hs, hne]
  · intro hd
    simp [newTag, hx, hd, h2, split_of_not_mem 44 name h1, h3]
  · intro hd
    have hs : split 44 (name ++ bs ",omitempty") = [name, optionOmitEmpty] := by
      have : bs ",omitempty" = 44 :: optionOmitEmpty := by decide
      rw [this, split_append 44 name _ h1]
      have : split 44 optionOmitEmpty = [optionOmitEmpty] := by decide
      rw [this]
    have hne : name ++ bs ",omitempty" ≠ [] := by
      cases name with
      | nil => exact absurd rfl h2
      | cons c cs => simp
    simp [newTag, hx, hd, hs, hne, h2, h3]
  · intro hd
    have hs : split 44 (bs ",omitempty") = [[], optionOmitEmpty] := by decide
    have hne : bs ",omitempty" ≠ [] := by decide
    have hdash : ¬ ([] : List Nat) = bs "-" := by decide
    by_cases ha : f.anonymous = true <;> simp [newTag, hx, hd, hs, hne, hdash, ha]
  · intro hd
    have hs : split 44 (bs "omitempty") = [bs "omitempty"] := by decide
    have hne : bs "omitempty" ≠ [] := by decide
    have hdash : ¬ bs "omitempty" = bs "-" := by decide
    simp [newTag, hx, hd, hs, hne, hdash]

theorem C18_newTag_by_directive_witness :
    newTag ⟨bs "Attr2", bs "str_attr,omitempty", false, true⟩ = ⟨bs "str_attr", true, false⟩ :=
  ((C18_newTag_by_directive ⟨bs "Attr2", bs "str_attr,omitempty", false, true⟩ (bs "str_attr")
    (by decide) (by decide) (by decide)).2 rfl).2.2.2.1 rfl

/-- C18 (as stated) fails for an unexported field: with the empty directive its
wire name is not the declared name and it is skipped, and `name,omitempty`
gives it neither the wire name nor the flag. -/
theorem C18_unexported_field_is_skipped :
    newTag ⟨bs "attr", [], false, false⟩ = ⟨[], false, true⟩ ∧
      newTag ⟨bs "attr", [], false, false⟩ ≠ ⟨bs "attr", false, false⟩ ∧
      newTag ⟨bs "attr", bs "name,omitempty", false, false⟩ ≠ ⟨bs "name", true, false⟩ := by
  decide


/-! ## Skipping a well-formed value -/

theorem allInRange_iff (items : List Wire) :
    Wire.inRange.allInRange items = true ↔ ∀ w ∈ items, w.inRange = true := by
  induction items with
  | nil => simp [Wire.inRange.allInRange]
  | cons w rest ih => simp [Wire.inRange.allInRange, ih]

theorem allInRangePairs_iff (pairs : List (List Nat × Wire)) :
    Wire.inRange.allInRangePairs pairs = true ↔ ∀ w ∈ pairItems pairs, w.inRange = true := by
  induction pairs with
  | nil => simp [Wire.inRange.allInRangePairs, pairItems]
  | cons p rest ih =>
    obtain ⟨k, w⟩ := p
    simp [Wire.inRange.allInRangePairs, pairItems, ih, Wire.inRange]

theorem encodeItems_eq (items : List Wire) :
    Wire.encode.encodeItems items = (items.map Wire.encode).flatten := by
  induction items with
  | nil => rfl
  | cons w rest ih => simp [Wire.encode.encodeItems, ih]

theorem encodePairs_eq (pairs : List (List Nat × Wire)) :
    Wire.encode.encodePairs pairs = Wire.encode.encodeItems (pairItems pairs) := by
  induction pairs with
  | nil => rfl
  | cons p rest ih =>
    obtain ⟨k, w⟩ := p
    simp [Wire.encode.encodePairs, pairItems, Wire.encode.encodeItems, ih, Wire.encode]

theorem Wire.encode_head (w : Wire) : ∃ c l, w.encode = c :: l ∧ c ≠ 101 := by
  cases w with
  | int n => exact ⟨105, _, rfl, by decide⟩
  | str s =>
    obtain ⟨c, l, h, hd⟩ := encodeStringBytes_head s
    have := (isDigit_iff c).1 hd
    exact ⟨c, l, h, by omega⟩
  | list items => exact ⟨108, _, rfl, by decide⟩
  | dict pairs => exact ⟨100, _, rfl, by decide⟩

theorem readNextValueLoop_chunks (rnv : List Nat → Res (Nat × List Nat))
    (chunks : List (List Nat)) :
    ∀ (pre rest : List Nat) (k : Nat),
      (∀ c ∈ chunks, c ≠ [] ∧ c.head? ≠ some 101 ∧
        ∀ tail : List Nat, (c ++ tail).length < 2 ^ 63 → ∃ d, rnv (c ++ tail) = .ok (c.length, d)) →
      chunks.length < k →
      (pre ++ (chunks.flatten ++ 101 :: rest)).length < 2 ^ 63 →
      readNextValueLoop rnv (pre ++ (chunks.flatten ++ 101 :: rest)) k pre.length =
        .ok (pre.length + chunks.flatten.length) := by
  induction chunks with
  | nil =>
    intro pre rest k _ hk _
    cases k with
    | zero => omega
    | succ k =>
      simp only [List.flatten_nil, List.nil_append, readNextValueLoop]
      have : (pre ++ 101 :: rest)[pre.length]? = some 101 := by
        simpa using getElem?_after pre [101] rest 101 rfl
      rw [this]
      simp
  | cons e chunks ih =>
    intro pre rest k h hk hlen
    cases k with
    | zero => omega
    | succ k =>
      obtain ⟨hne, hhead, hdec⟩ := h e (by simp)
      obtain ⟨c, l, rfl⟩ : ∃ c l, e = c :: l := by
        cases e with
        | nil => exact absurd rfl hne
        | cons c l => exact ⟨c, l, rfl⟩
      have hc : c ≠ 101 := by simpa using hhead
      simp only [List.flatten_cons] at hlen ⊢
      have hdata : pre ++ ((c :: l) ++ chunks.flatten ++ 101 :: rest) =
          pre ++ ((c :: l) ++ (chunks.flatten ++ 101 :: rest)) := by
        simp only [List.append_assoc]
      rw [hdata] at hlen ⊢
      rw [readNextValueLoop, getElem?_after pre (c :: l) _ c rfl]
      simp only [hc, if_false, List.drop_left]
      obtain ⟨d, hd⟩ := hdec (chunks.flatten ++ 101 :: rest)
        (by simp only [List.length_append] at hlen ⊢; omega)
      rw [hd, Res.bind_ok]
      have hpre : pre.length + (c :: l).length = (pre ++ (c :: l)).length := by simp
      have hdata2 : pre ++ ((c :: l) ++ (chunks.flatten ++ 101 :: rest)) =
          (pre ++ (c :: l)) ++ (chunks.flatten ++ 101 :: rest) := by
        simp only [List.append_assoc]
      simp only []
      rw [hpre, hdata2, ih (pre ++ (c :: l)) rest k
        (fun q hq => h q (by simp [hq])) (by simpa using hk) (by rw [← hdata2]; exact hlen)]
      refine congrArg Res.ok ?_
      simp only [List.length_append, List.length_cons]; omega


/-- The `case listToken, dictToken` of `readNextValue` on a list of wire values
that the nested calls delimit. -/
theorem readNextValueF_items (f : Nat) (t : Nat) (ht : t = 108 ∨ t = 100) (items : List Wire)
    (tail : List Nat)
    (ih : ∀ w ∈ items, ∀ tail' : List Nat, (w.encode ++ tail').length < 2 ^ 63 →
      readNextValueF f (w.encode ++ tail') = .ok (w.encode.length, w.encode))
    (hf : (Wire.encode.encodeItems items).length + 1 < f)
    (hlen : (t :: (Wire.encode.encodeItems items ++ [101]) ++ tail).length < 2 ^ 63) :
    readNextValueF (f + 1) (t :: (Wire.encode.encodeItems items ++ [101]) ++ tail) =
      .ok ((t :: (Wire.encode.encodeItems items ++ [101])).length,
        t :: (Wire.encode.encodeItems items ++ [101])) := by
  rw [encodeItems_eq] at *
  have hchunks : ∀ c ∈ items.map Wire.encode, c ≠ [] ∧ c.head? ≠ some 101 ∧
      ∀ tail' : List Nat, (c ++ tail').length < 2 ^ 63 →
        ∃ d, readNextValueF f (c ++ tail') = .ok (c.length, d) := by
    intro c hc
    obtain ⟨w, hw, rfl⟩ := List.mem_map.1 hc
    obtain ⟨a, l, hal, ha⟩ := Wire.encode_head w
    refine ⟨by rw [hal]; simp, by rw [hal]; simpa using ha, ?_⟩
    intro tail' hl
    exact ⟨_, ih w hw tail' hl⟩
  have hne : ∀ e ∈ items.map Wire.encode, e ≠ [] := fun e he => (hchunks e he).1
  have hcount := length_le_flatten_length _ hne
  have hdata : t :: ((items.map Wire.encode).flatten ++ [101]) ++ tail =
      [t] ++ ((items.map Wire.encode).flatten ++ 101 :: tail) := by simp
  have hloop := readNextValueLoop_chunks (readNextValueF f) (items.map Wire.encode) [t] tail f
    hchunks (by omega) (by rw [← hdata]; exact hlen)
  rw [show ([t] : List Nat).length = 1 from rfl] at hloop
  have hc : ¬ t = 105 := by omega
  rw [readNextValueF, if_neg (by simp)]
  simp only [List.cons_append, List.getElem?_cons_zero, hc, if_false, ht, if_true]
  rw [← List.cons_append, hdata, hloop, Res.bind_ok]
  refine congrArg Res.ok (Prod.ext ?_ ?_)
  · simp only [List.length_cons, List.length_append, List.length_nil]; omega
  · show List.take _ _ = _
    have e1 : 1 + (items.map Wire.encode).flatten.length + 1 =
        (t :: ((items.map Wire.encode).flatten ++ [101])).length := by
      simp only [List.length_cons, List.length_append, List.length_nil]; omega
    rw [e1, ← hdata, List.take_left]

theorem mem_encodeItems_length (items : List Wire) (w : Wire) (h : w ∈ items) :
    w.encode.length ≤ (Wire.encode.encodeItems items).length := by
  rw [encodeItems_eq]
  exact length_le_flatten _ _ (List.mem_map.2 ⟨w, h, rfl⟩)

/-- On a well-formed value followed by anything, `readNextValue` returns the
length of the value and the value. -/
theorem readNextValueF_wire : ∀ (fuel : Nat) (w : Wire) (tail : List Nat),
    w.inRange = true → w.encode.length < fuel → (w.encode ++ tail).length < 2 ^ 63 →
    readNextValueF fuel (w.encode ++ tail) = .ok (w.encode.length, w.encode) := by
  intro fuel
  induction fuel with
  | zero => intro w tail _ h; omega
  | succ f ih =>
    intro w tail hr hf hlen
    cases w with
    | int n =>
      simp only [Wire.inRange, decide_eq_true_eq] at hr
      have e2 : (Wire.int n).encode ++ tail = 105 :: (FormatInt n ++ 101 :: tail) := by
        simp [Wire.encode]
      have e3 : 105 :: (FormatInt n ++ 101 :: tail) = (Wire.int n).encode ++ tail := e2.symm
      rw [e2, readNextValueF, if_neg (by simp)]
      simp only [List.getElem?_cons_zero, intToken, if_true]
      rw [decodeInt_FormatInt n hr.1 hr.2 tail, Res.bind_ok]
      refine congrArg Res.ok (Prod.ext ?_ ?_)
      · simp only [Wire.encode, List.length_cons, List.length_append, List.length_nil]
      · show List.take _ _ = _
        have e1 : (FormatInt n).length + 2 = (Wire.int n).encode.length := by
          simp only [Wire.encode, List.length_cons, List.length_append, List.length_nil]
        rw [e1, e3, List.take_left]
    | str s =>
      simp only [Wire.encode] at hf hlen ⊢
      obtain ⟨c, l, hcl, hd⟩ := encodeStringBytes_head s
      have hc := (isDigit_iff c).1 hd
      rw [readNextValueF, if_neg (by rw [hcl]; simp)]
      have h0 : (encodeStringBytes s ++ tail)[0]? = some c := by rw [hcl]; simp
      rw [h0]
      simp only [intToken, listToken, dictToken]
      rw [if_neg (by omega), if_neg (by omega), decodeString_encode s tail hlen, Res.bind_ok]
      simp
    | list items =>
      simp only [Wire.inRange] at hr
      simp only [Wire.encode, List.length_cons, List.length_append, List.length_nil] at hf
      refine readNextValueF_items f 108 (Or.inl rfl) items tail ?_ (by omega) hlen
      intro w hw tail' hl
      have := mem_encodeItems_length items w hw
      exact ih w tail' ((allInRange_iff items).1 hr w hw) (by omega) hl
    | dict pairs =>
      simp only [Wire.inRange] at hr
      have e : (Wire.dict pairs).encode =
          100 :: (Wire.encode.encodeItems (pairItems pairs) ++ [101]) := by
        simp [Wire.encode, encodePairs_eq]
      rw [e] at hf hlen ⊢
      simp only [List.length_cons, List.length_append, List.length_nil] at hf
      refine readNextValueF_items f 100 (Or.inr rfl) (pairItems pairs) tail ?_ (by omega) hlen
      intro w hw tail' hl
      have := mem_encodeItems_length (pairItems pairs) w hw
      exact ih w tail' ((allInRangePairs_iff pairs).1 hr w hw) (by omega) hl

theorem readNextValue_wire (w : Wire) (tail : List Nat) (hr : w.inRange = true)
    (hlen : (w.encode ++ tail).length < 2 ^ 63) :
    readNextValue (w.encode ++ tail) = .ok (w.encode.length, w.encode) :=
  readNextValueF_wire _ w tail hr (by simp only [List.length_append]; omega) hlen


theorem drop_shift (P X B : List Nat) (r : Nat) (h : P.length ≤ r) :
    (P ++ (X ++ B)).drop (r + X.length) = (P ++ B).drop r := by
  obtain ⟨j, rfl⟩ := Nat.exists_eq_add_of_le h
  rw [Nat.add_assoc, List.drop_append, List.drop_append, Nat.add_comm j, List.drop_append]

theorem getElem?_shift (P X B : List Nat) (r : Nat) (h : P.length ≤ r) :
    (P ++ (X ++ B))[r + X.length]? = (P ++ B)[r]? := by
  have := drop_shift P X B r h
  have h1 := congrArg (fun l => l[0]?) this
  simpa [List.getElem?_drop] using h1

/-- One turn of the loop of `decodeStruct` on a pair whose key is not in
`nameMapping` and whose value is well formed: the loop goes on behind the pair
with the fields as they were. -/
theorem decodeStructLoop_skip (dec : Ty → List Nat → Res (Nat × Val))
    (fields : List (Field × Ty)) (data : List Nat) (k read : Nat) (vals : List (Field × Val))
    (key : List Nat) (w : Wire) (rest : List Nat)
    (hkey : ∀ p ∈ fields, (newTag p.1).Name ≠ key) (hw : w.inRange = true)
    (hdrop : data.drop read = encodeStringBytes key ++ (w.encode ++ rest))
    (hlen : data.length < 2 ^ 63) :
    decodeStructLoop dec fields data (k + 1) read vals =
      decodeStructLoop dec fields data k
        (read + (encodeStringBytes key).length + w.encode.length) vals := by
  obtain ⟨c, l, hcl, hdig⟩ := encodeStringBytes_head key
  have hc : c ≠ 101 := by
    have := (isDigit_iff c).1 hdig
    omega
  have hdl : (data.drop read).length ≤ data.length := by simp
  have h0 : data[read]? = some c := by
    have := congrArg (fun l => l[0]?) hdrop
    simpa [List.getElem?_drop, hcl] using this
  have h1 : decodeString (data.drop read) = .ok ((encodeStringBytes key).length, key) := by
    rw [hdrop]
    exact decodeString_encode key _ (by rw [← hdrop]; omega)
  have h2 : data.drop (read + (encodeStringBytes key).length) = w.encode ++ rest := by
    rw [← List.drop_drop, hdrop, List.drop_left]
  have h3 : readNextValue (data.drop (read + (encodeStringBytes key).length)) =
      .ok (w.encode.length, w.encode) := by
    rw [h2]
    refine readNextValue_wire w rest hw ?_
    have : (w.encode ++ rest).length ≤ (data.drop read).length := by
      rw [hdrop]; simp
    omega
  have h4 : mapGet (nameMapping fields 0 []) key = none := by
    rw [nameMapping_notin fields 0 [] key hkey]; rfl
  rw [decodeStructLoop, h0]
  simp only [hc, if_false]
  rw [h1, Res.bind_ok]
  simp only [h4]
  rw [h3, Res.bind_ok]

/-- The loop of `decodeStruct` looks at the bytes from `read` on only: with the
bytes `X` put in before `read`, it does the same `X.length` bytes further. -/
theorem decodeStructLoop_shift (dec : Ty → List Nat → Res (Nat × Val))
    (fields : List (Field × Ty)) (P X B : List Nat) :
    ∀ (k read : Nat) (vals : List (Field × Val)), P.length ≤ read →
      decodeStructLoop dec fields (P ++ (X ++ B)) k (read + X.length) vals =
        (decodeStructLoop dec fields (P ++ B) k read vals).bind fun r =>
          .ok (r.1 + X.length, r.2) := by
  intro k
  induction k with
  | zero => intro read vals _; rfl
  | succ k ih =>
    intro read vals hr
    rw [decodeStructLoop, decodeStructLoop, getElem?_shift P X B read hr, drop_shift P X B read hr]
    cases h0 : (P ++ B)[read]? with
    | none => rfl
    | some c =>
      simp only []
      by_cases hc : c = endToken
      · rw [if_pos hc, if_pos hc]; rfl
      · rw [if_neg hc, if_neg hc]
        cases h1 : decodeString ((P ++ B).drop read) with
        | err e => rfl
        | panic => rfl
        | outOfFuel => rfl
        | ok p =>
          obtain ⟨r, key⟩ := p
          simp only [Res.bind_ok]
          have e1 : read + X.length + r = (read + r) + X.length := by omega
          rw [e1, drop_shift P X B (read + r) (by omega)]
          cases h2 : mapGet (nameMapping fields 0 []) key with
          | none =>
            simp only []
            cases h3 : readNextValue ((P ++ B).drop (read + r)) with
            | err e => rfl
            | panic => rfl
            | outOfFuel => rfl
            | ok q =>
              simp only [Res.bind_ok]
              have e2 : read + r + X.length + q.1 = (read + r + q.1) + X.length := by omega
              rw [e2]
              exact ih _ vals (by omega)
          | some num =>
            simp only []
            cases h3 : fields[num]? with
            | none => rfl
            | some ft =>
              obtain ⟨f, t⟩ := ft
              simp only []
              cases h4 : dec t ((P ++ B).drop (read + r)) with
              | err e => rfl
              | panic => rfl
              | outOfFuel => rfl
              | ok q =>
                simp only [Res.bind_ok]
                by_cases hx : f.exported = false
                · rw [if_pos hx, if_pos hx]; rfl
                · rw [if_neg hx, if_neg hx]
                  have e2 : read + r + X.length + q.1 = (read + r + q.1) + X.length := by omega
                  rw [e2]
                  exact ih _ _ (by omega)

/-! ## More fuel for `decode` -/

theorem Res.bind_ne_outOfFuel {α β : Type} (x : Res α) (f : α → Res β)
    (h : x.bind f ≠ .outOfFuel) : x ≠ .outOfFuel := by
  intro hx
  rw [hx] at h
  exact h rfl

theorem decodeListLoop_mono (dec dec' : List Nat → Res (Nat × Val))
    (hdec : ∀ d r, dec d = r → r ≠ .outOfFuel → dec' d = r) (data : List Nat) :
    ∀ (k read : Nat) (res : List Val) (r : Res (Nat × List Val)),
      decodeListLoop dec data k read res = r → r ≠ .outOfFuel →
      ∀ k' : Nat, k ≤ k' → decodeListLoop dec' data k' read res = r := by
  intro k
  induction k with
  | zero => intro read res r h hr; exact absurd h.symm hr
  | succ k ih =>
    intro read res r h hr k' hk
    obtain ⟨k'', rfl⟩ : ∃ k'', k' = k'' + 1 := ⟨k' - 1, by omega⟩
    rw [decodeListLoop] at h ⊢
    cases h0 : data[read]? with
    | none => rw [h0] at h; exact h
    | some c =>
      rw [h0] at h
      simp only [] at h ⊢
      by_cases hc : c = endToken
      · rw [if_pos hc] at h ⊢; exact h
      · rw [if_neg hc] at h ⊢
        subst h
        have h1 := hdec _ _ rfl (Res.bind_ne_outOfFuel _ _ hr)
        rw [h1]
        cases h2 : dec (data.drop read) with
        | ok p =>
          rw [h2] at hr
          simp only [Res.bind_ok] at hr ⊢
          exact ih _ _ _ rfl hr k'' (by omega)
        | err e => rfl
        | panic => rfl
        | outOfFuel => rfl

theorem decodeDictLoop_mono (dec dec' : List Nat → Res (Nat × Val))
    (hdec : ∀ d r, dec d = r → r ≠ .outOfFuel → dec' d = r) (data : List Nat) :
    ∀ (k read : Nat) (res : List (List Nat × Val)) (r : Res (Nat × List (List Nat × Val))),
      decodeDictLoop dec data k read res = r → r ≠ .outOfFuel →
      ∀ k' : Nat, k ≤ k' → decodeDictLoop dec' data k' read res = r := by
  intro k
  induction k with
  | zero => intro read res r h hr; exact absurd h.symm hr
  | succ k ih =>
    intro read res r h hr k' hk
    obtain ⟨k'', rfl⟩ : ∃ k'', k' = k'' + 1 := ⟨k' - 1, by omega⟩
    rw [decodeDictLoop] at h ⊢
    cases h0 : data[read]? with
    | none => rw [h0] at h; exact h
    | some c =>
      rw [h0] at h
      simp only [] at h ⊢
      by_cases hc : c = endToken
      · rw [if_pos hc] at h ⊢; exact h
      · rw [if_neg hc] at h ⊢
        subst h
        cases h1 : decodeString (data.drop read) with
        | ok p =>
          rw [h1] at hr
          simp only [Res.bind_ok] at hr ⊢
          have h2 := hdec _ _ rfl (Res.bind_ne_outOfFuel _ _ hr)
          rw [h2]
          cases h3 : dec (data.drop (read + p.1)) with
          | ok q =>
            rw [h3] at hr
            simp only [Res.bind_ok] at hr ⊢
            exact ih _ _ _ rfl hr k'' (by omega)
          | err e => rfl
          | panic => rfl
          | outOfFuel => rfl
        | err e => rfl
        | panic => rfl
        | outOfFuel => rfl

theorem decodeStructLoop_mono (dec dec' : Ty → List Nat → Res (Nat × Val))
    (hdec : ∀ t d r, dec t d = r → r ≠ .outOfFuel → dec' t d = r)
    (fields : List (Field × Ty)) (data : List Nat) :
    ∀ (k read : Nat) (vals : List (Field × Val)) (r : Res (Nat × List (Field × Val))),
      decodeStructLoop dec fields data k read vals = r → r ≠ .outOfFuel →
      ∀ k' : Nat, k ≤ k' → decodeStructLoop dec' fields data k' read vals = r := by
  intro k
  induction k with
  | zero => intro read vals r h hr; exact absurd h.symm hr
  | succ k ih =>
    intro read vals r h hr k' hk
    obtain ⟨k'', rfl⟩ : ∃ k'', k' = k'' + 1 := ⟨k' - 1, by omega⟩
    rw [decodeStructLoop] at h ⊢
    cases h0 : data[read]? with
    | none => rw [h0] at h; exact h
    | some c =>
      rw [h0] at h
      simp only [] at h ⊢
      by_cases hc : c = endToken
      · rw [if_pos hc] at h ⊢; exact h
      · rw [if_neg hc] at h ⊢
        subst h
        cases h1 : decodeString (data.drop read) with
        | ok p =>
          rw [h1] at hr
          simp only [Res.bind_ok] at hr ⊢
          cases h2 : mapGet (nameMapping fields 0 []) p.2 with
          | none =>
            rw [h2] at hr
            simp only [] at hr ⊢
            cases h3 : readNextValue (data.drop (read + p.1)) with
            | ok q =>
              rw [h3] at hr
              simp only [Res.bind_ok] at hr ⊢
              exact ih _ _ _ rfl hr k'' (by omega)
            | err e => rfl
            | panic => rfl
            | outOfFuel => rfl
          | some num =>
            rw [h2] at hr
            simp only [] at hr ⊢
            cases h3 : fields[num]? with
            | none => rfl
            | some ft =>
              rw [h3] at hr
              simp only [] at hr ⊢
              have h4 := hdec _ _ _ rfl (Res.bind_ne_outOfFuel _ _ hr)
              rw [h4]
              cases h5 : dec ft.2 (data.drop (read + p.1)) with
              | ok q =>
                rw [h5] at hr
                simp only [Res.bind_ok] at hr ⊢
                by_cases hx : ft.1.exported = false
                · rw [if_pos hx, if_pos hx]
                · rw [if_neg hx] at hr
                  rw [if_neg hx, if_neg hx]
                  exact ih _ _ _ rfl hr k'' (by omega)
              | err e => rfl
              | panic => rfl
              | outOfFuel => rfl
        | err e => rfl
        | panic => rfl
        | outOfFuel => rfl

/-- More fuel does not change an outcome of `decode` other than the cut-off. -/
theorem decodeF_succ (g : Nat) : ∀ (data : List Nat) (ty : Ty) (cur : Val)
    (r : Res (Nat × Val)), decodeF g data ty cur = r → r ≠ .outOfFuel →
    decodeF (g + 1) data ty cur = r := by
  induction g with
  | zero => intro data ty cur r h hr; exact absurd h.symm hr
  | succ g ih =>
    intro data ty cur r h hr
    by_cases hlen : data.length = 0
    · cases ty <;> (rw [decodeF, if_pos hlen] at h ⊢; exact h)
    · cases ty with
      | slice elem =>
        rw [decodeF, if_neg hlen] at h ⊢
        simp only [] at h ⊢
        by_cases he : elem.isUint8 = true
        · rw [if_pos he] at h ⊢; exact h
        · rw [if_neg he] at h ⊢
          unfold decodeList at h ⊢
          rw [if_neg hlen] at h ⊢
          by_cases h0 : data[0]? ≠ some listToken
          · rw [if_pos h0] at h ⊢; exact h
          · rw [if_neg h0] at h ⊢
            subst h
            rw [decodeListLoop_mono _ _ (fun d r => ih d elem elem.zero r) data g 1 [] _ rfl
              (Res.bind_ne_outOfFuel _ _ hr) (g + 1) (by omega)]
      | map key elem =>
        rw [decodeF, if_neg hlen] at h ⊢
        unfold decodeDict at h ⊢
        rw [if_neg hlen] at h ⊢
        by_cases h0 : data[0]? ≠ some dictToken
        · rw [if_pos h0] at h ⊢; exact h
        · rw [if_neg h0] at h ⊢
          by_cases hk : key.isString = false
          · rw [if_pos hk] at h ⊢; exact h
          · rw [if_neg hk] at h ⊢
            subst h
            rw [decodeDictLoop_mono _ _ (fun d r => ih d elem elem.zero r) data g 1 [] _ rfl
              (Res.bind_ne_outOfFuel _ _ hr) (g + 1) (by omega)]
      | struct fields =>
        rw [decodeF, if_neg hlen] at h ⊢
        unfold decodeStruct at h ⊢
        cases cur with
        | struct vals =>
          simp only [] at h ⊢
          rw [if_neg hlen] at h ⊢
          by_cases h0 : data[0]? ≠ some dictToken
          · rw [if_pos h0] at h ⊢; exact h
          · rw [if_neg h0] at h ⊢
            subst h
            rw [decodeStructLoop_mono _ _ (fun t d r => ih d t t.zero r) fields data g 1 vals _
              rfl (Res.bind_ne_outOfFuel _ _ hr) (g + 1) (by omega)]
        | bool b => exact h
        | int b n => exact h
        | uint b n => exact h
        | str s => exact h
        | bytes s => exact h
        | nilBytes => exact h
        | list xs => exact h
        | nilList => exact h
        | array xs => exact h
        | map kvs => exact h
        | nilMap => exact h
        | badMap z => exact h
        | other z => exact h
        | marshaler o u => exact h
      | bool => rw [decodeF, if_neg hlen] at h ⊢; exact h
      | int bits => rw [decodeF, if_neg hlen] at h ⊢; exact h
      | uint bits => rw [decodeF, if_neg hlen] at h ⊢; exact h
      | string => rw [decodeF, if_neg hlen] at h ⊢; exact h
      | iface => rw [decodeF, if_neg hlen] at h ⊢; exact h
      | other => rw [decodeF, if_neg hlen] at h ⊢; exact h
      | custom um => rw [decodeF, if_neg hlen] at h ⊢; exact h

theorem decodeF_le (g g' : Nat) (hle : g ≤ g') (data : List Nat) (ty : Ty) (cur : Val)
    (r : Res (Nat × Val)) (h : decodeF g data ty cur = r) (hr : r ≠ .outOfFuel) :
    decodeF g' data ty cur = r := by
  induction g' with
  | zero =>
    have : g = 0 := by omega
    subst this; exact h
  | succ g' ih =>
    by_cases hg : g = g' + 1
    · subst hg; exact h
    · exact decodeF_succ g' data ty cur r (ih (by omega)) hr


/-! ## Unknown keys in a record -/

/-- The loop of `decodeStruct`, standing before a pair whose key is not in
`nameMapping` and whose value is well formed, does behind the pair what it does
on the data without the pair. -/
theorem decodeStructLoop_unknown (dec : Ty → List Nat → Res (Nat × Val))
    (fields : List (Field × Ty)) (P B key : List Nat) (w : Wire) (k : Nat)
    (vals : List (Field × Val)) (hkey : ∀ p ∈ fields, (newTag p.1).Name ≠ key)
    (hw : w.inRange = true)
    (hlen : (P ++ (encodeStringBytes key ++ w.encode ++ B)).length < 2 ^ 63) :
    decodeStructLoop dec fields (P ++ (encodeStringBytes key ++ w.encode ++ B)) (k + 1)
        P.length vals =
      (decodeStructLoop dec fields (P ++ B) k P.length vals).bind fun r =>
        .ok (r.1 + (encodeStringBytes key ++ w.encode).length, r.2) := by
  have hdrop : (P ++ (encodeStringBytes key ++ w.encode ++ B)).drop P.length =
      encodeStringBytes key ++ (w.encode ++ B) := by
    rw [List.drop_left, List.append_assoc]
  rw [decodeStructLoop_skip dec fields _ k P.length vals key w B hkey hw hdrop hlen]
  have e : P.length + (encodeStringBytes key).length + w.encode.length =
      P.length + (encodeStringBytes key ++ w.encode).length := by
    simp only [List.length_append]; omega
  rw [e]
  exact decodeStructLoop_shift dec fields P _ B k P.length vals (Nat.le_refl _)

theorem decodeStruct_skip_first (fields : List (Field × Ty)) (B key : List Nat) (w : Wire)
    (vals : List (Field × Val)) (hkey : ∀ p ∈ fields, (newTag p.1).Name ≠ key)
    (hw : w.inRange = true)
    (hlen : (100 :: (encodeStringBytes key ++ w.encode ++ B)).length < 2 ^ 63)
    (n : Nat) (v : Val)
    (h : decode (100 :: B) (.struct fields) (.struct vals) = .ok (n, v)) :
    decode (100 :: (encodeStringBytes key ++ w.encode ++ B)) (.struct fields) (.struct vals) =
      .ok (n + (encodeStringBytes key ++ w.encode).length, v) := by
  have hX : 0 < (encodeStringBytes key ++ w.encode).length := by
    obtain ⟨c, l, hcl, _⟩ := encodeStringBytes_head key
    rw [hcl]; simp
  have hun := fun dec k => decodeStructLoop_unknown dec fields [100] B key w k vals hkey hw hlen
  generalize encodeStringBytes key ++ w.encode = X at *
  -- the run without the pair
  unfold decode at h ⊢
  rw [decodeF, if_neg (by simp)] at h
  unfold decodeStruct at h
  simp only [] at h
  rw [if_neg (by simp), if_neg (by simp)] at h
  obtain ⟨⟨read0, vals'⟩, hloop, hres⟩ := Res.bind_eq_ok h
  simp only [Res.ok.injEq, Prod.mk.injEq] at hres
  obtain ⟨rfl, rfl⟩ := hres
  -- the run with the pair
  have hg : (100 :: (X ++ B)).length = (X ++ B).length + 1 := rfl
  rw [hg, decodeF, if_neg (by simp)]
  unfold decodeStruct
  simp only []
  rw [if_neg (by simp), if_neg (by simp)]
  have hk : (X ++ B).length + 1 = (X.length - 1 + B.length + 1) + 1 := by
    simp only [List.length_append]; omega
  rw [hk]
  have hmono := decodeStructLoop_mono
    (fun t d => decodeF (100 :: B).length d t t.zero)
    (fun t d => decodeF (X.length - 1 + B.length + 1 + 1) d t t.zero)
    (fun t d r hr hne => decodeF_le _ _
      (by simp only [List.length_cons]; omega) d t t.zero r hr hne)
    fields (100 :: B) (100 :: B).length 1 vals _ hloop (by simp)
    (X.length - 1 + B.length + 1) (by simp only [List.length_cons]; omega)
  have h1 := hun (fun t d => decodeF (X.length - 1 + B.length + 1 + 1) d t t.zero)
    (X.length - 1 + B.length + 1)
  rw [show ([100] : List Nat).length = 1 from rfl] at h1
  rw [show ([100] : List Nat) ++ B = 100 :: B from rfl,
    show ([100] : List Nat) ++ (X ++ B) = 100 :: (X ++ B) from rfl] at h1
  rw [hmono, Res.bind_ok] at h1
  rw [h1, Res.bind_ok]
  refine congrArg Res.ok (Prod.ext ?_ rfl)
  show read0 + X.length + 1 = read0 + 1 + X.length
  omega

theorem Unmarshal_skip_first (fields : List (Field × Ty)) (B key : List Nat) (w : Wire)
    (vals : List (Field × Val)) (hkey : ∀ p ∈ fields, (newTag p.1).Name ≠ key)
    (hw : w.inRange = true)
    (hlen : (100 :: (encodeStringBytes key ++ w.encode ++ B)).length < 2 ^ 63)
    (v : Val)
    (h : Unmarshal (100 :: B) (.struct fields) (.struct vals) = .ok v) :
    Unmarshal (100 :: (encodeStringBytes key ++ w.encode ++ B)) (.struct fields)
      (.struct vals) = .ok v := by
  unfold Unmarshal at h ⊢
  obtain ⟨⟨n, v'⟩, hd, hres⟩ := Res.bind_eq_ok h
  rw [decodeStruct_skip_first fields B key w vals hkey hw hlen n v' hd, Res.bind_ok]
  simp only [] at hres ⊢
  by_cases hn : n ≠ (100 :: B).length
  · rw [if_pos hn] at hres
    exact absurd hres (by simp)
  · rw [if_neg hn] at hres
    rw [if_neg]
    · exact hres
    · simp only [List.length_cons, List.length_append] at hn ⊢
      omega

/-! ## Custom encoding and decoding -/

theorem MarshalF_eq_Marshal (f : Nat) (v : Val) (h : v.size ≤ f) : MarshalF f v = Marshal v :=
  MarshalF_le v.size f h v _ rfl (MarshalF_fuel v.size v (Nat.le_refl _))

theorem encodeListLoop_congr (m m' : Val → Res (List Nat)) (xs : List Val)
    (h : ∀ x ∈ xs, m x = m' x) :
    ∀ res : List Nat, encodeListLoop m xs res = encodeListLoop m' xs res := by
  induction xs with
  | nil => intro res; rfl
  | cons x xs ih =>
    intro res
    simp only [encodeListLoop]
    rw [h x (by simp)]
    cases m' x with
    | ok d => exact ih (fun y hy => h y (by simp [hy])) _
    | err e => rfl
    | panic => rfl
    | outOfFuel => rfl

theorem encodeDictLoop_congr (m m' : Val → Res (List Nat)) (ps : List (List Nat × Val))
    (h : ∀ p ∈ ps, m p.2 = m' p.2) :
    ∀ res : List Nat, encodeDictLoop m ps res = encodeDictLoop m' ps res := by
  induction ps with
  | nil => intro res; rfl
  | cons x xs ih =>
    intro res
    simp only [encodeDictLoop]
    rw [h x (by simp)]
    cases m' x.2 with
    | ok d => exact ih (fun y hy => h y (by simp [hy])) _
    | err e => rfl
    | panic => rfl
    | outOfFuel => rfl

theorem encodeDict_congr (m m' : Val → Res (List Nat)) (ps : List (List Nat × Val))
    (h : ∀ p ∈ ps, m p.2 = m' p.2) : encodeDict m ps = encodeDict m' ps := by
  unfold encodeDict
  exact encodeDictLoop_congr m m' _
    (fun p hp => h p ((sortSlice_perm_any pairLess ps).mem_iff.1 hp)) _

/-- The elements of a list are encoded by `Marshal` itself. -/
theorem Marshal_list (xs : List Val) : Marshal (.list xs) = encodeList Marshal xs := by
  have e : Marshal (.list xs) = MarshalF (Val.size.sizeList xs + 1) (.list xs) := by
    unfold Marshal
    rw [Val.size, Nat.add_comm]
  rw [e]
  show encodeList (MarshalF (Val.size.sizeList xs)) xs = _
  unfold encodeList
  exact encodeListLoop_congr _ _ xs
    (fun x hx => MarshalF_eq_Marshal _ x (sizeList_mem xs x hx)) _

/-- The elements of an array are encoded by `Marshal` itself. -/
theorem Marshal_array (xs : List Val) : Marshal (.array xs) = encodeList Marshal xs := by
  have e : Marshal (.array xs) = MarshalF (Val.size.sizeList xs + 1) (.array xs) := by
    unfold Marshal
    rw [Val.size, Nat.add_comm]
  rw [e]
  show encodeList (MarshalF (Val.size.sizeList xs)) xs = _
  unfold encodeList
  exact encodeListLoop_congr _ _ xs
    (fun x hx => MarshalF_eq_Marshal _ x (sizeList_mem xs x hx)) _

theorem Marshal_nilBytes : Marshal .nilBytes = .ok (encodeStringBytes []) := rfl

theorem Marshal_nilList : Marshal .nilList = .ok [108, 101] := rfl

theorem Marshal_nilMap : Marshal .nilMap = .ok [100, 101] := rfl

/-- The values of a map are encoded by `Marshal` itself. -/
theorem Marshal_map (kvs : List (List Nat × Val)) :
    Marshal (.map kvs) = encodeDict Marshal kvs := by
  have e : Marshal (.map kvs) = MarshalF (Val.size.sizeMap kvs + 1) (.map kvs) := by
    unfold Marshal
    rw [Val.size, Nat.add_comm]
  rw [e]
  show encodeDict (MarshalF (Val.size.sizeMap kvs)) kvs = _
  exact encodeDict_congr _ _ kvs
    (fun p hp => MarshalF_eq_Marshal _ p.2 (sizeMap_mem kvs p hp))

/-- The values `structToMap` returns are encoded by `Marshal` itself. -/
theorem Marshal_struct (fs : List (Field × Val)) :
    Marshal (.struct fs) =
      (structToMap (.struct fs)).bind fun dict => encodeDict Marshal dict := by
  have e : Marshal (.struct fs) = MarshalF (Val.size.sizeFields fs + 1) (.struct fs) := by
    unfold Marshal
    rw [Val.size, Nat.add_comm]
  rw [e]
  show ((structToMap (.struct fs)).bind fun dict =>
    encodeDict (MarshalF (Val.size.sizeFields fs)) dict) = _
  cases hs : structToMap (.struct fs) with
  | ok dict =>
    simp only [Res.bind_ok]
    rw [structToMap] at hs
    obtain ⟨_, h2⟩ := fieldsToMap_props (Val.size.sizeFields fs) fs _ [] (Nat.le_refl _)
      List.Pairwise.nil
    obtain ⟨_, h3⟩ := h2 dict hs
    refine encodeDict_congr _ _ dict (fun p hp => MarshalF_eq_Marshal _ p.2 ?_)
    rcases h3 p hp with h4 | h4
    · simp at h4
    · exact h4
  | err e => rfl
  | panic => rfl
  | outOfFuel => rfl

theorem Marshal_marshaler (out : Err ⊕ List Nat) (under : Val) :
    Marshal (.marshaler out under) =
      match out with
      | .inl e => .err e
      | .inr d => .ok d := by
  have e : Marshal (.marshaler out under) = MarshalF (under.size + 1) (.marshaler out under) := by
    unfold Marshal
    rw [Val.size, Nat.add_comm]
  rw [e]
  rfl

theorem decode_custom_wire (w : Wire) (tail : List Nat) (um : List Nat → Err ⊕ Val) (cur : Val)
    (hw : w.inRange = true) (hlen : (w.encode ++ tail).length < 2 ^ 63) :
    decode (w.encode ++ tail) (.custom um) cur =
      match um w.encode with
      | .inl e => .err e
      | .inr v => .ok (w.encode.length, v) := by
  obtain ⟨c, l, hcl, _⟩ := Wire.encode_head w
  unfold decode
  rw [decodeF, if_neg (by rw [hcl]; simp)]
  simp only []
  rw [readNextValue_wire w tail hw hlen, Res.bind_ok]

theorem decode_custom_inv (data : List Nat) (um : List Nat → Err ⊕ Val) (cur : Val) (n : Nat)
    (v : Val) (h : decode data (.custom um) cur = .ok (n, v)) :
    1 ≤ n ∧ n ≤ data.length ∧ um (data.take n) = .inr v := by
  unfold decode at h
  rw [decodeF] at h
  split at h
  · simp at h
  · obtain ⟨⟨r, d⟩, h1, h2⟩ := Res.bind_eq_ok h
    obtain ⟨hr1, hr2, rfl⟩ := readNextValueF_bound _ _ _ _ h1
    simp only [] at h2
    cases hu : um (List.take r data) with
    | inl e => rw [hu] at h2; simp at h2
    | inr v' =>
      rw [hu] at h2
      simp only [Res.ok.injEq, Prod.mk.injEq] at h2
      obtain ⟨rfl, rfl⟩ := h2
      exact ⟨hr1, hr2, hu⟩

theorem fieldsToMap_own_key (f : Field) (v : Val) (rest : List (Field × Val)) (empty : Bool)
    (dict : List (List Nat × Val)) (hs : (newTag f).Skip = false)
    (ho : ((newTag f).OmitEmpty && empty) = false)
    (hf : ¬ (f.anonymous = true ∧ (newTag f).Name = [])) :
    structToMap.fieldsToMap ((f, v) :: rest) empty dict =
      structToMap.fieldsToMap rest empty (mapSet dict (newTag f).Name v) := by
  rw [structToMap.fieldsToMap, if_neg (by rw [hs]; simp), if_neg (by rw [ho]; simp), if_neg]
  simpa [Bool.and_eq_true] using hf

theorem fieldsToMap_flatten (f : Field) (v : Val) (rest : List (Field × Val)) (empty : Bool)
    (dict : List (List Nat × Val)) (hs : (newTag f).Skip = false)
    (ho : ((newTag f).OmitEmpty && empty) = false)
    (ha : f.anonymous = true) (hn : (newTag f).Name = []) :
    structToMap.fieldsToMap ((f, v) :: rest) empty dict =
      (structToMap v).bind fun sub =>
        structToMap.fieldsToMap rest empty (sub.foldl (fun d kv => mapSet d kv.1 kv.2) dict) := by
  rw [structToMap.fieldsToMap, if_neg (by rw [hs]; simp), if_neg (by rw [ho]; simp),
    if_pos (by simp [ha, hn])]
  cases structToMap v <;> rfl

/-! ## The fuel of `decode` is enough -/

theorem parseUintLoop_fuel (s : List Nat) : ∀ n : Nat, parseUintLoop s n ≠ .outOfFuel := by
  induction s with
  | nil => intro n; simp [parseUintLoop]
  | cons c cs ih =>
    intro n
    simp only [parseUintLoop]
    split
    · split
      · exact ih _
      · simp
    · simp

theorem ParseUint_fuel (s : List Nat) : ParseUint s ≠ .outOfFuel := by
  cases s with
  | nil => simp [ParseUint]
  | cons c cs => exact parseUintLoop_fuel _ _

theorem ParseInt_fuel (s : List Nat) : ParseInt s ≠ .outOfFuel := by
  cases s with
  | nil => simp [ParseInt]
  | cons c cs =>
    simp only [ParseInt]
    cases h : ParseUint (if c = 43 ∨ c = 45 then cs else c :: cs) with
    | ok un =>
      simp only []
      split
      · simp
      · split
        · simp
        · split <;> simp
    | err e => simp
    | panic => simp
    | outOfFuel => exact absurd h (ParseUint_fuel _)

theorem decodeIntStrLoop_fuel (suffix : List Nat) :
    ∀ (read : Nat) (value : List Nat), decodeIntStrLoop suffix read value ≠ .outOfFuel := by
  induction suffix with
  | nil => intro read value; simp [decodeIntStrLoop]
  | cons c rest ih =>
    intro read value
    simp only [decodeIntStrLoop]
    split
    · simp
    · split
      · exact ih _ _
      · simp

theorem Res.bind_fuel {α β : Type} (x : Res α) (f : α → Res β) (hx : x ≠ .outOfFuel)
    (hf : ∀ a, f a ≠ .outOfFuel) : x.bind f ≠ .outOfFuel := by
  cases x with
  | ok a => exact hf a
  | err e => simp
  | panic => simp
  | outOfFuel => exact absurd rfl hx

theorem decodeIntStr_fuel (data : List Nat) : decodeIntStr data ≠ .outOfFuel := by
  unfold decodeIntStr
  split
  · simp
  · split
    · simp
    · split
      · simp
      · refine Res.bind_fuel _ _ (decodeIntStrLoop_fuel _ _ _) (fun p => ?_)
        simp only []
        split
        · simp
        · split
          · simp
          · split <;> simp

theorem decodeInt_fuel (data : List Nat) : decodeInt data ≠ .outOfFuel := by
  unfold decodeInt
  refine Res.bind_fuel _ _ (decodeIntStr_fuel _) (fun p => ?_)
  exact Res.bind_fuel _ _ (ParseInt_fuel _) (fun x => by simp)

theorem decodeUint_fuel (data : List Nat) : decodeUint data ≠ .outOfFuel := by
  unfold decodeUint
  refine Res.bind_fuel _ _ (decodeIntStr_fuel _) (fun p => ?_)
  exact Res.bind_fuel _ _ (ParseUint_fuel _) (fun x => by simp)

theorem decodeStringLoop_fuel (len : Nat) (suffix : List Nat) :
    ∀ (read : Nat) (length : List Nat), decodeStringLoop len suffix read length ≠ .outOfFuel := by
  induction suffix with
  | nil => intro read length; simp [decodeStringLoop]
  | cons c rest ih =>
    intro read length
    simp only [decodeStringLoop]
    split
    · simp
    · split
      · simp
      · split
        · exact ih _ _
        · simp

theorem decodeString_fuel (data : List Nat) : decodeString data ≠ .outOfFuel := by
  unfold decodeString
  split
  · simp
  · refine Res.bind_fuel _ _ (decodeStringLoop_fuel _ _ _ _) (fun p => ?_)
    simp only []
    split
    · simp
    · split
      · simp
      · refine Res.bind_fuel _ _ (ParseInt_fuel _) (fun l => ?_)
        split
        · simp
        · split <;> simp


theorem readNextValueLoop_fuel (rnv : List Nat → Res (Nat × List Nat)) (data : List Nat)
    (hf : ∀ read : Nat, 1 ≤ read → rnv (data.drop read) ≠ .outOfFuel)
    (hb : ∀ (d : List Nat) (n : Nat) (x : List Nat), rnv d = .ok (n, x) → 1 ≤ n ∧ n ≤ d.length) :
    ∀ (k read : Nat), 1 ≤ read → read ≤ data.length → data.length < k + read →
      readNextValueLoop rnv data k read ≠ .outOfFuel := by
  intro k
  induction k with
  | zero => intro read _ h1 h2; omega
  | succ k ih =>
    intro read h0 h1 h2
    rw [readNextValueLoop]
    cases hc : data[read]? with
    | none => simp
    | some c =>
      simp only []
      split
      · simp
      · cases hr : rnv (data.drop read) with
        | ok p =>
          obtain ⟨n, x⟩ := p
          have hn := hb _ _ _ hr
          simp only [List.length_drop] at hn
          simp only [Res.bind_ok]
          exact ih _ (by omega) (by omega) (by omega)
        | err e => simp
        | panic => simp
        | outOfFuel => exact absurd hr (hf read h0)

/-- With fuel above the length of the data `readNextValue` is not cut off. -/
theorem readNextValueF_fuel : ∀ (fuel : Nat) (data : List Nat), data.length < fuel →
    readNextValueF fuel data ≠ .outOfFuel := by
  intro fuel
  induction fuel with
  | zero => intro data h; omega
  | succ g ih =>
    intro data h
    rw [readNextValueF]
    split
    · simp
    · rename_i hlen
      split
      · simp
      · split
        · exact Res.bind_fuel _ _ (decodeInt_fuel _) (fun p => by simp)
        · split
          · refine Res.bind_fuel _ _ ?_ (fun p => by simp)
            refine readNextValueLoop_fuel _ data ?_ ?_ g 1 (Nat.le_refl _) (by omega) (by omega)
            · intro read hr
              exact ih _ (by simp only [List.length_drop]; omega)
            · intro d n x hx
              have := readNextValueF_bound _ _ _ _ hx
              exact ⟨this.1, this.2.1⟩
          · exact Res.bind_fuel _ _ (decodeString_fuel _) (fun p => by simp)

theorem decodeListLoop_fuel (dec : List Nat → Res (Nat × Val)) (data : List Nat)
    (hf : ∀ read : Nat, 1 ≤ read → dec (data.drop read) ≠ .outOfFuel)
    (hb : ∀ (d : List Nat) (n : Nat) (x : Val), dec d = .ok (n, x) → 1 ≤ n ∧ n ≤ d.length) :
    ∀ (k read : Nat) (res : List Val), 1 ≤ read → read ≤ data.length → data.length < k + read →
      decodeListLoop dec data k read res ≠ .outOfFuel := by
  intro k
  induction k with
  | zero => intro read _ _ h1 h2; omega
  | succ k ih =>
    intro read res h0 h1 h2
    rw [decodeListLoop]
    cases hc : data[read]? with
    | none => simp
    | some c =>
      simp only []
      split
      · simp
      · cases hr : dec (data.drop read) with
        | ok p =>
          obtain ⟨n, x⟩ := p
          have hn := hb _ _ _ hr
          simp only [List.length_drop] at hn
          simp only [Res.bind_ok]
          exact ih _ _ (by omega) (by omega) (by omega)
        | err e => simp
        | panic => simp
        | outOfFuel => exact absurd hr (hf read h0)

theorem decodeDictLoop_fuel (dec : List Nat → Res (Nat × Val)) (data : List Nat)
    (hf : ∀ read : Nat, 1 ≤ read → dec (data.drop read) ≠ .outOfFuel)
    (hb : ∀ (d : List Nat) (n : Nat) (x : Val), dec d = .ok (n, x) → 1 ≤ n ∧ n ≤ d.length) :
    ∀ (k read : Nat) (res : List (List Nat × Val)), 1 ≤ read → read ≤ data.length →
      data.length < k + read → decodeDictLoop dec data k read res ≠ .outOfFuel := by
  intro k
  induction k with
  | zero => intro read _ _ h1 h2; omega
  | succ k ih =>
    intro read res h0 h1 h2
    rw [decodeDictLoop]
    cases hc : data[read]? with
    | none => simp
    | some c =>
      simp only []
      split
      · simp
      · cases hs : decodeString (data.drop read) with
        | ok q =>
          obtain ⟨r, key⟩ := q
          have hq := decodeString_bound _ _ _ hs
          simp only [List.length_drop] at hq
          simp only [Res.bind_ok]
          cases hr : dec (data.drop (read + r)) with
          | ok p =>
            obtain ⟨n, x⟩ := p
            have hn := hb _ _ _ hr
            simp only [List.length_drop] at hn
            simp only [Res.bind_ok]
            exact ih _ _ (by omega) (by omega) (by omega)
          | err e => simp
          | panic => simp
          | outOfFuel => exact absurd hr (hf _ (by omega))
        | err e => simp
        | panic => simp
        | outOfFuel => exact absurd hs (decodeString_fuel _)

theorem readNextValue_fuel (data : List Nat) : readNextValue data ≠ .outOfFuel :=
  readNextValueF_fuel _ data (Nat.lt_succ_self _)

theorem decodeStructLoop_fuel (dec : Ty → List Nat → Res (Nat × Val))
    (fields : List (Field × Ty)) (data : List Nat)
    (hf : ∀ (t : Ty) (read : Nat), 1 ≤ read → dec t (data.drop read) ≠ .outOfFuel)
    (hb : ∀ (t : Ty) (d : List Nat) (n : Nat) (x : Val), dec t d = .ok (n, x) →
      1 ≤ n ∧ n ≤ d.length) :
    ∀ (k read : Nat) (vals : List (Field × Val)), 1 ≤ read → read ≤ data.length →
      data.length < k + read → decodeStructLoop dec fields data k read vals ≠ .outOfFuel := by
  intro k
  induction k with
  | zero => intro read _ _ h1 h2; omega
  | succ k ih =>
    intro read vals h0 h1 h2
    rw [decodeStructLoop]
    cases hc : data[read]? with
    | none => simp
    | some c =>
      simp only []
      split
      · simp
      · cases hs : decodeString (data.drop read) with
        | ok q =>
          obtain ⟨r, key⟩ := q
          have hq := decodeString_bound _ _ _ hs
          simp only [List.length_drop] at hq
          simp only [Res.bind_ok]
          cases hm : mapGet (nameMapping fields 0 []) key with
          | none =>
            simp only []
            cases hr : readNextValue (data.drop (read + r)) with
            | ok p =>
              obtain ⟨n, x⟩ := p
              have hn := readNextValueF_bound _ _ _ _ hr
              simp only [List.length_drop] at hn
              simp only [Res.bind_ok]
              exact ih _ _ (by omega) (by omega) (by omega)
            | err e => simp
            | panic => simp
            | outOfFuel => exact absurd hr (readNextValue_fuel _)
          | some num =>
            simp only []
            cases hfld : fields[num]? with
            | none => simp
            | some ft =>
              obtain ⟨f, t⟩ := ft
              simp only []
              cases hr : dec t (data.drop (read + r)) with
              | ok p =>
                obtain ⟨n, x⟩ := p
                have hn := hb _ _ _ _ hr
                simp only [List.length_drop] at hn
                simp only [Res.bind_ok]
                split
                · simp
                · exact ih _ _ (by omega) (by omega) (by omega)
              | err e => simp
              | panic => simp
              | outOfFuel => exact absurd hr (hf _ _ (by omega))
        | err e => simp
        | panic => simp
        | outOfFuel => exact absurd hs (decodeString_fuel _)

/-- With fuel above the length of the data `decode` is not cut off. -/
theorem decodeF_fuel : ∀ (fuel : Nat) (data : List Nat) (ty : Ty) (cur : Val),
    data.length < fuel → decodeF fuel data ty cur ≠ .outOfFuel := by
  intro fuel
  induction fuel with
  | zero => intro data ty cur h; omega
  | succ g ih =>
    intro data ty cur h
    by_cases hlen : data.length = 0
    · cases ty <;> (rw [decodeF, if_pos hlen]; simp)
    · have hdrop : ∀ read : Nat, 1 ≤ read → (data.drop read).length < g := by
        intro read hr
        simp only [List.length_drop]; omega
      cases ty with
      | custom um =>
        rw [decodeF, if_neg hlen]
        refine Res.bind_fuel _ _ (readNextValue_fuel _) (fun p => ?_)
        simp only []
        split <;> simp
      | iface => rw [decodeF, if_neg hlen]; simp
      | other => rw [decodeF, if_neg hlen]; simp
      | bool =>
        rw [decodeF, if_neg hlen]
        refine Res.bind_fuel _ _ (decodeInt_fuel _) (fun p => ?_)
        simp only []
        split <;> simp
      | int bits =>
        rw [decodeF, if_neg hlen]
        exact Res.bind_fuel _ _ (decodeInt_fuel _) (fun p => by simp)
      | uint bits =>
        rw [decodeF, if_neg hlen]
        exact Res.bind_fuel _ _ (decodeUint_fuel _) (fun p => by simp)
      | string =>
        rw [decodeF, if_neg hlen]
        exact Res.bind_fuel _ _ (decodeString_fuel _) (fun p => by simp)
      | slice elem =>
        rw [decodeF, if_neg hlen]
        simp only []
        split
        · exact Res.bind_fuel _ _ (decodeString_fuel _) (fun p => by simp)
        · unfold decodeList
          rw [if_neg hlen]
          split
          · simp
          · refine Res.bind_fuel _ _ ?_ (fun p => by simp)
            exact decodeListLoop_fuel _ data (fun read hr => ih _ _ _ (hdrop read hr))
              (fun d n x hx => decodeF_bound _ _ _ _ _ _ hx) g 1 [] (Nat.le_refl _) (by omega)
              (by omega)
      | map key elem =>
        rw [decodeF, if_neg hlen]
        unfold decodeDict
        rw [if_neg hlen]
        split
        · simp
        · split
          · simp
          · refine Res.bind_fuel _ _ ?_ (fun p => by simp)
            exact decodeDictLoop_fuel _ data (fun read hr => ih _ _ _ (hdrop read hr))
              (fun d n x hx => decodeF_bound _ _ _ _ _ _ hx) g 1 [] (Nat.le_refl _) (by omega)
              (by omega)
      | struct fields =>
        rw [decodeF, if_neg hlen]
        unfold decodeStruct
        cases cur with
        | struct vals =>
          simp only []
          rw [if_neg hlen]
          split
          · simp
          · refine Res.bind_fuel _ _ ?_ (fun p => by simp)
            exact decodeStructLoop_fuel _ fields data (fun t read hr => ih _ _ _ (hdrop read hr))
              (fun t d n x hx => decodeF_bound _ _ _ _ _ _ hx) g 1 vals (Nat.le_refl _)
              (by omega) (by omega)
        | bool b => simp
        | int b n => simp
        | uint b n => simp
        | str s => simp
        | bytes s => simp
        | nilBytes => simp
        | list xs => simp
        | nilList => simp
        | array xs => simp
        | map kvs => simp
        | nilMap => simp
        | badMap z => simp
        | other z => simp
        | marshaler o u => simp

theorem decode_fuel (data : List Nat) (ty : Ty) (cur : Val) : decode data ty cur ≠ .outOfFuel :=
  decodeF_fuel _ data ty cur (Nat.lt_succ_self _)


/-! ## Decoding looks at the bytes it consumes only -/

/-- Two inputs that agree on their first `n` bytes agree on every piece inside
those bytes. -/
theorem take_drop_agree (d d' : List Nat) (n read r : Nat) (h : d.take n = d'.take n)
    (hr : read + r ≤ n) : (d.drop read).take r = (d'.drop read).take r := by
  have e : ∀ l : List Nat, (l.drop read).take r = ((l.take n).drop read).take r := by
    intro l
    rw [List.drop_take, List.take_take, Nat.min_eq_left (by omega)]
  rw [e d, e d', h]

theorem getElem?_agree (d d' : List Nat) (n i : Nat) (h : d.take n = d'.take n) (hi : i < n) :
    d[i]? = d'[i]? := by
  have e : ∀ l : List Nat, l[i]? = (l.take n)[i]? := by
    intro l
    rw [List.getElem?_take_of_lt hi]
  rw [e d, e d', h]

theorem take_agree_le (d d' : List Nat) (n m : Nat) (h : d.take n = d'.take n) (hm : m ≤ n) :
    d.take m = d'.take m := by
  have e : ∀ l : List Nat, l.take m = (l.take n).take m := by
    intro l
    rw [List.take_take, Nat.min_eq_left hm]
  rw [e d, e d', h]

/-- An input that agrees with `p ++ rest` on `n` bytes, `n` not less than the
length of `p`, starts with `p`. -/
theorem agree_prefix (p rest d' : List Nat) (n : Nat) (h : (p ++ rest).take n = d'.take n)
    (hn : p.length ≤ n) (hl : n ≤ d'.length) :
    ∃ rest', d' = p ++ rest' ∧ rest.take (n - p.length) = rest'.take (n - p.length) ∧
      n - p.length ≤ rest'.length := by
  have h1 := take_agree_le _ _ n p.length h hn
  rw [List.take_left] at h1
  refine ⟨d'.drop p.length, ?_, ?_, ?_⟩
  · conv_lhs => rw [← List.take_append_drop p.length d', ← h1]
  · have h2 := take_drop_agree _ _ n p.length (n - p.length) h (by omega)
    rwa [List.drop_left] at h2
  · simp only [List.length_drop]; omega

theorem ParseInt_range (s : List Nat) (v : Int) (h : ParseInt s = .ok v) :
    -2 ^ 63 ≤ v ∧ v < 2 ^ 63 := by
  cases s with
  | nil => simp [ParseInt] at h
  | cons c rest =>
    simp only [ParseInt] at h
    cases hp : ParseUint (if c = 43 ∨ c = 45 then rest else c :: rest) with
    | ok un =>
      rw [hp] at h
      simp only [] at h
      split at h
      · simp at h
      · split at h
        · simp at h
        · rename_i h1 h2
          split at h
          · simp only [Res.ok.injEq] at h
            simp only [decide_eq_true_eq] at *
            subst h
            have : ¬ un > 2 ^ 63 := fun hc => h2 ⟨by assumption, hc⟩
            constructor <;> push_cast <;> omega
          · rename_i h3
            simp only [Res.ok.injEq] at h
            subst h
            have h4 : decide (c = 45) = false := by simpa using h3
            have : ¬ un ≥ 2 ^ 63 := fun hc => h1 ⟨h4, hc⟩
            constructor <;> push_cast <;> omega
    | err e => rw [hp] at h; simp at h
    | panic => rw [hp] at h; simp at h
    | outOfFuel => rw [hp] at h; simp at h

theorem Atoi_digits_nonneg (ds : List Nat) (l : Int) (hd : ∀ d ∈ ds, isDigit d = true)
    (h : Atoi ds = .ok l) : 0 ≤ l := by
  unfold Atoi at h
  cases ds with
  | nil => simp [ParseInt] at h
  | cons c rest =>
    have hc := (isDigit_iff c).1 (hd c (by simp))
    simp only [ParseInt] at h
    cases hp : ParseUint (if c = 43 ∨ c = 45 then rest else c :: rest) with
    | ok un =>
      rw [hp] at h
      simp only [] at h
      have h45 : decide (c = 45) = false := by simp; omega
      rw [h45] at h
      split at h
      · simp at h
      · split at h
        · simp at h
        · simp only [Bool.false_eq_true, if_false, Res.ok.injEq] at h
          subst h
          exact Int.ofNat_nonneg _
    | err e => rw [hp] at h; simp at h
    | panic => rw [hp] at h; simp at h
    | outOfFuel => rw [hp] at h; simp at h

theorem decodeStringLoop_inv (len : Nat) (sfx : List Nat) :
    ∀ (read : Nat) (acc : List Nat) (rf : Nat) (lf : List Nat),
      decodeStringLoop len sfx read acc = .ok (rf, lf) →
      ∃ ds rest, sfx = ds ++ 58 :: rest ∧ (∀ d ∈ ds, isDigit d = true) ∧
        rf = read + ds.length ∧ lf = acc ++ ds := by
  induction sfx with
  | nil => intro read acc rf lf h; simp [decodeStringLoop] at h
  | cons c rest ih =>
    intro read acc rf lf h
    simp only [decodeStringLoop] at h
    split at h
    · rename_i hc
      simp only [Res.ok.injEq, Prod.mk.injEq] at h
      exact ⟨[], rest, by simp [hc], by simp, by simp [h.1], by simp [h.2]⟩
    · split at h
      · simp at h
      · split at h
        · rename_i hd
          obtain ⟨ds, rest', h1, h2, h3, h4⟩ := ih _ _ _ _ h
          refine ⟨c :: ds, rest', by simp [h1], ?_, by simp [h3]; omega, by simp [h4]⟩
          intro d hd'
          rcases List.mem_cons.1 hd' with rfl | hd'
          · exact hd
          · exact h2 d hd'
        · simp at h


theorem wrapInt_64_cases (x hi : Int) (read : Nat) (l : Int) (hx : x = (read : Int) + l)
    (hl0 : 0 ≤ l) (hl : l < 2 ^ 63) (hhi : hi = wrapInt 64 x) (h : ¬ hi < (read : Int)) :
    x < 2 ^ 63 ∧ hi = x := by
  unfold wrapInt at hhi
  have e1 : (2 : Int) ^ (64 - 1) = 9223372036854775808 := by norm_num
  have e2 : (2 : Int) ^ 64 = 18446744073709551616 := by norm_num
  have e3 : (2 : Int) ^ 63 = 9223372036854775808 := by norm_num
  rw [e1, e2] at hhi
  rw [e3] at hl ⊢
  omega

/-- What a successful call of `decodeString` has read. -/
theorem decodeString_inv (data : List Nat) (n : Nat) (s : List Nat)
    (h : decodeString data = .ok (n, s)) :
    ∃ (ds rest : List Nat) (l : Nat), data = ds ++ 58 :: rest ∧
      (∀ d ∈ ds, isDigit d = true) ∧ ds ≠ [] ∧ ¬ (ds.length > 1 ∧ ds.head? = some 48) ∧
      Atoi ds = .ok (l : Int) ∧ ds.length + 1 + l < 2 ^ 63 ∧ n = ds.length + 1 + l ∧
      l ≤ rest.length ∧ s = rest.take l := by
  unfold decodeString at h
  split at h
  · simp at h
  · obtain ⟨⟨r, v⟩, hloop, hrest⟩ := Res.bind_eq_ok h
    obtain ⟨ds, rest, hdata, hdig, hr, hv⟩ := decodeStringLoop_inv _ _ _ _ _ _ hloop
    simp only [List.nil_append, Nat.zero_add] at hr hv
    rw [hr, hv] at hrest
    dsimp only at hrest
    split at hrest
    · simp at hrest
    · rename_i hne
      split at hrest
      · simp at hrest
      · rename_i hz
        obtain ⟨li, hA, h3⟩ := Res.bind_eq_ok hrest
        have hl0 := Atoi_digits_nonneg ds li hdig hA
        have hlr := ParseInt_range ds li hA
        split at h3
        · simp at h3
        · rename_i hgt
          split at h3
          · simp at h3
          · rename_i hlt
            simp only [Res.ok.injEq, Prod.mk.injEq] at h3
            obtain ⟨hw1, hw2⟩ := wrapInt_64_cases _ _ (ds.length + 1) li rfl hl0 hlr.2 rfl hlt
            rw [hw2] at hgt h3
            obtain ⟨l, rfl⟩ := Int.eq_ofNat_of_zero_le hl0
            have hlen : data.length = ds.length + 1 + rest.length := by
              rw [hdata]; simp; omega
            have e3 : (2 : Int) ^ 63 = ((2 ^ 63 : Nat) : Int) := by norm_num
            rw [e3] at hw1
            have hn : n = ds.length + 1 + l := by
              rw [← h3.1]
              have : ((ds.length + 1 : Nat) : Int) + (l : Int) = ((ds.length + 1 + l : Nat) : Int) := by
                push_cast; ring
              rw [this, Int.toNat_ofNat]
            refine ⟨ds, rest, l, hdata, hdig, ?_, hz, hA, ?_, hn, ?_, ?_⟩
            · intro hc; apply hne; rw [hc]; rfl
            · omega
            · omega
            · have h4 := h3.2
              rw [h3.1, hn, hdata] at h4
              rw [← h4]
              have e2 : ds ++ 58 :: rest = (ds ++ [58]) ++ rest := by simp
              have e4 : ds.length + 1 = (ds ++ [58]).length := by simp
              have e5 : ds.length + 1 + l - (ds.length + 1) = l := by omega
              rw [e5, e2, e4, List.drop_left]

/-- The converse of `decodeString_inv`. -/
theorem decodeString_of_form (ds rest : List Nat) (l : Nat) (hd : ∀ d ∈ ds, isDigit d = true)
    (hne : ds ≠ []) (hz : ¬ (ds.length > 1 ∧ ds.head? = some 48))
    (hA : Atoi ds = .ok (l : Int)) (hs : ds.length + 1 + l < 2 ^ 63) (hl : l ≤ rest.length) :
    decodeString (ds ++ 58 :: rest) = .ok (ds.length + 1 + l, rest.take l) := by
  have hloop := decodeStringLoop_digits (ds ++ 58 :: rest).length ds rest 0 [] hd (by simp)
  have hpos : 0 < ds.length := List.length_pos.2 hne
  unfold decodeString
  rw [if_neg (by simp), hloop]
  simp only [Res.bind_ok, List.nil_append]
  rw [if_neg (by omega), if_neg hz, hA, Res.bind_ok]
  have hw : wrapInt 64 (((0 + ds.length + 1 : Nat) : Int) + (l : Int))
      = ((ds.length + 1 + l : Nat) : Int) := by
    rw [wrapInt_of_range 64 _ (by omega) (by push_cast; omega) (by push_cast; omega)]
    push_cast; omega
  rw [hw, if_neg (by simp only [List.length_append, List.length_cons]; push_cast; omega),
    if_neg (by push_cast; omega)]
  simp only [Int.toNat_ofNat]
  refine congrArg Res.ok (Prod.ext rfl ?_)
  show List.take _ (List.drop _ _) = rest.take l
  have e1 : 0 + ds.length + 1 = (ds ++ [58]).length := by simp
  have e2 : ds ++ 58 :: rest = (ds ++ [58]) ++ rest := by simp
  have e3 : ds.length + 1 + l - (ds ++ [58]).length = l := by simp
  rw [e1, e2, List.drop_left, e3]

theorem decodeString_local (d d' : List Nat) (n : Nat) (s : List Nat)
    (h : decodeString d = .ok (n, s)) (ha : d.take n = d'.take n) (hl : n ≤ d'.length) :
    decodeString d' = .ok (n, s) := by
  obtain ⟨ds, rest, l, rfl, hd, hne, hz, hA, hs, rfl, hlr, rfl⟩ := decodeString_inv d n s h
  have e : ds ++ 58 :: rest = (ds ++ [58]) ++ rest := by simp
  rw [e] at ha
  obtain ⟨rest', rfl, h1, h2⟩ := agree_prefix (ds ++ [58]) rest d' _ ha (by simp) hl
  have e4 : ds.length + 1 + l - (ds ++ [58]).length = l := by simp
  rw [e4] at h1 h2
  have := decodeString_of_form ds rest' l hd hne hz hA hs h2
  have e5 : ds ++ [58] ++ rest' = ds ++ 58 :: rest' := by simp
  rw [e5, this, h1]


theorem decodeIntStrLoop_inv (sfx : List Nat) :
    ∀ (read : Nat) (acc : List Nat) (rf : Nat) (vf : List Nat),
      decodeIntStrLoop sfx read acc = .ok (rf, vf) →
      ∃ ds rest, sfx = ds ++ 101 :: rest ∧ (∀ d ∈ ds, isDigit d = true) ∧
        rf = read + ds.length ∧ vf = acc ++ ds := by
  induction sfx with
  | nil => intro read acc rf lf h; simp [decodeIntStrLoop] at h
  | cons c rest ih =>
    intro read acc rf lf h
    simp only [decodeIntStrLoop] at h
    split at h
    · rename_i hc
      simp only [Res.ok.injEq, Prod.mk.injEq] at h
      exact ⟨[], rest, by simp [hc], by simp, by simp [h.1], by simp [h.2]⟩
    · split at h
      · rename_i hd
        obtain ⟨ds, rest', h1, h2, h3, h4⟩ := ih _ _ _ _ h
        refine ⟨c :: ds, rest', by simp [h1], ?_, by simp [h3]; omega, by simp [h4]⟩
        intro d hd'
        rcases List.mem_cons.1 hd' with rfl | hd'
        · exact hd
        · exact h2 d hd'
      · simp at h

/-- What a successful call of `decodeIntStr` has read: digits between `i` and
`e`, or a minus sign and digits. -/
theorem decodeIntStr_inv (data : List Nat) (n : Nat) (val : List Nat)
    (h : decodeIntStr data = .ok (n, val)) :
    (∃ ds rest, data = 105 :: (ds ++ 101 :: rest) ∧ (∀ d ∈ ds, isDigit d = true) ∧ ds ≠ [] ∧
        ¬ (ds.length > 1 ∧ ds.head? = some 48) ∧ n = ds.length + 2 ∧ val = ds) ∨
    (∃ ds rest, data = 105 :: 45 :: (ds ++ 101 :: rest) ∧ (∀ d ∈ ds, isDigit d = true) ∧
        ds ≠ [48] ∧ n = ds.length + 3 ∧ val = 45 :: ds) := by
  unfold decodeIntStr at h
  split at h
  · simp at h
  · split at h
    · simp at h
    · rename_i h0
      split at h
      · simp at h
      · rename_i c hc
        match data, h0, hc with
        | a :: b :: t, h0, hc =>
          simp only [List.getElem?_cons_zero, ne_eq, not_not, Option.some.injEq] at h0
          simp only [List.getElem?_cons_succ, List.getElem?_cons_zero, Option.some.injEq] at hc
          subst h0 hc
          obtain ⟨⟨r, v⟩, hloop, hrest⟩ := Res.bind_eq_ok h
          dsimp only at hrest
          split at hrest
          · simp at hrest
          · rename_i hne
            split at hrest
            · simp at hrest
            · rename_i hz
              split at hrest
              · simp at hrest
              · rename_i hm
                simp only [Res.ok.injEq, Prod.mk.injEq] at hrest
                obtain ⟨hn, hv⟩ := hrest
                subst hn hv
                by_cases h45 : b = 45
                · subst h45
                  right
                  simp only [if_true, List.drop_succ_cons, List.drop_zero] at hloop
                  obtain ⟨ds, rest, h1, h2, h3, h4⟩ := decodeIntStrLoop_inv _ _ _ _ _ hloop
                  refine ⟨ds, rest, by rw [h1], h2, ?_, by omega, by simpa using h4⟩
                  intro hc
                  apply hm
                  rw [h4, hc]
                  decide
                · left
                  simp only [if_neg h45, List.drop_succ_cons, List.drop_zero] at hloop
                  obtain ⟨ds, rest, h1, h2, h3, h4⟩ := decodeIntStrLoop_inv _ _ _ _ _ hloop
                  simp only [List.nil_append] at h4
                  subst h4
                  refine ⟨v, rest, by rw [h1], h2, ?_, hz, by omega, rfl⟩
                  intro hc
                  apply hne
                  rw [hc]; rfl

theorem decodeIntStr_local (d d' : List Nat) (n : Nat) (val : List Nat)
    (h : decodeIntStr d = .ok (n, val)) (ha : d.take n = d'.take n) (hl : n ≤ d'.length) :
    decodeIntStr d' = .ok (n, val) := by
  rcases decodeIntStr_inv d n val h with ⟨ds, rest, rfl, hd, hne, hz, rfl, hv⟩ |
    ⟨ds, rest, rfl, hd, hz, rfl, rfl⟩
  · rw [hv]
    have e : 105 :: (ds ++ 101 :: rest) = (105 :: (ds ++ [101])) ++ rest := by simp
    rw [e] at ha
    obtain ⟨rest', rfl, -, -⟩ := agree_prefix _ rest d' _ ha (by simp) hl
    have e' : (105 :: (ds ++ [101])) ++ rest' = 105 :: (ds ++ 101 :: rest') := by simp
    rw [e']
    exact decodeIntStr_pos ds rest' hd hne hz
  · have e : 105 :: 45 :: (ds ++ 101 :: rest) = (105 :: 45 :: (ds ++ [101])) ++ rest := by simp
    rw [e] at ha
    obtain ⟨rest', rfl, -, -⟩ := agree_prefix _ rest d' _ ha (by simp) hl
    have e' : (105 :: 45 :: (ds ++ [101])) ++ rest' = 105 :: 45 :: (ds ++ 101 :: rest') := by simp
    rw [e']
    exact decodeIntStr_neg ds rest' hd hz

theorem decodeInt_local (d d' : List Nat) (n : Nat) (x : Int)
    (h : decodeInt d = .ok (n, x)) (ha : d.take n = d'.take n) (hl : n ≤ d'.length) :
    decodeInt d' = .ok (n, x) := by
  unfold decodeInt at h ⊢
  obtain ⟨⟨r, v⟩, h1, h2⟩ := Res.bind_eq_ok h
  obtain ⟨y, h3, h4⟩ := Res.bind_eq_ok h2
  simp only [Res.ok.injEq, Prod.mk.injEq] at h4
  obtain ⟨rfl, rfl⟩ := h4
  rw [decodeIntStr_local d d' r v h1 ha hl, Res.bind_ok]
  exact h2

theorem decodeUint_local (d d' : List Nat) (n : Nat) (x : Nat)
    (h : decodeUint d = .ok (n, x)) (ha : d.take n = d'.take n) (hl : n ≤ d'.length) :
    decodeUint d' = .ok (n, x) := by
  unfold decodeUint at h ⊢
  obtain ⟨⟨r, v⟩, h1, h2⟩ := Res.bind_eq_ok h
  obtain ⟨y, h3, h4⟩ := Res.bind_eq_ok h2
  simp only [Res.ok.injEq, Prod.mk.injEq] at h4
  obtain ⟨rfl, rfl⟩ := h4
  rw [decodeIntStr_local d d' r v h1 ha hl, Res.bind_ok]
  exact h2

theorem readNextValueLoop_ge (rnv : List Nat → Res (Nat × List Nat)) (data : List Nat) :
    ∀ (k read rf : Nat), readNextValueLoop rnv data k read = .ok rf → read ≤ rf := by
  intro k
  induction k with
  | zero => intro read rf h; simp [readNextValueLoop] at h
  | succ k ih =>
    intro read rf h
    simp only [readNextValueLoop] at h
    split at h
    · simp at h
    · split at h
      · simp only [Res.ok.injEq] at h
        omega
      · obtain ⟨⟨n, d⟩, _, h2⟩ := Res.bind_eq_ok h
        have := ih _ _ h2
        omega

theorem readNextValueLoop_local (rnv rnv' : List Nat → Res (Nat × List Nat))
    (d d' : List Nat) (N : Nat) (ha : d.take N = d'.take N) (hN : N ≤ d'.length)
    (hb : ∀ x n v, rnv x = .ok (n, v) → 1 ≤ n)
    (hrnv : ∀ x x' n v, rnv x = .ok (n, v) → n < N → x.take n = x'.take n → n ≤ x'.length →
      ∃ v', rnv' x' = .ok (n, v')) :
    ∀ (k read rf : Nat), readNextValueLoop rnv d k read = .ok rf → rf < N →
      ∀ k', rf - read < k' → readNextValueLoop rnv' d' k' read = .ok rf := by
  intro k
  induction k with
  | zero => intro read rf h; simp [readNextValueLoop] at h
  | succ k ih =>
    intro read rf h hrf k' hk'
    have hge := readNextValueLoop_ge _ _ _ _ _ h
    simp only [readNextValueLoop] at h
    obtain ⟨j, rfl⟩ : ∃ j, k' = j + 1 := ⟨k' - 1, by omega⟩
    rw [readNextValueLoop, ← getElem?_agree d d' N read ha (by omega)]
    split at h
    · simp at h
    · rename_i c hc
      try dsimp only
      split at h
      · rename_i he
        rw [if_pos he]
        exact h
      · rename_i he
        rw [if_neg he]
        obtain ⟨⟨n, v⟩, h1, h2⟩ := Res.bind_eq_ok h
        dsimp only at h2
        have hge2 := readNextValueLoop_ge _ _ _ _ _ h2
        have hn := hb _ _ _ h1
        obtain ⟨v', hv'⟩ := hrnv _ (d'.drop read) n v h1 (by omega)
          (by
            have := take_drop_agree d d' N read n ha (by omega)
            exact this)
          (by simp only [List.length_drop]; omega)
        rw [hv', Res.bind_ok]
        exact ih _ _ h2 hrf j (by omega)

/-- The function `readNextValue` looks at the bytes it consumes only, and a
recursion depth above their number is enough. -/
theorem readNextValueF_local : ∀ (g : Nat) (d : List Nat) (n : Nat) (v : List Nat),
    readNextValueF g d = .ok (n, v) → ∀ (d' : List Nat) (g' : Nat), d.take n = d'.take n →
      n ≤ d'.length → n < g' → readNextValueF g' d' = .ok (n, v) := by
  intro g
  induction g with
  | zero => intro d n v h; simp [readNextValueF] at h
  | succ g ih =>
    intro d n v h d' g' ha hl hg'
    have hb := readNextValueF_bound _ _ _ _ h
    obtain ⟨j, rfl⟩ : ∃ j, g' = j + 1 := ⟨g' - 1, by omega⟩
    have h0 := getElem?_agree d d' n 0 ha (by omega)
    simp only [readNextValueF] at h
    rw [readNextValueF, if_neg (by omega), ← h0]
    split at h
    · simp at h
    · split at h
      · simp at h
      · rename_i c hc
        try dsimp only
        split at h
        · rename_i hi
          rw [if_pos hi]
          obtain ⟨⟨r, x⟩, h1, h2⟩ := Res.bind_eq_ok h
          simp only [Res.ok.injEq, Prod.mk.injEq] at h2
          obtain ⟨rfl, rfl⟩ := h2
          rw [decodeInt_local d d' r x h1 ha hl, Res.bind_ok, ha]
        · rename_i hi
          rw [if_neg hi]
          split at h
          · rename_i hld
            rw [if_pos hld]
            obtain ⟨r, h1, h2⟩ := Res.bind_eq_ok h
            simp only [Res.ok.injEq, Prod.mk.injEq] at h2
            obtain ⟨rfl, rfl⟩ := h2
            have hge := readNextValueLoop_ge _ _ _ _ _ h1
            have := readNextValueLoop_local (readNextValueF g) (readNextValueF j) d d' (r + 1)
              ha hl
              (fun x n v hx => (readNextValueF_bound _ _ _ _ hx).1)
              (fun x x' n v hx hn hag hle => ⟨v, ih x n v hx x' j hag hle (by omega)⟩)
              g 1 r h1 (by omega) j (by omega)
            rw [this, Res.bind_ok, ha]
          · rename_i hld
            rw [if_neg hld]
            obtain ⟨⟨r, x⟩, h1, h2⟩ := Res.bind_eq_ok h
            simp only [Res.ok.injEq, Prod.mk.injEq] at h2
            obtain ⟨rfl, rfl⟩ := h2
            rw [decodeString_local d d' r x h1 ha hl, Res.bind_ok, ha]

theorem readNextValue_local (d d' : List Nat) (n : Nat) (v : List Nat)
    (h : readNextValue d = .ok (n, v)) (ha : d.take n = d'.take n) (hl : n ≤ d'.length) :
    readNextValue d' = .ok (n, v) :=
  readNextValueF_local _ d n v h d' _ ha hl (by omega)


theorem decodeListLoop_ge (dec : List Nat → Res (Nat × Val)) (data : List Nat) :
    ∀ (k read : Nat) (acc : List Val) (rf : Nat) (res : List Val),
      decodeListLoop dec data k read acc = .ok (rf, res) → read ≤ rf := by
  intro k
  induction k with
  | zero => intro read acc rf res h; simp [decodeListLoop] at h
  | succ k ih =>
    intro read acc rf res h
    simp only [decodeListLoop] at h
    split at h
    · simp at h
    · split at h
      · simp only [Res.ok.injEq, Prod.mk.injEq] at h
        omega
      · obtain ⟨⟨n, d⟩, _, h2⟩ := Res.bind_eq_ok h
        have := ih _ _ _ _ h2
        omega

theorem decodeListLoop_local (dec dec' : List Nat → Res (Nat × Val))
    (d d' : List Nat) (N : Nat) (ha : d.take N = d'.take N) (hN : N ≤ d'.length)
    (hb : ∀ x n v, dec x = .ok (n, v) → 1 ≤ n)
    (hdec : ∀ x x' n v, dec x = .ok (n, v) → n < N → x.take n = x'.take n → n ≤ x'.length →
      dec' x' = .ok (n, v)) :
    ∀ (k read : Nat) (acc : List Val) (rf : Nat) (res : List Val),
      decodeListLoop dec d k read acc = .ok (rf, res) → rf < N →
      ∀ k', rf - read < k' → decodeListLoop dec' d' k' read acc = .ok (rf, res) := by
  intro k
  induction k with
  | zero => intro read acc rf res h; simp [decodeListLoop] at h
  | succ k ih =>
    intro read acc rf res h hrf k' hk'
    have hge := decodeListLoop_ge _ _ _ _ _ _ _ h
    simp only [decodeListLoop] at h
    obtain ⟨j, rfl⟩ : ∃ j, k' = j + 1 := ⟨k' - 1, by omega⟩
    rw [decodeListLoop, ← getElem?_agree d d' N read ha (by omega)]
    split at h
    · simp at h
    · rename_i c hc
      try dsimp only
      split at h
      · rename_i he
        rw [if_pos he]
        exact h
      · rename_i he
        rw [if_neg he]
        obtain ⟨⟨n, v⟩, h1, h2⟩ := Res.bind_eq_ok h
        dsimp only at h2
        have hge2 := decodeListLoop_ge _ _ _ _ _ _ _ h2
        have hn := hb _ _ _ h1
        have hv' := hdec _ (d'.drop read) n v h1 (by omega)
          (take_drop_agree d d' N read n ha (by omega))
          (by simp only [List.length_drop]; omega)
        rw [hv', Res.bind_ok]
        exact ih _ _ _ _ h2 hrf j (by omega)

theorem decodeList_local (dec dec' : List Nat → Res (Nat × Val)) (fuel fuel' : Nat)
    (d d' : List Nat) (n : Nat) (v : Val) (h : decodeList dec fuel d = .ok (n, v))
    (ha : d.take n = d'.take n) (hl : n ≤ d'.length) (hf : n ≤ fuel')
    (hb : ∀ x m w, dec x = .ok (m, w) → 1 ≤ m)
    (hdec : ∀ x x' m w, dec x = .ok (m, w) → m < n → x.take m = x'.take m → m ≤ x'.length →
      dec' x' = .ok (m, w)) :
    decodeList dec' fuel' d' = .ok (n, v) := by
  unfold decodeList at h ⊢
  split at h
  · simp at h
  · split at h
    · simp at h
    · rename_i hlen h0
      obtain ⟨⟨r, x⟩, h1, h2⟩ := Res.bind_eq_ok h
      simp only [Res.ok.injEq, Prod.mk.injEq] at h2
      obtain ⟨rfl, rfl⟩ := h2
      have hge := decodeListLoop_ge _ _ _ _ _ _ _ h1
      rw [if_neg (by omega), ← getElem?_agree d d' (r + 1) 0 ha (by omega), if_neg h0]
      rw [decodeListLoop_local dec dec' d d' (r + 1) ha hl hb hdec fuel 1 [] r x h1 (by omega)
        fuel' (by omega), Res.bind_ok]

theorem decodeDictLoop_ge (dec : List Nat → Res (Nat × Val)) (data : List Nat) :
    ∀ (k read : Nat) (acc : List (List Nat × Val)) (rf : Nat) (res : List (List Nat × Val)),
      decodeDictLoop dec data k read acc = .ok (rf, res) → read ≤ rf := by
  intro k
  induction k with
  | zero => intro read acc rf res h; simp [decodeDictLoop] at h
  | succ k ih =>
    intro read acc rf res h
    simp only [decodeDictLoop] at h
    split at h
    · simp at h
    · split at h
      · simp only [Res.ok.injEq, Prod.mk.injEq] at h
        omega
      · obtain ⟨⟨n, d⟩, _, h2⟩ := Res.bind_eq_ok h
        obtain ⟨⟨n', d'⟩, _, h3⟩ := Res.bind_eq_ok h2
        have := ih _ _ _ _ h3
        omega

theorem decodeDictLoop_local (dec dec' : List Nat → Res (Nat × Val))
    (d d' : List Nat) (N : Nat) (ha : d.take N = d'.take N) (hN : N ≤ d'.length)
    (hb : ∀ x n v, dec x = .ok (n, v) → 1 ≤ n)
    (hdec : ∀ x x' n v, dec x = .ok (n, v) → n < N → x.take n = x'.take n → n ≤ x'.length →
      dec' x' = .ok (n, v)) :
    ∀ (k read : Nat) (acc : List (List Nat × Val)) (rf : Nat) (res : List (List Nat × Val)),
      decodeDictLoop dec d k read acc = .ok (rf, res) → rf < N →
      ∀ k', rf - read < k' → decodeDictLoop dec' d' k' read acc = .ok (rf, res) := by
  intro k
  induction k with
  | zero => intro read acc rf res h; simp [decodeDictLoop] at h
  | succ k ih =>
    intro read acc rf res h hrf k' hk'
    have hge := decodeDictLoop_ge _ _ _ _ _ _ _ h
    simp only [decodeDictLoop] at h
    obtain ⟨j, rfl⟩ : ∃ j, k' = j + 1 := ⟨k' - 1, by omega⟩
    rw [decodeDictLoop, ← getElem?_agree d d' N read ha (by omega)]
    split at h
    · simp at h
    · rename_i c hc
      try dsimp only
      split at h
      · rename_i he
        rw [if_pos he]
        exact h
      · rename_i he
        rw [if_neg he]
        obtain ⟨⟨n, key⟩, h1, h2⟩ := Res.bind_eq_ok h
        dsimp only at h2
        obtain ⟨⟨n', v⟩, h3, h4⟩ := Res.bind_eq_ok h2
        dsimp only at h4
        have hge2 := decodeDictLoop_ge _ _ _ _ _ _ _ h4
        have hn := (decodeString_bound _ _ _ h1).1
        have hn' := hb _ _ _ h3
        have hs := decodeString_local _ (d'.drop read) n key h1
          (take_drop_agree d d' N read n ha (by omega))
          (by simp only [List.length_drop]; omega)
        have hv' := hdec _ (d'.drop (read + n)) n' v h3 (by omega)
          (take_drop_agree d d' N (read + n) n' ha (by omega))
          (by simp only [List.length_drop]; omega)
        rw [hs, Res.bind_ok]
        dsimp only
        rw [hv', Res.bind_ok]
        exact ih _ _ _ _ h4 hrf j (by omega)

theorem decodeDict_local (dec dec' : List Nat → Res (Nat × Val)) (fuel fuel' : Nat) (key : Ty)
    (d d' : List Nat) (n : Nat) (v : Val) (h : decodeDict dec fuel key d = .ok (n, v))
    (ha : d.take n = d'.take n) (hl : n ≤ d'.length) (hf : n ≤ fuel')
    (hb : ∀ x m w, dec x = .ok (m, w) → 1 ≤ m)
    (hdec : ∀ x x' m w, dec x = .ok (m, w) → m < n → x.take m = x'.take m → m ≤ x'.length →
      dec' x' = .ok (m, w)) :
    decodeDict dec' fuel' key d' = .ok (n, v) := by
  unfold decodeDict at h ⊢
  split at h
  · simp at h
  · split at h
    · simp at h
    · split at h
      · simp at h
      · rename_i hlen h0 hk
        obtain ⟨⟨r, x⟩, h1, h2⟩ := Res.bind_eq_ok h
        simp only [Res.ok.injEq, Prod.mk.injEq] at h2
        obtain ⟨rfl, rfl⟩ := h2
        have hge := decodeDictLoop_ge _ _ _ _ _ _ _ h1
        rw [if_neg (by omega), ← getElem?_agree d d' (r + 1) 0 ha (by omega), if_neg h0,
          if_neg hk]
        rw [decodeDictLoop_local dec dec' d d' (r + 1) ha hl hb hdec fuel 1 [] r x h1 (by omega)
          fuel' (by omega), Res.bind_ok]

theorem decodeStructLoop_ge (dec : Ty → List Nat → Res (Nat × Val))
    (fields : List (Field × Ty)) (data : List Nat) :
    ∀ (k read : Nat) (vals : List (Field × Val)) (rf : Nat) (res : List (Field × Val)),
      decodeStructLoop dec fields data k read vals = .ok (rf, res) → read ≤ rf := by
  intro k
  induction k with
  | zero => intro read acc rf res h; simp [decodeStructLoop] at h
  | succ k ih =>
    intro read acc rf res h
    simp only [decodeStructLoop] at h
    split at h
    · simp at h
    · split at h
      · simp only [Res.ok.injEq, Prod.mk.injEq] at h
        omega
      · obtain ⟨⟨n, d⟩, _, h2⟩ := Res.bind_eq_ok h
        dsimp only at h2
        split at h2
        · obtain ⟨⟨n', d'⟩, _, h3⟩ := Res.bind_eq_ok h2
          have := ih _ _ _ _ h3
          omega
        · split at h2
          · simp at h2
          · obtain ⟨⟨n', d'⟩, _, h3⟩ := Res.bind_eq_ok h2
            dsimp only at h3
            split at h3
            · simp at h3
            · have := ih _ _ _ _ h3
              omega

theorem decodeStructLoop_local (dec dec' : Ty → List Nat → Res (Nat × Val))
    (fields : List (Field × Ty))
    (d d' : List Nat) (N : Nat) (ha : d.take N = d'.take N) (hN : N ≤ d'.length)
    (hb : ∀ t x n v, dec t x = .ok (n, v) → 1 ≤ n)
    (hdec : ∀ t x x' n v, dec t x = .ok (n, v) → n < N → x.take n = x'.take n →
      n ≤ x'.length → dec' t x' = .ok (n, v)) :
    ∀ (k read : Nat) (vals : List (Field × Val)) (rf : Nat) (res : List (Field × Val)),
      decodeStructLoop dec fields d k read vals = .ok (rf, res) → rf < N →
      ∀ k', rf - read < k' → decodeStructLoop dec' fields d' k' read vals = .ok (rf, res) := by
  intro k
  induction k with
  | zero => intro read acc rf res h; simp [decodeStructLoop] at h
  | succ k ih =>
    intro read acc rf res h hrf k' hk'
    have hge := decodeStructLoop_ge _ _ _ _ _ _ _ _ h
    simp only [decodeStructLoop] at h
    obtain ⟨j, rfl⟩ : ∃ j, k' = j + 1 := ⟨k' - 1, by omega⟩
    rw [decodeStructLoop, ← getElem?_agree d d' N read ha (by omega)]
    split at h
    · simp at h
    · rename_i c hc
      try dsimp only
      split at h
      · rename_i he
        rw [if_pos he]
        exact h
      · rename_i he
        rw [if_neg he]
        obtain ⟨⟨n, key⟩, h1, h2⟩ := Res.bind_eq_ok h
        dsimp only at h2
        have hn := (decodeString_bound _ _ _ h1).1
        have hrd : ∀ n' rf', read + n + n' ≤ rf' → rf' = rf →
            read + n ≤ N ∧ read + n + n' < N := by
          intro n' rf' h1 h2; omega
        have hs : ∀ (hh : read + n ≤ N), decodeString (d'.drop read) = .ok (n, key) := fun hh =>
          decodeString_local _ (d'.drop read) n key h1
            (take_drop_agree d d' N read n ha hh)
            (by simp only [List.length_drop]; omega)
        split at h2
        · rename_i hm
          obtain ⟨⟨n', x⟩, h3, h4⟩ := Res.bind_eq_ok h2
          dsimp only at h4
          have hge2 := decodeStructLoop_ge _ _ _ _ _ _ _ _ h4
          have hn' := (readNextValueF_bound _ _ _ _ h3).1
          rw [hs (by omega), Res.bind_ok]
          dsimp only
          rw [hm]
          dsimp only
          rw [readNextValue_local _ (d'.drop (read + n)) n' x h3
            (take_drop_agree d d' N (read + n) n' ha (by omega))
            (by simp only [List.length_drop]; omega), Res.bind_ok]
          exact ih _ _ _ _ h4 hrf j (by omega)
        · rename_i num hm
          split at h2
          · simp at h2
          · rename_i f t hft
            obtain ⟨⟨n', v⟩, h3, h4⟩ := Res.bind_eq_ok h2
            dsimp only at h4
            split at h4
            · simp at h4
            · rename_i hex
              have hge2 := decodeStructLoop_ge _ _ _ _ _ _ _ _ h4
              have hn' := hb _ _ _ _ h3
              rw [hs (by omega), Res.bind_ok]
              dsimp only
              rw [hm]
              dsimp only
              rw [hft]
              dsimp only
              rw [hdec t _ (d'.drop (read + n)) n' v h3 (by omega)
                (take_drop_agree d d' N (read + n) n' ha (by omega))
                (by simp only [List.length_drop]; omega), Res.bind_ok]
              dsimp only
              rw [if_neg hex]
              exact ih _ _ _ _ h4 hrf j (by omega)

theorem decodeStruct_local (dec dec' : Ty → List Nat → Res (Nat × Val)) (fuel fuel' : Nat)
    (fields : List (Field × Ty)) (cur : Val)
    (d d' : List Nat) (n : Nat) (v : Val) (h : decodeStruct dec fuel fields d cur = .ok (n, v))
    (ha : d.take n = d'.take n) (hl : n ≤ d'.length) (hf : n ≤ fuel')
    (hb : ∀ t x m w, dec t x = .ok (m, w) → 1 ≤ m)
    (hdec : ∀ t x x' m w, dec t x = .ok (m, w) → m < n → x.take m = x'.take m →
      m ≤ x'.length → dec' t x' = .ok (m, w)) :
    decodeStruct dec' fuel' fields d' cur = .ok (n, v) := by
  unfold decodeStruct at h ⊢
  split at h
  · split at h
    · simp at h
    · split at h
      · simp at h
      · rename_i hlen h0
        obtain ⟨⟨r, x⟩, h1, h2⟩ := Res.bind_eq_ok h
        simp only [Res.ok.injEq, Prod.mk.injEq] at h2
        obtain ⟨rfl, rfl⟩ := h2
        have hge := decodeStructLoop_ge _ _ _ _ _ _ _ _ h1
        dsimp only
        rw [if_neg (by omega), ← getElem?_agree d d' (r + 1) 0 ha (by omega), if_neg h0]
        rw [decodeStructLoop_local dec dec' fields d d' (r + 1) ha hl hb hdec fuel 1 _ r x h1
          (by omega) fuel' (by omega), Res.bind_ok]
  · simp at h


/-- The function `decode` looks at the bytes it consumes only, and a recursion
depth above their number is enough. -/
theorem decodeF_local : ∀ (g : Nat) (d : List Nat) (ty : Ty) (cur : Val) (n : Nat) (v : Val),
    decodeF g d ty cur = .ok (n, v) → ∀ (d' : List Nat) (g' : Nat), d.take n = d'.take n →
      n ≤ d'.length → n < g' → decodeF g' d' ty cur = .ok (n, v) := by
  intro g
  induction g with
  | zero => intro d ty cur n v h; simp [decodeF] at h
  | succ g ih =>
    intro d ty cur n v h d' g' ha hl hg'
    have hbd := decodeF_bound _ _ _ _ _ _ h
    obtain ⟨j, rfl⟩ : ∃ j, g' = j + 1 := ⟨g' - 1, by omega⟩
    have hlen : ¬ d.length = 0 := by omega
    have hlen' : ¬ d'.length = 0 := by omega
    cases ty with
    | bool =>
      rw [decodeF, if_neg hlen] at h
      rw [decodeF, if_neg hlen']
      obtain ⟨⟨r, x⟩, h1, h2⟩ := Res.bind_eq_ok h
      have hr : r = n := by
        dsimp only at h2
        split at h2
        · simp at h2
        · simp only [Res.ok.injEq, Prod.mk.injEq] at h2
          exact h2.1
      subst hr
      rw [decodeInt_local d d' r x h1 ha hl, Res.bind_ok]
      exact h2
    | int bits =>
      rw [decodeF, if_neg hlen] at h
      rw [decodeF, if_neg hlen']
      obtain ⟨⟨r, x⟩, h1, h2⟩ := Res.bind_eq_ok h
      have hr : r = n := by
        simp only [Res.ok.injEq, Prod.mk.injEq] at h2
        exact h2.1
      subst hr
      rw [decodeInt_local d d' r x h1 ha hl, Res.bind_ok]
      exact h2
    | uint bits =>
      rw [decodeF, if_neg hlen] at h
      rw [decodeF, if_neg hlen']
      obtain ⟨⟨r, x⟩, h1, h2⟩ := Res.bind_eq_ok h
      have hr : r = n := by
        simp only [Res.ok.injEq, Prod.mk.injEq] at h2
        exact h2.1
      subst hr
      rw [decodeUint_local d d' r x h1 ha hl, Res.bind_ok]
      exact h2
    | string =>
      rw [decodeF, if_neg hlen] at h
      rw [decodeF, if_neg hlen']
      obtain ⟨⟨r, x⟩, h1, h2⟩ := Res.bind_eq_ok h
      have hr : r = n := by
        simp only [Res.ok.injEq, Prod.mk.injEq] at h2
        exact h2.1
      subst hr
      rw [decodeString_local d d' r x h1 ha hl, Res.bind_ok]
      exact h2
    | slice elem =>
      rw [decodeF, if_neg hlen] at h
      rw [decodeF, if_neg hlen']
      dsimp only at h ⊢
      split at h
      · rename_i h8
        rw [if_pos h8]
        obtain ⟨⟨r, x⟩, h1, h2⟩ := Res.bind_eq_ok h
        have hr : r = n := by
          simp only [Res.ok.injEq, Prod.mk.injEq] at h2
          exact h2.1
        subst hr
        rw [decodeString_local d d' r x h1 ha hl, Res.bind_ok]
        exact h2
      · rename_i h8
        rw [if_neg h8]
        exact decodeList_local _ _ g j d d' n v h ha hl (by omega)
          (fun x m w hx => (decodeF_bound _ _ _ _ _ _ hx).1)
          (fun x x' m w hx hm hag hle => ih x elem _ m w hx x' j hag hle (by omega))
    | map key elem =>
      rw [decodeF, if_neg hlen] at h
      rw [decodeF, if_neg hlen']
      exact decodeDict_local _ _ g j key d d' n v h ha hl (by omega)
        (fun x m w hx => (decodeF_bound _ _ _ _ _ _ hx).1)
        (fun x x' m w hx hm hag hle => ih x elem _ m w hx x' j hag hle (by omega))
    | struct fields =>
      rw [decodeF, if_neg hlen] at h
      rw [decodeF, if_neg hlen']
      exact decodeStruct_local _ _ g j fields cur d d' n v h ha hl (by omega)
        (fun t x m w hx => (decodeF_bound _ _ _ _ _ _ hx).1)
        (fun t x x' m w hx hm hag hle => ih x t _ m w hx x' j hag hle (by omega))
    | iface => simp [decodeF, hlen] at h
    | other => simp [decodeF, hlen] at h
    | custom um =>
      rw [decodeF, if_neg hlen] at h
      rw [decodeF, if_neg hlen']
      obtain ⟨⟨r, x⟩, h1, h2⟩ := Res.bind_eq_ok h
      have hr : r = n := by
        dsimp only at h2
        split at h2
        · simp at h2
        · simp only [Res.ok.injEq, Prod.mk.injEq] at h2
          exact h2.1
      subst hr
      rw [readNextValue_local d d' r x h1 ha hl, Res.bind_ok]
      exact h2

theorem decode_local (d d' : List Nat) (ty : Ty) (cur : Val) (n : Nat) (v : Val)
    (h : decode d ty cur = .ok (n, v)) (ha : d.take n = d'.take n) (hl : n ≤ d'.length) :
    decode d' ty cur = .ok (n, v) :=
  decodeF_local _ d ty cur n v h d' _ ha hl (by omega)

theorem take_take_append (d s : List Nat) (n : Nat) (hn : n ≤ d.length) :
    d.take n = (d.take n ++ s).take n ∧ n ≤ (d.take n ++ s).length := by
  constructor
  · rw [List.take_append_of_le_length (by simp; omega), List.take_take, Nat.min_self]
  · simp; omega

/-- C29: decoding depends on the bytes it consumes only.  When `decode` on `data`
into a target of type `ty` holding `cur` succeeds, consuming `n` bytes and
leaving `r` in the target, then on `data[:n]` followed by any bytes `s` it
succeeds as well, consumes `n` bytes and leaves `r`. -/
theorem C29_decoding_depends_on_the_consumed_bytes (data : List Nat) (ty : Ty) (cur : Val)
    (n : Nat) (r : Val) (s : List Nat) (h : decode data ty cur = .ok (n, r)) :
    decode (data.take n ++ s) ty cur = .ok (n, r) := by
  have hb := decodeF_bound _ _ _ _ _ _ h
  obtain ⟨h1, h2⟩ := take_take_append data s n hb.2
  exact decode_local data _ ty cur n r h h1 h2

theorem C29_decoding_depends_on_the_consumed_bytes_witness :
    decode (bs "li1ei2eezzz") (.slice (.int 64)) (.list [])
        = .ok (8, .list [.int 64 1, .int 64 2]) ∧
      decode ((bs "li1ei2eezzz").take 8 ++ bs "i5e") (.slice (.int 64)) (.list [])
        = .ok (8, .list [.int 64 1, .int 64 2]) :=
  ⟨by rfl, C29_decoding_depends_on_the_consumed_bytes (bs "li1ei2eezzz") (.slice (.int 64))
    (.list []) 8 (.list [.int 64 1, .int 64 2]) (bs "i5e") (by rfl)⟩


/-! ## Wire forms, dynamic targets, unsupported values, consumed counts -/

/-- C24: the wire forms of the primitives.  `Marshal` of an integer `x` of any
width, signed or unsigned, is `i`, the decimal form of `x`, `e` (`normalize`
widens it to 64 bits first, and the type switch has a case for these two types
only); the decimal form is a minus sign only when `x` is negative followed by
the digits of the magnitude, which are digits, at least one, without a leading
zero, and which read back as the number.  `true` is `i1e` and `false` is `i0e`;
a string or `[]byte` `s` is the decimal form of `len(s)`, a colon and the bytes
of `s` (`normalize` makes a string of the `[]byte`), the nil `[]byte` is `0:`;
an empty list, nil or not, and an empty array are `le`, an empty map, nil or
not, is `de`. -/
theorem C24_wire_forms_of_primitives (bits : Nat) (x : Int) (u : Nat) (s : List Nat)
    (hx1 : -2 ^ 63 ≤ x) (hx2 : x < 2 ^ 63) (hu : u < 2 ^ 64) :
    Marshal (.int bits x) = .ok (105 :: (FormatInt x ++ [101])) ∧
      Marshal (.uint bits u) = .ok (105 :: (FormatUint u ++ [101])) ∧
      FormatInt x = (if x < 0 then 45 :: FormatUint x.natAbs else FormatUint x.natAbs) ∧
      ParseInt (FormatInt x) = .ok x ∧ ParseUint (FormatUint u) = .ok u ∧
      (∀ n : Nat, (∀ d ∈ FormatUint n, isDigit d = true) ∧ FormatUint n ≠ [] ∧
        ¬ ((FormatUint n).length > 1 ∧ (FormatUint n).head? = some 48)) ∧
      FormatInt 0 = bs "0" ∧
      Marshal (.bool true) = .ok (bs "i1e") ∧ Marshal (.bool false) = .ok (bs "i0e") ∧
      Marshal (.str s) = .ok (FormatUint s.length ++ 58 :: s) ∧
      Marshal (.bytes s) = .ok (FormatUint s.length ++ 58 :: s) ∧
      Marshal (.list []) = .ok (bs "le") ∧ Marshal (.map []) = .ok (bs "de") ∧
      normalize (.int bits x) = .int 64 x ∧ normalize (.uint bits u) = .uint 64 u ∧
      normalize (.bytes s) = .str s ∧
      Marshal .nilBytes = .ok (bs "0:") ∧ Marshal .nilList = .ok (bs "le") ∧
      Marshal (.array []) = .ok (bs "le") ∧ Marshal .nilMap = .ok (bs "de") := by
  refine ⟨rfl, rfl, rfl, ParseInt_FormatInt x hx1 hx2, ParseUint_FormatUint u hu,
    fun n => ⟨FormatUint_digits n, FormatUint_ne_nil n, FormatUint_noLeadingZero n⟩,
    rfl, rfl, rfl, ?_, ?_, rfl, rfl, rfl, rfl, rfl, rfl, rfl, rfl, rfl⟩
  · rw [Marshal_str, encodeStringBytes, ItoaNat]; simp
  · rw [Marshal_bytes, encodeStringBytes, ItoaNat]; simp

theorem C24_wire_forms_of_primitives_witness :
    Marshal (.int 8 (-128)) = .ok (bs "i-128e") ∧
      Marshal (.uint 64 18446744073709551615) = .ok (bs "i18446744073709551615e") ∧
      Marshal (.str (bs "spam")) = .ok (bs "4:spam") :=
  ⟨((C24_wire_forms_of_primitives 8 (-128) 18446744073709551615 (bs "spam") (by decide)
      (by decide) (by decide)).1 :),
    ((C24_wire_forms_of_primitives 8 (-128) 18446744073709551615 (bs "spam") (by decide)
      (by decide) (by decide)).2.1 :), rfl⟩

theorem decodeList_iface (item : Wire) (rest : List Wire) (cur : Val) :
    Unmarshal (Wire.list (item :: rest)).encode (.slice .iface) cur = .err .canNotSet := by
  obtain ⟨c, l, hcl, hc⟩ := Wire.encode_head item
  have hdata : (Wire.list (item :: rest)).encode =
      108 :: c :: (l ++ (Wire.encode.encodeItems rest ++ [101])) := by
    simp [Wire.encode, Wire.encode.encodeItems, hcl]
  rw [hdata]
  unfold Unmarshal decode
  have hg : (108 :: c :: (l ++ (Wire.encode.encodeItems rest ++ [101]))).length + 1 =
      ((l ++ (Wire.encode.encodeItems rest ++ [101])).length + 1) + 1 + 1 := rfl
  rw [hg, decodeF, if_neg (by simp)]
  simp only [Ty.isUint8, Bool.false_eq_true, if_false]
  unfold decodeList
  rw [if_neg (by simp), if_neg (by simp), decodeListLoop]
  simp only [List.getElem?_cons_succ, List.getElem?_cons_zero, hc, if_false]
  rw [decodeF, if_neg (by simp)]
  rfl

/-- C23 (amended): decoding into a dynamic slot is not supported.  `Unmarshal` of
any well-formed list with at least one element into a pointer to
`[]interface{}` returns `ErrCanNotSet`; the empty list `le` alone decodes, to
the empty list. -/
theorem C23_dynamic_slot_can_not_be_set (item : Wire) (rest : List Wire) (cur : Val) :
    Unmarshal (Wire.list (item :: rest)).encode (.slice .iface) cur = .err .canNotSet ∧
      Unmarshal (bs "le") (.slice .iface) cur = .ok (.list []) :=
  ⟨decodeList_iface item rest cur, rfl⟩

theorem C23_dynamic_slot_can_not_be_set_witness :
    Unmarshal (bs "l4:spamd1:ai1eee") (.slice .iface) (.list []) = .err .canNotSet :=
  ((C23_dynamic_slot_can_not_be_set (.str (bs "spam")) [.dict [(bs "a", .int 1)]]
    (.list [])).1 :)

/-- C23 (as stated) fails: `li1e3:fooe` into a pointer to `[]interface{}` returns
`ErrCanNotSet`, and so do an integer into a pointer to `interface{}` and a
dictionary into a pointer to `map[string]interface{}`. -/
theorem C23_heterogeneous_list_is_rejected :
    Unmarshal (bs "li1e3:fooe") (.slice .iface) (.list []) = .err .canNotSet ∧
      Unmarshal (bs "i1e") .iface (.other true) = .err .canNotSet ∧
      Unmarshal (bs "d1:ai1ee") (.map .string .iface) (.map []) = .err .canNotSet :=
  ⟨rfl, rfl, rfl⟩

theorem decodeList_bound (dec : List Nat → Res (Nat × Val)) (fuel : Nat) (data : List Nat)
    (n : Nat) (v : Val) (h : decodeList dec fuel data = .ok (n, v)) :
    1 ≤ n ∧ n ≤ data.length := by
  unfold decodeList at h
  split at h
  · simp at h
  · split at h
    · simp at h
    · obtain ⟨⟨r, res⟩, h1, h2⟩ := Res.bind_eq_ok h
      simp only [Res.ok.injEq, Prod.mk.injEq] at h2
      have := decodeListLoop_bound _ _ _ _ _ _ _ h1
      omega

theorem decodeDict_bound (dec : List Nat → Res (Nat × Val)) (fuel : Nat) (key : Ty)
    (data : List Nat) (n : Nat) (v : Val) (h : decodeDict dec fuel key data = .ok (n, v)) :
    1 ≤ n ∧ n ≤ data.length := by
  unfold decodeDict at h
  split at h
  · simp at h
  · split at h
    · simp at h
    · split at h
      · simp at h
      · obtain ⟨⟨r, res⟩, h1, h2⟩ := Res.bind_eq_ok h
        simp only [Res.ok.injEq, Prod.mk.injEq] at h2
        have := decodeDictLoop_bound _ _ _ _ _ _ _ h1
        omega

theorem decodeStruct_bound (dec : Ty → List Nat → Res (Nat × Val)) (fuel : Nat)
    (fields : List (Field × Ty)) (data : List Nat) (cur : Val) (n : Nat) (v : Val)
    (h : decodeStruct dec fuel fields data cur = .ok (n, v)) : 1 ≤ n ∧ n ≤ data.length := by
  unfold decodeStruct at h
  split at h
  · split at h
    · simp at h
    · split at h
      · simp at h
      · obtain ⟨⟨r, res⟩, h1, h2⟩ := Res.bind_eq_ok h
        simp only [Res.ok.injEq, Prod.mk.injEq] at h2
        have := decodeStructLoop_bound _ _ _ _ _ _ _ _ h1
        omega
  · simp at h

/-- C28: every successful call of `decode`, `decodeString`, `decodeIntStr`,
`decodeList`, `decodeDict`, `decodeStruct` or `readNextValue` on `data` returns a
count `n` with `1 <= n <= len(data)`, whatever decodes the elements of the
containers; hence the recursion depth `len(data) + 1` is never exhausted by
`decode` or `readNextValue`. -/
theorem C28_consumed_count_is_in_bounds (data : List Nat) (n : Nat) :
    (∀ (ty : Ty) (cur v : Val), decode data ty cur = .ok (n, v) → 1 ≤ n ∧ n ≤ data.length) ∧
      (∀ s : List Nat, decodeString data = .ok (n, s) → 1 ≤ n ∧ n ≤ data.length) ∧
      (∀ s : List Nat, decodeIntStr data = .ok (n, s) → 1 ≤ n ∧ n ≤ data.length) ∧
      (∀ (dec : List Nat → Res (Nat × Val)) (fuel : Nat) (v : Val),
        decodeList dec fuel data = .ok (n, v) → 1 ≤ n ∧ n ≤ data.length) ∧
      (∀ (dec : List Nat → Res (Nat × Val)) (fuel : Nat) (key : Ty) (v : Val),
        decodeDict dec fuel key data = .ok (n, v) → 1 ≤ n ∧ n ≤ data.length) ∧
      (∀ (dec : Ty → List Nat → Res (Nat × Val)) (fuel : Nat) (fields : List (Field × Ty))
        (cur v : Val), decodeStruct dec fuel fields data cur = .ok (n, v) →
          1 ≤ n ∧ n ≤ data.length) ∧
      (∀ d : List Nat, readNextValue data = .ok (n, d) → 1 ≤ n ∧ n ≤ data.length) ∧
      (∀ (ty : Ty) (cur : Val), decode data ty cur ≠ .outOfFuel) ∧
      readNextValue data ≠ .outOfFuel :=
  ⟨fun ty cur v h => decodeF_bound _ _ _ _ _ _ h,
    fun s h => decodeString_bound _ _ _ h,
    fun s h => decodeIntStr_bound _ _ _ h,
    fun dec fuel v h => decodeList_bound dec fuel data n v h,
    fun dec fuel key v h => decodeDict_bound dec fuel key data n v h,
    fun dec fuel fields cur v h => decodeStruct_bound dec fuel fields data cur n v h,
    fun d h => by
      have := readNextValueF_bound _ _ _ _ h
      exact ⟨this.1, this.2.1⟩,
    fun ty cur => decode_fuel data ty cur, readNextValue_fuel data⟩

theorem C28_consumed_count_is_in_bounds_witness :
    decode (bs "li1ei2ee3:abc") (.slice (.int 64)) (.list []) =
        .ok (8, .list [.int 64 1, .int 64 2]) ∧
      1 ≤ 8 ∧ 8 ≤ (bs "li1ei2ee3:abc").length :=
  ⟨rfl, (C28_consumed_count_is_in_bounds (bs "li1ei2ee3:abc") 8).1 (.slice (.int 64)) (.list [])
    (.list [.int 64 1, .int 64 2]) rfl⟩

theorem encodeListLoop_err (m : Val → Res (List Nat)) (e : Err) (xs : List Val) :
    ∀ res : List Nat, (∃ x ∈ xs, m x = .err e) →
      (∀ x ∈ xs, (∃ d, m x = .ok d) ∨ m x = .err e) → encodeListLoop m xs res = .err e := by
  induction xs with
  | nil => intro res h; simp at h
  | cons x xs ih =>
    intro res h1 h2
    rw [encodeListLoop]
    rcases h2 x (by simp) with ⟨d, hd⟩ | he
    · rw [hd, Res.bind_ok]
      refine ih _ ?_ (fun y hy => h2 y (by simp [hy]))
      obtain ⟨y, hy, hye⟩ := h1
      rcases List.mem_cons.1 hy with rfl | hy
      · rw [hd] at hye; simp at hye
      · exact ⟨y, hy, hye⟩
    · rw [he]; rfl

theorem encodeDictLoop_err (m : Val → Res (List Nat)) (e : Err) (ps : List (List Nat × Val)) :
    ∀ res : List Nat, (∃ p ∈ ps, m p.2 = .err e) →
      (∀ p ∈ ps, (∃ d, m p.2 = .ok d) ∨ m p.2 = .err e) → encodeDictLoop m ps res = .err e := by
  induction ps with
  | nil => intro res h; simp at h
  | cons x xs ih =>
    intro res h1 h2
    rw [encodeDictLoop]
    rcases h2 x (by simp) with ⟨d, hd⟩ | he
    · rw [hd, Res.bind_ok]
      refine ih _ ?_ (fun y hy => h2 y (by simp [hy]))
      obtain ⟨y, hy, hye⟩ := h1
      rcases List.mem_cons.1 hy with rfl | hy
      · rw [hd] at hye; simp at hye
      · exact ⟨y, hy, hye⟩
    · rw [he]; rfl

theorem encodeDict_err (m : Val → Res (List Nat)) (e : Err) (ps : List (List Nat × Val))
    (h1 : ∃ p ∈ ps, m p.2 = .err e)
    (h2 : ∀ p ∈ ps, (∃ d, m p.2 = .ok d) ∨ m p.2 = .err e) : encodeDict m ps = .err e := by
  unfold encodeDict
  have hp := sortSlice_perm_any pairLess ps
  refine encodeDictLoop_err m e _ _ ?_ (fun p hp' => h2 p (hp.mem_iff.1 hp'))
  obtain ⟨p, hp1, hp2⟩ := h1
  exact ⟨p, hp.mem_iff.2 hp1, hp2⟩

/-- C25 (amended): `Marshal` of a value of an unsupported type returns
`ErrInvalidType` and `Marshal` of a map whose key type is not string returns
`ErrNonStringKey`.  When an element of a list, a value of a map or a value that
`structToMap` emits for a record fails with the error `e`, and every other one
succeeds or fails with `e` as well, the enclosing `Marshal` returns `e`. -/
theorem C25_unsupported_value_fails :
    (∀ z : Bool, Marshal (.other z) = .err .invalidType) ∧
      (∀ isNil : Bool, Marshal (.badMap isNil) = .err .nonStringKey) ∧
      (∀ (e : Err) (xs : List Val), (∃ x ∈ xs, Marshal x = .err e) →
        (∀ x ∈ xs, (∃ d, Marshal x = .ok d) ∨ Marshal x = .err e) →
        Marshal (.list xs) = .err e) ∧
      (∀ (e : Err) (kvs : List (List Nat × Val)), (∃ p ∈ kvs, Marshal p.2 = .err e) →
        (∀ p ∈ kvs, (∃ d, Marshal p.2 = .ok d) ∨ Marshal p.2 = .err e) →
        Marshal (.map kvs) = .err e) ∧
      (∀ (e : Err) (fs : List (Field × Val)) (dict : List (List Nat × Val)),
        structToMap (.struct fs) = .ok dict → (∃ p ∈ dict, Marshal p.2 = .err e) →
        (∀ p ∈ dict, (∃ d, Marshal p.2 = .ok d) ∨ Marshal p.2 = .err e) →
        Marshal (.struct fs) = .err e) := by
  refine ⟨fun z => rfl, fun z => rfl, ?_, ?_, ?_⟩
  · intro e xs h1 h2
    rw [Marshal_list]
    exact encodeListLoop_err Marshal e xs _ h1 h2
  · intro e kvs h1 h2
    rw [Marshal_map]
    exact encodeDict_err Marshal e kvs h1 h2
  · intro e fs dict hfs h1 h2
    rw [Marshal_struct, hfs, Res.bind_ok]
    exact encodeDict_err Marshal e dict h1 h2

theorem C25_unsupported_value_fails_witness :
    Marshal (.list [.int 64 1, .map [(bs "k", .list [.other false])], .str (bs "x")]) =
        .err .invalidType ∧
      Marshal (.struct (exTest [] 0 [] [(bs "k", .badMap false)])) =
        .ok (bs "d5:Attr00:8:int_attri0e8:str_attr0:e") :=
  ⟨C25_unsupported_value_fails.2.2.1 .invalidType
    [.int 64 1, .map [(bs "k", .list [.other false])], .str (bs "x")]
    ⟨.map [(bs "k", .list [.other false])], by simp, rfl⟩
    (by
      intro x hx
      simp only [List.mem_cons, List.mem_singleton, List.not_mem_nil, or_false] at hx
      rcases hx with rfl | rfl | rfl
      · exact Or.inl ⟨_, rfl⟩
      · exact Or.inr rfl
      · exact Or.inl ⟨_, rfl⟩), rfl⟩

/-- C25 (as stated) fails for a field tagged `-`: the record encodes as `de`
whether the field holds a value of an unsupported type or a map with keys that
are not strings.  And of two different errors inside one list the first one is
returned. -/
theorem C25_skipped_field_is_not_an_error :
    Marshal (exSkip (.other false)) = .ok (bs "de") ∧
      Marshal (exSkip (.badMap false)) = .ok (bs "de") ∧
      Marshal (.list [.badMap false, .other false]) = .err .nonStringKey ∧
      Marshal (.list [.other false, .badMap false]) = .err .invalidType :=
  ⟨rfl, rfl, rfl, rfl⟩


/-! ## The shape of what a successful call has consumed -/

theorem sep_unique (a : Nat) (x y r r' : List Nat) (hx : a ∉ x) (hy : a ∉ y)
    (h : x ++ a :: r = y ++ a :: r') : x = y ∧ r = r' := by
  induction x generalizing y with
  | nil =>
    cases y with
    | nil => simpa using h
    | cons c y =>
      simp only [List.nil_append, List.cons_append, List.cons.injEq] at h
      exact absurd (by rw [h.1]; simp) hy
  | cons b x ih =>
    cases y with
    | nil =>
      simp only [List.nil_append, List.cons_append, List.cons.injEq] at h
      exact absurd (by rw [← h.1]; simp) hx
    | cons c y =>
      simp only [List.cons_append, List.cons.injEq] at h
      simp only [List.mem_cons, not_or] at hx hy
      obtain ⟨h1, h2⟩ := ih y hx.2 hy.2 h.2
      exact ⟨by rw [h.1, h1], h2⟩

theorem FormatUint_value (n : Nat) :
    (FormatUint n).foldl (fun a c => a * 10 + (c - 48)) 0 = n := by
  induction n using Nat.strong_induction_on with
  | _ n ih =>
    by_cases h : n < 10
    · rw [FormatUint_small n h]
      simp
    · rw [FormatUint_big n h, List.foldl_append, ih (n / 10) (by omega)]
      simp only [List.foldl_cons, List.foldl_nil]
      omega

theorem FormatUint_injective (a b : Nat) (h : FormatUint a = FormatUint b) : a = b := by
  rw [← FormatUint_value a, ← FormatUint_value b, h]

/-- A digit string without a leading zero is the decimal form of the number
`ParseUint` reads from it. -/
theorem FormatUint_of_parse (ds : List Nat) :
    (∀ d ∈ ds, isDigit d = true) → ds ≠ [] → ds.head? ≠ some 48 →
    ∀ n, parseUintLoop ds 0 = .ok n → FormatUint n = ds ∧ 0 < n := by
  induction ds using List.reverseRecOn with
  | nil => intro _ h; exact absurd rfl h
  | append_singleton xs d ih =>
    intro hd _ hh n hp
    have hdd := (isDigit_iff d).1 (hd d (by simp))
    by_cases hx : xs = []
    · subst hx
      simp only [List.nil_append, List.head?_cons, ne_eq, Option.some.injEq] at hh
      simp only [List.nil_append, parseUintLoop, hd d (by simp), if_true] at hp
      split at hp
      · simp only [Res.ok.injEq] at hp
        subst hp
        rw [FormatUint_small _ (by omega)]
        constructor
        · congr 1; omega
        · omega
      · simp at hp
    · rw [parseUintLoop_snoc] at hp
      obtain ⟨m, hm, hp2⟩ := Res.bind_eq_ok hp
      have hhx : xs.head? ≠ some 48 := by
        cases xs with
        | nil => exact absurd rfl hx
        | cons a l => simpa using hh
      obtain ⟨h1, h2⟩ := ih (fun c hc => hd c (by simp [hc])) hx hhx m hm
      simp only [parseUintLoop, hd d (by simp), if_true] at hp2
      split at hp2
      · simp only [Res.ok.injEq] at hp2
        subst hp2
        rw [FormatUint_big _ (by omega)]
        have e1 : (m * 10 + (d - 48)) / 10 = m := by omega
        have e2 : 48 + (m * 10 + (d - 48)) % 10 = d := by omega
        rw [e1, e2, h1]
        exact ⟨rfl, by omega⟩
      · simp at hp2

theorem FormatUint_of_Atoi (ds : List Nat) (l : Nat) (hd : ∀ d ∈ ds, isDigit d = true)
    (hne : ds ≠ []) (hz : ¬ (ds.length > 1 ∧ ds.head? = some 48))
    (hA : Atoi ds = .ok (l : Int)) : FormatUint l = ds := by
  cases ds with
  | nil => exact absurd rfl hne
  | cons c rest =>
    have hc := (isDigit_iff c).1 (hd c (by simp))
    unfold Atoi at hA
    simp only [ParseInt] at hA
    have h43 : ¬ (c = 43 ∨ c = 45) := by omega
    rw [if_neg h43] at hA
    cases hp : ParseUint (c :: rest) with
    | ok un =>
      rw [hp] at hA
      have h45 : decide (c = 45) = false := by simp; omega
      simp only [h45] at hA
      split at hA
      · simp at hA
      · split at hA
        · simp at hA
        · simp only [Bool.false_eq_true, if_false, Res.ok.injEq] at hA
          have hun : un = l := by exact_mod_cast hA
          subst hun
          simp only [ParseUint] at hp
          by_cases h48 : c = 48
          · subst h48
            have hr : rest = [] := by
              cases rest with
              | nil => rfl
              | cons a b => exact absurd ⟨by simp, rfl⟩ hz
            subst hr
            have h0 : parseUintLoop [48] 0 = .ok 0 := by decide
            rw [h0] at hp
            simp only [Res.ok.injEq] at hp
            subst hp
            decide
          · exact (FormatUint_of_parse (c :: rest) hd hne (by simpa using h48) un hp).1
    | err e => rw [hp] at hA; simp at hA
    | panic => rw [hp] at hA; simp at hA
    | outOfFuel => rw [hp] at hA; simp at hA

/-- What `decodeString` has consumed is the wire form of the string it stored. -/
theorem decodeString_shape (data : List Nat) (n : Nat) (s : List Nat)
    (h : decodeString data = .ok (n, s)) :
    data.take n = encodeStringBytes s ∧ n = (encodeStringBytes s).length := by
  obtain ⟨ds, rest, l, rfl, hd, hne, hz, hA, hs, rfl, hlr, rfl⟩ := decodeString_inv data n s h
  have hf := FormatUint_of_Atoi ds l hd hne hz hA
  have hlen : (List.take l rest).length = l := by simp [hlr]
  have henc : encodeStringBytes (List.take l rest) = ds ++ 58 :: List.take l rest := by
    unfold encodeStringBytes
    rw [hlen, ItoaNat, hf]
    simp
  rw [henc]
  constructor
  · have e : ds ++ 58 :: rest = (ds ++ [58]) ++ rest := by simp
    have e2 : ds.length + 1 + l = (ds ++ [58]).length + l := by simp
    rw [e, e2, List.take_append]
    simp
  · simp [hlen]; omega

theorem encodeStringBytes_injective (a b t1 t2 : List Nat)
    (h : encodeStringBytes a ++ t1 = encodeStringBytes b ++ t2) : a = b ∧ t1 = t2 := by
  unfold encodeStringBytes at h
  rw [ItoaNat, ItoaNat] at h
  simp only [List.append_assoc, List.singleton_append, List.cons_append, List.nil_append] at h
  have hda : 58 ∉ FormatUint a.length := fun hc => by
    have := (isDigit_iff 58).1 (FormatUint_digits _ 58 hc); omega
  have hdb : 58 ∉ FormatUint b.length := fun hc => by
    have := (isDigit_iff 58).1 (FormatUint_digits _ 58 hc); omega
  obtain ⟨h1, h2⟩ := sep_unique 58 _ _ _ _ hda hdb h
  have hl := FormatUint_injective _ _ h1
  exact List.append_inj h2 hl


/-! ## What `readNextValue` returns -/

theorem take_self_agree (d : List Nat) (n : Nat) (hn : n ≤ d.length) :
    d.take n = (d.take n).take n ∧ n ≤ (d.take n).length := by
  constructor
  · rw [List.take_take, Nat.min_self]
  · simp; omega

theorem noEndToken_iff (tok : List Nat) : noEndToken tok = true ↔ 101 ∉ tok := by
  unfold noEndToken
  simp only [List.all_eq_true, decide_eq_true_eq]
  constructor
  · intro h hc; exact h 101 hc rfl
  · intro h c hc he; exact h (he ▸ hc)

theorem digits_noEnd (ds : List Nat) (hd : ∀ d ∈ ds, isDigit d = true) : 101 ∉ ds := by
  intro hc
  have := (isDigit_iff 101).1 (hd 101 hc)
  omega

/-- What `decodeIntStr` has consumed is `i`, the digit string it returns, `e`. -/
theorem decodeIntStr_shape (data : List Nat) (n : Nat) (tok : List Nat)
    (h : decodeIntStr data = .ok (n, tok)) :
    data.take n = 105 :: (tok ++ [101]) ∧ n = tok.length + 2 ∧ 101 ∉ tok := by
  rcases decodeIntStr_inv data n tok h with ⟨ds, rest, rfl, hd, hne, hz, rfl, hv⟩ |
    ⟨ds, rest, rfl, hd, hz, rfl, rfl⟩
  · rw [hv]
    refine ⟨?_, rfl, digits_noEnd ds hd⟩
    have e : 105 :: (ds ++ 101 :: rest) = (105 :: (ds ++ [101])) ++ rest := by simp
    have e2 : ds.length + 2 = (105 :: (ds ++ [101])).length := by simp
    rw [e, e2, List.take_left]
  · refine ⟨?_, by simp, ?_⟩
    · have e : 105 :: 45 :: (ds ++ 101 :: rest) = (105 :: 45 :: (ds ++ [101])) ++ rest := by simp
      have e2 : ds.length + 3 = (105 :: 45 :: (ds ++ [101])).length := by simp
      rw [e, e2, List.take_left]
      simp
    · intro hc
      rcases List.mem_cons.1 hc with h | h
      · omega
      · exact digits_noEnd ds hd h

theorem decodeInt_shape (data : List Nat) (n : Nat) (x : Int)
    (h : decodeInt data = .ok (n, x)) :
    ∃ tok, data.take n = 105 :: (tok ++ [101]) ∧ n = tok.length + 2 ∧
      intTokenAccepted tok = true ∧ 101 ∉ tok := by
  have hb := decodeInt_bound _ _ _ h
  obtain ⟨h1, h2⟩ := take_self_agree data n hb.2
  have hloc := decodeInt_local data (data.take n) n x h h1 h2
  unfold decodeInt at h
  obtain ⟨⟨r, tok⟩, h3, h4⟩ := Res.bind_eq_ok h
  obtain ⟨y, _, h5⟩ := Res.bind_eq_ok h4
  simp only [Res.ok.injEq, Prod.mk.injEq] at h5
  obtain ⟨rfl, rfl⟩ := h5
  obtain ⟨h6, h7, h8⟩ := decodeIntStr_shape data r tok h3
  refine ⟨tok, h6, h7, ?_, h8⟩
  unfold intTokenAccepted
  rw [← h6, hloc]
  simp [h7]

theorem decodeUint_shape (data : List Nat) (n : Nat) (x : Nat)
    (h : decodeUint data = .ok (n, x)) :
    ∃ tok, data.take n = 105 :: (tok ++ [101]) ∧ n = tok.length + 2 ∧ 101 ∉ tok := by
  unfold decodeUint at h
  obtain ⟨⟨r, tok⟩, h3, h4⟩ := Res.bind_eq_ok h
  obtain ⟨y, _, h5⟩ := Res.bind_eq_ok h4
  simp only [Res.ok.injEq, Prod.mk.injEq] at h5
  obtain ⟨rfl, rfl⟩ := h5
  exact ⟨tok, decodeIntStr_shape data r tok h3⟩

theorem take_step (data : List Nat) (read n rf : Nat) (h : read + n ≤ rf) :
    (data.drop read).take (rf - read) =
      (data.drop read).take n ++ (data.drop (read + n)).take (rf - (read + n)) := by
  have e : rf - read = n + (rf - (read + n)) := by omega
  rw [e, List.take_add, List.drop_drop]

theorem take_succ_split (data : List Nat) (rf : Nat) (c e : Nat) (h0 : data[0]? = some c)
    (he : data[rf]? = some e) (hrf : 1 ≤ rf) :
    data.take (rf + 1) = c :: ((data.drop 1).take (rf - 1) ++ [e]) := by
  cases data with
  | nil => simp at h0
  | cons a l =>
    simp only [List.getElem?_cons_zero, Option.some.injEq] at h0
    subst h0
    obtain ⟨j, rfl⟩ : ∃ j, rf = j + 1 := ⟨rf - 1, by omega⟩
    simp only [List.getElem?_cons_succ] at he
    simp only [List.take_succ_cons, List.drop_succ_cons, List.drop_zero, Nat.add_sub_cancel,
      List.cons.injEq, true_and]
    rw [List.take_succ, he]
    rfl

/-- The loop of `readNextValue` passes a row of delimited values and stops at an
end token. -/
theorem readNextValueLoop_shape (p : List Nat → Bool) (rnv : List Nat → Res (Nat × List Nat))
    (data : List Nat)
    (hrnv : ∀ x n d, rnv x = .ok (n, d) → ∃ it : Item, it.all p = true ∧ it.encode = x.take n) :
    ∀ (k read rf : Nat), readNextValueLoop rnv data k read = .ok rf →
      ∃ items : List Item, Item.all.allItems p items = true ∧
        (data.drop read).take (rf - read) = Item.encode.encodeItems items ∧
        data[rf]? = some 101 ∧ read ≤ rf := by
  intro k
  induction k with
  | zero => intro read rf h; simp [readNextValueLoop] at h
  | succ k ih =>
    intro read rf h
    simp only [readNextValueLoop] at h
    split at h
    · simp at h
    · rename_i c hc
      split at h
      · rename_i he
        simp only [Res.ok.injEq] at h
        subst h
        refine ⟨[], rfl, by simp [Item.encode.encodeItems], ?_, Nat.le_refl _⟩
        rw [hc, he]
      · obtain ⟨⟨n, d⟩, h1, h2⟩ := Res.bind_eq_ok h
        dsimp only at h2
        obtain ⟨items, hi1, hi2, hi3, hi4⟩ := ih _ _ h2
        obtain ⟨it, ht1, ht2⟩ := hrnv _ _ _ h1
        refine ⟨it :: items, ?_, ?_, hi3, by omega⟩
        · simp [Item.all.allItems, ht1, hi1]
        · rw [take_step data read n rf hi4, Item.encode.encodeItems, ht2, hi2]

/-- What `readNextValue` returns is one delimited value. -/
theorem readNextValueF_shape : ∀ (g : Nat) (data : List Nat) (n : Nat) (d : List Nat),
    readNextValueF g data = .ok (n, d) →
    ∃ it : Item, it.all intTokenAccepted = true ∧ it.encode = data.take n := by
  intro g
  induction g with
  | zero => intro data n d h; simp [readNextValueF] at h
  | succ g ih =>
    intro data n d h
    simp only [readNextValueF] at h
    split at h
    · simp at h
    · split at h
      · simp at h
      · rename_i c hc
        split at h
        · obtain ⟨⟨r, x⟩, h1, h2⟩ := Res.bind_eq_ok h
          simp only [Res.ok.injEq, Prod.mk.injEq] at h2
          obtain ⟨rfl, rfl⟩ := h2
          obtain ⟨tok, h3, _, h4, _⟩ := decodeInt_shape _ _ _ h1
          exact ⟨.int tok, h4, h3.symm⟩
        · split at h
          · rename_i hld
            obtain ⟨r, h1, h2⟩ := Res.bind_eq_ok h
            simp only [Res.ok.injEq, Prod.mk.injEq] at h2
            obtain ⟨rfl, rfl⟩ := h2
            obtain ⟨items, hi1, hi2, hi3, hi4⟩ :=
              readNextValueLoop_shape intTokenAccepted (readNextValueF g) data
                (fun x n d hx => ih x n d hx) g 1 r h1
            refine ⟨.seq c items, ?_, ?_⟩
            · simp only [Item.all, hi1, Bool.and_true, Bool.or_eq_true, decide_eq_true_eq]
              exact hld
            · rw [take_succ_split data r c 101 hc hi3 hi4, Item.encode, hi2]
          · obtain ⟨⟨r, x⟩, h1, h2⟩ := Res.bind_eq_ok h
            simp only [Res.ok.injEq, Prod.mk.injEq] at h2
            obtain ⟨rfl, rfl⟩ := h2
            exact ⟨.str x, rfl, (decodeString_shape _ _ _ h1).1.symm⟩

theorem decode_custom_eq (data : List Nat) (um : List Nat → Err ⊕ Val) (cur : Val) :
    decode data (.custom um) cur =
      (readNextValue data).bind fun p =>
        match um p.2 with
        | .inl e => .err e
        | .inr v => .ok (p.1, v) := by
  unfold decode
  rw [decodeF]
  split
  · rename_i h
    have : data = [] := List.length_eq_zero.1 h
    subst this
    rfl
  · rfl

theorem Wire.encode_ne_di1ee (w : Wire) : w.encode ≠ bs "di1ee" := by
  cases w with
  | int n => simp [Wire.encode, bs]
  | str s =>
    obtain ⟨c, l, h, hd⟩ := encodeStringBytes_head s
    have := (isDigit_iff c).1 hd
    intro hc
    rw [Wire.encode, h] at hc
    simp [bs] at hc
    omega
  | list items => simp [Wire.encode, bs]
  | dict pairs =>
    intro hc
    cases pairs with
    | nil => simp [Wire.encode, Wire.encode.encodePairs, bs] at hc
    | cons p rest =>
      obtain ⟨k, w⟩ := p
      obtain ⟨c, l, h, hd⟩ := encodeStringBytes_head k
      have := (isDigit_iff c).1 hd
      rw [Wire.encode, Wire.encode.encodePairs, h] at hc
      simp [bs] at hc
      omega

/-- C21: whenever `readNextValue(data)` succeeds returning `(n, d)`, `n` is at
least 1 and at most `len(data)`, `d` equals `data[:n]`, and `d` is one delimited
value: an integer token that `decodeInt` accepts, a length-prefixed byte
string, or a start token `l` or `d` followed by delimited values and `e`; this
is all the loop of `readNextValue` asks of a dictionary.  A target with a custom
decode method is handed this `d`, and `decode` returns this `n` when the method
succeeds. -/
theorem C21_readNextValue_returns_a_delimited_value (data : List Nat) (n : Nat) (d : List Nat)
    (h : readNextValue data = .ok (n, d)) :
    d = data.take n ∧ 1 ≤ n ∧ n ≤ data.length ∧
      (∃ it : Item, it.all intTokenAccepted = true ∧ it.encode = d) ∧
      ∀ (um : List Nat → Err ⊕ Val) (cur : Val),
        decode data (.custom um) cur =
          (match um d with
          | .inl e => .err e
          | .inr v => .ok (n, v)) := by
  have hb := readNextValueF_bound _ _ _ _ h
  obtain ⟨it, h1, h2⟩ := readNextValueF_shape _ _ _ _ h
  refine ⟨hb.2.2, hb.1, hb.2.1, ⟨it, h1, by rw [h2, hb.2.2]⟩, ?_⟩
  intro um cur
  rw [decode_custom_eq, h]
  rfl

theorem C21_readNextValue_returns_a_delimited_value_witness :
    readNextValue (bs "d1:ali-7e3:abcee4:tail") = .ok (16, bs "d1:ali-7e3:abcee") ∧
      ∃ it : Item, it.all intTokenAccepted = true ∧ it.encode = bs "d1:ali-7e3:abcee" :=
  ⟨by rfl,
    (C21_readNextValue_returns_a_delimited_value (bs "d1:ali-7e3:abcee4:tail") 16
      (bs "d1:ali-7e3:abcee") (by rfl)).2.2.2.1⟩

/-- C21 fails for dictionaries: `readNextValue` has one case for the list token
and the dictionary token and walks a dictionary as a row of values, so it
returns `di1ee`, whose key is an integer without a value, and `d3:fooe`, whose
key has no value; `di1ee` is the wire form of no value.  So `Unmarshal` into a
record accepts `d2:zzdi1eee`, where the malformed dictionary stands under an
unknown key, and a custom decode method is handed `di1ee`; `decodeDict` rejects
the same bytes. -/
theorem C21_malformed_dictionary_is_returned :
    readNextValue (bs "di1ee") = .ok (5, bs "di1ee") ∧
      (∀ w : Wire, w.encode ≠ bs "di1ee") ∧
      readNextValue (bs "d3:fooe") = .ok (7, bs "d3:fooe") ∧
      Unmarshal (bs "di1ee") exRawTy (.bytes []) = .ok (.bytes (bs "di1ee")) ∧
      Unmarshal (bs "d2:zzdi1eee") (.struct exTestFields) (.struct (exTest [] 0 [] [])) =
        .ok (.struct (exTest [] 0 [] [])) ∧
      Unmarshal (bs "di1ee") (.map .string (.int 64)) (.map []) = .err .invalidString :=
  ⟨by rfl, Wire.encode_ne_di1ee, by rfl, by rfl, by rfl, by rfl⟩


/-! ## Delimited values are prefix-free -/

theorem allItems_iff (p : List Nat → Bool) (items : List Item) :
    Item.all.allItems p items = true ↔ ∀ it ∈ items, it.all p = true := by
  induction items with
  | nil => simp [Item.all.allItems]
  | cons it rest ih => simp [Item.all.allItems, ih]

theorem Item.encode_start (p : List Nat → Bool) (it : Item) (h : it.all p = true) :
    ∃ c l, it.encode = c :: l ∧ c ≠ 101 := by
  cases it with
  | int tok => exact ⟨105, _, rfl, by decide⟩
  | str s =>
    obtain ⟨c, l, h, hd⟩ := encodeStringBytes_head s
    have := (isDigit_iff c).1 hd
    exact ⟨c, l, h, by omega⟩
  | seq tag items =>
    simp only [Item.all, Bool.and_eq_true, Bool.or_eq_true, decide_eq_true_eq] at h
    exact ⟨tag, _, rfl, by omega⟩

theorem Item.encode_class (it : Item) (h : it.all noEndToken = true) :
    (∃ tok, it = .int tok ∧ it.encode.head? = some 105) ∨
    (∃ s c, it = .str s ∧ it.encode.head? = some c ∧ isDigit c = true) ∨
    (∃ tag items, it = .seq tag items ∧ it.encode.head? = some tag ∧
      (tag = 108 ∨ tag = 100)) := by
  cases it with
  | int tok => exact Or.inl ⟨tok, rfl, rfl⟩
  | str s =>
    obtain ⟨c, l, h, hd⟩ := encodeStringBytes_head s
    exact Or.inr (Or.inl ⟨s, c, rfl, by rw [Item.encode, h]; rfl, hd⟩)
  | seq tag items =>
    simp only [Item.all, Bool.and_eq_true, Bool.or_eq_true, decide_eq_true_eq] at h
    exact Or.inr (Or.inr ⟨tag, items, rfl, rfl, h.1⟩)

theorem mem_encodeItems_length_item (items : List Item) (it : Item) (h : it ∈ items) :
    it.encode.length ≤ (Item.encode.encodeItems items).length := by
  induction items with
  | nil => simp at h
  | cons a rest ih =>
    simp only [Item.encode.encodeItems, List.length_append]
    rcases List.mem_cons.1 h with rfl | h
    · omega
    · have := ih h; omega

/-- Two rows of delimited values, each followed by an end token, that start the
same input are the same bytes, when this holds for the values of the first. -/
theorem encodeItems_prefix_free (items1 : List Item)
    (ih : ∀ it ∈ items1, ∀ (it2 : Item) (t1 t2 : List Nat), it2.all noEndToken = true →
      it.encode ++ t1 = it2.encode ++ t2 → it.encode = it2.encode ∧ t1 = t2)
    (h1 : ∀ it ∈ items1, it.all noEndToken = true) :
    ∀ (items2 : List Item) (t1 t2 : List Nat), (∀ it ∈ items2, it.all noEndToken = true) →
      Item.encode.encodeItems items1 ++ 101 :: t1 = Item.encode.encodeItems items2 ++ 101 :: t2 →
      Item.encode.encodeItems items1 = Item.encode.encodeItems items2 ∧ t1 = t2 := by
  induction items1 with
  | nil =>
    intro items2 t1 t2 h2 h
    cases items2 with
    | nil => simpa [Item.encode.encodeItems] using h
    | cons b rest =>
      obtain ⟨c, l, hcl, hc⟩ := Item.encode_start _ b (h2 b (by simp))
      simp only [Item.encode.encodeItems, hcl, List.nil_append, List.cons_append,
        List.cons.injEq] at h
      exact absurd h.1.symm hc
  | cons a rest1 ihl =>
    intro items2 t1 t2 h2 h
    cases items2 with
    | nil =>
      obtain ⟨c, l, hcl, hc⟩ := Item.encode_start _ a (h1 a (by simp))
      simp only [Item.encode.encodeItems, hcl, List.nil_append, List.cons_append,
        List.cons.injEq] at h
      exact absurd h.1 hc
    | cons b rest2 =>
      simp only [Item.encode.encodeItems, List.append_assoc] at h ⊢
      obtain ⟨e1, e2⟩ := ih a (by simp) b _ _ (h2 b (by simp)) h
      obtain ⟨e3, e4⟩ := ihl (fun it hit => ih it (by simp [hit]))
        (fun it hit => h1 it (by simp [hit])) rest2 t1 t2 (fun it hit => h2 it (by simp [hit])) e2
      exact ⟨by rw [e1, e3], e4⟩

/-- A delimited value that starts an input is the only one that does. -/
theorem Item.prefix_free : ∀ (n : Nat) (it1 it2 : Item) (t1 t2 : List Nat),
    it1.encode.length ≤ n → it1.all noEndToken = true → it2.all noEndToken = true →
    it1.encode ++ t1 = it2.encode ++ t2 → it1.encode = it2.encode ∧ t1 = t2 := by
  intro n
  induction n with
  | zero =>
    intro it1 it2 t1 t2 hn h1
    obtain ⟨c, l, hcl, _⟩ := Item.encode_start _ it1 h1
    rw [hcl] at hn
    simp at hn
  | succ n ih =>
    intro it1 it2 t1 t2 hn h1 h2 h
    have hh : it1.encode.head? = it2.encode.head? := by
      obtain ⟨c, l, hcl, _⟩ := Item.encode_start _ it1 h1
      obtain ⟨c', l', hcl', _⟩ := Item.encode_start _ it2 h2
      rw [hcl, hcl'] at h ⊢
      simp only [List.cons_append, List.cons.injEq] at h
      simp [h.1]
    rcases Item.encode_class it1 h1 with ⟨tok, rfl, hc1⟩ | ⟨s, c, rfl, hc1, hd1⟩ |
      ⟨tag, items, rfl, hc1, ht1⟩
    · rcases Item.encode_class it2 h2 with ⟨tok', rfl, hc2⟩ | ⟨s', c', rfl, hc2, hd2⟩ |
        ⟨tag', items', rfl, hc2, ht2⟩
      · simp only [Item.encode, List.cons_append, List.append_assoc, List.singleton_append,
          List.cons.injEq, true_and] at h ⊢
        simp only [Item.all] at h1 h2
        obtain ⟨e1, e2⟩ := sep_unique 101 _ _ _ _ ((noEndToken_iff _).1 h1)
          ((noEndToken_iff _).1 h2) h
        exact ⟨by rw [e1], e2⟩
      · rw [hc1, hc2] at hh
        simp only [Option.some.injEq] at hh
        have := (isDigit_iff c').1 hd2
        omega
      · rw [hc1, hc2] at hh
        simp only [Option.some.injEq] at hh
        omega
    · rcases Item.encode_class it2 h2 with ⟨tok', rfl, hc2⟩ | ⟨s', c', rfl, hc2, hd2⟩ |
        ⟨tag', items', rfl, hc2, ht2⟩
      · rw [hc1, hc2] at hh
        simp only [Option.some.injEq] at hh
        have := (isDigit_iff c).1 hd1
        omega
      · simp only [Item.encode] at h ⊢
        obtain ⟨e1, e2⟩ := encodeStringBytes_injective _ _ _ _ h
        exact ⟨by rw [e1], e2⟩
      · rw [hc1, hc2] at hh
        simp only [Option.some.injEq] at hh
        have := (isDigit_iff c).1 hd1
        omega
    · rcases Item.encode_class it2 h2 with ⟨tok', rfl, hc2⟩ | ⟨s', c', rfl, hc2, hd2⟩ |
        ⟨tag', items', rfl, hc2, ht2⟩
      · rw [hc1, hc2] at hh
        simp only [Option.some.injEq] at hh
        omega
      · rw [hc1, hc2] at hh
        simp only [Option.some.injEq] at hh
        have := (isDigit_iff c').1 hd2
        omega
      · simp only [Item.encode, List.cons_append, List.append_assoc, List.singleton_append,
          List.cons.injEq] at h ⊢
        simp only [Item.all, Bool.and_eq_true] at h1 h2
        simp only [Item.encode, List.length_cons, List.length_append, List.length_nil] at hn
        obtain ⟨e1, e2⟩ := encodeItems_prefix_free items
          (fun it hit it2 t1 t2 hit2 he => ih it it2 t1 t2
            (by have := mem_encodeItems_length_item items it hit; omega)
            ((allItems_iff _ _).1 h1.2 it hit) hit2 he)
          ((allItems_iff _ _).1 h1.2) items' t1 t2 ((allItems_iff _ _).1 h2.2) h.2
        exact ⟨⟨h.1, by rw [e1]⟩, e2⟩

theorem FormatInt_noEnd (n : Int) : 101 ∉ FormatInt n := by
  unfold FormatInt
  split
  · intro hc
    rcases List.mem_cons.1 hc with h | h
    · omega
    · exact digits_noEnd _ (FormatUint_digits _) h
  · exact digits_noEnd _ (FormatUint_digits _)

theorem Wire.items_as_items (items : List Wire)
    (ih : ∀ w ∈ items, ∃ it : Item, it.all noEndToken = true ∧ it.encode = w.encode) :
    ∃ its : List Item, Item.all.allItems noEndToken its = true ∧
      Item.encode.encodeItems its = Wire.encode.encodeItems items := by
  induction items with
  | nil => exact ⟨[], rfl, rfl⟩
  | cons w rest ihl =>
    obtain ⟨it, h1, h2⟩ := ih w (by simp)
    obtain ⟨its, h3, h4⟩ := ihl (fun w' hw' => ih w' (by simp [hw']))
    exact ⟨it :: its, by simp [Item.all.allItems, h1, h3],
      by simp [Item.encode.encodeItems, Wire.encode.encodeItems, h2, h4]⟩

/-- The wire form of a value is a delimited value. -/
theorem Wire.as_item : ∀ (n : Nat) (w : Wire), w.encode.length ≤ n →
    ∃ it : Item, it.all noEndToken = true ∧ it.encode = w.encode := by
  intro n
  induction n with
  | zero =>
    intro w hn
    obtain ⟨c, l, hcl, _⟩ := Wire.encode_head w
    rw [hcl] at hn
    simp at hn
  | succ n ih =>
    intro w hn
    cases w with
    | int x =>
      exact ⟨.int (FormatInt x), (noEndToken_iff _).2 (FormatInt_noEnd x), rfl⟩
    | str s => exact ⟨.str s, rfl, rfl⟩
    | list items =>
      simp only [Wire.encode, List.length_cons, List.length_append, List.length_nil] at hn
      obtain ⟨its, h1, h2⟩ := Wire.items_as_items items (fun w hw => ih w (by
        have := mem_encodeItems_length items w hw; omega))
      exact ⟨.seq 108 its, by simp [Item.all, h1], by simp [Item.encode, Wire.encode, h2]⟩
    | dict pairs =>
      have e : (Wire.dict pairs).encode =
          100 :: (Wire.encode.encodeItems (pairItems pairs) ++ [101]) := by
        simp [Wire.encode, encodePairs_eq]
      rw [e] at hn ⊢
      simp only [List.length_cons, List.length_append, List.length_nil] at hn
      obtain ⟨its, h1, h2⟩ := Wire.items_as_items (pairItems pairs) (fun w hw => ih w (by
        have := mem_encodeItems_length (pairItems pairs) w hw; omega))
      exact ⟨.seq 100 its, by simp [Item.all, h1], by simp [Item.encode, h2]⟩

/-- A delimited value at the front of the wire form of a value followed by
anything is that wire form. -/
theorem Wire.exact (w : Wire) (tail data : List Nat) (n : Nat) (it : Item)
    (hd : data = w.encode ++ tail) (hn : n ≤ data.length)
    (hit : it.all noEndToken = true) (he : it.encode = data.take n) :
    n = w.encode.length := by
  obtain ⟨iw, h1, h2⟩ := Wire.as_item _ w (Nat.le_refl _)
  have h3 : it.encode ++ data.drop n = iw.encode ++ tail := by
    rw [he, List.take_append_drop, h2, hd]
  have h4 := (Item.prefix_free _ it iw _ _ (Nat.le_refl _) hit h1 h3).1
  have h5 : it.encode.length = n := by rw [he]; simp [hn]
  rw [← h5, h4, h2]

theorem intTokenAccepted_noEnd (tok : List Nat) (h : intTokenAccepted tok = true) :
    noEndToken tok = true := by
  unfold intTokenAccepted at h
  split at h
  · rename_i n x hx
    simp only [decide_eq_true_eq] at h
    obtain ⟨tok', h1, h2, _, h4⟩ := decodeInt_shape _ _ _ hx
    have hl : (105 :: (tok ++ [101])).length = n := by simp [h]
    rw [← hl, List.take_length] at h1
    simp only [List.cons.injEq, true_and] at h1
    have := List.append_inj_left' h1 rfl
    rw [this]
    exact (noEndToken_iff _).2 h4
  · simp at h

theorem readNextValueF_shape_noEnd : ∀ (g : Nat) (data : List Nat) (n : Nat) (d : List Nat),
    readNextValueF g data = .ok (n, d) →
    ∃ it : Item, it.all noEndToken = true ∧ it.encode = data.take n := by
  intro g
  induction g with
  | zero => intro data n d h; simp [readNextValueF] at h
  | succ g ih =>
    intro data n d h
    simp only [readNextValueF] at h
    split at h
    · simp at h
    · split at h
      · simp at h
      · rename_i c hc
        split at h
        · obtain ⟨⟨r, x⟩, h1, h2⟩ := Res.bind_eq_ok h
          simp only [Res.ok.injEq, Prod.mk.injEq] at h2
          obtain ⟨rfl, rfl⟩ := h2
          obtain ⟨tok, h3, _, h4, _⟩ := decodeInt_shape _ _ _ h1
          exact ⟨.int tok, intTokenAccepted_noEnd tok h4, h3.symm⟩
        · split at h
          · rename_i hld
            obtain ⟨r, h1, h2⟩ := Res.bind_eq_ok h
            simp only [Res.ok.injEq, Prod.mk.injEq] at h2
            obtain ⟨rfl, rfl⟩ := h2
            obtain ⟨items, hi1, hi2, hi3, hi4⟩ :=
              readNextValueLoop_shape noEndToken (readNextValueF g) data
                (fun x n d hx => ih x n d hx) g 1 r h1
            refine ⟨.seq c items, ?_, ?_⟩
            · simp only [Item.all, hi1, Bool.and_true, Bool.or_eq_true, decide_eq_true_eq]
              exact hld
            · rw [take_succ_split data r c 101 hc hi3 hi4, Item.encode, hi2]
          · obtain ⟨⟨r, x⟩, h1, h2⟩ := Res.bind_eq_ok h
            simp only [Res.ok.injEq, Prod.mk.injEq] at h2
            obtain ⟨rfl, rfl⟩ := h2
            exact ⟨.str x, rfl, (decodeString_shape _ _ _ h1).1.symm⟩

theorem decodeListLoop_shape (dec : List Nat → Res (Nat × Val)) (data : List Nat)
    (hdec : ∀ x n v, dec x = .ok (n, v) →
      ∃ it : Item, it.all noEndToken = true ∧ it.encode = x.take n) :
    ∀ (k read : Nat) (acc : List Val) (rf : Nat) (res : List Val),
      decodeListLoop dec data k read acc = .ok (rf, res) →
      ∃ items : List Item, Item.all.allItems noEndToken items = true ∧
        (data.drop read).take (rf - read) = Item.encode.encodeItems items ∧
        data[rf]? = some 101 ∧ read ≤ rf := by
  intro k
  induction k with
  | zero => intro read acc rf res h; simp [decodeListLoop] at h
  | succ k ih =>
    intro read acc rf res h
    simp only [decodeListLoop] at h
    split at h
    · simp at h
    · rename_i c hc
      split at h
      · rename_i he
        simp only [Res.ok.injEq, Prod.mk.injEq] at h
        obtain ⟨rfl, _⟩ := h
        refine ⟨[], rfl, by simp [Item.encode.encodeItems], ?_, Nat.le_refl _⟩
        rw [hc, he]
      · obtain ⟨⟨n, d⟩, h1, h2⟩ := Res.bind_eq_ok h
        dsimp only at h2
        obtain ⟨items, hi1, hi2, hi3, hi4⟩ := ih _ _ _ _ h2
        obtain ⟨it, ht1, ht2⟩ := hdec _ _ _ h1
        refine ⟨it :: items, ?_, ?_, hi3, by omega⟩
        · simp [Item.all.allItems, ht1, hi1]
        · rw [take_step data read n rf hi4, Item.encode.encodeItems, ht2, hi2]

theorem take_step2 (data : List Nat) (read n n' rf : Nat) (h : read + n + n' ≤ rf) :
    (data.drop read).take (rf - read) =
      (data.drop read).take n ++ ((data.drop (read + n)).take n' ++
        (data.drop (read + n + n')).take (rf - (read + n + n'))) := by
  rw [take_step data read n rf (by omega), take_step data (read + n) n' rf h]

theorem decodeDictLoop_shape (dec : List Nat → Res (Nat × Val)) (data : List Nat)
    (hdec : ∀ x n v, dec x = .ok (n, v) →
      ∃ it : Item, it.all noEndToken = true ∧ it.encode = x.take n) :
    ∀ (k read : Nat) (acc : List (List Nat × Val)) (rf : Nat) (res : List (List Nat × Val)),
      decodeDictLoop dec data k read acc = .ok (rf, res) →
      ∃ items : List Item, Item.all.allItems noEndToken items = true ∧
        (data.drop read).take (rf - read) = Item.encode.encodeItems items ∧
        data[rf]? = some 101 ∧ read ≤ rf := by
  intro k
  induction k with
  | zero => intro read acc rf res h; simp [decodeDictLoop] at h
  | succ k ih =>
    intro read acc rf res h
    simp only [decodeDictLoop] at h
    split at h
    · simp at h
    · rename_i c hc
      split at h
      · rename_i he
        simp only [Res.ok.injEq, Prod.mk.injEq] at h
        obtain ⟨rfl, _⟩ := h
        refine ⟨[], rfl, by simp [Item.encode.encodeItems], ?_, Nat.le_refl _⟩
        rw [hc, he]
      · obtain ⟨⟨n, key⟩, h1, h2⟩ := Res.bind_eq_ok h
        dsimp only at h2
        obtain ⟨⟨n', v⟩, h3, h4⟩ := Res.bind_eq_ok h2
        dsimp only at h4
        obtain ⟨items, hi1, hi2, hi3, hi4⟩ := ih _ _ _ _ h4
        obtain ⟨it, ht1, ht2⟩ := hdec _ _ _ h3
        have hs := (decodeString_shape _ _ _ h1).1
        refine ⟨.str key :: it :: items, ?_, ?_, hi3, by omega⟩
        · simp [Item.all.allItems, Item.all, ht1, hi1]
        · rw [take_step2 data read n n' rf hi4, hs, ← ht2, hi2]
          simp [Item.encode.encodeItems, Item.encode]

theorem decodeStructLoop_shape (dec : Ty → List Nat → Res (Nat × Val))
    (fields : List (Field × Ty)) (data : List Nat)
    (hdec : ∀ t x n v, dec t x = .ok (n, v) →
      ∃ it : Item, it.all noEndToken = true ∧ it.encode = x.take n) :
    ∀ (k read : Nat) (vals : List (Field × Val)) (rf : Nat) (res : List (Field × Val)),
      decodeStructLoop dec fields data k read vals = .ok (rf, res) →
      ∃ items : List Item, Item.all.allItems noEndToken items = true ∧
        (data.drop read).take (rf - read) = Item.encode.encodeItems items ∧
        data[rf]? = some 101 ∧ read ≤ rf := by
  intro k
  induction k with
  | zero => intro read acc rf res h; simp [decodeStructLoop] at h
  | succ k ih =>
    intro read acc rf res h
    simp only [decodeStructLoop] at h
    split at h
    · simp at h
    · rename_i c hc
      split at h
      · rename_i he
        simp only [Res.ok.injEq, Prod.mk.injEq] at h
        obtain ⟨rfl, _⟩ := h
        refine ⟨[], rfl, by simp [Item.encode.encodeItems], ?_, Nat.le_refl _⟩
        rw [hc, he]
      · obtain ⟨⟨n, key⟩, h1, h2⟩ := Res.bind_eq_ok h
        dsimp only at h2
        have hs := (decodeString_shape _ _ _ h1).1
        have key_step : ∀ (n' : Nat) (vals' : List (Field × Val)) (it : Item),
            it.all noEndToken = true → it.encode = (data.drop (read + n)).take n' →
            decodeStructLoop dec fields data k (read + n + n') vals' = .ok (rf, res) →
            ∃ items : List Item, Item.all.allItems noEndToken items = true ∧
              (data.drop read).take (rf - read) = Item.encode.encodeItems items ∧
              data[rf]? = some 101 ∧ read ≤ rf := by
          intro n' vals' it ht1 ht2 h4
          obtain ⟨items, hi1, hi2, hi3, hi4⟩ := ih _ _ _ _ h4
          refine ⟨.str key :: it :: items, ?_, ?_, hi3, by omega⟩
          · simp [Item.all.allItems, Item.all, ht1, hi1]
          · rw [take_step2 data read n n' rf hi4, hs, ← ht2, hi2]
            simp [Item.encode.encodeItems, Item.encode]
        split at h2
        · obtain ⟨⟨n', x⟩, h3, h4⟩ := Res.bind_eq_ok h2
          dsimp only at h4
          obtain ⟨it, ht1, ht2⟩ := readNextValueF_shape_noEnd _ _ _ _ h3
          exact key_step n' _ it ht1 ht2 h4
        · split at h2
          · simp at h2
          · obtain ⟨⟨n', v⟩, h3, h4⟩ := Res.bind_eq_ok h2
            dsimp only at h4
            split at h4
            · simp at h4
            · obtain ⟨it, ht1, ht2⟩ := hdec _ _ _ _ h3
              exact key_step n' _ it ht1 ht2 h4

/-- What a successful `decode` has consumed is one delimited value. -/
theorem decodeF_shape : ∀ (g : Nat) (data : List Nat) (ty : Ty) (cur : Val) (n : Nat) (v : Val),
    decodeF g data ty cur = .ok (n, v) →
    ∃ it : Item, it.all noEndToken = true ∧ it.encode = data.take n := by
  intro g
  induction g with
  | zero => intro data ty cur n v h; simp [decodeF] at h
  | succ g ih =>
    intro data ty cur n v h
    have hint : ∀ (r : Nat) (x : Int), decodeInt data = .ok (r, x) →
        ∃ it : Item, it.all noEndToken = true ∧ it.encode = data.take r := by
      intro r x h1
      obtain ⟨tok, h3, _, _, h4⟩ := decodeInt_shape _ _ _ h1
      exact ⟨.int tok, (noEndToken_iff _).2 h4, h3.symm⟩
    have hstr : ∀ (r : Nat) (x : List Nat), decodeString data = .ok (r, x) →
        ∃ it : Item, it.all noEndToken = true ∧ it.encode = data.take r := by
      intro r x h1
      exact ⟨.str x, rfl, (decodeString_shape _ _ _ h1).1.symm⟩
    have hseq : ∀ (r c : Nat) (items : List Item), data[0]? = some c → (c = 108 ∨ c = 100) →
        Item.all.allItems noEndToken items = true →
        (data.drop 1).take (r - 1) = Item.encode.encodeItems items →
        data[r]? = some 101 → 1 ≤ r →
        ∃ it : Item, it.all noEndToken = true ∧ it.encode = data.take (r + 1) := by
      intro r c items hc hld hi1 hi2 hi3 hi4
      refine ⟨.seq c items, ?_, ?_⟩
      · simp only [Item.all, hi1, Bool.and_true, Bool.or_eq_true, decide_eq_true_eq]
        exact hld
      · rw [take_succ_split data r c 101 hc hi3 hi4, Item.encode, hi2]
    by_cases hlen : data.length = 0
    · cases ty <;> simp [decodeF, hlen] at h
    · cases ty with
      | bool =>
        rw [decodeF, if_neg hlen] at h
        obtain ⟨⟨r, x⟩, h1, h2⟩ := Res.bind_eq_ok h
        dsimp only at h2
        split at h2
        · simp at h2
        · simp only [Res.ok.injEq, Prod.mk.injEq] at h2
          obtain ⟨rfl, _⟩ := h2
          exact hint r x h1
      | int bits =>
        rw [decodeF, if_neg hlen] at h
        obtain ⟨⟨r, x⟩, h1, h2⟩ := Res.bind_eq_ok h
        simp only [Res.ok.injEq, Prod.mk.injEq] at h2
        obtain ⟨rfl, _⟩ := h2
        exact hint r x h1
      | uint bits =>
        rw [decodeF, if_neg hlen] at h
        obtain ⟨⟨r, x⟩, h1, h2⟩ := Res.bind_eq_ok h
        simp only [Res.ok.injEq, Prod.mk.injEq] at h2
        obtain ⟨rfl, _⟩ := h2
        obtain ⟨tok, h3, _, h4⟩ := decodeUint_shape _ _ _ h1
        exact ⟨.int tok, (noEndToken_iff _).2 h4, h3.symm⟩
      | string =>
        rw [decodeF, if_neg hlen] at h
        obtain ⟨⟨r, x⟩, h1, h2⟩ := Res.bind_eq_ok h
        simp only [Res.ok.injEq, Prod.mk.injEq] at h2
        obtain ⟨rfl, _⟩ := h2
        exact hstr r x h1
      | slice elem =>
        rw [decodeF, if_neg hlen] at h
        dsimp only at h
        split at h
        · obtain ⟨⟨r, x⟩, h1, h2⟩ := Res.bind_eq_ok h
          simp only [Res.ok.injEq, Prod.mk.injEq] at h2
          obtain ⟨rfl, _⟩ := h2
          exact hstr r x h1
        · unfold decodeList at h
          split at h
          · simp at h
          · split at h
            · simp at h
            · rename_i h0
              obtain ⟨⟨r, x⟩, h1, h2⟩ := Res.bind_eq_ok h
              simp only [Res.ok.injEq, Prod.mk.injEq] at h2
              obtain ⟨rfl, _⟩ := h2
              obtain ⟨items, hi1, hi2, hi3, hi4⟩ := decodeListLoop_shape _ data
                (fun x n v hx => ih x elem _ n v hx) _ _ _ _ _ h1
              exact hseq r 108 items (by simpa using h0) (Or.inl rfl) hi1 hi2 hi3 hi4
      | map key elem =>
        rw [decodeF, if_neg hlen] at h
        unfold decodeDict at h
        split at h
        · simp at h
        · split at h
          · simp at h
          · split at h
            · simp at h
            · rename_i h0 _
              obtain ⟨⟨r, x⟩, h1, h2⟩ := Res.bind_eq_ok h
              simp only [Res.ok.injEq, Prod.mk.injEq] at h2
              obtain ⟨rfl, _⟩ := h2
              obtain ⟨items, hi1, hi2, hi3, hi4⟩ := decodeDictLoop_shape _ data
                (fun x n v hx => ih x elem _ n v hx) _ _ _ _ _ h1
              exact hseq r 100 items (by simpa using h0) (Or.inr rfl) hi1 hi2 hi3 hi4
      | struct fields =>
        rw [decodeF, if_neg hlen] at h
        unfold decodeStruct at h
        split at h
        · split at h
          · simp at h
          · split at h
            · simp at h
            · rename_i h0
              obtain ⟨⟨r, x⟩, h1, h2⟩ := Res.bind_eq_ok h
              simp only [Res.ok.injEq, Prod.mk.injEq] at h2
              obtain ⟨rfl, _⟩ := h2
              obtain ⟨items, hi1, hi2, hi3, hi4⟩ := decodeStructLoop_shape _ fields data
                (fun t x n v hx => ih x t _ n v hx) _ _ _ _ _ h1
              exact hseq r 100 items (by simpa using h0) (Or.inr rfl) hi1 hi2 hi3 hi4
        · simp at h
      | iface => simp [decodeF, hlen] at h
      | other => simp [decodeF, hlen] at h
      | custom um =>
        rw [decodeF, if_neg hlen] at h
        obtain ⟨⟨r, x⟩, h1, h2⟩ := Res.bind_eq_ok h
        dsimp only at h2
        split at h2
        · simp at h2
        · simp only [Res.ok.injEq, Prod.mk.injEq] at h2
          obtain ⟨rfl, _⟩ := h2
          exact readNextValueF_shape_noEnd _ _ _ _ h1

/-- On the wire form of a value followed by anything, a successful `decode`
consumes the wire form. -/
theorem decodeF_exact (g : Nat) (w : Wire) (tail : List Nat) (ty : Ty) (cur : Val) (n : Nat)
    (v : Val) (h : decodeF g (w.encode ++ tail) ty cur = .ok (n, v)) : n = w.encode.length := by
  obtain ⟨it, h1, h2⟩ := decodeF_shape _ _ _ _ _ _ h
  exact Wire.exact w tail _ n it rfl (decodeF_bound _ _ _ _ _ _ h).2 h1 h2

theorem readNextValueF_exact (g : Nat) (w : Wire) (tail : List Nat) (n : Nat) (d : List Nat)
    (h : readNextValueF g (w.encode ++ tail) = .ok (n, d)) : n = w.encode.length := by
  obtain ⟨it, h1, h2⟩ := readNextValueF_shape_noEnd _ _ _ _ h
  exact Wire.exact w tail _ n it rfl (readNextValueF_bound _ _ _ _ h).2.1 h1 h2

theorem decodeString_exact (k tail : List Nat) (n : Nat) (s : List Nat)
    (h : decodeString (encodeStringBytes k ++ tail) = .ok (n, s)) :
    n = (encodeStringBytes k).length ∧ s = k := by
  obtain ⟨h1, h2⟩ := decodeString_shape _ _ _ h
  have hb := decodeString_bound _ _ _ h
  have h3 : encodeStringBytes s ++ (encodeStringBytes k ++ tail).drop n =
      encodeStringBytes k ++ tail := by
    rw [← h1, List.take_append_drop]
  obtain ⟨e1, _⟩ := encodeStringBytes_injective _ _ _ _ h3
  subst e1
  exact ⟨h2, rfl⟩


/-! ## The loops of the decoder on the pairs of a wire dictionary -/

theorem getElem?_at (pre rest : List Nat) (c : Nat) :
    (pre ++ c :: rest)[pre.length]? = some c := by
  rw [List.getElem?_append_right (Nat.le_refl _), Nat.sub_self]
  simp

theorem agree_left (W X Y : List Nat) :
    (W ++ X).take W.length = (W ++ Y).take W.length ∧ W.length ≤ (W ++ Y).length := by
  simp

theorem drop_two (pre K Y : List Nat) : (pre ++ (K ++ Y)).drop (pre.length + K.length) = Y := by
  have : pre ++ (K ++ Y) = (pre ++ K) ++ Y := by simp
  rw [this, ← List.length_append, List.drop_left]

theorem pairs_length_le (pairs : List (List Nat × Wire)) :
    pairs.length ≤ (Wire.encode.encodePairs pairs).length := by
  induction pairs with
  | nil => simp
  | cons p ps ih =>
    obtain ⟨key, w⟩ := p
    obtain ⟨c, l, hcl, _⟩ := encodeStringBytes_head key
    simp only [Wire.encode.encodePairs, List.length_cons, List.length_append, hcl]
    omega

theorem pair_length_le (pairs : List (List Nat × Wire)) (p : List Nat × Wire) (h : p ∈ pairs) :
    (encodeStringBytes p.1).length + p.2.encode.length ≤
      (Wire.encode.encodePairs pairs).length := by
  induction pairs with
  | nil => simp at h
  | cons q ps ih =>
    obtain ⟨key, w⟩ := q
    simp only [Wire.encode.encodePairs, List.length_append]
    rcases List.mem_cons.1 h with rfl | h
    · simp only; omega
    · have := ih h; omega

theorem decodeStructLoop_pairs_inv (g : Nat) (fields : List (Field × Ty))
    (pairs : List (List Nat × Wire)) :
    ∀ (pre rest : List Nat) (k : Nat) (vals : List (Field × Val)) (rf : Nat)
      (res : List (Field × Val)),
      decodeStructLoop (fun t d => decodeF g d t t.zero) fields
          (pre ++ (Wire.encode.encodePairs pairs ++ 101 :: rest)) k pre.length vals
        = .ok (rf, res) →
      rf = pre.length + (Wire.encode.encodePairs pairs).length ∧
        res = pairs.foldl (structStep fields) vals ∧ ∀ p ∈ pairs, structPairOK fields p := by
  induction pairs with
  | nil =>
    intro pre rest k vals rf res h
    cases k with
    | zero => simp [decodeStructLoop] at h
    | succ k =>
      simp only [Wire.encode.encodePairs, List.nil_append] at h ⊢
      rw [decodeStructLoop, getElem?_at] at h
      simp only [if_true, Res.ok.injEq, Prod.mk.injEq] at h
      exact ⟨by simp [h.1], by simp [h.2], by simp⟩
  | cons p ps ih =>
    intro pre rest k vals rf res h
    obtain ⟨key, w⟩ := p
    cases k with
    | zero => simp [decodeStructLoop] at h
    | succ k =>
      obtain ⟨c, l, hcl, hdig⟩ := encodeStringBytes_head key
      have hc : ¬ c = 101 := by
        have := (isDigit_iff c).1 hdig
        omega
      have hdata : pre ++ (Wire.encode.encodePairs ((key, w) :: ps) ++ 101 :: rest) =
          pre ++ (encodeStringBytes key ++ (w.encode ++
            (Wire.encode.encodePairs ps ++ 101 :: rest))) := by
        simp [Wire.encode.encodePairs]
      have hdata2 : pre ++ (encodeStringBytes key ++ (w.encode ++
            (Wire.encode.encodePairs ps ++ 101 :: rest))) =
          (pre ++ encodeStringBytes key ++ w.encode) ++
            (Wire.encode.encodePairs ps ++ 101 :: rest) := by
        simp
      have hpos : pre.length + (encodeStringBytes key).length + w.encode.length =
          (pre ++ encodeStringBytes key ++ w.encode).length := by
        simp only [List.length_append]
      rw [hdata] at h
      rw [decodeStructLoop, getElem?_after pre (encodeStringBytes key) _ c (by rw [hcl]; rfl)] at h
      simp only [hc, if_false, List.drop_left] at h
      obtain ⟨⟨r, key'⟩, h1, h2⟩ := Res.bind_eq_ok h
      obtain ⟨hr, hk⟩ := decodeString_exact _ _ _ _ h1
      rw [hr, hk] at h1
      rw [hr, hk] at h2
      dsimp only at h2
      rw [drop_two] at h2
      have hkey : decodeString (encodeStringBytes key) =
          .ok ((encodeStringBytes key).length, key) := by
        have := agree_left (encodeStringBytes key)
          (w.encode ++ (Wire.encode.encodePairs ps ++ 101 :: rest)) []
        rw [List.append_nil] at this
        exact decodeString_local _ _ _ _ h1 this.1 this.2
      have hloc := agree_left w.encode (Wire.encode.encodePairs ps ++ 101 :: rest) []
      rw [List.append_nil] at hloc
      cases hm : mapGet (nameMapping fields 0 []) key with
      | none =>
        rw [hm] at h2
        dsimp only at h2
        obtain ⟨⟨r', x⟩, h3, h4⟩ := Res.bind_eq_ok h2
        have hr' := readNextValueF_exact _ _ _ _ _ h3
        rw [hr'] at h3 h4
        dsimp only at h4
        rw [hpos, hdata2] at h4
        obtain ⟨e1, e2, e3⟩ := ih _ _ _ _ _ _ h4
        refine ⟨?_, ?_, ?_⟩
        · rw [e1]
          simp only [Wire.encode.encodePairs, List.length_append]
          omega
        · rw [e2, List.foldl_cons]
          congr 1
          simp only [structStep, hm]
        · intro p hp
          rcases List.mem_cons.1 hp with rfl | hp
          · refine ⟨hkey, fun _ => ⟨_, readNextValue_local _ _ _ _ h3 hloc.1 hloc.2⟩, ?_⟩
            intro num hnum
            rw [hm] at hnum
            exact absurd hnum (by simp)
          · exact e3 p hp
      | some num =>
        rw [hm] at h2
        dsimp only at h2
        cases hf : fields[num]? with
        | none => rw [hf] at h2; simp at h2
        | some ft =>
          obtain ⟨f, t⟩ := ft
          rw [hf] at h2
          dsimp only at h2
          obtain ⟨⟨r', v⟩, h3, h4⟩ := Res.bind_eq_ok h2
          have hr' := decodeF_exact _ _ _ _ _ _ _ h3
          rw [hr'] at h3 h4
          dsimp only at h4
          split at h4
          · simp at h4
          · rename_i hex
            rw [hpos, hdata2] at h4
            obtain ⟨e1, e2, e3⟩ := ih _ _ _ _ _ _ h4
            have hdec : decode w.encode t t.zero = .ok (w.encode.length, v) :=
              decodeF_local _ _ _ _ _ _ h3 _ _ hloc.1 hloc.2 (by omega)
            refine ⟨?_, ?_, ?_⟩
            · rw [e1]
              simp only [Wire.encode.encodePairs, List.length_append]
              omega
            · rw [e2, List.foldl_cons]
              congr 1
              simp only [structStep, hm, hf, hdec]
            · intro p hp
              rcases List.mem_cons.1 hp with rfl | hp
              · refine ⟨hkey, ?_, ?_⟩
                · intro hnone
                  rw [hm] at hnone
                  exact absurd hnone (by simp)
                · intro num' hnum
                  rw [hm] at hnum
                  simp only [Option.some.injEq] at hnum
                  subst hnum
                  exact ⟨f, t, v, hf, by simpa using hex, hdec⟩
              · exact e3 p hp

theorem decodeStructLoop_pairs (g : Nat) (fields : List (Field × Ty))
    (pairs : List (List Nat × Wire)) :
    ∀ (pre rest : List Nat) (k : Nat) (vals : List (Field × Val)),
      (∀ p ∈ pairs, structPairOK fields p) → pairs.length < k →
      (Wire.encode.encodePairs pairs).length < g →
      decodeStructLoop (fun t d => decodeF g d t t.zero) fields
          (pre ++ (Wire.encode.encodePairs pairs ++ 101 :: rest)) k pre.length vals
        = .ok (pre.length + (Wire.encode.encodePairs pairs).length,
            pairs.foldl (structStep fields) vals) := by
  induction pairs with
  | nil =>
    intro pre rest k vals _ hk _
    cases k with
    | zero => omega
    | succ k =>
      simp only [Wire.encode.encodePairs, List.nil_append]
      rw [decodeStructLoop, getElem?_at]
      simp
  | cons p ps ih =>
    intro pre rest k vals hok hk hg
    obtain ⟨key, w⟩ := p
    cases k with
    | zero => omega
    | succ k =>
      obtain ⟨c, l, hcl, hdig⟩ := encodeStringBytes_head key
      have hc : ¬ c = 101 := by
        have := (isDigit_iff c).1 hdig
        omega
      have hdata : pre ++ (Wire.encode.encodePairs ((key, w) :: ps) ++ 101 :: rest) =
          pre ++ (encodeStringBytes key ++ (w.encode ++
            (Wire.encode.encodePairs ps ++ 101 :: rest))) := by
        simp [Wire.encode.encodePairs]
      have hdata2 : pre ++ (encodeStringBytes key ++ (w.encode ++
            (Wire.encode.encodePairs ps ++ 101 :: rest))) =
          (pre ++ encodeStringBytes key ++ w.encode) ++
            (Wire.encode.encodePairs ps ++ 101 :: rest) := by
        simp
      have hpos : pre.length + (encodeStringBytes key).length + w.encode.length =
          (pre ++ encodeStringBytes key ++ w.encode).length := by
        simp only [List.length_append]
      have hlen : (Wire.encode.encodePairs ((key, w) :: ps)).length =
          (encodeStringBytes key).length + (w.encode.length +
            (Wire.encode.encodePairs ps).length) := by
        simp [Wire.encode.encodePairs]
      obtain ⟨hkey, hnone, hsome⟩ := hok (key, w) (by simp)
      try dsimp only at hkey
      have hih := ih (pre ++ encodeStringBytes key ++ w.encode) rest k
      have hres : ∀ vals', decodeStructLoop (fun t d => decodeF g d t t.zero) fields
          (pre ++ (encodeStringBytes key ++ (w.encode ++
            (Wire.encode.encodePairs ps ++ 101 :: rest)))) k
          (pre.length + (encodeStringBytes key).length + w.encode.length) vals' =
          .ok (pre.length + (Wire.encode.encodePairs ((key, w) :: ps)).length,
            ps.foldl (structStep fields) vals') := by
        intro vals'
        rw [hpos, hdata2, hih vals' (fun q hq => hok q (by simp [hq])) (by simpa using hk)
          (by omega)]
        refine congrArg Res.ok (Prod.ext ?_ rfl)
        simp only [List.length_append, hlen]
        omega
      have hk1 := agree_left (encodeStringBytes key) []
        (w.encode ++ (Wire.encode.encodePairs ps ++ 101 :: rest))
      rw [List.append_nil] at hk1
      have hw1 := agree_left w.encode [] (Wire.encode.encodePairs ps ++ 101 :: rest)
      rw [List.append_nil] at hw1
      rw [hdata, decodeStructLoop,
        getElem?_after pre (encodeStringBytes key) _ c (by rw [hcl]; rfl)]
      simp only [hc, if_false, List.drop_left]
      rw [decodeString_local _ _ _ _ hkey hk1.1 hk1.2, Res.bind_ok]
      dsimp only
      rw [drop_two]
      cases hm : mapGet (nameMapping fields 0 []) key with
      | none =>
        obtain ⟨d, hd⟩ := hnone hm
        try dsimp only at hd
        dsimp only
        rw [readNextValue_local _ _ _ _ hd hw1.1 hw1.2, Res.bind_ok]
        dsimp only
        rw [hres, List.foldl_cons]
        simp only [structStep, hm]
      | some num =>
        obtain ⟨f, t, v, hf, hex, hdec⟩ := hsome num hm
        try dsimp only at hdec
        dsimp only
        rw [hf]
        dsimp only
        rw [decodeF_local _ _ _ _ _ _ hdec _ g hw1.1 hw1.2 (by omega), Res.bind_ok]
        dsimp only
        rw [if_neg (by simp [hex]), hres, List.foldl_cons]
        simp only [structStep, hm, hf, hdec]

theorem dict_data (pairs : List (List Nat × Wire)) (tail : List Nat) :
    (Wire.dict pairs).encode ++ tail = [100] ++ (Wire.encode.encodePairs pairs ++ 101 :: tail) ∧
      (Wire.dict pairs).encode.length = (Wire.encode.encodePairs pairs).length + 2 := by
  simp [Wire.encode]

/-- A successful `decode` of a wire dictionary into a record: every pair is
passed, and the record holds what the pairs make of it one after the other. -/
theorem decode_struct_pairs_inv (pairs : List (List Nat × Wire)) (tail : List Nat)
    (fields : List (Field × Ty)) (cur : Val) (n : Nat) (v : Val)
    (h : decode ((Wire.dict pairs).encode ++ tail) (.struct fields) cur = .ok (n, v)) :
    ∃ vals, cur = .struct vals ∧ n = (Wire.dict pairs).encode.length ∧
      v = .struct (pairs.foldl (structStep fields) vals) ∧
      ∀ p ∈ pairs, structPairOK fields p := by
  obtain ⟨hd, hl⟩ := dict_data pairs tail
  unfold decode at h
  rw [decodeF, if_neg (by rw [hd]; simp)] at h
  unfold decodeStruct at h
  split at h
  · rename_i vals
    split at h
    · simp at h
    · split at h
      · simp at h
      · obtain ⟨⟨r, x⟩, h1, h2⟩ := Res.bind_eq_ok h
        simp only [Res.ok.injEq, Prod.mk.injEq] at h2
        rw [hd] at h1
        obtain ⟨e1, e2, e3⟩ := decodeStructLoop_pairs_inv _ fields pairs [100] tail _ vals r x h1
        refine ⟨vals, rfl, ?_, ?_, e3⟩
        · rw [← h2.1, e1, hl]
          simp only [List.length_singleton]
          omega
        · rw [← h2.2, e2]
  · simp at h

theorem decode_struct_pairs (pairs : List (List Nat × Wire)) (tail : List Nat)
    (fields : List (Field × Ty)) (vals : List (Field × Val))
    (hok : ∀ p ∈ pairs, structPairOK fields p) :
    decode ((Wire.dict pairs).encode ++ tail) (.struct fields) (.struct vals) =
      .ok ((Wire.dict pairs).encode.length, .struct (pairs.foldl (structStep fields) vals)) := by
  obtain ⟨hd, hl⟩ := dict_data pairs tail
  have hpl := pairs_length_le pairs
  have hlen : ((Wire.dict pairs).encode ++ tail).length =
      (Wire.encode.encodePairs pairs).length + 2 + tail.length := by
    rw [List.length_append, hl]
  unfold decode
  rw [decodeF, if_neg (by omega)]
  unfold decodeStruct
  dsimp only
  have hloop := decodeStructLoop_pairs ((Wire.encode.encodePairs pairs).length + 2 + tail.length)
    fields pairs [100] tail ((Wire.encode.encodePairs pairs).length + 2 + tail.length) vals hok
    (by omega) (by omega)
  rw [show ([100] : List Nat).length = 1 from rfl] at hloop
  rw [if_neg (by omega), if_neg (by rw [hd]; simp), hlen, hd, hloop, Res.bind_ok, hl]
  refine congrArg Res.ok (Prod.ext ?_ rfl)
  simp only [List.length_singleton]
  omega

theorem dict_length_perm (pairs pairs' : List (List Nat × Wire)) (hp : pairs.Perm pairs') :
    (Wire.dict pairs).encode.length = (Wire.dict pairs').encode.length := by
  have : (Wire.encode.encodePairs pairs).length = (Wire.encode.encodePairs pairs').length := by
    induction hp with
    | nil => rfl
    | cons x _ ih => obtain ⟨k, w⟩ := x; simp [Wire.encode.encodePairs, ih]
    | swap x y l =>
      obtain ⟨k, w⟩ := x
      obtain ⟨k', w'⟩ := y
      simp [Wire.encode.encodePairs]
      omega
    | trans _ _ ih1 ih2 => rw [ih1, ih2]
  rw [(dict_data pairs []).2, (dict_data pairs' []).2, this]

theorem decodeStructLoopTarget_ok (dec : Ty → List Nat → Res (Nat × Val))
    (fields : List (Field × Ty)) (data : List Nat) :
    ∀ (k read : Nat) (vals : List (Field × Val)) (rf : Nat) (res : List (Field × Val)),
      decodeStructLoop dec fields data k read vals = .ok (rf, res) →
      decodeStructLoopTarget dec fields data k read vals = res := by
  intro k
  induction k with
  | zero => intro read vals rf res h; simp [decodeStructLoop] at h
  | succ k ih =>
    intro read vals rf res h
    rw [decodeStructLoop] at h
    rw [decodeStructLoopTarget]
    split at h
    · simp at h
    · rename_i c hc
      try simp only [hc]
      split at h
      · rename_i he
        simp only [Res.ok.injEq, Prod.mk.injEq] at h
        rw [if_pos he, h.2]
      · rename_i he
        rw [if_neg he]
        obtain ⟨⟨r, key⟩, h1, h2⟩ := Res.bind_eq_ok h
        simp only [h1]
        dsimp only at h2
        split at h2
        · rename_i hm
          obtain ⟨⟨r', x⟩, h3, h4⟩ := Res.bind_eq_ok h2
          simp only [hm, h3]
          exact ih _ _ _ _ h4
        · rename_i num hm
          try simp only [hm]
          split at h2
          · simp at h2
          · rename_i f t hft
            obtain ⟨⟨r', v⟩, h3, h4⟩ := Res.bind_eq_ok h2
            simp only [hft, h3]
            dsimp only at h4
            split at h4
            · simp at h4
            · rename_i hex
              rw [if_neg hex]
              exact ih _ _ _ _ h4

/-- After a successful `decode` the target holds the value `decode` returns. -/
theorem targetAfter_ok (data : List Nat) (ty : Ty) (cur : Val) (n : Nat) (v : Val)
    (h : decode data ty cur = .ok (n, v)) : targetAfter data ty cur = v := by
  have hb := decodeF_bound _ _ _ _ _ _ h
  have hlen : ¬ data.length = 0 := by omega
  unfold targetAfter
  rw [if_neg hlen]
  cases ty with
  | struct fields =>
    unfold decode at h
    rw [decodeF, if_neg hlen] at h
    unfold decodeStruct at h
    dsimp only
    unfold decodeStructTarget
    split at h
    · rename_i vals
      try dsimp only
      split at h
      · simp at h
      · split at h
        · simp at h
        · rename_i h0
          obtain ⟨⟨r, x⟩, h1, h2⟩ := Res.bind_eq_ok h
          simp only [Res.ok.injEq, Prod.mk.injEq] at h2
          rw [if_neg hlen, if_neg h0, decodeStructLoopTarget_ok _ _ _ _ _ _ _ _ h1, h2.2]
    · simp at h
  | slice elem =>
    unfold decode at h
    rw [decodeF, if_neg hlen] at h
    dsimp only at h ⊢
    by_cases he : elem.isUint8 = true
    · rw [if_pos he] at h ⊢
      obtain ⟨⟨r, tmp⟩, h1, h2⟩ := Res.bind_eq_ok h
      simp only [Res.ok.injEq, Prod.mk.injEq] at h2
      rw [h1]
      exact h2.2
    · rw [if_neg he] at h ⊢
      unfold decodeList at h
      unfold decodeListTarget
      rw [if_neg hlen] at h ⊢
      by_cases h0 : data[0]? ≠ some listToken
      · rw [if_pos h0] at h
        simp at h
      · rw [if_neg h0] at h ⊢
        obtain ⟨⟨r, res⟩, h1, h2⟩ := Res.bind_eq_ok h
        simp only [Res.ok.injEq, Prod.mk.injEq] at h2
        rw [h1]
        exact h2.2
  | map key elem =>
    unfold decode at h
    rw [decodeF, if_neg hlen] at h
    dsimp only at h ⊢
    unfold decodeDict at h
    unfold decodeDictTarget
    rw [if_neg hlen] at h ⊢
    by_cases h0 : data[0]? ≠ some dictToken
    · rw [if_pos h0] at h
      simp at h
    · rw [if_neg h0] at h ⊢
      by_cases hk : key.isString = false
      · rw [if_pos hk] at h
        simp at h
      · rw [if_neg hk] at h ⊢
        obtain ⟨⟨r, res⟩, h1, h2⟩ := Res.bind_eq_ok h
        simp only [Res.ok.injEq, Prod.mk.injEq] at h2
        rw [h1]
        exact h2.2
  | bool => simp only [h]
  | int bits => simp only [h]
  | uint bits => simp only [h]
  | string => simp only [h]
  | iface => simp only [h]
  | other => simp only [h]
  | custom um => simp only [h]

/-- A list or map target is left as it was when `decode` returns an error. -/
theorem targetAfter_err (data : List Nat) (ty : Ty) (cur : Val) (e : Err)
    (hty : (∃ elem, ty = .slice elem) ∨ ∃ key elem, ty = .map key elem)
    (h : decode data ty cur = .err e) : targetAfter data ty cur = cur := by
  unfold targetAfter
  by_cases hlen : data.length = 0
  · rw [if_pos hlen]
  · rw [if_neg hlen]
    unfold decode at h
    rcases hty with ⟨elem, rfl⟩ | ⟨key, elem, rfl⟩
    · rw [decodeF, if_neg hlen] at h
      dsimp only at h ⊢
      by_cases he : elem.isUint8 = true
      · rw [if_pos he] at h ⊢
        cases hd : decodeString data with
        | ok p => rw [hd] at h; simp at h
        | err e' => rfl
        | panic => rfl
        | outOfFuel => rfl
      · rw [if_neg he] at h ⊢
        unfold decodeList at h
        unfold decodeListTarget
        rw [if_neg hlen] at h ⊢
        by_cases h0 : data[0]? ≠ some listToken
        · rw [if_pos h0]
        · rw [if_neg h0] at h ⊢
          cases hl : decodeListLoop (fun d => decodeF data.length d elem elem.zero) data
            data.length 1 [] with
          | ok p => rw [hl] at h; simp at h
          | err e' => rfl
          | panic => rfl
          | outOfFuel => rfl
    · rw [decodeF, if_neg hlen] at h
      dsimp only at h ⊢
      unfold decodeDict at h
      unfold decodeDictTarget
      rw [if_neg hlen] at h ⊢
      by_cases h0 : data[0]? ≠ some dictToken
      · rw [if_pos h0]
      · rw [if_neg h0] at h ⊢
        by_cases hk : key.isString = false
        · rw [if_pos hk]
        · rw [if_neg hk] at h ⊢
          cases hl : decodeDictLoop (fun d => decodeF data.length d elem elem.zero) data
            data.length 1 [] with
          | ok p => rw [hl] at h; simp at h
          | err e' => rfl
          | panic => rfl
          | outOfFuel => rfl

theorem take_snoc_agree (data : List Nat) (m : Nat) (hm : m ≤ data.length) :
    data.take m = (data.take m ++ [101]).take m ∧ (data.take m ++ [101]).length = m + 1 ∧
      (data.take m ++ [101])[m]? = some 101 := by
  have hl : (data.take m).length = m := by simp [hm]
  refine ⟨?_, by simp [hl], ?_⟩
  · rw [List.take_append_of_le_length (by omega), List.take_take, Nat.min_self]
  · have := getElem?_at (data.take m) [] 101
    rwa [hl] at this

theorem structLoop_stop (dec : Ty → List Nat → Res (Nat × Val)) (fields : List (Field × Ty))
    (data : List Nat) (read : Nat) (vals : List (Field × Val)) (hr : read ≤ data.length)
    (k : Nat) (hk : 0 < k) :
    decodeStructLoop dec fields (data.take read ++ [101]) k read vals = .ok (read, vals) := by
  obtain ⟨j, rfl⟩ : ∃ j, k = j + 1 := ⟨k - 1, by omega⟩
  rw [decodeStructLoop, (take_snoc_agree data read hr).2.2]
  simp

/-- Whatever the outcome of the loop of `decodeStruct`, there is a position `m`
at which it stopped: the fields it leaves are those a successful run leaves on
the input cut at `m` and closed by `e`, and the outcome of the loop is the
outcome of the one turn at `m` on these fields. -/
theorem decodeStructLoopTarget_stop (g : Nat) (fields : List (Field × Ty)) (data : List Nat) :
    ∀ (k read : Nat) (vals T : List (Field × Val)), read ≤ data.length →
      decodeStructLoopTarget (fun t d => decodeF g d t t.zero) fields data k read vals = T →
      ∃ m, read ≤ m ∧ m ≤ data.length ∧
        (∀ k' g', m - read < k' → m - read < g' →
          decodeStructLoop (fun t d => decodeF g' d t t.zero) fields (data.take m ++ [101]) k'
            read vals = .ok (m, T)) ∧
        (data.length - read < k →
          decodeStructLoop (fun t d => decodeF g d t t.zero) fields data 1 m T =
            decodeStructLoop (fun t d => decodeF g d t t.zero) fields data k read vals) := by
  intro k
  induction k with
  | zero =>
    intro read vals T hr hT
    rw [decodeStructLoopTarget] at hT
    subst hT
    exact ⟨read, Nat.le_refl _, hr, fun k' g' hk _ =>
      structLoop_stop _ fields data read vals hr k' (by omega), fun h => by omega⟩
  | succ k ih =>
    intro read vals T hr hT
    have hstop : T = vals →
        decodeStructLoop (fun t d => decodeF g d t t.zero) fields data 1 read vals =
          decodeStructLoop (fun t d => decodeF g d t t.zero) fields data (k + 1) read vals →
        ∃ m, read ≤ m ∧ m ≤ data.length ∧
          (∀ k' g', m - read < k' → m - read < g' →
            decodeStructLoop (fun t d => decodeF g' d t t.zero) fields (data.take m ++ [101]) k'
              read vals = .ok (m, T)) ∧
          (data.length - read < k + 1 →
            decodeStructLoop (fun t d => decodeF g d t t.zero) fields data 1 m T =
              decodeStructLoop (fun t d => decodeF g d t t.zero) fields data (k + 1) read
                vals) := by
      intro h1 h2
      subst h1
      exact ⟨read, Nat.le_refl _, hr, fun k' g' hk _ =>
        structLoop_stop _ fields data read T hr k' (by omega), fun _ => h2⟩
    rw [decodeStructLoopTarget] at hT
    split at hT
    · rename_i hc
      refine hstop hT.symm ?_
      rw [decodeStructLoop, decodeStructLoop]
      simp only [hc]
    · rename_i c hc
      split at hT
      · rename_i he
        refine hstop hT.symm ?_
        rw [decodeStructLoop, decodeStructLoop]
        simp only [hc, he, if_true]
      · rename_i he
        split at hT
        · rename_i r key hs
          have hsb := decodeString_bound _ _ _ hs
          simp only [List.length_drop] at hsb
          have hcont : ∀ (r' : Nat) (vals' : List (Field × Val)), 1 ≤ r' →
              read + r + r' ≤ data.length →
              decodeStructLoopTarget (fun t d => decodeF g d t t.zero) fields data k
                (read + r + r') vals' = T →
              (∀ (D : List Nat) (j g' : Nat), data.take (read + r + r') = D.take (read + r + r') →
                read + r + r' ≤ D.length → r' < g' →
                ∀ out, decodeStructLoop (fun t d => decodeF g' d t t.zero) fields D j
                  (read + r + r') vals' = out →
                decodeStructLoop (fun t d => decodeF g' d t t.zero) fields D (j + 1) read vals
                  = out) →
              decodeStructLoop (fun t d => decodeF g d t t.zero) fields data (k + 1) read vals =
                decodeStructLoop (fun t d => decodeF g d t t.zero) fields data k (read + r + r')
                  vals' →
              ∃ m, read ≤ m ∧ m ≤ data.length ∧
                (∀ k' g', m - read < k' → m - read < g' →
                  decodeStructLoop (fun t d => decodeF g' d t t.zero) fields
                    (data.take m ++ [101]) k' read vals = .ok (m, T)) ∧
                (data.length - read < k + 1 →
                  decodeStructLoop (fun t d => decodeF g d t t.zero) fields data 1 m T =
                    decodeStructLoop (fun t d => decodeF g d t t.zero) fields data (k + 1) read
                      vals) := by
            intro r' vals' hr1 hr2 hT' hstep hrun
            obtain ⟨m, hm1, hm2, hm3, hm4⟩ := ih (read + r + r') vals' T hr2 hT'
            refine ⟨m, by omega, hm2, ?_, ?_⟩
            · intro k' g' hk hg
              obtain ⟨j, rfl⟩ : ∃ j, k' = j + 1 := ⟨k' - 1, by omega⟩
              obtain ⟨ha, hl, _⟩ := take_snoc_agree data m hm2
              exact hstep _ j g' (take_agree_le _ _ m _ ha hm1) (by omega) (by omega) _
                (hm3 j g' (by omega) (by omega))
            · intro hk
              rw [hm4 (by omega), hrun]
          split at hT
          · rename_i hmap
            split at hT
            · rename_i r' x hrn
              have hrb := readNextValueF_bound _ _ _ _ hrn
              simp only [List.length_drop] at hrb
              refine hcont r' vals hrb.1 (by omega) hT ?_ ?_
              · intro D j g' hag hlen hg out hout
                rw [decodeStructLoop, ← getElem?_agree data D _ read hag (by omega), hc]
                dsimp only
                rw [if_neg he, decodeString_local _ (D.drop read) r key hs
                  (take_drop_agree data D _ read r hag (by omega))
                  (by simp only [List.length_drop]; omega), Res.bind_ok]
                dsimp only
                rw [hmap]
                dsimp only
                rw [readNextValue_local _ (D.drop (read + r)) r' x hrn
                  (take_drop_agree data D _ (read + r) r' hag (by omega))
                  (by simp only [List.length_drop]; omega), Res.bind_ok]
                exact hout
              · rw [decodeStructLoop, hc]
                dsimp only
                rw [if_neg he, hs, Res.bind_ok]
                dsimp only
                rw [hmap]
                dsimp only
                rw [hrn, Res.bind_ok]
            · rename_i hrn
              refine hstop hT.symm ?_
              rw [decodeStructLoop, decodeStructLoop]
              simp only [hc, he, if_false, hs, Res.bind_ok, hmap]
              cases hd : readNextValue (data.drop (read + r)) with
              | ok p => exact absurd hd (hrn p.1 p.2)
              | err e => rfl
              | panic => rfl
              | outOfFuel => rfl
          · rename_i num hmap
            split at hT
            · rename_i hft
              refine hstop hT.symm ?_
              rw [decodeStructLoop, decodeStructLoop]
              simp only [hc, he, if_false, hs, Res.bind_ok, hmap, hft]
            · rename_i f t hft
              split at hT
              · rename_i r' v hdec
                have hdb := decodeF_bound _ _ _ _ _ _ hdec
                simp only [List.length_drop] at hdb
                split at hT
                · rename_i hex
                  refine hstop hT.symm ?_
                  rw [decodeStructLoop, decodeStructLoop]
                  simp only [hc, he, if_false, hs, Res.bind_ok, hmap, hft, hdec, hex, if_true]
                · rename_i hex
                  refine hcont r' _ hdb.1 (by omega) hT ?_ ?_
                  · intro D j g' hag hlen hg out hout
                    rw [decodeStructLoop, ← getElem?_agree data D _ read hag (by omega), hc]
                    dsimp only
                    rw [if_neg he, decodeString_local _ (D.drop read) r key hs
                      (take_drop_agree data D _ read r hag (by omega))
                      (by simp only [List.length_drop]; omega), Res.bind_ok]
                    dsimp only
                    rw [hmap]
                    dsimp only
                    rw [hft]
                    dsimp only
                    rw [decodeF_local _ _ _ _ _ _ hdec (D.drop (read + r)) g'
                      (take_drop_agree data D _ (read + r) r' hag (by omega))
                      (by simp only [List.length_drop]; omega) hg, Res.bind_ok]
                    dsimp only
                    rw [if_neg hex]
                    exact hout
                  · rw [decodeStructLoop, hc]
                    dsimp only
                    rw [if_neg he, hs, Res.bind_ok]
                    dsimp only
                    rw [hmap]
                    dsimp only
                    rw [hft]
                    dsimp only
                    rw [hdec, Res.bind_ok]
                    dsimp only
                    rw [if_neg hex]
              · rename_i hdec
                refine hstop hT.symm ?_
                rw [decodeStructLoop, decodeStructLoop]
                simp only [hc, he, if_false, hs, Res.bind_ok, hmap, hft]
                cases hd : decodeF g (data.drop (read + r)) t t.zero with
                | ok p => exact absurd hd (hdec p.1 p.2)
                | err e => rfl
                | panic => rfl
                | outOfFuel => rfl
        · rename_i hs
          refine hstop hT.symm ?_
          rw [decodeStructLoop, decodeStructLoop]
          simp only [hc, he, if_false]
          cases hd : decodeString (data.drop read) with
          | ok p => exact absurd hd (hs p.1 p.2)
          | err e => rfl
          | panic => rfl
          | outOfFuel => rfl

/-- One turn of the loop of `decodeStruct` returns without error only at the end
token. -/
theorem decodeStructLoop_turn_ok (dec : Ty → List Nat → Res (Nat × Val))
    (fields : List (Field × Ty)) (data : List Nat) (m : Nat) (T : List (Field × Val))
    (rf : Nat) (res : List (Field × Val))
    (h : decodeStructLoop dec fields data 1 m T = .ok (rf, res)) :
    rf = m ∧ res = T ∧ data[m]? = some 101 := by
  rw [decodeStructLoop] at h
  split at h
  · simp at h
  · rename_i c hc
    split at h
    · rename_i he
      simp only [Res.ok.injEq, Prod.mk.injEq] at h
      exact ⟨h.1.symm, h.2.symm, by rw [hc, he]⟩
    · obtain ⟨⟨r, key⟩, _, h2⟩ := Res.bind_eq_ok h
      dsimp only at h2
      split at h2
      · obtain ⟨⟨r', x⟩, _, h4⟩ := Res.bind_eq_ok h2
        simp [decodeStructLoop] at h4
      · split at h2
        · simp at h2
        · obtain ⟨⟨r', v⟩, _, h4⟩ := Res.bind_eq_ok h2
          dsimp only at h4
          split at h4
          · simp at h4
          · simp [decodeStructLoop] at h4

theorem targetAfter_record (data : List Nat) (fields : List (Field × Ty))
    (vals : List (Field × Val)) (h0 : data[0]? = some 100) :
    ∃ m T, 1 ≤ m ∧ m ≤ data.length ∧
      targetAfter data (.struct fields) (.struct vals) = .struct T ∧
      decode (data.take m ++ [101]) (.struct fields) (.struct vals) = .ok (m + 1, .struct T) ∧
      (∀ e, decode data (.struct fields) (.struct vals) = .err e →
        decodeStructLoop (fun t d => decodeF data.length d t t.zero) fields data 1 m T =
          .err e) ∧
      (decode data (.struct fields) (.struct vals) = .panic →
        decodeStructLoop (fun t d => decodeF data.length d t t.zero) fields data 1 m T =
          .panic) ∧
      (∀ n v, decode data (.struct fields) (.struct vals) = .ok (n, v) →
        n = m + 1 ∧ v = .struct T ∧ data[m]? = some 101) := by
  have hlen : 1 ≤ data.length := by
    cases data with
    | nil => simp at h0
    | cons a l => simp
  obtain ⟨m, hm1, hm2, hm3, hm4⟩ := decodeStructLoopTarget_stop data.length fields data
    data.length 1 vals _ hlen rfl
  have hq := hm4 (by omega)
  generalize hT : decodeStructLoopTarget (fun t d => decodeF data.length d t t.zero) fields data
    data.length 1 vals = T at hm3 hq
  obtain ⟨ha, hl, _⟩ := take_snoc_agree data m hm2
  have e0 : (data.take m ++ [101])[0]? = some 100 := by
    rw [← getElem?_agree data _ m 0 ha (by omega), h0]
  have hdec : decode data (.struct fields) (.struct vals) =
      (decodeStructLoop (fun t d => decodeF data.length d t t.zero) fields data data.length 1
        vals).bind fun p => .ok (p.1 + 1, .struct p.2) := by
    unfold decode
    rw [decodeF, if_neg (by omega)]
    unfold decodeStruct
    dsimp only
    rw [if_neg (by omega), if_neg (by rw [h0]; simp)]
  refine ⟨m, T, hm1, hm2, ?_, ?_, ?_, ?_, ?_⟩
  · unfold targetAfter
    rw [if_neg (by omega)]
    dsimp only
    unfold decodeStructTarget
    dsimp only
    rw [if_neg (by omega), if_neg (by rw [h0]; simp), hT]
  · unfold decode
    rw [decodeF, if_neg (by omega)]
    unfold decodeStruct
    dsimp only
    rw [if_neg (by omega), if_neg (by rw [e0]; simp), hl,
      hm3 (m + 1) (m + 1) (by omega) (by omega), Res.bind_ok]
  · intro e he
    rw [hdec] at he
    rw [hq]
    cases hl : decodeStructLoop (fun t d => decodeF data.length d t t.zero) fields data
      data.length 1 vals with
    | ok p => rw [hl] at he; simp at he
    | err e' => rw [hl] at he; simpa using he
    | panic => rw [hl] at he; simp at he
    | outOfFuel => rw [hl] at he; simp at he
  · intro he
    rw [hdec] at he
    rw [hq]
    cases hl : decodeStructLoop (fun t d => decodeF data.length d t t.zero) fields data
      data.length 1 vals with
    | ok p => rw [hl] at he; simp at he
    | err e' => rw [hl] at he; simp at he
    | panic => rfl
    | outOfFuel => rw [hl] at he; simp at he
  · intro n v he
    rw [hdec] at he
    obtain ⟨⟨rf, res⟩, h1, h2⟩ := Res.bind_eq_ok he
    simp only [Res.ok.injEq, Prod.mk.injEq] at h2
    rw [h1] at hq
    obtain ⟨h3, h4, h5⟩ := decodeStructLoop_turn_ok _ fields data m T rf res hq
    exact ⟨by rw [← h2.1, h3], by rw [← h2.2, h4], h5⟩

/-- C27 (amended): what the target holds after `Unmarshal`.  When `decode` into a
list or map target returns an error, `Unmarshal` returns it and the target is
left exactly as it was.  When `decode` succeeds and bytes remain, `Unmarshal`
returns `ErrRemainingData` and the target holds the decoded value.  A record
target is left as it was when the data is empty or does not start with `d`.
Otherwise there is a position `m` at which the loop of `decodeStruct` stopped:
the target holds the fields `T` that a successful `decode` of the dictionary cut
at `m` and closed by `e` leaves, so the fields of the pairs before `m` hold
their new values; and the pair at `m` is the failing one: when `decode` returns
an error or panics, one turn of the loop at `m` on the fields `T` (the loop
with fuel for one turn) returns that error or panics, and when `decode`
succeeds, `m` is the position of the closing `e` and `T` the record it
returns. -/
theorem C27_target_after_an_error (data : List Nat) (ty : Ty) (cur : Val) :
    (((∃ elem, ty = .slice elem) ∨ ∃ key elem, ty = .map key elem) →
      ∀ e, decode data ty cur = .err e →
        Unmarshal data ty cur = .err e ∧ targetAfter data ty cur = cur) ∧
      (∀ n v, decode data ty cur = .ok (n, v) → n ≠ data.length →
        Unmarshal data ty cur = .err .remainingData ∧ targetAfter data ty cur = v) ∧
      ∀ fields vals, ty = .struct fields → cur = .struct vals →
        (data[0]? ≠ some 100 → targetAfter data ty cur = cur) ∧
        (data[0]? = some 100 → ∃ m T, 1 ≤ m ∧ m ≤ data.length ∧
          targetAfter data ty cur = .struct T ∧
          decode (data.take m ++ [101]) ty cur = .ok (m + 1, .struct T) ∧
          (∀ e, decode data ty cur = .err e →
            Unmarshal data ty cur = .err e ∧
            decodeStructLoop (fun t d => decodeF data.length d t t.zero) fields data 1 m T =
              .err e) ∧
          (decode data ty cur = .panic →
            decodeStructLoop (fun t d => decodeF data.length d t t.zero) fields data 1 m T =
              .panic) ∧
          (∀ n v, decode data ty cur = .ok (n, v) →
            n = m + 1 ∧ v = .struct T ∧ data[m]? = some 101)) := by
  refine ⟨?_, ?_, ?_⟩
  · intro hty e he
    exact ⟨by unfold Unmarshal; rw [he]; rfl, targetAfter_err data ty cur e hty he⟩
  · intro n v h hn
    refine ⟨?_, targetAfter_ok data ty cur n v h⟩
    rw [Unmarshal_of_decode _ _ _ _ _ h, if_pos hn]
  · intro fields vals hty hcur
    subst hty hcur
    refine ⟨?_, fun h0 => ?_⟩
    · intro h0
      unfold targetAfter
      split
      · rfl
      · rename_i hlen
        dsimp only
        unfold decodeStructTarget
        dsimp only
        rw [if_neg hlen, if_pos h0]
    · obtain ⟨m, T, h1, h2, h3, h4, h5, h6, h7⟩ := targetAfter_record data fields vals h0
      exact ⟨m, T, h1, h2, h3, h4,
        fun e he => ⟨by unfold Unmarshal; rw [he]; rfl, h5 e he⟩, h6, h7⟩

theorem C27_target_after_an_error_witness :
    ∃ m T, 1 ≤ m ∧ m ≤ (bs "d1:ai1e1:bi01ee").length ∧
      targetAfter (bs "d1:ai1e1:bi01ee") (.struct exABFields) (exAB 0 0) = .struct T ∧
      decode ((bs "d1:ai1e1:bi01ee").take m ++ [101]) (.struct exABFields) (exAB 0 0) =
        .ok (m + 1, .struct T) ∧
      (∀ e, decode (bs "d1:ai1e1:bi01ee") (.struct exABFields) (exAB 0 0) = .err e →
        Unmarshal (bs "d1:ai1e1:bi01ee") (.struct exABFields) (exAB 0 0) = .err e ∧
        decodeStructLoop (fun t d => decodeF (bs "d1:ai1e1:bi01ee").length d t t.zero)
          exABFields (bs "d1:ai1e1:bi01ee") 1 m T = .err e) ∧
      (decode (bs "d1:ai1e1:bi01ee") (.struct exABFields) (exAB 0 0) = .panic →
        decodeStructLoop (fun t d => decodeF (bs "d1:ai1e1:bi01ee").length d t t.zero)
          exABFields (bs "d1:ai1e1:bi01ee") 1 m T = .panic) ∧
      (∀ n v, decode (bs "d1:ai1e1:bi01ee") (.struct exABFields) (exAB 0 0) = .ok (n, v) →
        n = m + 1 ∧ v = .struct T ∧ (bs "d1:ai1e1:bi01ee")[m]? = some 101) :=
  ((C27_target_after_an_error (bs "d1:ai1e1:bi01ee") (.struct exABFields) (exAB 0 0)).2.2
    exABFields _ rfl rfl).2 (by rfl)

/-- C27 (as stated) fails for records and for trailing bytes: `decodeStruct`
assigns every field as soon as its pair is decoded, so `d1:ai1e1:bi01ee` into a
record with the integer fields `a` and `b` returns `ErrLeadingZero` and leaves
`a` at 1; and `Unmarshal` tests for remaining bytes after `decode` has assigned
the target, so `li1eei2e` into a list returns `ErrRemainingData` and leaves the
list `[1]`. -/
theorem C27_decoded_fields_stay_assigned :
    Unmarshal (bs "d1:ai1e1:bi01ee") (.struct exABFields) (exAB 0 0) = .err .leadingZero ∧
      targetAfter (bs "d1:ai1e1:bi01ee") (.struct exABFields) (exAB 0 0) = exAB 1 0 ∧
      Unmarshal (bs "li1eei2e") (.slice (.int 64)) (.list []) = .err .remainingData ∧
      targetAfter (bs "li1eei2e") (.slice (.int 64)) (.list []) = .list [.int 64 1] ∧
      Unmarshal (bs "d1:ai1ee1:b") (.map .string (.int 64)) (.map []) = .err .remainingData ∧
      targetAfter (bs "d1:ai1ee1:b") (.map .string (.int 64)) (.map []) =
        .map [(bs "a", .int 64 1)] :=
  ⟨by rfl, by rfl, by rfl, by rfl, by rfl, by rfl⟩


/-! ## The output of `Marshal` as a wire value -/

theorem signedOnly_allList (xs : List Val) :
    Val.signedOnly.allList xs = true ↔ ∀ x ∈ xs, x.signedOnly = true := by
  induction xs with
  | nil => simp [Val.signedOnly.allList]
  | cons x rest ih => simp [Val.signedOnly.allList, ih]

theorem signedOnly_allMap (kvs : List (List Nat × Val)) :
    Val.signedOnly.allMap kvs = true ↔ ∀ p ∈ kvs, p.2.signedOnly = true := by
  induction kvs with
  | nil => simp [Val.signedOnly.allMap]
  | cons p rest ih =>
    obtain ⟨k, x⟩ := p
    simp [Val.signedOnly.allMap, ih]

theorem signedOnly_allFields (fs : List (Field × Val)) :
    Val.signedOnly.allFields fs = true ↔ ∀ p ∈ fs, p.2.signedOnly = true := by
  induction fs with
  | nil => simp [Val.signedOnly.allFields]
  | cons p rest ih =>
    obtain ⟨k, x⟩ := p
    simp [Val.signedOnly.allFields, ih]

/-- Every value `structToMap` emits for a record without custom encoders and
with integers in the signed range is such a value. -/
theorem fieldsToMap_signedOnly (n : Nat) : ∀ (fs : List (Field × Val)) (e : Bool)
    (acc : List (List Nat × Val)), Val.size.sizeFields fs ≤ n →
    (∀ q ∈ acc, q.2.signedOnly = true) → (∀ p ∈ fs, p.2.signedOnly = true) →
    ∀ dict, structToMap.fieldsToMap fs e acc = .ok dict → ∀ q ∈ dict, q.2.signedOnly = true := by
  induction n with
  | zero =>
    intro fs e acc hsz hacc _ dict hd
    cases fs with
    | nil =>
      simp only [structToMap.fieldsToMap, Res.ok.injEq] at hd
      subst hd
      exact hacc
    | cons p fs =>
      obtain ⟨f, x⟩ := p
      have := Val.size_pos x
      simp only [Val.size.sizeFields] at hsz
      omega
  | succ n ih =>
    intro fs
    induction fs with
    | nil =>
      intro e acc _ hacc _ dict hd
      simp only [structToMap.fieldsToMap, Res.ok.injEq] at hd
      subst hd
      exact hacc
    | cons p fs ihfs =>
      intro e acc hsz hacc hfs dict hd
      obtain ⟨f, x⟩ := p
      have hx := Val.size_pos x
      simp only [Val.size.sizeFields] at hsz
      have hxs : x.signedOnly = true := hfs (f, x) (by simp)
      have hrest := fun acc' hacc' => ihfs e acc' (by omega) hacc'
        (fun p hp => hfs p (by simp [hp])) dict
      simp only [structToMap.fieldsToMap] at hd
      split at hd
      · exact hrest acc hacc hd
      · split at hd
        · exact hrest acc hacc hd
        · split at hd
          · cases hsub : structToMap x with
            | ok sub =>
              rw [hsub] at hd
              simp only at hd
              refine hrest _ ?_ hd
              intro q hq
              rcases foldl_mapSet_mem sub acc q hq with h5 | h5
              · exact hacc q h5
              · cases x with
                | struct fs' =>
                  simp only [Val.size] at hsz
                  rw [structToMap] at hsub
                  simp only [Val.signedOnly] at hxs
                  exact ih fs' _ [] (by omega) (by simp)
                    ((signedOnly_allFields fs').1 hxs) sub hsub q h5
                | marshaler o u => simp [Val.signedOnly] at hxs
                | bool b => simp [structToMap] at hsub
                | int b n' => simp [structToMap] at hsub
                | uint b n' => simp [structToMap] at hsub
                | str s => simp [structToMap] at hsub
                | bytes s => simp [structToMap] at hsub
                | nilBytes => simp [structToMap] at hsub
                | list xs => simp [structToMap] at hsub
                | nilList => simp [structToMap] at hsub
                | array xs => simp [structToMap] at hsub
                | map kvs => simp [structToMap] at hsub
                | nilMap => simp [structToMap] at hsub
                | badMap z => simp [structToMap] at hsub
                | other z => simp [structToMap] at hsub
            | err e' => rw [hsub] at hd; simp at hd
            | panic => rw [hsub] at hd; simp at hd
            | outOfFuel => rw [hsub] at hd; simp at hd
          · refine hrest _ ?_ hd
            intro q hq
            rcases mapSet_mem acc _ x q hq with h5 | h5
            · rw [h5]; exact hxs
            · exact hacc q h5

theorem wires_of_list (xs : List Val) (g : Val → List Nat)
    (h : ∀ x ∈ xs, ∃ w : Wire, w.inRange = true ∧ w.encode = g x) :
    ∃ ws : List Wire, Wire.inRange.allInRange ws = true ∧
      Wire.encode.encodeItems ws = (xs.map g).flatten := by
  induction xs with
  | nil => exact ⟨[], rfl, rfl⟩
  | cons x rest ih =>
    obtain ⟨w, h1, h2⟩ := h x (by simp)
    obtain ⟨ws, h3, h4⟩ := ih (fun y hy => h y (by simp [hy]))
    exact ⟨w :: ws, by simp [Wire.inRange.allInRange, h1, h3],
      by simp [Wire.encode.encodeItems, h2, h4]⟩

theorem wires_of_pairs (ps : List (List Nat × Val)) (g : Val → List Nat)
    (h : ∀ p ∈ ps, ∃ w : Wire, w.inRange = true ∧ w.encode = g p.2) :
    ∃ pairs : List (List Nat × Wire), Wire.inRange.allInRangePairs pairs = true ∧
      Wire.encode.encodePairs pairs =
        (ps.map fun p => encodeStringBytes p.1 ++ g p.2).flatten := by
  induction ps with
  | nil => exact ⟨[], rfl, rfl⟩
  | cons p rest ih =>
    obtain ⟨w, h1, h2⟩ := h p (by simp)
    obtain ⟨pairs, h3, h4⟩ := ih (fun y hy => h y (by simp [hy]))
    exact ⟨(p.1, w) :: pairs, by simp [Wire.inRange.allInRangePairs, h1, h3],
      by simp [Wire.encode.encodePairs, h2, h4]⟩

theorem encodeDict_wire (entries : List (List Nat × Val)) (out : List Nat)
    (h : encodeDict Marshal entries = .ok out)
    (hw : ∀ p ∈ entries, ∀ e, Marshal p.2 = .ok e →
      ∃ w : Wire, w.inRange = true ∧ w.encode = e) :
    ∃ w : Wire, w.inRange = true ∧ w.encode = out := by
  unfold encodeDict at h
  obtain ⟨h1, h2⟩ := encodeDictLoop_ok Marshal _ _ _ h
  have hp := sortSlice_perm_any pairLess entries
  obtain ⟨pairs, h3, h4⟩ := wires_of_pairs (sortSlice pairLess entries)
    (fun x => (Marshal x).bytes)
    (fun p hp' => hw p (hp.mem_iff.1 hp') _ (h1 p hp'))
  refine ⟨.dict pairs, by simpa [Wire.inRange] using h3, ?_⟩
  rw [h2, Wire.encode, h4]
  rfl

/-- The output of `Marshal` for a value without custom encoders whose integers
are in the signed 64-bit range is the wire form of a value with integers in
that range. -/
theorem Marshal_wire (n : Nat) : ∀ (v : Val) (out : List Nat), v.size ≤ n →
    v.signedOnly = true → Marshal v = .ok out →
    ∃ w : Wire, w.inRange = true ∧ w.encode = out := by
  induction n with
  | zero =>
    intro v out hn
    have := Val.size_pos v
    omega
  | succ n ih =>
    intro v out hn hs h
    cases v with
    | bool b =>
      cases b with
      | true =>
        have : out = bs "i1e" := by
          have h' : Marshal (.bool true) = .ok (bs "i1e") := rfl
          rw [h'] at h
          simp only [Res.ok.injEq] at h
          exact h.symm
        exact ⟨.int 1, by decide, by rw [this]; decide⟩
      | false =>
        have : out = bs "i0e" := by
          have h' : Marshal (.bool false) = .ok (bs "i0e") := rfl
          rw [h'] at h
          simp only [Res.ok.injEq] at h
          exact h.symm
        exact ⟨.int 0, by decide, by rw [this]; decide⟩
    | int bits x =>
      rw [Marshal_int] at h
      simp only [Res.ok.injEq] at h
      simp only [Val.signedOnly] at hs
      exact ⟨.int x, by simpa [Wire.inRange] using hs, by rw [← h]; rfl⟩
    | uint bits x =>
      have h' : Marshal (.uint bits x) = .ok (105 :: (FormatUint x ++ [101])) := rfl
      rw [h'] at h
      simp only [Res.ok.injEq] at h
      simp only [Val.signedOnly, decide_eq_true_eq] at hs
      refine ⟨.int (x : Int), ?_, ?_⟩
      · simp only [Wire.inRange, decide_eq_true_eq]
        constructor
        · have : (0 : Int) ≤ (x : Int) := Int.ofNat_nonneg x
          have h2 : (-2 : Int) ^ 63 ≤ 0 := by norm_num
          omega
        · exact_mod_cast hs
      · rw [← h, Wire.encode]
        have := ItoaNat x
        unfold Itoa at this
        rw [this]
    | str s =>
      rw [Marshal_str] at h
      simp only [Res.ok.injEq] at h
      exact ⟨.str s, rfl, by rw [← h]; rfl⟩
    | bytes s =>
      rw [Marshal_bytes] at h
      simp only [Res.ok.injEq] at h
      exact ⟨.str s, rfl, by rw [← h]; rfl⟩
    | list xs =>
      rw [Marshal_list] at h
      unfold encodeList at h
      obtain ⟨h1, h2⟩ := encodeListLoop_ok Marshal xs _ _ h
      simp only [Val.signedOnly] at hs
      simp only [Val.size] at hn
      obtain ⟨ws, h3, h4⟩ := wires_of_list xs (fun x => (Marshal x).bytes) (fun x hx =>
        ih x _ (by have := sizeList_mem xs x hx; omega) ((signedOnly_allList xs).1 hs x hx)
          (h1 x hx))
      refine ⟨.list ws, by simpa [Wire.inRange] using h3, ?_⟩
      rw [h2, Wire.encode, h4]
      rfl
    | map kvs =>
      rw [Marshal_map] at h
      simp only [Val.signedOnly] at hs
      simp only [Val.size] at hn
      exact encodeDict_wire kvs out h (fun p hp e he =>
        ih p.2 e (by have := sizeMap_mem kvs p hp; omega) ((signedOnly_allMap kvs).1 hs p hp) he)
    | struct fs =>
      rw [Marshal_struct] at h
      obtain ⟨dict, hd, h1⟩ := Res.bind_eq_ok h
      simp only [Val.signedOnly] at hs
      simp only [Val.size] at hn
      rw [structToMap] at hd
      have hsz := ((fieldsToMap_props _ fs _ [] (Nat.le_refl _) List.Pairwise.nil).2 dict hd).2
      have hso := fieldsToMap_signedOnly _ fs _ [] (Nat.le_refl _) (by simp)
        ((signedOnly_allFields fs).1 hs) dict hd
      refine encodeDict_wire dict out h1 (fun p hp e he => ih p.2 e ?_ (hso p hp) he)
      rcases hsz p hp with h5 | h5
      · simp at h5
      · omega
    | nilBytes =>
      rw [Marshal_nilBytes] at h
      simp only [Res.ok.injEq] at h
      exact ⟨.str [], rfl, by rw [← h]; rfl⟩
    | nilList =>
      rw [Marshal_nilList] at h
      simp only [Res.ok.injEq] at h
      exact ⟨.list [], rfl, by rw [← h]; rfl⟩
    | nilMap =>
      rw [Marshal_nilMap] at h
      simp only [Res.ok.injEq] at h
      exact ⟨.dict [], rfl, by rw [← h]; rfl⟩
    | array xs =>
      rw [Marshal_array] at h
      unfold encodeList at h
      obtain ⟨h1, h2⟩ := encodeListLoop_ok Marshal xs _ _ h
      simp only [Val.signedOnly] at hs
      simp only [Val.size] at hn
      obtain ⟨ws, h3, h4⟩ := wires_of_list xs (fun x => (Marshal x).bytes) (fun x hx =>
        ih x _ (by have := sizeList_mem xs x hx; omega) ((signedOnly_allList xs).1 hs x hx)
          (h1 x hx))
      refine ⟨.list ws, by simpa [Wire.inRange] using h3, ?_⟩
      rw [h2, Wire.encode, h4]
      rfl
    | badMap z =>
      have h' : Marshal (.badMap z) = .err .nonStringKey := rfl
      rw [h'] at h
      simp at h
    | other z =>
      have h' : Marshal (.other z) = .err .invalidType := rfl
      rw [h'] at h
      simp at h
    | marshaler o u => simp [Val.signedOnly] at hs

/-- C30: for every value without a custom encoder whose integers, signed or
unsigned, are in the signed 64-bit range, an output of `Marshal` shorter than
`2^63` bytes is one complete value for `readNextValue`, which consumes all of
it.  For an unsigned integer from `2^63` on this fails: `Marshal(uint64(1 << 63))`
is `i9223372036854775808e`, which `Unmarshal` reads back into a `uint64` and
`readNextValue` rejects with a range error, because it skips an integer with
`decodeInt`; so a record that meets this integer under an unknown key fails to
decode. -/
theorem C30_marshal_output_is_skipped_whole (v : Val) (out : List Nat)
    (h : Marshal v = .ok out) (hv : v.signedOnly = true) (hlen : out.length < 2 ^ 63) :
    readNextValue out = .ok (out.length, out) ∧
      Marshal (.uint 64 9223372036854775808) = .ok (bs "i9223372036854775808e") ∧
      readNextValue (bs "i9223372036854775808e") = .err .outOfRange ∧
      Unmarshal (bs "i9223372036854775808e") (.uint 64) (.uint 64 0) =
        .ok (.uint 64 9223372036854775808) ∧
      Marshal (.map [(bs "zz", .uint 64 9223372036854775808)]) =
        .ok (bs "d2:zzi9223372036854775808ee") ∧
      Unmarshal (bs "d2:zzi9223372036854775808ee") (.struct exTestFields)
        (.struct (exTest [] 0 [] [])) = .err .outOfRange := by
  refine ⟨?_, rfl, rfl, rfl, rfl, rfl⟩
  obtain ⟨w, h1, h2⟩ := Marshal_wire _ v out (Nat.le_refl _) hv h
  have := readNextValue_wire w [] h1 (by rw [List.append_nil, h2]; exact hlen)
  rw [List.append_nil, h2] at this
  exact this

theorem C30_marshal_output_is_skipped_whole_witness :
    readNextValue (bs "d1:ali-7ei9223372036854775807ee1:b3:abce") =
      .ok (40, bs "d1:ali-7ei9223372036854775807ee1:b3:abce") :=
  ((C30_marshal_output_is_skipped_whole
    (.map [(bs "b", .str (bs "abc")), (bs "a", .list [.int 8 (-7), .uint 64 9223372036854775807])])
    (bs "d1:ali-7ei9223372036854775807ee1:b3:abce") (by rfl) (by rfl) (by decide)).1 :)


/-! ## Unknown keys at any position of a dictionary -/

theorem encodePairs_append (a b : List (List Nat × Wire)) :
    Wire.encode.encodePairs (a ++ b) = Wire.encode.encodePairs a ++ Wire.encode.encodePairs b := by
  induction a with
  | nil => rfl
  | cons p a ih =>
    obtain ⟨k, w⟩ := p
    show encodeStringBytes k ++ (w.encode ++ Wire.encode.encodePairs (a ++ b)) = _
    rw [ih]
    simp only [Wire.encode.encodePairs, List.append_assoc]

theorem tagName_of_wireNames (fields : List (Field × Ty)) (key : List Nat)
    (hname : key ∉ wireNames (fields.map Prod.fst)) (hne : key ≠ []) :
    ∀ p ∈ fields, (newTag p.1).Name ≠ key := by
  intro p hp hc
  cases hs : (newTag p.1).Skip with
  | true =>
    rw [newTag_skip_name p.1 hs] at hc
    exact hne hc.symm
  | false =>
    apply hname
    rw [← hc]
    exact mem_wireNames _ p.1 (List.mem_map_of_mem Prod.fst hp) hs

theorem structPairOK_unknown (fields : List (Field × Ty)) (key : List Nat) (w : Wire)
    (hkey : ∀ p ∈ fields, (newTag p.1).Name ≠ key) (hw : w.inRange = true)
    (hlen : (encodeStringBytes key ++ w.encode).length < 2 ^ 63) :
    structPairOK fields (key, w) ∧ ∀ vals, structStep fields vals (key, w) = vals := by
  have h4 : mapGet (nameMapping fields 0 []) key = none := by
    rw [nameMapping_notin fields 0 [] key hkey]; rfl
  refine ⟨⟨?_, fun _ => ⟨w.encode, ?_⟩, fun num hnum => ?_⟩, fun vals => ?_⟩
  · have := decodeString_encode key [] (by
      simp only [List.length_append] at hlen ⊢; simp only [List.length_nil]; omega)
    rw [List.append_nil] at this
    exact this
  · have := readNextValue_wire w [] hw (by
      simp only [List.length_append] at hlen ⊢; simp only [List.length_nil]; omega)
    rw [List.append_nil] at this
    exact this
  · rw [h4] at hnum
    exact absurd hnum (by simp)
  · simp only [structStep, h4]

theorem decode_unknown_pair (fields : List (Field × Ty)) (front back : List (List Nat × Wire))
    (key : List Nat) (w : Wire) (tail : List Nat) (vals : List (Field × Val))
    (hkey : ∀ p ∈ fields, (newTag p.1).Name ≠ key) (hw : w.inRange = true)
    (hlen : (encodeStringBytes key ++ w.encode).length < 2 ^ 63) (n : Nat) (v : Val)
    (h : decode ((Wire.dict (front ++ back)).encode ++ tail) (.struct fields) (.struct vals) =
      .ok (n, v)) :
    decode ((Wire.dict (front ++ (key, w) :: back)).encode ++ tail) (.struct fields)
        (.struct vals) = .ok (n + (encodeStringBytes key ++ w.encode).length, v) ∧
      n = (Wire.dict (front ++ back)).encode.length ∧
      (Wire.dict (front ++ (key, w) :: back)).encode.length =
        n + (encodeStringBytes key ++ w.encode).length := by
  obtain ⟨vals', hv, hn, hres, hok⟩ := decode_struct_pairs_inv _ tail fields _ n v h
  simp only [Val.struct.injEq] at hv
  subst hv
  obtain ⟨hpair, hstep⟩ := structPairOK_unknown fields key w hkey hw hlen
  have hok' : ∀ p ∈ front ++ (key, w) :: back, structPairOK fields p := by
    intro p hp
    simp only [List.mem_append, List.mem_cons] at hp
    rcases hp with hp | rfl | hp
    · exact hok p (by simp [hp])
    · exact hpair
    · exact hok p (by simp [hp])
  have hl : (Wire.dict (front ++ (key, w) :: back)).encode.length =
      (Wire.dict (front ++ back)).encode.length + (encodeStringBytes key ++ w.encode).length := by
    rw [(dict_data _ []).2, (dict_data _ []).2, encodePairs_append, encodePairs_append]
    simp only [Wire.encode.encodePairs, List.length_append]
    omega
  refine ⟨?_, hn, by rw [hl, hn]⟩
  rw [decode_struct_pairs _ tail fields vals hok', hl, hn, hres]
  simp only [List.foldl_append, List.foldl_cons, hstep]

/-- C14: a pair whose key is the name `newTag` gives to no field of the record
(every key that is not empty and is the wire name of no field is such a key),
and whose value is a well-formed value (an integer in the signed 64-bit range,
a byte string, a list or a dictionary, nested to any depth), is consumed and
ignored without error when it is decoded into a record, the pair being shorter
than `2^63` bytes.  The loop of `decodeStruct`, standing before the pair at any
position `P` of any input, does what it does on the input without the pair,
every position moved by the length of the pair.  At any position of a wire
dictionary: if `decode` of the dictionary without the pair succeeds with the
count `n` and the record `v`, then `decode` with the pair succeeds with the same
record and the count `n` plus the length of the pair, which is the length of
the whole dictionary, and `Unmarshal` succeeds with the same record. -/
theorem C14_unknown_key_is_skipped (fields : List (Field × Ty)) (key : List Nat) (w : Wire)
    (vals : List (Field × Val)) (hkey : ∀ p ∈ fields, (newTag p.1).Name ≠ key)
    (hw : w.inRange = true)
    (hlen : (encodeStringBytes key ++ w.encode).length < 2 ^ 63) :
    (∀ (dec : Ty → List Nat → Res (Nat × Val)) (P B : List Nat) (k : Nat),
        (100 :: (P ++ (encodeStringBytes key ++ w.encode ++ B))).length < 2 ^ 63 →
        decodeStructLoop dec fields (100 :: (P ++ (encodeStringBytes key ++ w.encode ++ B)))
            (k + 1) (P.length + 1) vals =
          ((decodeStructLoop dec fields (100 :: (P ++ B)) k (P.length + 1) vals).bind fun r =>
            .ok (r.1 + (encodeStringBytes key ++ w.encode).length, r.2))) ∧
      (∀ (front back : List (List Nat × Wire)) (tail : List Nat) (n : Nat) (v : Val),
        decode ((Wire.dict (front ++ back)).encode ++ tail) (.struct fields) (.struct vals) =
          .ok (n, v) →
        decode ((Wire.dict (front ++ (key, w) :: back)).encode ++ tail) (.struct fields)
            (.struct vals) = .ok (n + (encodeStringBytes key ++ w.encode).length, v) ∧
          n + (encodeStringBytes key ++ w.encode).length =
            (Wire.dict (front ++ (key, w) :: back)).encode.length) ∧
      (∀ (front back : List (List Nat × Wire)) (v : Val),
        Unmarshal (Wire.dict (front ++ back)).encode (.struct fields) (.struct vals) = .ok v →
        Unmarshal (Wire.dict (front ++ (key, w) :: back)).encode (.struct fields)
          (.struct vals) = .ok v) ∧
      (∀ key' : List Nat, key' ∉ wireNames (fields.map Prod.fst) → key' ≠ [] →
        ∀ p ∈ fields, (newTag p.1).Name ≠ key') := by
  refine ⟨fun dec P B k hl => ?_, fun front back tail n v h => ?_, fun front back v h => ?_,
    fun key' h1 h2 => tagName_of_wireNames fields key' h1 h2⟩
  · exact decodeStructLoop_unknown dec fields (100 :: P) B key w k vals hkey hw hl
  · obtain ⟨h1, _, h3⟩ := decode_unknown_pair fields front back key w tail vals hkey hw hlen n v h
    exact ⟨h1, h3.symm⟩
  · unfold Unmarshal at h ⊢
    obtain ⟨⟨n, v'⟩, hd, hres⟩ := Res.bind_eq_ok h
    have hd' : decode ((Wire.dict (front ++ back)).encode ++ []) (.struct fields)
        (.struct vals) = .ok (n, v') := by rw [List.append_nil]; exact hd
    obtain ⟨h1, h2, h3⟩ := decode_unknown_pair fields front back key w [] vals hkey hw hlen n v' hd'
    rw [List.append_nil] at h1
    rw [h1, Res.bind_ok]
    simp only [] at hres ⊢
    rw [if_neg (by rw [h2]; simp)] at hres
    rw [if_neg (by rw [h3]; simp)]
    exact hres

theorem C14_unknown_key_is_skipped_witness :
    Unmarshal (bs "d5:Attr02:ab8:int_attri7ee") (.struct exTestFields)
        (.struct (exTest [] 0 [] [])) = .ok (.struct (exTest (bs "ab") 7 [] [])) ∧
      Unmarshal (bs "d5:Attr02:ab2:zzld1:ai1ee1:xlee8:int_attri7ee") (.struct exTestFields)
        (.struct (exTest [] 0 [] [])) = .ok (.struct (exTest (bs "ab") 7 [] [])) :=
  ⟨rfl, ((C14_unknown_key_is_skipped exTestFields (bs "zz") exUnknown (exTest [] 0 [] [])
    (by decide) (by decide) (by decide)).2.2.1 [(bs "Attr0", .str (bs "ab"))]
    [(bs "int_attr", .int 7)] _ rfl :)⟩

/-- C14 (as stated) fails in two cases.  An integer outside the signed 64-bit
range is a well-formed value, and `Marshal` emits such integers for `uint64`,
but `readNextValue` skips an integer with `decodeInt`: under an unknown key it
is a range error.  And the empty key is the wire name of no field of a record
whose only field is tagged `-`, but `nameMapping` has the skipped field under
the empty name: the value under the empty key is decoded into the skipped field,
and a list there is an error. -/
theorem C14_unknown_pair_is_an_error :
    Unmarshal (bs "d2:zzi9223372036854775808ee") (.struct exTestFields)
        (.struct (exTest [] 0 [] [])) = .err .outOfRange ∧
      Marshal (.map [(bs "zz", .uint 64 9223372036854775808)]) =
        .ok (bs "d2:zzi9223372036854775808ee") ∧
      bs "zz" ∉ wireNames (exTestFields.map Prod.fst) ∧
      Unmarshal (bs "d0:lee") (.struct exSkipFields) (exSkip (.int 64 0)) =
        .err .invalidInteger ∧
      wireNames (exSkipFields.map Prod.fst) = [] ∧
      Unmarshal (bs "de") (.struct exSkipFields) (exSkip (.int 64 0)) =
        .ok (exSkip (.int 64 0)) :=
  ⟨rfl, rfl, by decide, rfl, rfl, rfl⟩

/-! ## Custom encoders inside lists, maps and records -/

/-- C20 (amended): `Marshal` of a value that implements `Marshaler` returns the
bytes, or the error, of its `MarshalBEncode` method, whatever the value is
underneath, a record included.  The elements of a list or array, the values of
a map and the values `structToMap` hands on are encoded by `Marshal` itself:
the output for a list is `l`, the outputs of `Marshal` for the elements, `e`,
and the output for a map or record is `d`, the entries (of the map, or of the
map `structToMap` makes of the record) in the order of the encoder, each as the
key followed by the output of `Marshal` for the value, `e`.  In any record,
when the loop of `structToMap` comes to a field that is not skipped and not
left out by omitempty, with any dictionary built so far: a field that is not an
embedded one without a custom name is assigned under its own key with its value
as it is; an embedded field without a custom name is flattened by a nested call
of `structToMap`, and that call walks a value that implements `Marshaler` like
the value underneath.  For a record without embedded fields the dictionary is
the one of `emitted`.  `decode` into a target that implements `Unmarshaler`, on
a well-formed value followed by anything, hands exactly the bytes of that value
to `UnmarshalBEncode` and returns its error or the length of the value with
what the method left in the target; and whenever it succeeds with the count
`n`, the method was handed `data[:n]`. -/
theorem C20_custom_capability_is_used (w : Wire) (tail : List Nat)
    (um : List Nat → Err ⊕ Val) (cur : Val) (hw : w.inRange = true)
    (hlen : (w.encode ++ tail).length < 2 ^ 63) :
    (∀ (out : Err ⊕ List Nat) (under : Val), Marshal (.marshaler out under) =
        match out with
        | .inl e => .err e
        | .inr d => .ok d) ∧
      (∀ xs : List Val, Marshal (.list xs) = encodeList Marshal xs) ∧
      (∀ xs : List Val, Marshal (.array xs) = encodeList Marshal xs) ∧
      (∀ kvs : List (List Nat × Val), Marshal (.map kvs) = encodeDict Marshal kvs) ∧
      (∀ fs : List (Field × Val), Marshal (.struct fs) =
        (structToMap (.struct fs)).bind fun dict => encodeDict Marshal dict) ∧
      (∀ (xs : List Val) (out : List Nat), Marshal (.list xs) = .ok out →
        (∀ x ∈ xs, Marshal x = .ok (Marshal x).bytes) ∧
        out = 108 :: ((xs.map fun x => (Marshal x).bytes).flatten ++ [101])) ∧
      (∀ (v : Val) (entries : List (List Nat × Val)) (out : List Nat),
        ((v = .map entries ∧ (entries.map Prod.fst).Nodup) ∨
          (∃ fs, v = .struct fs ∧ structToMap v = .ok entries)) →
        Marshal v = .ok out →
        ∃ sorted : List (List Nat × Val), sorted.Perm entries ∧
          (sorted.Pairwise fun p q => sortsBefore p.1 q.1 = true) ∧
          (∀ p ∈ sorted, Marshal p.2 = .ok (Marshal p.2).bytes) ∧
          out = 100 :: ((sorted.map fun p =>
            encodeStringBytes p.1 ++ (Marshal p.2).bytes).flatten ++ [101])) ∧
      (∀ (f : Field) (v : Val) (rest : List (Field × Val)) (empty : Bool)
        (dict : List (List Nat × Val)), (newTag f).Skip = false →
        ((newTag f).OmitEmpty && empty) = false →
        ¬ (f.anonymous = true ∧ (newTag f).Name = []) →
        structToMap.fieldsToMap ((f, v) :: rest) empty dict =
          structToMap.fieldsToMap rest empty (mapSet dict (newTag f).Name v)) ∧
      (∀ (f : Field) (v : Val) (rest : List (Field × Val)) (empty : Bool)
        (dict : List (List Nat × Val)), (newTag f).Skip = false →
        ((newTag f).OmitEmpty && empty) = false →
        f.anonymous = true → (newTag f).Name = [] →
        structToMap.fieldsToMap ((f, v) :: rest) empty dict =
          (structToMap v).bind fun sub =>
            structToMap.fieldsToMap rest empty
              (sub.foldl (fun d kv => mapSet d kv.1 kv.2) dict)) ∧
      (∀ (out : Err ⊕ List Nat) (under : Val),
        structToMap (.marshaler out under) = structToMap under) ∧
      (∀ fs : List (Field × Val), (∀ p ∈ fs, p.1.anonymous = false) →
        structToMap (.struct fs) =
          .ok ((emitted fs (isEmpty (.struct fs))).foldl (fun d kv => mapSet d kv.1 kv.2) [])) ∧
      decode (w.encode ++ tail) (.custom um) cur =
        (match um w.encode with
        | .inl e => .err e
        | .inr v => .ok (w.encode.length, v)) ∧
      (∀ (data : List Nat) (n : Nat) (v : Val), decode data (.custom um) cur = .ok (n, v) →
        1 ≤ n ∧ n ≤ data.length ∧ um (data.take n) = .inr v) := by
  refine ⟨Marshal_marshaler, Marshal_list, Marshal_array, Marshal_map, Marshal_struct, ?_, ?_,
    fieldsToMap_own_key, fieldsToMap_flatten, fun _ _ => by rw [structToMap],
    fun fs h => fieldsToMap_eq fs _ [] h,
    decode_custom_wire w tail um cur hw hlen,
    fun data n v h => decode_custom_inv data um cur n v h⟩
  · intro xs out h
    rw [Marshal_list] at h
    unfold encodeList at h
    obtain ⟨h1, h2⟩ := encodeListLoop_ok Marshal xs _ _ h
    exact ⟨h1, by rw [h2]; rfl⟩
  · intro v entries out hv h
    rcases hv with ⟨rfl, hn⟩ | ⟨fs, rfl, hs⟩
    · rw [Marshal_map] at h
      obtain ⟨sorted, h1, h2, h3, h4⟩ := encodeDict_shape Marshal entries out hn
        (fun x e he => he) h
      exact ⟨sorted, h1, h2, h3, h4⟩
    · rw [Marshal_struct, hs, Res.bind_ok] at h
      have hsorted : keysSorted entries := by
        rw [structToMap] at hs
        exact ((fieldsToMap_props _ fs _ [] (Nat.le_refl _) List.Pairwise.nil).2 entries hs).1
      obtain ⟨sorted, h1, h2, h3, h4⟩ := encodeDict_shape Marshal entries out
        (keysSorted_nodup entries hsorted) (fun x e he => he) h
      exact ⟨sorted, h1, h2, h3, h4⟩

theorem C20_custom_capability_is_used_witness :
    decode (bs "ld1:ai1ee1:xleei7e") exRawTy (.other true) =
        .ok (15, .bytes (bs "ld1:ai1ee1:xlee")) ∧
      Marshal exCustomA = .ok (bs "3:abc") ∧
      Marshal (.list [.int 64 1, exCustomA, .int 64 2]) = .ok (bs "li1e3:abci2ee") ∧
      Marshal (.map [(bs "k", exCustomErr)]) = .err (.user 7) ∧
      Marshal (.struct [(⟨bs "F", [], false, true⟩, exCustomA)]) = .ok (bs "d1:F3:abce") ∧
      Marshal exNamedEmbedded = .ok (bs "d1:Bi2e1:t3:abce") ∧
      Unmarshal (bs "d1:ali1ee1:bi2ee") (.struct exRawFields) (Ty.struct exRawFields).zero =
        .ok (.struct [(⟨bs "A", bs "a", false, true⟩, .bytes (bs "li1ee")),
          (⟨bs "B", bs "b", false, true⟩, .int 64 2)]) :=
  ⟨((C20_custom_capability_is_used exUnknown (bs "i7e") (fun d => .inr (.bytes d)) (.other true)
    (by decide) (by decide)).2.2.2.2.2.2.2.2.2.2.2.1 :), rfl, rfl, rfl, rfl, rfl, rfl⟩

/-- C20 (as stated) fails for a record field that is an embedded record without
a custom name: `structToMap` flattens it through `reflect` and never asks for
its method.  In `Outer{T1{A: 1}, T2{B: 2}}` both fields implement `Marshaler`
(their methods return `3:abc` and `i0e`), and `Marshal` walks them and returns
`d1:Ai1e1:Bi2ee`.  On the decoding side `UnmarshalBEncode` is not reached when
the data is empty or `readNextValue` finds no value: a target that would keep
any bytes gets an error. -/
theorem C20_embedded_marshaler_is_flattened :
    Marshal exTwoEmbedded = .ok (bs "d1:Ai1e1:Bi2ee") ∧
      Marshal exCustomA = .ok (bs "3:abc") ∧ Marshal exCustomB = .ok (bs "i0e") ∧
      decode [] exRawTy (.other true) = .err .emptyData ∧
      decode (bs "x") exRawTy (.other true) = .err .invalidString :=
  ⟨rfl, rfl, rfl, rfl, rfl⟩

end Bencoding
